import Mathlib

/-!
# Parallel sum reduction (`utilities/cuda_utilities.h`)

A shallow embedding of the reduction kernels `reduce0` .. `reduce7`, `cg_reduce`,
`multi_warp_cg_reduce`, of the host wrapper `reduce`, and of the two-pass driver in
`RealMeanStddevCalculator`.

Conventions of the embedding.

* Device memory (global or shared) is a function from element index to value.  The
  kernels are templates over the element type; their embeddings take the element type
  `T` with its `+` and `0` as a parameter.  `Mem`, `Junk` and `Block` are the instances
  at the integers (exact arithmetic); the driver runs the kernels on `float` arrays,
  the instance at `F32`.
* A kernel is described block by block.  Between two barriers every thread of the
  block runs the same statements; in all the kernels below no slot of shared memory is
  stored to by one thread and read or stored to by another before the next barrier, so
  a barrier-delimited phase is a simultaneous update of the per-thread registers and of
  shared memory.  A launch is taken to be accepted by the runtime.
* Global indices are computed in `unsigned int`, i.e. modulo `2^32`.  A block has at
  most 1024 threads, so the quantities that live inside a block (`tid`, `s`,
  `2 * s * tid`, `tid + s`, shared-memory sizes in bytes) stay far below `2^31` and are
  computed in `Nat`.
* Contents of shared memory before the kernel stores to it, and the value a warp
  shuffle returns when its source lane does not take part in the exchange, are
  unspecified; they are parameters (`Junk`) of the kernels.
* Loops are structural recursions on a fuel.  The in-block loops get a fuel that
  suffices (`kernel_fuel`); a grid-stride loop may not end, and running out of its fuel
  stands for that (`gridStride_fuel`).
* A `float` (`F32`) is a rational of the binary32 format or a non-finite value; `+`,
  `*`, `/` and the conversion from `int` round to nearest, ties to even
  (`F32.round`).  The block count of the driver is computed as the source does:
  `float` conversions and quotient, `double` sum, truncation (`nblock`).  The
  definitions `nblockOf` and `RealMeanStddevCalculator` take the same operations as
  exact operations on rationals; `nblock_eq` relates the two block counts.
* The constructor checks the answers of the CUDA runtime to its allocations and to the
  launch of `cudautil_pow`; these answers are a parameter (`Runtime`) of
  `RealMeanStddevCalculator.mean`.
* What a thread reads from global memory (`gridStrideReads`) and which slots of shared
  memory it touches (`sdataIdx`) are recorded as lists of indices; they take the number
  of loop iterations as a parameter, and the properties proved of them hold for every
  number of iterations.
-/

namespace CudaUtil

/-- Device memory: element index to value. -/
abbrev Mem := Nat → Int

/-- Arithmetic in `unsigned int`. -/
def u32 (x : Nat) : Nat := x % 4294967296

/-- The unspecified values a block may observe: the initial contents of its shared
memory, and the value `undef offset lane` returned by a shuffle with the given offset
to `lane` when the source lane does not take part. -/
structure JunkOf (T : Type) where
  smem : Nat → T
  undef : Nat → Nat → T

/-- The unspecified values a block of integers may observe. -/
abbrev Junk := JunkOf Int

/-- Per-block state at a barrier: the register `mySum` of every thread and the shared
array `sdata`. -/
structure BlockOf (T : Type) where
  mySum : Nat → T
  sdata : Nat → T

/-- The per-block state of a kernel on integers. -/
abbrev Block := BlockOf Int

/-! ## reduce0, reduce1, reduce2 : one element per thread -/

/-- The load `sdata[tid] = (i < n) ? g_idata[i] : 0` with
`i = blockIdx.x * blockDim.x + threadIdx.x`, for every thread of the block. -/
def load1 {T : Type} [Zero T] (g_idata : Nat → T) (n blockDim blockIdx : Nat)
    (smem : Nat → T) : Nat → T :=
  fun tid =>
    if tid < blockDim then
      let i := u32 (blockIdx * blockDim + tid)
      if i < n then g_idata i else 0
    else smem tid

/-- One iteration of the loop of `reduce0`:
`if ((tid % (2 * s)) == 0) sdata[tid] += sdata[tid + s];`. -/
def reduce0Step {T : Type} [Add T] (blockDim s : Nat) (sdata : Nat → T) : Nat → T :=
  fun tid =>
    if tid < blockDim ∧ tid % (2 * s) = 0 then sdata tid + sdata (tid + s) else sdata tid

/-- The loop `for (unsigned int s = 1; s < blockDim.x; s *= 2)` of `reduce0`. -/
def reduce0Loop {T : Type} [Add T] (blockDim : Nat) : Nat → Nat → (Nat → T) → (Nat → T)
  | 0, _, sdata => sdata
  | fuel + 1, s, sdata =>
    if s < blockDim then reduce0Loop blockDim fuel (s * 2) (reduce0Step blockDim s sdata)
    else sdata

/-- Kernel `reduce0`: the value block `blockIdx` stores to `g_odata[blockIdx.x]`. -/
def reduce0 {T : Type} [Add T] [Zero T] (g_idata : Nat → T) (n blockDim blockIdx : Nat)
    (junk : JunkOf T) : T :=
  reduce0Loop blockDim blockDim 1 (load1 g_idata n blockDim blockIdx junk.smem) 0

/-- One iteration of the loop of `reduce1`: every thread computes
`index = 2 * s * tid` and, `if (index < blockDim.x)`, does
`sdata[index] += sdata[index + s]`. -/
def reduce1Step {T : Type} [Add T] (blockDim s : Nat) (sdata : Nat → T) : Nat → T :=
  (List.range blockDim).foldl
    (fun acc tid =>
      let index := 2 * s * tid
      if index < blockDim then Function.update acc index (sdata index + sdata (index + s))
      else acc)
    sdata

/-- The loop `for (unsigned int s = 1; s < blockDim.x; s *= 2)` of `reduce1`. -/
def reduce1Loop {T : Type} [Add T] (blockDim : Nat) : Nat → Nat → (Nat → T) → (Nat → T)
  | 0, _, sdata => sdata
  | fuel + 1, s, sdata =>
    if s < blockDim then reduce1Loop blockDim fuel (s * 2) (reduce1Step blockDim s sdata)
    else sdata

/-- Kernel `reduce1`: the value block `blockIdx` stores to `g_odata[blockIdx.x]`. -/
def reduce1 {T : Type} [Add T] [Zero T] (g_idata : Nat → T) (n blockDim blockIdx : Nat)
    (junk : JunkOf T) : T :=
  reduce1Loop blockDim blockDim 1 (load1 g_idata n blockDim blockIdx junk.smem) 0

/-- One iteration of the loop of `reduce2`:
`if (tid < s) sdata[tid] += sdata[tid + s];`. -/
def reduce2Step {T : Type} [Add T] (blockDim s : Nat) (sdata : Nat → T) : Nat → T :=
  fun tid =>
    if tid < blockDim ∧ tid < s then sdata tid + sdata (tid + s) else sdata tid

/-- The loop `for (unsigned int s = blockDim.x / 2; s > 0; s >>= 1)` of `reduce2`. -/
def reduce2Loop {T : Type} [Add T] (blockDim : Nat) : Nat → Nat → (Nat → T) → (Nat → T)
  | 0, _, sdata => sdata
  | fuel + 1, s, sdata =>
    if 0 < s then reduce2Loop blockDim fuel (s / 2) (reduce2Step blockDim s sdata)
    else sdata

/-- Kernel `reduce2`: the value block `blockIdx` stores to `g_odata[blockIdx.x]`. -/
def reduce2 {T : Type} [Add T] [Zero T] (g_idata : Nat → T) (n blockDim blockIdx : Nat)
    (junk : JunkOf T) : T :=
  reduce2Loop blockDim blockDim (blockDim / 2)
    (load1 g_idata n blockDim blockIdx junk.smem) 0

/-! ## reduce3 : two elements per thread -/

/-- The load of `reduce3`, `reduce4` and `reduce5`: with
`i = blockIdx.x * (width * 2) + threadIdx.x`,
`mySum = (i < n) ? g_idata[i] : 0; if (i + stride < n) mySum += g_idata[i + stride];`.
`reduce3` has `width = stride = blockDim.x`. -/
def load2 {T : Type} [Add T] [Zero T] (g_idata : Nat → T)
    (n width stride blockIdx tid : Nat) : T :=
  let i := u32 (blockIdx * u32 (width * 2) + tid)
  let mySum := if i < n then g_idata i else 0
  if u32 (i + stride) < n then mySum + g_idata (u32 (i + stride)) else mySum

/-- The state of a block after `sdata[tid] = mySum; cg::sync(cta);`. -/
def storeSum {T : Type} (blockDim : Nat) (mySum : Nat → T) (junk : JunkOf T) : BlockOf T :=
  { mySum := mySum
    sdata := fun j => if j < blockDim then mySum j else junk.smem j }

/-- One halving step `if (tid < s) sdata[tid] = mySum = mySum + sdata[tid + s];`. -/
def halveStep {T : Type} [Add T] (blockDim s : Nat) (st : BlockOf T) : BlockOf T :=
  { mySum := fun tid =>
      if tid < blockDim ∧ tid < s then st.mySum tid + st.sdata (tid + s) else st.mySum tid
    sdata := fun tid =>
      if tid < blockDim ∧ tid < s then st.mySum tid + st.sdata (tid + s) else st.sdata tid }

/-- The loop `for (unsigned int s = blockDim.x / 2; s > limit; s >>= 1)` of `reduce3`
(`limit = 0`) and `reduce4` (`limit = 32`). -/
def halveLoop {T : Type} [Add T] (blockDim limit : Nat) : Nat → Nat → BlockOf T → BlockOf T
  | 0, _, st => st
  | fuel + 1, s, st =>
    if limit < s then halveLoop blockDim limit fuel (s / 2) (halveStep blockDim s st)
    else st

/-- Kernel `reduce3`: the value block `blockIdx` stores to `g_odata[blockIdx.x]`. -/
def reduce3 {T : Type} [Add T] [Zero T] (g_idata : Nat → T) (n blockDim blockIdx : Nat)
    (junk : JunkOf T) : T :=
  (halveLoop blockDim 0 blockDim (blockDim / 2)
    (storeSum blockDim (fun tid => load2 g_idata n blockDim blockDim blockIdx tid) junk)).mySum 0

/-- Every thread's register agrees with its slot of shared memory (the invariant of the
statements `sdata[tid] = mySum = ...`). -/
def Coherent (blockDim : Nat) (st : Block) : Prop :=
  ∀ tid, tid < blockDim → st.mySum tid = st.sdata tid

/-! ## Warp shuffles -/

/-- The value `shfl_down(mySum, offset)` hands to thread `tid`: the register of the
thread `offset` lanes ahead in the same warp when that lane is below the warp width,
the thread's own register otherwise.  `takesPart` tells which threads take part in
the exchange; the register of a lane that does not is not defined. -/
def shflDown {T : Type} (takesPart : Nat → Bool) (undef : Nat → Nat → T) (mySum : Nat → T)
    (offset tid : Nat) : T :=
  if tid % 32 + offset < 32 then
    if takesPart (tid + offset) then mySum (tid + offset) else undef offset (tid % 32)
  else mySum tid

/-- One iteration `mySum += shfl_down(mySum, offset)` run by the threads in
`takesPart`. -/
def shflStep {T : Type} [Add T] (takesPart : Nat → Bool) (undef : Nat → Nat → T)
    (offset : Nat) (mySum : Nat → T) : Nat → T :=
  fun tid =>
    if takesPart tid then mySum tid + shflDown takesPart undef mySum offset tid
    else mySum tid

/-- The loop `for (int offset = warpSize / 2; offset > 0; offset /= 2)` of
`warpReduceSum` and of the final warp of `reduce4`, `reduce5`, `reduce6`. -/
def shflLoop {T : Type} [Add T] (takesPart : Nat → Bool) (undef : Nat → Nat → T) :
    Nat → Nat → (Nat → T) → (Nat → T)
  | 0, _, mySum => mySum
  | fuel + 1, offset, mySum =>
    if 0 < offset then
      shflLoop takesPart undef fuel (offset / 2) (shflStep takesPart undef offset mySum)
    else mySum

/-- The generic `warpReduceSum(mask, mySum)`, run by the threads in `runs`; `mask w` is
the mask the threads of warp `w` pass.  A lane takes part in the exchange when its
thread runs the call and its bit is set in the mask. -/
def warpReduceSum {T : Type} [Add T] (runs : Nat → Bool) (mask : Nat → Nat)
    (undef : Nat → Nat → T) (mySum : Nat → T) : Nat → T :=
  shflLoop (fun tid => runs tid && (mask (tid / 32)).testBit (tid % 32)) undef 32 (32 / 2)
    mySum

/-- The value of type `int` congruent to `x` modulo `2^32`. -/
def i32 (x : Int) : Int := (x + 2147483648) % 4294967296 - 2147483648

/-- The intrinsic `__reduce_add_sync(mask, value)` on `int` operands: the sum, in `int`
arithmetic, of the values of the lanes named in `mask`, returned to each of them;
`value lane` is the operand of lane `lane` of the warp. -/
def reduce_add_sync (mask : Nat) (value : Nat → Int) : Int :=
  i32 (((List.range 32).filter (fun lane => mask.testBit lane)).map value).sum

/-- The specialisation `warpReduceSum<int>(mask, mySum)` for `__CUDA_ARCH__ >= 800`:
`mySum = __reduce_add_sync(mask, mySum); return mySum;`, run by all the lanes named in the
mask; `mask w` is the mask the threads of warp `w` pass. -/
def warpReduceSumInt (mask : Nat → Nat) (mySum : Nat → Int) : Nat → Int :=
  fun tid => reduce_add_sync (mask (tid / 32)) (fun lane => mySum (32 * (tid / 32) + lane))

/-- The block `if (cta.thread_rank() < 32) { if (blockSize >= 64) mySum += sdata[tid + 32];
for (offset = tile32.size() / 2; ...) mySum += tile32.shfl_down(mySum, offset); }`
that ends `reduce4`, `reduce5` and `reduce6`; the result is the register of thread 0. -/
def finalWarp {T : Type} [Add T] (blockSize blockDim : Nat) (junk : JunkOf T)
    (st : BlockOf T) : T :=
  let warp0 : Nat → Bool := fun tid => decide (tid < 32 ∧ tid < blockDim)
  let mySum : Nat → T := fun tid =>
    if tid < 32 ∧ tid < blockDim ∧ 64 ≤ blockSize then st.mySum tid + st.sdata (tid + 32)
    else st.mySum tid
  shflLoop warp0 junk.undef 32 (32 / 2) mySum 0

/-! ## reduce4, reduce5 -/

/-- Kernel `reduce4<T, blockSize>` launched with `blockDim` threads per block. -/
def reduce4 {T : Type} [Add T] [Zero T] (blockSize : Nat) (g_idata : Nat → T)
    (n blockDim blockIdx : Nat) (junk : JunkOf T) : T :=
  finalWarp blockSize blockDim junk
    (halveLoop blockDim 32 blockDim (blockDim / 2)
      (storeSum blockDim (fun tid => load2 g_idata n blockDim blockSize blockIdx tid) junk))

/-- One unrolled step
`if ((blockSize >= 2 * s) && (tid < s)) sdata[tid] = mySum = mySum + sdata[tid + s];`
followed by `cg::sync(cta)`. -/
def unrollStep {T : Type} [Add T] (blockSize blockDim s : Nat) (st : BlockOf T) : BlockOf T :=
  if 2 * s ≤ blockSize then halveStep blockDim s st else st

/-- The three unrolled steps (256, 128, 64) and the final warp of `reduce5` and
`reduce6`. -/
def unrolled {T : Type} [Add T] (blockSize blockDim : Nat) (junk : JunkOf T)
    (st : BlockOf T) : T :=
  finalWarp blockSize blockDim junk
    (unrollStep blockSize blockDim 64
      (unrollStep blockSize blockDim 128 (unrollStep blockSize blockDim 256 st)))

/-- Kernel `reduce5<T, blockSize>` launched with `blockDim` threads per block. -/
def reduce5 {T : Type} [Add T] [Zero T] (blockSize : Nat) (g_idata : Nat → T)
    (n blockDim blockIdx : Nat) (junk : JunkOf T) : T :=
  unrolled blockSize blockDim junk
    (storeSum blockDim (fun tid => load2 g_idata n blockSize blockSize blockIdx tid) junk)

/-! ## Grid-stride loads (reduce6, reduce7, cg_reduce, multi_warp_cg_reduce) -/

/-- The loop
`while (i < n) { mySum += g_idata[i]; if ((i + blockSize) < n) mySum += g_idata[i + read];
i += gridSize; }` of the `nIsPow2` branch; `second i` is the value of `i + blockSize` in
the type the kernel computes it in, `read` the offset of the element read.  `none` when
the fuel runs out. -/
def stride2Loop {T : Type} [Add T] (g_idata : Nat → T) (n : Nat) (second : Nat → Nat)
    (read gridSize : Nat) : Nat → Nat → T → Option T
  | 0, _, _ => none
  | fuel + 1, i, mySum =>
    if i < n then
      stride2Loop g_idata n second read gridSize fuel (u32 (i + gridSize))
        (if second i < n then mySum + g_idata i + g_idata (u32 (i + read))
         else mySum + g_idata i)
    else some mySum

/-- The loop `while (i < n) { mySum += g_idata[i]; i += gridSize; }`.  `none` when the
fuel runs out. -/
def strideLoop {T : Type} [Add T] (g_idata : Nat → T) (n gridSize : Nat) :
    Nat → Nat → T → Option T
  | 0, _, _ => none
  | fuel + 1, i, mySum =>
    if i < n then strideLoop g_idata n gridSize fuel (u32 (i + gridSize)) (mySum + g_idata i)
    else some mySum

/-- Whether a loop `while (i < n) { ...; i += gridSize; }` is left within `fuel` tests of
`i < n`. -/
def leaves (n gridSize : Nat) : Nat → Nat → Bool
  | 0, _ => false
  | fuel + 1, i => if i < n then leaves n gridSize fuel (u32 (i + gridSize)) else true

/-- The first level of reduction of `reduce6`, `reduce7` and `multi_warp_cg_reduce`
for thread `tid`: the register `mySum` after the grid-stride loop, `none` when the
loop does not end.  The loop visits a different `i < n` at every turn or never ends,
so `n + 1` tests of `i < n` decide which. -/
def gridStride {T : Type} [Add T] [Zero T] (nIsPow2 : Bool) (g_idata : Nat → T)
    (n blockSize : Nat) (second : Nat → Nat) (read gridDim blockIdx tid : Nat) : Option T :=
  let gridSize := u32 (blockSize * gridDim)
  if nIsPow2 then
    stride2Loop g_idata n second read (u32 (gridSize * 2)) (n + 1)
      (u32 (blockIdx * blockSize * 2 + tid)) 0
  else
    strideLoop g_idata n gridSize (n + 1) (u32 (blockIdx * blockSize + tid)) 0

/-- The indices of `g_idata` read by the loop
`while (i < n) { mySum += g_idata[i]; i += gridSize; }` within `fuel` tests of `i < n`,
in the order they are read. -/
def strideReads (n gridSize : Nat) : Nat → Nat → List Nat
  | 0, _ => []
  | fuel + 1, i =>
    if i < n then i :: strideReads n gridSize fuel (u32 (i + gridSize)) else []

/-- The indices of `g_idata` read by the loop of the `nIsPow2` branch (see `stride2Loop`)
within `fuel` tests of `i < n`, in the order they are read. -/
def stride2Reads (n : Nat) (second : Nat → Nat) (read gridSize : Nat) : Nat → Nat → List Nat
  | 0, _ => []
  | fuel + 1, i =>
    if i < n then
      (if second i < n then [i, u32 (i + read)] else [i]) ++
        stride2Reads n second read gridSize fuel (u32 (i + gridSize))
    else []

/-- The indices of `g_idata` thread `tid` of block `blockIdx` reads in the first level of
reduction of `reduce6`, `reduce7` and `multi_warp_cg_reduce` (see `gridStride`) within
`fuel` tests of `i < n`. -/
def gridStrideReads (fuel : Nat) (nIsPow2 : Bool) (n blockSize : Nat) (second : Nat → Nat)
    (read gridDim blockIdx tid : Nat) : List Nat :=
  let gridSize := u32 (blockSize * gridDim)
  if nIsPow2 then
    stride2Reads n second read (u32 (gridSize * 2)) fuel (u32 (blockIdx * blockSize * 2 + tid))
  else
    strideReads n gridSize fuel (u32 (blockIdx * blockSize + tid))

/-- The sum of the elements of index `x`, `x + S`, `x + 2 * S`, ... below `n`: what a
grid-stride loop started at `x` accumulates when its index does not wrap. -/
def strideSum (g_idata : Mem) (n S x : Nat) : Int :=
  ∑ j in Finset.range n, if x ≤ j ∧ j % S = x % S then g_idata j else 0

/-- The elements thread `tid` of block `blockIdx` accumulates in `gridStride` when no
index wraps. -/
def gridStrideSum (nIsPow2 : Bool) (g_idata : Mem) (n blockSize gridDim blockIdx tid : Nat) :
    Int :=
  if nIsPow2 then
    strideSum g_idata n (blockSize * gridDim * 2) (blockIdx * blockSize * 2 + tid) +
      strideSum g_idata n (blockSize * gridDim * 2) (blockIdx * blockSize * 2 + tid + blockSize)
  else strideSum g_idata n (blockSize * gridDim) (blockIdx * blockSize + tid)

/-- The registers of all the threads of a block after a per-thread computation that
may not end. -/
def allThreads {T : Type} [Zero T] (blockDim : Nat) (f : Nat → Option T) : Option (Nat → T) :=
  if ∀ tid, tid < blockDim → (f tid).isSome = true then some (fun tid => (f tid).getD 0)
  else none

/-- Kernel `reduce6<T, blockSize, nIsPow2>` launched on `gridDim` blocks of `blockDim`
threads. -/
def reduce6 {T : Type} [Add T] [Zero T] (blockSize : Nat) (nIsPow2 : Bool) (g_idata : Nat → T)
    (n gridDim blockDim blockIdx : Nat) (junk : JunkOf T) : Option T :=
  (allThreads blockDim
      (gridStride nIsPow2 g_idata n blockSize (fun i => u32 (i + blockSize)) blockSize
        gridDim blockIdx)).map
    fun mySum => unrolled blockSize blockDim junk (storeSum blockDim mySum junk)

/-! ## reduce7 -/

/-- The mask of `reduce7`:
`maskLength = (blockSize & 31); maskLength = (maskLength > 0) ? (32 - maskLength) : maskLength;
mask = (0xffffffff) >> maskLength`. -/
def reduce7Mask (blockSize : Nat) : Nat :=
  let maskLength := blockSize % 32
  let maskLength := if 0 < maskLength then 32 - maskLength else maskLength
  4294967295 >>> maskLength

/-- The result `__ballot_sync(mask, pred)` in the warp `warp`: the bits of the lanes in
`mask` whose thread exists and has a true predicate. -/
def ballot (mask blockDim : Nat) (pred : Nat → Bool) (warp : Nat) : Nat :=
  (List.range 32).foldl
    (fun acc lane =>
      if mask.testBit lane && decide (32 * warp + lane < blockDim) && pred (32 * warp + lane)
      then acc ||| (1 <<< lane) else acc)
    0

/-- Kernel `reduce7<T, blockSize, nIsPow2>` launched on `gridDim` blocks of `blockDim`
threads. -/
def reduce7 {T : Type} [Add T] [Zero T] (blockSize : Nat) (nIsPow2 : Bool) (g_idata : Nat → T)
    (n gridDim blockDim blockIdx : Nat) (junk : JunkOf T) : Option T :=
  let mask := reduce7Mask blockSize
  (allThreads blockDim
      (gridStride nIsPow2 g_idata n blockSize (fun i => u32 (i + blockSize)) blockSize
        gridDim blockIdx)).map
    fun mySum =>
      let exists_ : Nat → Bool := fun tid => decide (tid < blockDim)
      let mySum := warpReduceSum exists_ (fun _ => mask) junk.undef mySum
      let sdata : Nat → T := fun j => if 32 * j < blockDim then mySum (32 * j) else junk.smem j
      let shmem_extent := if 0 < blockSize / 32 then blockSize / 32 else 1
      let first : Nat → Bool := fun tid => decide (tid < blockDim ∧ tid < shmem_extent)
      let ballot_result := ballot mask blockDim first
      let mySum : Nat → T := fun tid => if first tid then sdata tid else mySum tid
      warpReduceSum first ballot_result junk.undef mySum 0

/-! ## Cooperative-groups kernels -/

/-- The primitive `cg::reduce(group, val, cg::plus<T>())` of the cooperative-groups
library for the group made of the `size` threads from rank `start` on: the sum of the
values of the group's threads. -/
def cg_reduce_n {T : Type} [Add T] [Zero T] (blockDim : Nat) (val : Nat → T)
    (start size : Nat) : T :=
  ((List.range size).map
    (fun r => if start + r < blockDim then val (start + r) else 0)).sum

/-- Kernel `cg_reduce<T>` launched on `gridDim` blocks of `blockDim` threads.  The loop
`while (ctaIndex >= 32)` is the halving loop with `31 < ctaIndex`. -/
def cg_reduce {T : Type} [Add T] [Zero T] (g_idata : Nat → T)
    (n gridDim blockDim blockIdx : Nat) (junk : JunkOf T) : Option T :=
  (allThreads blockDim
      (fun tid => strideLoop g_idata n (u32 (gridDim * blockDim)) (n + 1)
        (u32 (blockIdx * blockDim + tid)) 0)).map
    fun threadVal =>
      let st := halveLoop blockDim 31 blockDim (blockDim / 2) (storeSum blockDim threadVal junk)
      cg_reduce_n blockDim st.mySum 0 32

/-- The host test `isPow2`: `((x & (x - 1)) == 0)` on `unsigned int`. -/
def isPow2 (x : Nat) : Bool := (x &&& u32 (x + 4294967295)) == 0

/-- Kernel `multi_warp_cg_reduce<T, BlockSize, MultiWarpGroupSize>` launched on
`gridDim` blocks of `blockDim` threads.  `BlockSize` is a `size_t`, so the test
`(i + BlockSize) < n` is made in 64 bits, while the index `i + blockDim.x` is an
`unsigned int`.  The tile of a thread is the group of `MultiWarpGroupSize` consecutive
ranks it lies in, and `meta_group_size()` the number of such tiles in the block. -/
def multi_warp_cg_reduce {T : Type} [Add T] [Zero T] (BlockSize MultiWarpGroupSize : Nat)
    (g_idata : Nat → T) (n gridDim blockDim blockIdx : Nat) (junk : JunkOf T) : Option T :=
  let nIsPow2 := isPow2 n
  (allThreads blockDim
      (gridStride nIsPow2 g_idata n BlockSize (fun i => i + BlockSize) blockDim
        gridDim blockIdx)).map
    fun threadVal =>
      let tileVal : Nat → T := fun tid =>
        cg_reduce_n blockDim threadVal (tid / MultiWarpGroupSize * MultiWarpGroupSize)
          MultiWarpGroupSize
      let sdata : Nat → T := fun j =>
        if j * MultiWarpGroupSize < blockDim then tileVal (j * MultiWarpGroupSize)
        else junk.smem j
      (List.range (blockDim / MultiWarpGroupSize)).foldl (fun acc i => acc + sdata i) 0

/-! ## The wrapper `reduce` -/

/-- The compiled kernel instances the wrapper can launch. -/
inductive Kernel where
  | reduce0
  | reduce1
  | reduce2
  | reduce3
  | reduce4 (blockSize : Nat)
  | reduce5 (blockSize : Nat)
  | reduce6 (blockSize : Nat) (nIsPow2 : Bool)
  | reduce7 (blockSize : Nat) (nIsPow2 : Bool)
  | cg_reduce
  | multi_warp_cg_reduce (BlockSize MultiWarpGroupSize : Nat)
  deriving DecidableEq

/-- A launch `kernel<<<dimGrid, dimBlock, smemSize>>>(d_idata, d_odata, size)`. -/
structure Launch where
  kernel : Kernel
  dimGrid : Nat
  dimBlock : Nat
  smemSize : Nat
  size : Nat
  deriving DecidableEq

/-- What a call of the wrapper does before it returns (it returns `void`): it reaches
one launch statement, or the `printf` of the `default` label of `case 9`, or neither. -/
inductive Dispatch where
  | launch (l : Launch)
  | message
  | nothing
  deriving DecidableEq

/-- The labels `case 512: ... case 1:` of the `switch (threads)` of kernels 4, 5, 6
and 7. -/
def threadCases : List Nat := [512, 256, 128, 64, 32, 16, 8, 4, 2, 1]

/-- The wrapper `reduce<T>(size, threads, blocks, whichKernel, d_idata, d_odata)`, with
`sizeofT = sizeof(T)`: the statement it reaches.  The arguments `size`, `threads` and
`blocks` are taken non-negative. -/
def reduce (sizeofT size threads blocks : Nat) (whichKernel : Int) : Dispatch :=
  let smemSize := if threads ≤ 32 then 2 * threads * sizeofT else threads * sizeofT
  let whichKernel := if threads < 64 ∧ whichKernel = 9 then 7 else whichKernel
  let go : Kernel → Nat → Dispatch := fun k smem =>
    Dispatch.launch ⟨k, blocks, threads, smem, size⟩
  if whichKernel = 0 then go Kernel.reduce0 smemSize
  else if whichKernel = 1 then go Kernel.reduce1 smemSize
  else if whichKernel = 2 then go Kernel.reduce2 smemSize
  else if whichKernel = 3 then go Kernel.reduce3 smemSize
  else if whichKernel = 4 then
    if threads ∈ threadCases then go (Kernel.reduce4 threads) smemSize else Dispatch.nothing
  else if whichKernel = 5 then
    if threads ∈ threadCases then go (Kernel.reduce5 threads) smemSize else Dispatch.nothing
  else if whichKernel = 6 then
    if isPow2 size then
      if threads ∈ threadCases then go (Kernel.reduce6 threads true) smemSize
      else Dispatch.nothing
    else
      if threads ∈ threadCases then go (Kernel.reduce6 threads false) smemSize
      else Dispatch.nothing
  else if whichKernel = 7 then
    let smemSize := (threads / 32 + 1) * sizeofT
    if isPow2 size then
      if threads = 1024 ∨ threads ∈ threadCases then go (Kernel.reduce7 threads true) smemSize
      else Dispatch.nothing
    else
      if threads = 1024 then go (Kernel.reduce7 1024 true) smemSize
      else if threads ∈ threadCases then go (Kernel.reduce7 threads false) smemSize
      else Dispatch.nothing
  else if whichKernel = 8 then go Kernel.cg_reduce smemSize
  else if whichKernel = 9 then
    let numOfMultiWarpGroups := 2
    let smemSize := numOfMultiWarpGroups * sizeofT
    if threads ∈ [1024, 512, 256, 128, 64] then
      go (Kernel.multi_warp_cg_reduce threads (threads / numOfMultiWarpGroups)) smemSize
    else Dispatch.message
  else Dispatch.nothing

/-- The value block `blockIdx` of a launch stores to `g_odata[blockIdx.x]`; `none`
when a thread of the block never leaves its load loop. -/
def runKernel {T : Type} [Add T] [Zero T] (k : Kernel) (g_idata : Nat → T)
    (n gridDim blockDim blockIdx : Nat) (junk : JunkOf T) : Option T :=
  match k with
  | Kernel.reduce0 => some (reduce0 g_idata n blockDim blockIdx junk)
  | Kernel.reduce1 => some (reduce1 g_idata n blockDim blockIdx junk)
  | Kernel.reduce2 => some (reduce2 g_idata n blockDim blockIdx junk)
  | Kernel.reduce3 => some (reduce3 g_idata n blockDim blockIdx junk)
  | Kernel.reduce4 blockSize => some (reduce4 blockSize g_idata n blockDim blockIdx junk)
  | Kernel.reduce5 blockSize => some (reduce5 blockSize g_idata n blockDim blockIdx junk)
  | Kernel.reduce6 blockSize nIsPow2 =>
    reduce6 blockSize nIsPow2 g_idata n gridDim blockDim blockIdx junk
  | Kernel.reduce7 blockSize nIsPow2 =>
    reduce7 blockSize nIsPow2 g_idata n gridDim blockDim blockIdx junk
  | Kernel.cg_reduce => cg_reduce g_idata n gridDim blockDim blockIdx junk
  | Kernel.multi_warp_cg_reduce BlockSize MultiWarpGroupSize =>
    multi_warp_cg_reduce BlockSize MultiWarpGroupSize g_idata n gridDim blockDim blockIdx junk

/-- The contents of `d_odata` once the launch has completed: thread 0 of every block
`b < dimGrid` has stored the block's value to `d_odata[b]`; `junk b` holds the
unspecified values block `b` may observe.  `none` when some block does not end. -/
def Launch.exec {T : Type} [Add T] [Zero T] (l : Launch) (junk : Nat → JunkOf T)
    (d_idata d_odata : Nat → T) : Option (Nat → T) :=
  if ∀ b, b < l.dimGrid →
      (runKernel l.kernel d_idata l.size l.dimGrid l.dimBlock b (junk b)).isSome = true then
    some (fun j =>
      if j < l.dimGrid ∧ 0 < l.dimBlock then
        (runKernel l.kernel d_idata l.size l.dimGrid l.dimBlock j (junk j)).getD 0
      else d_odata j)
  else none

/-- The contents of `d_odata` after the wrapper `reduce` and the completion of the
launch it made, if it made one. -/
def Dispatch.exec {T : Type} [Add T] [Zero T] (d : Dispatch) (junk : Nat → JunkOf T)
    (d_idata d_odata : Nat → T) : Option (Nat → T) :=
  match d with
  | Dispatch.launch l => l.exec junk d_idata d_odata
  | Dispatch.message => some d_odata
  | Dispatch.nothing => some d_odata

/-- The index of `g_idata` that thread `tid` reads in the load of `reduce0`, `reduce1` and
`reduce2` (see `load1`), if it reads one. -/
def load1Reads (n blockDim blockIdx tid : Nat) : List Nat :=
  let i := u32 (blockIdx * blockDim + tid)
  if i < n then [i] else []

/-- The indices of `g_idata` that thread `tid` reads in the load of `reduce3`, `reduce4`
and `reduce5` (see `load2`). -/
def load2Reads (n width stride blockIdx tid : Nat) : List Nat :=
  let i := u32 (blockIdx * u32 (width * 2) + tid)
  (if i < n then [i] else []) ++ (if u32 (i + stride) < n then [u32 (i + stride)] else [])

/-! ## Shared-memory indices -/

/-- The indices of `sdata` that thread `tid` reads or writes in the loop of `reduce0`
(see `reduce0Loop`) during `fuel` iterations from stride `s` on. -/
def reduce0Idx (blockDim tid : Nat) : Nat → Nat → List Nat
  | 0, _ => []
  | fuel + 1, s =>
    if s < blockDim then
      (if tid % (2 * s) = 0 then [tid, tid + s] else []) ++ reduce0Idx blockDim tid fuel (s * 2)
    else []

/-- The indices of `sdata` that thread `tid` reads or writes in the loop of `reduce1`
(see `reduce1Loop`) during `fuel` iterations from stride `s` on. -/
def reduce1Idx (blockDim tid : Nat) : Nat → Nat → List Nat
  | 0, _ => []
  | fuel + 1, s =>
    if s < blockDim then
      (if 2 * s * tid < blockDim then [2 * s * tid, 2 * s * tid + s] else []) ++
        reduce1Idx blockDim tid fuel (s * 2)
    else []

/-- The indices of `sdata` that thread `tid` reads or writes in a halving loop
`for (s = blockDim.x / 2; s > limit; s >>= 1) if (tid < s) ... sdata[tid] ... sdata[tid + s]`
(`reduce2`, `reduce3`, `reduce4`, and `cg_reduce` with `limit = 31`) during `fuel`
iterations from stride `s` on. -/
def halveIdx (limit tid : Nat) : Nat → Nat → List Nat
  | 0, _ => []
  | fuel + 1, s =>
    if limit < s then (if tid < s then [tid, tid + s] else []) ++ halveIdx limit tid fuel (s / 2)
    else []

/-- The indices of `sdata` that thread `tid` reads or writes in one unrolled step
`if ((blockSize >= 2 * s) && (tid < s)) sdata[tid] = mySum = mySum + sdata[tid + s];`. -/
def unrollIdx (blockSize tid s : Nat) : List Nat :=
  if 2 * s ≤ blockSize ∧ tid < s then [tid, tid + s] else []

/-- The index of `sdata` that thread `tid` reads in
`if (cta.thread_rank() < 32) { if (blockSize >= 64) mySum += sdata[tid + 32]; ... }`. -/
def finalWarpIdx (blockSize tid : Nat) : List Nat :=
  if tid < 32 ∧ 64 ≤ blockSize then [tid + 32] else []

/-- The indices of the dynamic shared array `sdata` that thread `tid` of a block of
`blockDim` threads reads or writes in a kernel, its loops running for `fuel` iterations. -/
def sdataIdx (k : Kernel) (fuel blockDim tid : Nat) : List Nat :=
  match k with
  | Kernel.reduce0 => tid :: reduce0Idx blockDim tid fuel 1
  | Kernel.reduce1 => tid :: reduce1Idx blockDim tid fuel 1
  | Kernel.reduce2 => tid :: halveIdx 0 tid fuel (blockDim / 2)
  | Kernel.reduce3 => tid :: halveIdx 0 tid fuel (blockDim / 2)
  | Kernel.reduce4 blockSize =>
    tid :: (halveIdx 32 tid fuel (blockDim / 2) ++ finalWarpIdx blockSize tid)
  | Kernel.reduce5 blockSize =>
    tid :: (unrollIdx blockSize tid 256 ++ unrollIdx blockSize tid 128 ++
      unrollIdx blockSize tid 64 ++ finalWarpIdx blockSize tid)
  | Kernel.reduce6 blockSize _ =>
    tid :: (unrollIdx blockSize tid 256 ++ unrollIdx blockSize tid 128 ++
      unrollIdx blockSize tid 64 ++ finalWarpIdx blockSize tid)
  | Kernel.reduce7 blockSize _ =>
    let shmem_extent := if 0 < blockSize / 32 then blockSize / 32 else 1
    (if tid % 32 = 0 then [tid / 32] else []) ++ (if tid < shmem_extent then [tid] else [])
  | Kernel.cg_reduce => tid :: halveIdx 31 tid fuel (blockDim / 2)
  | Kernel.multi_warp_cg_reduce _ MultiWarpGroupSize =>
    (if tid % MultiWarpGroupSize = 0 then [tid / MultiWarpGroupSize] else []) ++
      (if tid = 0 then List.range (blockDim / MultiWarpGroupSize) else [])

/-! ## RealMeanStddevCalculator -/

/-- The conversion `(int)x` of a floating-point value: truncation toward zero. -/
def toInt (x : ℚ) : Int := Int.tdiv x.num x.den

/-- The block count `nblock = (int)(ndata/(float)nthread+0.5)`, the floating-point
quotient and sum being taken as exact: the quotient rounded half up.  It is the count
`nblock` of the source for `ndata < 2^23` (`nblock_eq`), not for every `ndata`
(`nblock_example_a`). -/
def nblockOf (ndata nthread : Nat) : Nat :=
  (toInt ((ndata : ℚ) / (nthread : ℚ) + 1 / 2)).toNat

/-! ### Arithmetic in `float` and `double` -/

/-- The integer nearest to `y`, the even one of the two when `y` lies half-way between
two integers. -/
def roundEven (y : ℚ) : Int :=
  let f := ⌊y⌋
  if y - f < 1 / 2 then f
  else if 1 / 2 < y - f then f + 1
  else if f % 2 = 0 then f else f + 1

/-- Rounding to nearest, ties to even, in a binary floating-point format whose
significands have `p` bits and whose least unit in the last place is `2 ^ emin`, the
exponent being unbounded above. -/
def roundTo (p : Nat) (emin : Int) (x : ℚ) : ℚ :=
  if x = 0 then 0
  else
    let s := max (Int.log 2 |x| - ((p : Int) - 1)) emin
    (roundEven (x / 2 ^ s) : ℚ) * 2 ^ s

/-- A value of type `float` (binary32): a finite value, kept as the rational number it
denotes, or a value that is not finite (an infinity or a NaN). -/
inductive F32 where
  | fin (q : ℚ)
  | nonfinite
  deriving DecidableEq

/-- The `float` nearest to the rational `x`; beyond the largest finite `float` the result
is an infinity. -/
def F32.round (x : ℚ) : F32 :=
  let r := roundTo 24 (-149) x
  if |r| < 2 ^ 128 then F32.fin r else F32.nonfinite

/-- The `float` zero. -/
instance F32.instZero : Zero F32 := ⟨F32.fin 0⟩

/-- Addition of `float` values: the exact sum, rounded; not finite when an operand is
not. -/
instance F32.instAdd : Add F32 :=
  ⟨fun a b =>
    match a, b with
    | F32.fin x, F32.fin y => F32.round (x + y)
    | _, _ => F32.nonfinite⟩

/-- Division of `float` values: the exact quotient, rounded; not finite when an operand
is not or the divisor is zero. -/
instance F32.instDiv : Div F32 :=
  ⟨fun a b =>
    match a, b with
    | F32.fin x, F32.fin y => if y = 0 then F32.nonfinite else F32.round (x / y)
    | _, _ => F32.nonfinite⟩

/-- Multiplication of `float` values: the exact product, rounded; not finite when an
operand is not. -/
instance F32.instMul : Mul F32 :=
  ⟨fun a b =>
    match a, b with
    | F32.fin x, F32.fin y => F32.round (x * y)
    | _, _ => F32.nonfinite⟩

/-- The conversion `(float)n` of an `int`. -/
def F32.ofInt (n : Int) : F32 := F32.round n

/-- The block count `nblock = (int)(ndata/(float)nthread+0.5)` of the constructor: both
operands are converted to `float` and divided in `float`; the constant `0.5` is a
`double`, so the sum is made in `double` (binary64); the conversion to `int` truncates.
`none` when the `double` has no `int` to be converted to. -/
def nblock (ndata nthread : Nat) : Option Nat :=
  match F32.ofInt ndata / F32.ofInt nthread with
  | F32.fin q =>
    let d := roundTo 53 (-1074) (q + 1 / 2)
    if d < 2147483648 then some (toInt d).toNat else none
  | F32.nonfinite => none

/-- Kernel `cudautil_pow<<<gridDim, blockDim>>>(d_data, d_float, d_float2, ndata)`: the
contents of `d_float` and `d_float2` afterwards.  Element `idx` is stored to by the
thread with `blockDim.x*blockIdx.x + threadIdx.x == idx`, if there is one and
`idx < ndata`. -/
def cudautil_pow {T : Type} [Mul T] (d_data : Nat → T) (gridDim blockDim ndata : Nat)
    (d_float d_float2 : Nat → T) : (Nat → T) × (Nat → T) :=
  let stored : Nat → Bool := fun idx =>
    decide (idx < ndata ∧ ∃ b, b < gridDim ∧ ∃ t, t < blockDim ∧ u32 (blockDim * b + t) = idx)
  (fun idx => if stored idx then d_data idx else d_float idx,
   fun idx => if stored idx then d_data idx * d_data idx else d_float2 idx)

/-- The two launches that reduce one array in the constructor:
`reduce(ndata, nthread, nblock, method, d_in, d_reduction);` and then,
`if (nblock > 1)`, `reduce(nblock, nthread, 1, method, d_reduction, d_in);` with the
scalar taken from `d_in[0]`, `else` from `d_reduction[0]`.  The result is the scalar and
the contents of `d_in` and of `d_reduction` afterwards.  The arrays are arrays of `float`
(`sizeof(T) = 4`): the run of the source is the one at `T = F32`; at the integers every
addition is exact.  `junk1` and `junk2` hold the unspecified values of the two
launches.  The checks the constructor makes before the first launch are in
`RealMeanStddevCalculator.mean`. -/
def twoPass {T : Type} [Add T] [Zero T] (ndata nthread nblock : Nat) (method : Int)
    (junk1 junk2 : Nat → JunkOf T) (d_in d_reduction : Nat → T) :
    Option (T × (Nat → T) × (Nat → T)) :=
  match (reduce 4 ndata nthread nblock method).exec junk1 d_in d_reduction with
  | none => none
  | some d_reduction =>
    if 1 < nblock then
      match (reduce 4 nblock nthread 1 method).exec junk2 d_reduction d_in with
      | none => none
      | some d_in => some (d_in 0, d_in, d_reduction)
    else some (d_reduction 0, d_in, d_reduction)

/-- The answers of the CUDA runtime that the constructor checks before its first
reduction: whether `cudaMallocManaged` of a number of bytes returns `cudaSuccess`, and
whether `cudaGetLastError` reports no error after a launch `<<<gridDim, blockDim>>>`. -/
structure Runtime where
  mallocManaged : Nat → Bool
  launch : Nat → Nat → Bool

/-- A runtime that refuses an allocation of zero bytes and a launch whose grid or block is
empty. -/
def rejectsEmpty : Runtime :=
  ⟨fun bytes => decide (0 < bytes), fun gridDim blockDim => decide (0 < gridDim ∧ 0 < blockDim)⟩

/-- How far a run of the constructor gets: the conversion to `int` of the block count is
not defined; or a check (`checkCudaErrors`, `getLastCudaError`) ends the program; or a
kernel never ends; or the statements complete. -/
inductive Progress (α : Type) where
  | undefined : Progress α
  | exits : Progress α
  | hangs : Progress α
  | reaches (a : α) : Progress α

/-- The constructor `RealMeanStddevCalculator<float>(raw, ndata, nthread, method)` from
the computation of `nblock` to the assignment of `mean`, on the buffer `data` that
`copy2device` returned: the block count, the three managed allocations under
`checkCudaErrors`, the launch of `cudautil_pow` under `getLastCudaError`, the reduction
of `d_float` and the division by `(float)ndata`.  `d_float`, `d_float2` and
`d_reduction` are the contents of the allocations when they are made.  The launches of
`reduce` are not checked by the source, and `cudaDeviceSynchronize` is taken to return
`cudaSuccess`.  The result is `mean`, `nblock` and the contents of `d_float`, `d_float2`
and `d_reduction`. -/
def RealMeanStddevCalculator.mean (rt : Runtime) (data : Nat → F32) (ndata nthread : Nat)
    (method : Int) (junk1 junk2 : Nat → JunkOf F32) (d_float d_float2 d_reduction : Nat → F32) :
    Progress (F32 × Nat × (Nat → F32) × (Nat → F32) × (Nat → F32)) :=
  match nblock ndata nthread with
  | none => Progress.undefined
  | some nb =>
    if rt.mallocManaged (ndata * 4) && rt.mallocManaged (ndata * 4) &&
        rt.mallocManaged (nb * 4) && rt.launch nb nthread then
      let pw := cudautil_pow data nb nthread ndata d_float d_float2
      match twoPass ndata nthread nb method junk1 junk2 pw.1 d_reduction with
      | none => Progress.hangs
      | some (sum, d_float, d_reduction) =>
        Progress.reaches (sum / F32.ofInt ndata, nb, d_float, pw.2, d_reduction)
    else Progress.exits

/-- The two numbers from which the constructor forms its result: `mean` and `mean2`;
`stddev` is `sqrtf(mean2 - mean*mean)`. -/
structure MeanStddev where
  mean : ℚ
  mean2 : ℚ
  deriving DecidableEq

/-- The argument `mean2 - mean*mean` of `sqrtf` in the constructor. -/
def MeanStddev.radicand (r : MeanStddev) : ℚ := r.mean2 - r.mean * r.mean

/-- The constructor `RealMeanStddevCalculator(raw, ndata, nthread, method)` on the data
`raw`, the floating-point operations being taken as exact.  `d_float`, `d_float2`
and `d_reduction` are the contents of the three managed allocations when they are
made; `junk k` holds the unspecified values of the `k`-th launch of `reduce`. -/
def RealMeanStddevCalculator (raw : Mem) (ndata nthread : Nat) (method : Int)
    (junk : Nat → Nat → Junk) (d_float d_float2 d_reduction : Mem) : Option MeanStddev :=
  let nblock := nblockOf ndata nthread
  let pw := cudautil_pow raw nblock nthread ndata d_float d_float2
  match twoPass ndata nthread nblock method (junk 0) (junk 1) pw.1 d_reduction with
  | none => none
  | some (sum, _, d_reduction) =>
    match twoPass ndata nthread nblock method (junk 2) (junk 3) pw.2 d_reduction with
    | none => none
    | some (sum2, _, _) => some ⟨(sum : ℚ) / (ndata : ℚ), (sum2 : ℚ) / (ndata : ℚ)⟩

/-! ## Runs on two element types -/

/-- Two memories whose elements are related pairwise by `R`. -/
def MemRel {T U : Type} (R : T → U → Prop) (f : Nat → T) (g : Nat → U) : Prop :=
  ∀ i, R (f i) (g i)

/-- Unspecified values related pairwise by `R`. -/
def JunkRel {T U : Type} (R : T → U → Prop) (j : JunkOf T) (k : JunkOf U) : Prop :=
  MemRel R j.smem k.smem ∧ ∀ o l, R (j.undef o l) (k.undef o l)

/-- Block states related pairwise by `R`. -/
def BlockRel {T U : Type} (R : T → U → Prop) (a : BlockOf T) (b : BlockOf U) : Prop :=
  MemRel R a.mySum b.mySum ∧ MemRel R a.sdata b.sdata

/-- Two results that are both missing, or both present and related by `R`. -/
def OptRel {T U : Type} (R : T → U → Prop) : Option T → Option U → Prop
  | some a, some b => R a b
  | none, none => True
  | _, _ => False

/-! ## Inputs of the scenarios of the specification -/

/-- The array `[1,2,3,4,5,6,7,8]` in device memory (zero beyond its end). -/
def oneToEight : Mem := fun i => [1, 2, 3, 4, 5, 6, 7, 8].getD i 0

/-- The array `[2,4,4,4,5,5,7,9]` in device memory (zero beyond its end). -/
def sample8 : Mem := fun i => [2, 4, 4, 4, 5, 5, 7, 9].getD i 0

/-- The array `[2^24, 1]` in device memory (zero beyond its end). -/
def bigAndOne : Mem := fun i => [16777216, 1].getD i 0

/-- A memory filled with the value `c`. -/
def constMem (c : Int) : Mem := fun _ => c

/-- Unspecified values that all happen to be `c`. -/
def constJunk (c : Int) : Junk := ⟨fun _ => c, fun _ _ => c⟩

/-! ## Unspecified shuffle values that reach thread 0 -/

/-- The `float` `x` is `p.1 * 2^e`, provided the bound `p.2` on the magnitudes of the
integers that were added up to `p.1` is at most `2^24`. -/
def Exact (e : Int) (x : F32) (p : Int × Int) : Prop :=
  |p.1| ≤ p.2 ∧ (p.2 ≤ 16777216 → x = F32.fin ((p.1 : ℚ) * 2 ^ e))

/-- The unspecified values of a run on pairs that follows a run on `float` values with
the unspecified values `j`: the integer is 0; the bound is 0 for a shuffle value that is
`0` in `j`, and `2^24 + 1` (nothing is known) for every other unspecified value. -/
def pairJunk (j : JunkOf F32) : JunkOf (Int × Int) :=
  ⟨fun _ => (0, 16777217), fun o l => if j.undef o l = 0 then (0, 0) else (0, 16777217)⟩

/-- The bounds carried by `pairJunk j`, as unspecified values of a run on integers. -/
def boundJunk (j : JunkOf F32) : Junk :=
  ⟨fun _ => 16777217, fun o l => if j.undef o l = 0 then 0 else 16777217⟩

/-- The `float` `x` against the non-negative integer `a`: equal up to `2^24`, and `2^24`
when `a = 2^24 + 1`. -/
def Rounds (x : F32) (a : Int) : Prop :=
  0 ≤ a ∧ (a ≤ 16777216 → x = F32.fin (a : ℚ)) ∧ (a = 16777217 → x = F32.fin 16777216)

/-! # Properties -/

open Finset

theorem u32_of_lt {x : Nat} (h : x < 4294967296) : u32 x = x := Nat.mod_eq_of_lt h

/-- Pairing consecutive terms of a sum. -/
theorem sum_range_pairs (f : Nat → Int) (N : Nat) :
    ∑ i in range (2 * N), f i = ∑ i in range N, (f (2 * i) + f (2 * i + 1)) := by
  induction N with
  | zero => simp
  | succ N ih =>
    rw [show 2 * (N + 1) = 2 * N + 1 + 1 by ring, sum_range_succ, sum_range_succ, ih,
      sum_range_succ]
    ring

/-- Folding the upper half of a sum onto the lower half. -/
theorem sum_range_halves (f : Nat → Int) (s : Nat) :
    ∑ i in range (2 * s), f i = ∑ i in range s, (f i + f (i + s)) := by
  rw [two_mul, sum_range_add, sum_add_distrib]
  simp [add_comm]

/-- A sum over `G` blocks of `B` consecutive terms. -/
theorem sum_range_blocks (f : Nat → Int) (G B : Nat) :
    ∑ b in range G, ∑ t in range B, f (b * B + t) = ∑ i in range (G * B), f i := by
  induction G with
  | zero => simp
  | succ G ih =>
    rw [sum_range_succ, ih, Nat.succ_mul, sum_range_add]

/-- Terms beyond `n` that are zero do not count. -/
theorem sum_range_guard (f : Nat → Int) (n M : Nat) :
    ∑ i in range M, (if i < n then f i else 0) = ∑ i in range (min n M), f i := by
  induction M with
  | zero => simp
  | succ M ih =>
    rw [sum_range_succ, ih]
    by_cases h : M < n
    · rw [if_pos h, min_eq_right (Nat.le_of_lt h), min_eq_right (Nat.succ_le_of_lt h),
        sum_range_succ]
    · rw [if_neg h, add_zero, min_eq_left (Nat.le_of_not_lt h),
        min_eq_left (Nat.le_succ_of_le (Nat.le_of_not_lt h))]

/-! ### reduce0 -/

theorem reduce0Loop_spec (k : Nat) :
    ∀ (m j fuel : Nat) (sdata : Mem), j + m = k → m ≤ fuel →
      reduce0Loop (2 ^ k) fuel (2 ^ j) sdata 0 = ∑ i in range (2 ^ m), sdata (i * 2 ^ j) := by
  intro m
  induction m with
  | zero =>
    intro j fuel sdata hj _
    have : j = k := by omega
    subst this
    cases fuel <;> simp [reduce0Loop]
  | succ m ih =>
    intro j fuel sdata hj hf
    obtain ⟨fuel, rfl⟩ : ∃ f, fuel = f + 1 := ⟨fuel - 1, by omega⟩
    have hlt : 2 ^ j < 2 ^ k := Nat.pow_lt_pow_right (by norm_num) (by omega)
    rw [reduce0Loop, if_pos hlt, ← pow_succ, ih (j + 1) fuel _ (by omega) (by omega),
      pow_succ 2 m, mul_comm (2 ^ m) 2, sum_range_pairs]
    refine sum_congr rfl fun i hi => ?_
    have hi' : i < 2 ^ m := mem_range.mp hi
    have h1 : i * 2 ^ (j + 1) < 2 ^ k := by
      have : 2 ^ k = 2 ^ m * 2 ^ (j + 1) := by rw [← pow_add]; congr 1; omega
      rw [this]
      exact Nat.mul_lt_mul_of_pos_right hi' (by positivity)
    have h2 : i * 2 ^ (j + 1) % (2 * 2 ^ j) = 0 := by
      rw [pow_succ, mul_comm (2 ^ j) 2]; exact Nat.mul_mod_left _ _
    rw [reduce0Step, if_pos ⟨h1, h2⟩]
    congr 2 <;> ring

theorem reduce0_pow2 (g_idata : Mem) (n k blockIdx : Nat) (junk : Junk) :
    reduce0 g_idata n (2 ^ k) blockIdx junk =
      ∑ t in range (2 ^ k), load1 g_idata n (2 ^ k) blockIdx junk.smem t := by
  rw [reduce0, ← pow_zero 2, reduce0Loop_spec k k 0 _ _ (by omega) (Nat.lt_two_pow k).le]
  simp


/-! ### reduce1 -/

/-- The stores of the first `m` threads in an iteration of `reduce1`. -/
theorem reduce1Step_fold (blockDim s : Nat) (hs : 0 < s) (sdata : Mem) (m : Nat) (j : Nat) :
    (List.range m).foldl
      (fun acc tid =>
        let index := 2 * s * tid
        if index < blockDim then Function.update acc index (sdata index + sdata (index + s))
        else acc)
      sdata j =
    if j < blockDim ∧ j % (2 * s) = 0 ∧ j / (2 * s) < m then sdata j + sdata (j + s)
    else sdata j := by
  induction m with
  | zero => simp
  | succ m ih =>
    rw [List.range_succ, List.foldl_append, List.foldl_cons, List.foldl_nil]
    by_cases hj : j = 2 * s * m
    · subst hj
      have hdiv : 2 * s * m / (2 * s) = m := Nat.mul_div_cancel_left m (by omega)
      have hmod : 2 * s * m % (2 * s) = 0 := Nat.mul_mod_right _ _
      by_cases hb : 2 * s * m < blockDim
      · simp [hb, hdiv, hmod]
      · simp only [hb, if_false, false_and]
        rw [ih]; simp [hb]
    · have hne : j / (2 * s) = m → ¬ (j % (2 * s) = 0) := by
        intro h1 h2
        apply hj
        have := Nat.div_add_mod j (2 * s)
        rw [h1, h2] at this; omega
      have key : (j < blockDim ∧ j % (2 * s) = 0 ∧ j / (2 * s) < m + 1) ↔
          (j < blockDim ∧ j % (2 * s) = 0 ∧ j / (2 * s) < m) := by
        constructor
        · rintro ⟨a, b, c⟩
          refine ⟨a, b, ?_⟩
          rcases Nat.lt_succ_iff_lt_or_eq.mp c with h | h
          · exact h
          · exact absurd b (hne h)
        · rintro ⟨a, b, c⟩; exact ⟨a, b, by omega⟩
      simp only [key]
      split_ifs with h1 h2 h2
      · rw [Function.update_noteq hj, ih, if_pos h2]
      · rw [Function.update_noteq hj, ih, if_neg h2]
      · rw [ih, if_pos h2]
      · rw [ih, if_neg h2]

theorem reduce1Step_eq (blockDim s : Nat) (hs : 0 < s) (sdata : Mem) :
    reduce1Step blockDim s sdata = reduce0Step blockDim s sdata := by
  funext j
  rw [reduce1Step, reduce1Step_fold blockDim s hs, reduce0Step]
  have : (j < blockDim ∧ j % (2 * s) = 0 ∧ j / (2 * s) < blockDim) ↔
      (j < blockDim ∧ j % (2 * s) = 0) := by
    constructor
    · rintro ⟨a, b, _⟩; exact ⟨a, b⟩
    · rintro ⟨a, b⟩; exact ⟨a, b, lt_of_le_of_lt (Nat.div_le_self _ _) a⟩
  simp only [this]

theorem reduce1Loop_eq (blockDim : Nat) :
    ∀ (fuel s : Nat) (sdata : Mem), 0 < s →
      reduce1Loop blockDim fuel s sdata = reduce0Loop blockDim fuel s sdata := by
  intro fuel
  induction fuel with
  | zero => intros; rfl
  | succ fuel ih =>
    intro s sdata hs
    rw [reduce1Loop, reduce0Loop, reduce1Step_eq blockDim s hs, ih _ _ (by omega)]

/-- Kernel `reduce1` stores what `reduce0` stores, for every block size. -/
theorem reduce1_eq_reduce0 (g_idata : Mem) (n blockDim blockIdx : Nat) (junk : Junk) :
    reduce1 g_idata n blockDim blockIdx junk = reduce0 g_idata n blockDim blockIdx junk := by
  rw [reduce1, reduce0, reduce1Loop_eq _ _ _ _ (by norm_num)]

/-! ### reduce2 -/

theorem reduce2Loop_spec (blockDim : Nat) :
    ∀ (m fuel : Nat) (sdata : Mem), 2 ^ m ≤ blockDim → m ≤ fuel →
      reduce2Loop blockDim fuel (2 ^ m / 2) sdata 0 = ∑ i in range (2 ^ m), sdata i := by
  intro m
  induction m with
  | zero =>
    intro fuel sdata _ _
    cases fuel <;> simp [reduce2Loop]
  | succ m ih =>
    intro fuel sdata hB hf
    obtain ⟨fuel, rfl⟩ : ∃ f, fuel = f + 1 := ⟨fuel - 1, by omega⟩
    have hs : 2 ^ (m + 1) / 2 = 2 ^ m := by rw [pow_succ]; simp
    have hpos : 0 < 2 ^ m := by positivity
    rw [reduce2Loop, hs, if_pos hpos, ih fuel _ (by rw [pow_succ] at hB; omega) (by omega),
      pow_succ, mul_comm, sum_range_halves]
    refine sum_congr rfl fun i hi => ?_
    have hi' : i < 2 ^ m := mem_range.mp hi
    rw [reduce2Step, if_pos ⟨by rw [pow_succ] at hB; omega, hi'⟩]

theorem reduce2_pow2 (g_idata : Mem) (n k blockIdx : Nat) (junk : Junk) :
    reduce2 g_idata n (2 ^ k) blockIdx junk =
      ∑ t in range (2 ^ k), load1 g_idata n (2 ^ k) blockIdx junk.smem t := by
  rw [reduce2, reduce2Loop_spec _ k _ _ le_rfl (Nat.lt_two_pow k).le]


/-! ### Halving steps on a block state -/

theorem storeSum_coherent (blockDim : Nat) (mySum : Nat → Int) (junk : Junk) :
    Coherent blockDim (storeSum blockDim mySum junk) := by
  intro tid h
  simp [storeSum, h]

theorem halveStep_coherent (blockDim s : Nat) (st : Block) (h : Coherent blockDim st) :
    Coherent blockDim (halveStep blockDim s st) := by
  intro tid ht
  by_cases hs : tid < s
  · simp [halveStep, ht, hs]
  · simp [halveStep, hs, h tid ht]

theorem halveStep_sum (blockDim s : Nat) (st : Block) (h : Coherent blockDim st)
    (hB : 2 * s ≤ blockDim) :
    ∑ i in range s, (halveStep blockDim s st).sdata i = ∑ i in range (2 * s), st.sdata i := by
  rw [sum_range_halves]
  refine sum_congr rfl fun i hi => ?_
  have hi' : i < s := mem_range.mp hi
  simp only [halveStep]
  rw [if_pos ⟨by omega, hi'⟩, h i (by omega)]

/-- The halving loop started at width `2 ^ (c + d)` stops at width `2 ^ c` when
`2 ^ c / 2 ≤ limit < 2 ^ c`, and keeps the sum of the live slots. -/
theorem halveLoop_spec (blockDim limit c : Nat) (hc1 : 2 ^ c / 2 ≤ limit) (hc2 : limit < 2 ^ c) :
    ∀ (d fuel : Nat) (st : Block), 2 ^ (c + d) ≤ blockDim → d ≤ fuel → Coherent blockDim st →
      Coherent blockDim (halveLoop blockDim limit fuel (2 ^ (c + d) / 2) st) ∧
      ∑ i in range (2 ^ c), (halveLoop blockDim limit fuel (2 ^ (c + d) / 2) st).sdata i =
        ∑ i in range (2 ^ (c + d)), st.sdata i := by
  intro d
  induction d with
  | zero =>
    intro fuel st _ _ hst
    have : ¬ limit < 2 ^ c / 2 := by omega
    cases fuel with
    | zero => exact ⟨hst, rfl⟩
    | succ fuel =>
      rw [halveLoop]
      simp only [Nat.add_zero, this, if_false]
      exact ⟨hst, trivial⟩
  | succ d ih =>
    intro fuel st hB hf hst
    obtain ⟨fuel, rfl⟩ : ∃ f, fuel = f + 1 := ⟨fuel - 1, by omega⟩
    have hs : 2 ^ (c + (d + 1)) / 2 = 2 ^ (c + d) := by
      rw [← add_assoc, pow_succ]; simp
    have hle : 2 ^ c ≤ 2 ^ (c + d) := Nat.pow_le_pow_right (by norm_num) (by omega)
    have h2 : 2 * 2 ^ (c + d) ≤ blockDim := by
      rw [← add_assoc, pow_succ] at hB; omega
    rw [halveLoop, hs, if_pos (by omega)]
    obtain ⟨ih1, ih2⟩ := ih fuel (halveStep blockDim (2 ^ (c + d)) st) (by omega) (by omega)
      (halveStep_coherent _ _ _ hst)
    refine ⟨ih1, ?_⟩
    rw [ih2, halveStep_sum _ _ _ hst h2, ← add_assoc, pow_succ, mul_comm]

/-! ### Warp shuffles -/

/-- After the shuffle steps with offsets `2 ^ j, ..., 2, 1`, the first lane of a warp
whose lanes all take part holds the sum of the first `2 ^ (j + 1)` lanes. -/
theorem shflLoop_spec (takesPart : Nat → Bool) (undef : Nat → Nat → Int) (base : Nat)
    (hbase : base % 32 = 0) (hall : ∀ l, l < 32 → takesPart (base + l) = true) :
    ∀ (j fuel : Nat) (mySum : Nat → Int), 2 ^ (j + 1) ≤ 32 → j + 1 ≤ fuel →
      shflLoop takesPart undef fuel (2 ^ j) mySum base =
        ∑ l in range (2 ^ (j + 1)), mySum (base + l) := by
  have hlane : ∀ l, l < 32 → (base + l) % 32 = l := by
    intro l hl
    rw [Nat.add_mod, hbase, zero_add, Nat.mod_mod, Nat.mod_eq_of_lt hl]
  have hstep : ∀ (o : Nat) (mySum : Nat → Int) (l : Nat), l + o < 32 →
      shflStep takesPart undef o mySum (base + l) = mySum (base + l) + mySum (base + (l + o)) := by
    intro o mySum l hl
    rw [shflStep, if_pos (hall l (by omega)), shflDown, hlane l (by omega), if_pos hl,
      add_assoc, if_pos (hall (l + o) hl)]
  intro j
  induction j with
  | zero =>
    intro fuel mySum _ hf
    obtain ⟨fuel, rfl⟩ : ∃ f, fuel = f + 1 := ⟨fuel - 1, by omega⟩
    rw [shflLoop]
    simp only [pow_zero, zero_add, pow_one, Nat.lt_one_iff, if_true, Nat.one_pos]
    have h0 := hstep 1 mySum 0 (by norm_num)
    cases fuel with
    | zero => rw [shflLoop]; simpa [sum_range_succ] using h0
    | succ fuel => rw [shflLoop]; simpa [sum_range_succ] using h0
  | succ j ih =>
    intro fuel mySum hj hf
    obtain ⟨fuel, rfl⟩ : ∃ f, fuel = f + 1 := ⟨fuel - 1, by omega⟩
    have hs : 2 ^ (j + 1) / 2 = 2 ^ j := by rw [pow_succ]; simp
    have hpos : 0 < 2 ^ (j + 1) := by positivity
    rw [shflLoop, if_pos hpos, hs, ih fuel _ (by rw [pow_succ] at hj; omega) (by omega),
      pow_succ 2 (j + 1), mul_comm, sum_range_halves]
    refine sum_congr rfl fun l hl => ?_
    have hl' : l < 2 ^ (j + 1) := mem_range.mp hl
    rw [hstep _ _ l (by rw [pow_succ] at hj; omega)]

/-! ### reduce3, reduce4, reduce5 on one block -/

theorem storeSum_sdata_sum (blockDim : Nat) (mySum : Nat → Int) (junk : Junk) :
    ∑ i in range blockDim, (storeSum blockDim mySum junk).sdata i =
      ∑ i in range blockDim, mySum i := by
  refine sum_congr rfl fun i hi => ?_
  simp [storeSum, mem_range.mp hi]

theorem reduce3_pow2 (g_idata : Mem) (n k blockIdx : Nat) (junk : Junk) :
    reduce3 g_idata n (2 ^ k) blockIdx junk =
      ∑ t in range (2 ^ k), load2 g_idata n (2 ^ k) (2 ^ k) blockIdx t := by
  have h := halveLoop_spec (2 ^ k) 0 0 (by norm_num) (by norm_num) k (2 ^ k)
    (storeSum (2 ^ k) (fun tid => load2 g_idata n (2 ^ k) (2 ^ k) blockIdx tid) junk)
    (by simp) (Nat.lt_two_pow k).le (storeSum_coherent _ _ _)
  simp only [zero_add, pow_zero, sum_range_one] at h
  rw [reduce3, h.1 0 (by positivity), h.2, storeSum_sdata_sum]

/-- The final warp when the block has at least two warps: thread 0 ends with the sum of
the first 64 slots. -/
theorem finalWarp_two_warps (blockSize blockDim : Nat) (junk : Junk) (st : Block)
    (hst : Coherent blockDim st) (hbs : 64 ≤ blockSize) (hB : 64 ≤ blockDim) :
    finalWarp blockSize blockDim junk st = ∑ i in range 64, st.sdata i := by
  rw [finalWarp, show (32 / 2 : Nat) = 2 ^ 4 by norm_num]
  have h := shflLoop_spec (fun tid => decide (tid < 32 ∧ tid < blockDim)) junk.undef 0
    (by norm_num) (by intro l hl; simp; omega) 4 32
  simp only [zero_add] at h
  rw [h _ (by norm_num) (by norm_num), show (64 : Nat) = 2 * 32 by norm_num, sum_range_halves]
  refine sum_congr rfl fun i hi => ?_
  have hi' : i < 32 := by simpa using hi
  rw [if_pos ⟨hi', by omega, hbs⟩, hst i (by omega)]

/-- The final warp of a one-warp block: thread 0 ends with the sum of the 32 slots. -/
theorem finalWarp_one_warp (blockSize blockDim : Nat) (junk : Junk) (st : Block)
    (hst : Coherent blockDim st) (hbs : blockSize < 64) (hB : 32 ≤ blockDim) :
    finalWarp blockSize blockDim junk st = ∑ i in range 32, st.sdata i := by
  rw [finalWarp, show (32 / 2 : Nat) = 2 ^ 4 by norm_num]
  have h := shflLoop_spec (fun tid => decide (tid < 32 ∧ tid < blockDim)) junk.undef 0
    (by norm_num) (by intro l hl; simp; omega) 4 32
  simp only [zero_add] at h
  rw [h _ (by norm_num) (by norm_num)]
  refine sum_congr rfl fun i hi => ?_
  have hi' : i < 32 := by simpa using hi
  rw [if_neg (by omega), hst i (by omega)]

theorem reduce4_block (g_idata : Mem) (n k blockIdx : Nat) (junk : Junk) (hk : 5 ≤ k) :
    reduce4 (2 ^ k) g_idata n (2 ^ k) blockIdx junk =
      ∑ t in range (2 ^ k), load2 g_idata n (2 ^ k) (2 ^ k) blockIdx t := by
  rw [reduce4]
  rcases Nat.eq_or_lt_of_le hk with h5 | h6
  · subst h5
    have hl : halveLoop (2 ^ 5) 32 (2 ^ 5) (2 ^ 5 / 2)
        (storeSum (2 ^ 5) (fun tid => load2 g_idata n (2 ^ 5) (2 ^ 5) blockIdx tid) junk) =
        storeSum (2 ^ 5) (fun tid => load2 g_idata n (2 ^ 5) (2 ^ 5) blockIdx tid) junk := by
      norm_num [halveLoop]
    rw [hl, finalWarp_one_warp _ _ _ _ (storeSum_coherent _ _ _) (by norm_num) (by norm_num)]
    exact storeSum_sdata_sum 32 _ junk
  · obtain ⟨d, rfl⟩ : ∃ d, k = 6 + d := ⟨k - 6, by omega⟩
    have h64 : 64 ≤ 2 ^ (6 + d) := by
      calc 64 = 2 ^ 6 := by norm_num
        _ ≤ 2 ^ (6 + d) := Nat.pow_le_pow_right (by norm_num) (by omega)
    have h := halveLoop_spec (2 ^ (6 + d)) 32 6 (by norm_num) (by norm_num) d (2 ^ (6 + d))
      (storeSum (2 ^ (6 + d)) (fun tid => load2 g_idata n (2 ^ (6 + d)) (2 ^ (6 + d)) blockIdx tid)
        junk) le_rfl (by have := Nat.lt_two_pow (6 + d); omega) (storeSum_coherent _ _ _)
    rw [finalWarp_two_warps _ _ _ _ h.1 h64 h64]
    have h2 := h.2
    norm_num at h2
    rw [h2, storeSum_sdata_sum]

/-- The unrolled tail of `reduce5` and `reduce6` for a block of `blockSize` threads:
thread 0 ends with the sum of all the slots. -/
theorem unrolled_block (blockSize : Nat) (junk : Junk) (st : Block)
    (hst : Coherent blockSize st) (hbs : blockSize ∈ [32, 64, 128, 256, 512]) :
    unrolled blockSize blockSize junk st = ∑ i in range blockSize, st.sdata i := by
  simp only [List.mem_cons, List.mem_singleton, List.not_mem_nil, or_false] at hbs
  rcases hbs with rfl | rfl | rfl | rfl | rfl
  · simp only [unrolled, unrollStep]
    norm_num
    exact finalWarp_one_warp _ _ _ _ hst (by norm_num) (by norm_num)
  · simp only [unrolled, unrollStep]
    norm_num
    exact finalWarp_two_warps _ _ _ _ hst (by norm_num) (by norm_num)
  · simp only [unrolled, unrollStep]
    norm_num
    have c1 := halveStep_coherent 128 64 st hst
    rw [finalWarp_two_warps _ _ _ _ c1 (by norm_num) (by norm_num),
      halveStep_sum 128 64 st hst (by norm_num)]
  · simp only [unrolled, unrollStep]
    norm_num
    have c1 := halveStep_coherent 256 128 st hst
    have c2 := halveStep_coherent 256 64 _ c1
    rw [finalWarp_two_warps _ _ _ _ c2 (by norm_num) (by norm_num),
      halveStep_sum 256 64 _ c1 (by norm_num), halveStep_sum 256 128 st hst (by norm_num)]
  · simp only [unrolled, unrollStep]
    norm_num
    have c1 := halveStep_coherent 512 256 st hst
    have c2 := halveStep_coherent 512 128 _ c1
    have c3 := halveStep_coherent 512 64 _ c2
    rw [finalWarp_two_warps _ _ _ _ c3 (by norm_num) (by norm_num),
      halveStep_sum 512 64 _ c2 (by norm_num), halveStep_sum 512 128 _ c1 (by norm_num),
      halveStep_sum 512 256 st hst (by norm_num)]

theorem reduce5_block (g_idata : Mem) (n blockSize blockIdx : Nat) (junk : Junk)
    (hbs : blockSize ∈ [32, 64, 128, 256, 512]) :
    reduce5 blockSize g_idata n blockSize blockIdx junk =
      ∑ t in range blockSize, load2 g_idata n blockSize blockSize blockIdx t := by
  rw [reduce5, unrolled_block _ _ _ (storeSum_coherent _ _ _) hbs, storeSum_sdata_sum]

/-! ### Grid-stride loops -/

theorem strideSum_of_le (g_idata : Mem) (n S x : Nat) (h : n ≤ x) :
    strideSum g_idata n S x = 0 := by
  rw [strideSum]
  refine sum_eq_zero fun j hj => ?_
  have : j < n := mem_range.mp hj
  rw [if_neg (by omega)]

theorem strideSum_step (g_idata : Mem) (n S x : Nat) (hS : 0 < S) (h : x < n) :
    strideSum g_idata n S x = g_idata x + strideSum g_idata n S (x + S) := by
  rw [strideSum, strideSum, ← sum_ite_eq' (range n) x (fun j => g_idata j)
    |>.trans (if_pos (mem_range.mpr h)), ← sum_add_distrib]
  refine sum_congr rfl fun j _ => ?_
  rw [Nat.add_mod_right]
  by_cases hj : j = x
  · subst hj
    rw [if_pos ⟨le_rfl, rfl⟩, if_pos rfl, if_neg (by omega), add_zero]
  · rw [if_neg hj, zero_add]
    by_cases hc : x ≤ j ∧ j % S = x % S
    · rw [if_pos hc, if_pos]
      refine ⟨?_, hc.2⟩
      have hlt : x < j := lt_of_le_of_ne hc.1 (Ne.symm hj)
      have hdvd : S ∣ j - x := (Nat.modEq_iff_dvd' hc.1).mp hc.2.symm
      have := Nat.le_of_dvd (by omega) hdvd
      omega
    · rw [if_neg hc, if_neg]
      rintro ⟨h1, h2⟩
      exact hc ⟨by omega, h2⟩

theorem strideLoop_spec (g_idata : Mem) (n S : Nat) (hS : 0 < S)
    (hwrap : n + S ≤ 4294967296) :
    ∀ (fuel i : Nat) (acc : Int), 0 < fuel → n + 1 ≤ fuel + i →
      strideLoop g_idata n S fuel i acc = some (acc + strideSum g_idata n S i) := by
  intro fuel
  induction fuel with
  | zero => intro i acc h; omega
  | succ fuel ih =>
    intro i acc _ hf
    rw [strideLoop]
    by_cases hi : i < n
    · rw [if_pos hi, u32_of_lt (by omega), ih _ _ (by omega) (by omega),
        strideSum_step g_idata n S i hS hi, add_assoc]
    · rw [if_neg hi, strideSum_of_le _ _ _ _ (by omega), add_zero]

theorem stride2Loop_spec (g_idata : Mem) (n bs S : Nat) (second : Nat → Nat) (hS : 0 < S)
    (hbs : bs ≤ S) (hwrap : n + S ≤ 4294967296)
    (hsecond : ∀ i, i < n → (second i < n ↔ i + bs < n)) :
    ∀ (fuel i : Nat) (acc : Int), 0 < fuel → n + 1 ≤ fuel + i →
      stride2Loop g_idata n second bs S fuel i acc =
        some (acc + (strideSum g_idata n S i + strideSum g_idata n S (i + bs))) := by
  intro fuel
  induction fuel with
  | zero => intro i acc h; omega
  | succ fuel ih =>
    intro i acc _ hf
    rw [stride2Loop]
    by_cases hi : i < n
    · rw [if_pos hi, u32_of_lt (by omega), ih _ _ (by omega) (by omega),
        strideSum_step g_idata n S i hS hi, u32_of_lt (by omega)]
      by_cases h2 : i + bs < n
      · rw [if_pos ((hsecond i hi).mpr h2), strideSum_step g_idata n S (i + bs) hS h2,
          show i + bs + S = i + S + bs by ring]
        congr 1; ring
      · rw [if_neg (fun h => h2 ((hsecond i hi).mp h)),
          strideSum_of_le g_idata n S (i + bs) (by omega),
          strideSum_of_le g_idata n S (i + S + bs) (by omega)]
        congr 1; ring
    · rw [if_neg hi, strideSum_of_le _ _ _ _ (by omega),
        strideSum_of_le g_idata n S (i + bs) (by omega)]
      simp

/-- The residues `r < S` share out the indices below `n`. -/
theorem sum_strideSum (g_idata : Mem) (n S : Nat) (hS : 0 < S) :
    ∑ r in range S, strideSum g_idata n S r = ∑ j in range n, g_idata j := by
  simp only [strideSum]
  rw [sum_comm]
  refine sum_congr rfl fun j _ => ?_
  rw [sum_eq_single (j % S)]
  · rw [if_pos ⟨Nat.mod_le _ _, (Nat.mod_mod _ _).symm⟩]
  · intro r hr hne
    have hr' : r < S := mem_range.mp hr
    rw [if_neg]
    rintro ⟨_, h2⟩
    rw [Nat.mod_eq_of_lt hr'] at h2
    exact hne h2.symm
  · intro h
    exact absurd (mem_range.mpr (Nat.mod_lt j hS)) h

theorem gridStride_spec (nIsPow2 : Bool) (g_idata : Mem) (n blockSize gridDim blockIdx tid : Nat)
    (second : Nat → Nat) (hbs : 0 < blockSize) (hb : blockIdx < gridDim) (ht : tid < blockSize)
    (hwrap : n + 2 * gridDim * blockSize ≤ 4294967296)
    (hsecond : ∀ i, i < n → (second i < n ↔ i + blockSize < n)) :
    gridStride nIsPow2 g_idata n blockSize second blockSize gridDim blockIdx tid =
      some (gridStrideSum nIsPow2 g_idata n blockSize gridDim blockIdx tid) := by
  rcases Nat.eq_zero_or_pos n with hn | hn
  · subst hn
    cases nIsPow2 <;>
      simp [gridStride, gridStrideSum, stride2Loop, strideLoop, strideSum]
  have hG : 0 < gridDim := by omega
  have hw : n + 2 * (blockSize * gridDim) ≤ 4294967296 := by
    rw [show 2 * (blockSize * gridDim) = 2 * gridDim * blockSize by ring]; exact hwrap
  have hpos : 0 < blockSize * gridDim := Nat.mul_pos hbs hG
  have hmul : (blockIdx + 1) * blockSize ≤ gridDim * blockSize :=
    Nat.mul_le_mul_right _ hb
  have hlt : blockIdx * blockSize + blockSize ≤ blockSize * gridDim := by
    rw [Nat.succ_mul, Nat.mul_comm gridDim] at hmul; exact hmul
  have h1 : u32 (blockSize * gridDim) = blockSize * gridDim := u32_of_lt (by omega)
  have h2 : u32 (blockSize * gridDim * 2) = blockSize * gridDim * 2 := u32_of_lt (by omega)
  rw [gridStride, gridStrideSum, h1, h2]
  cases nIsPow2 with
  | true =>
    simp only [if_true]
    rw [u32_of_lt (by omega),
      stride2Loop_spec g_idata n blockSize (blockSize * gridDim * 2) second (by omega)
        (by omega) (by omega) hsecond _ _ _ (by omega) (by omega), zero_add]
  | false =>
    simp only [Bool.false_eq_true, if_false]
    rw [u32_of_lt (by omega),
      strideLoop_spec g_idata n (blockSize * gridDim) hpos (by omega) _ _ _ (by omega)
        (by omega), zero_add]

/-- Over the whole grid the threads accumulate every element below `n` once. -/
theorem sum_gridStrideSum (nIsPow2 : Bool) (g_idata : Mem) (n blockSize gridDim : Nat)
    (hbs : 0 < blockSize) (hG : 0 < gridDim) :
    ∑ b in range gridDim, ∑ t in range blockSize,
        gridStrideSum nIsPow2 g_idata n blockSize gridDim b t =
      ∑ j in range n, g_idata j := by
  cases nIsPow2 with
  | true =>
    simp only [gridStrideSum, if_true]
    have h : ∀ b, ∑ t in range blockSize,
        (strideSum g_idata n (blockSize * gridDim * 2) (b * blockSize * 2 + t) +
          strideSum g_idata n (blockSize * gridDim * 2) (b * blockSize * 2 + t + blockSize)) =
        ∑ t in range (2 * blockSize),
          strideSum g_idata n (blockSize * gridDim * 2) (b * (2 * blockSize) + t) := by
      intro b
      rw [sum_range_halves]
      refine sum_congr rfl fun t _ => ?_
      rw [show b * (2 * blockSize) + t = b * blockSize * 2 + t by ring,
        show b * (2 * blockSize) + (t + blockSize) = b * blockSize * 2 + t + blockSize by ring]
    simp only [h]
    rw [sum_range_blocks (fun r => strideSum g_idata n (blockSize * gridDim * 2) r),
      show gridDim * (2 * blockSize) = blockSize * gridDim * 2 by ring,
      sum_strideSum _ _ _ (by positivity)]
  | false =>
    simp only [gridStrideSum, Bool.false_eq_true, if_false]
    rw [sum_range_blocks (fun r => strideSum g_idata n (blockSize * gridDim) r),
      Nat.mul_comm gridDim, sum_strideSum _ _ _ (Nat.mul_pos hbs hG)]

/-! ### reduce6, reduce7, cg_reduce, multi_warp_cg_reduce on one block -/

theorem allThreads_spec (blockDim : Nat) (f : Nat → Option Int) (v : Nat → Int)
    (h : ∀ tid, tid < blockDim → f tid = some (v tid)) :
    ∃ mySum, allThreads blockDim f = some mySum ∧ ∀ tid, tid < blockDim → mySum tid = v tid := by
  refine ⟨fun tid => (f tid).getD 0, ?_, ?_⟩
  · rw [allThreads, if_pos]
    intro tid ht
    rw [h tid ht]; rfl
  · intro tid ht
    simp [h tid ht]

theorem list_sum_range (f : Nat → Int) (m : Nat) :
    ((List.range m).map f).sum = ∑ i in range m, f i := by
  induction m with
  | zero => simp
  | succ m ih => rw [List.range_succ, List.map_append, List.sum_append, ih, sum_range_succ]; simp

theorem list_foldl_range (f : Nat → Int) (m : Nat) :
    (List.range m).foldl (fun acc i => acc + f i) 0 = ∑ i in range m, f i := by
  induction m with
  | zero => simp
  | succ m ih => rw [List.range_succ, List.foldl_append, ih, sum_range_succ]; rfl

theorem reduce6_block (blockSize : Nat) (nIsPow2 : Bool) (g_idata : Mem)
    (n gridDim blockIdx : Nat) (junk : Junk) (hbs : blockSize ∈ [32, 64, 128, 256, 512])
    (hb : blockIdx < gridDim) (hwrap : n + 2 * gridDim * blockSize ≤ 4294967296) :
    reduce6 blockSize nIsPow2 g_idata n gridDim blockSize blockIdx junk =
      some (∑ t in range blockSize,
        gridStrideSum nIsPow2 g_idata n blockSize gridDim blockIdx t) := by
  have hpos : 0 < blockSize := by
    simp only [List.mem_cons, List.mem_singleton, List.not_mem_nil, or_false] at hbs
    omega
  have hG : 1 ≤ gridDim := by omega
  have hbig : 2 * blockSize ≤ 2 * gridDim * blockSize := by
    rw [Nat.mul_assoc]
    exact Nat.mul_le_mul_left 2 (Nat.le_mul_of_pos_left blockSize hG)
  obtain ⟨mySum, h1, h2⟩ := allThreads_spec blockSize
    (gridStride nIsPow2 g_idata n blockSize (fun i => u32 (i + blockSize)) blockSize gridDim
      blockIdx)
    (gridStrideSum nIsPow2 g_idata n blockSize gridDim blockIdx)
    (fun tid ht => gridStride_spec nIsPow2 g_idata n blockSize gridDim blockIdx tid _ hpos hb ht
      hwrap (fun i hi => by rw [u32_of_lt (by omega)]))
  rw [reduce6, h1, Option.map_some', unrolled_block _ _ _ (storeSum_coherent _ _ _) hbs,
    storeSum_sdata_sum]
  exact congrArg some (sum_congr rfl fun t ht => h2 t (mem_range.mp ht))

theorem testBit_full : ∀ l, l < 32 → Nat.testBit 4294967295 l = true := by decide

theorem reduce7_block (nIsPow2 : Bool) (g_idata : Mem) (n gridDim blockIdx : Nat) (junk : Junk)
    (hb : blockIdx < gridDim) (hwrap : n + 2 * gridDim * 1024 ≤ 4294967296) :
    reduce7 1024 nIsPow2 g_idata n gridDim 1024 blockIdx junk =
      some (∑ t in range 1024, gridStrideSum nIsPow2 g_idata n 1024 gridDim blockIdx t) := by
  obtain ⟨mySum, h1, h2⟩ := allThreads_spec 1024
    (gridStride nIsPow2 g_idata n 1024 (fun i => u32 (i + 1024)) 1024 gridDim blockIdx)
    (gridStrideSum nIsPow2 g_idata n 1024 gridDim blockIdx)
    (fun tid ht => gridStride_spec nIsPow2 g_idata n 1024 gridDim blockIdx tid _ (by norm_num)
      hb ht hwrap (fun i hi => by rw [u32_of_lt (by omega)]))
  have hmask : reduce7Mask 1024 = 4294967295 := by decide
  have hballot : ballot 4294967295 1024 (fun tid => decide (tid < 1024 ∧ tid < 32)) 0 =
      4294967295 := by decide
  rw [reduce7, h1, Option.map_some']
  simp only [hmask]
  have hext : (if 0 < 1024 / 32 then 1024 / 32 else 1) = 32 := by norm_num
  simp only [hext]
  -- the second reduction, by the first warp
  rw [warpReduceSum, show (32 / 2 : Nat) = 2 ^ 4 by norm_num]
  rw [shflLoop_spec _ junk.undef 0 (by norm_num) ?_ 4 32 _ (by norm_num) (by norm_num)]
  · simp only [zero_add]
    have hsum : ∑ t in range 1024, mySum t = ∑ w in range 32, ∑ l in range 32, mySum (w * 32 + l) := by
      rw [sum_range_blocks mySum 32 32]
    rw [← sum_congr rfl fun t ht => h2 t (mem_range.mp ht), hsum]
    refine congrArg some (sum_congr rfl fun w hw => ?_)
    have hw' : w < 32 := mem_range.mp hw
    rw [if_pos (by simp; omega), if_pos (by omega)]
    -- the first reduction, inside warp `w`
    rw [warpReduceSum, show (32 / 2 : Nat) = 2 ^ 4 by norm_num]
    rw [shflLoop_spec _ junk.undef (32 * w) (by simp) ?_ 4 32 _ (by norm_num) (by norm_num)]
    · refine sum_congr rfl fun l _ => ?_
      rw [Nat.mul_comm]
    · intro l hl
      have h3 : (32 * w + l) % 32 = l := by omega
      simp only [h3, testBit_full l hl, Bool.and_true, decide_eq_true_eq]
      omega
  · intro l hl
    have h3 : (0 + l) / 32 = 0 := by omega
    have h4 : (0 + l) % 32 = l := by omega
    simp only [h3, h4, hballot, testBit_full l hl, Bool.and_true, decide_eq_true_eq]
    omega

theorem cg_reduce_block (g_idata : Mem) (n gridDim k blockIdx : Nat) (junk : Junk)
    (hk : 5 ≤ k) (hb : blockIdx < gridDim) (hwrap : n + 2 * gridDim * 2 ^ k ≤ 4294967296) :
    cg_reduce g_idata n gridDim (2 ^ k) blockIdx junk =
      some (∑ t in range (2 ^ k), gridStrideSum false g_idata n (2 ^ k) gridDim blockIdx t) := by
  obtain ⟨d, rfl⟩ : ∃ d, k = 5 + d := ⟨k - 5, by omega⟩
  have hpos : 0 < 2 ^ (5 + d) := by positivity
  have h32 : 32 ≤ 2 ^ (5 + d) := by
    calc 32 = 2 ^ 5 := by norm_num
      _ ≤ 2 ^ (5 + d) := Nat.pow_le_pow_right (by norm_num) (by omega)
  have hg := fun tid (ht : tid < 2 ^ (5 + d)) =>
    gridStride_spec false g_idata n (2 ^ (5 + d)) gridDim blockIdx tid
      (fun i => i + 2 ^ (5 + d)) hpos hb ht hwrap (fun _ _ => Iff.rfl)
  simp only [gridStride, Bool.false_eq_true, if_false] at hg
  obtain ⟨threadVal, h1, h2⟩ := allThreads_spec (2 ^ (5 + d))
    (fun tid => strideLoop g_idata n (u32 (gridDim * 2 ^ (5 + d))) (n + 1)
      (u32 (blockIdx * 2 ^ (5 + d) + tid)) 0)
    (gridStrideSum false g_idata n (2 ^ (5 + d)) gridDim blockIdx)
    (fun tid ht => by rw [Nat.mul_comm gridDim]; exact hg tid ht)
  have h := halveLoop_spec (2 ^ (5 + d)) 31 5 (by norm_num) (by norm_num) d (2 ^ (5 + d))
    (storeSum (2 ^ (5 + d)) threadVal junk) le_rfl
    (by have := Nat.lt_two_pow (5 + d); omega) (storeSum_coherent _ _ _)
  rw [cg_reduce, h1, Option.map_some', cg_reduce_n, list_sum_range]
  refine congrArg some ?_
  have h3 : ∑ i in range 32, (if 0 + i < 2 ^ (5 + d) then
      (halveLoop (2 ^ (5 + d)) 31 (2 ^ (5 + d)) (2 ^ (5 + d) / 2)
        (storeSum (2 ^ (5 + d)) threadVal junk)).mySum (0 + i) else 0) =
      ∑ i in range (2 ^ 5),
        (halveLoop (2 ^ (5 + d)) 31 (2 ^ (5 + d)) (2 ^ (5 + d) / 2)
          (storeSum (2 ^ (5 + d)) threadVal junk)).sdata i := by
    refine sum_congr rfl fun i hi => ?_
    have hi' : i < 32 := mem_range.mp hi
    rw [zero_add, if_pos (by omega), h.1 i (by omega)]
  rw [h3, h.2, storeSum_sdata_sum]
  exact sum_congr rfl fun t ht => h2 t (mem_range.mp ht)

theorem multi_warp_cg_reduce_block (M : Nat) (g_idata : Mem) (n gridDim blockIdx : Nat)
    (junk : Junk) (hM : 0 < M) (hb : blockIdx < gridDim)
    (hwrap : n + 2 * gridDim * (2 * M) ≤ 4294967296) :
    multi_warp_cg_reduce (2 * M) M g_idata n gridDim (2 * M) blockIdx junk =
      some (∑ t in range (2 * M),
        gridStrideSum (isPow2 n) g_idata n (2 * M) gridDim blockIdx t) := by
  obtain ⟨threadVal, h1, h2⟩ := allThreads_spec (2 * M)
    (gridStride (isPow2 n) g_idata n (2 * M) (fun i => i + 2 * M) (2 * M) gridDim blockIdx)
    (gridStrideSum (isPow2 n) g_idata n (2 * M) gridDim blockIdx)
    (fun tid ht => gridStride_spec (isPow2 n) g_idata n (2 * M) gridDim blockIdx tid _
      (by omega) hb ht hwrap (fun _ _ => Iff.rfl))
  have hdiv : 2 * M / M = 2 := Nat.mul_div_cancel 2 hM
  rw [multi_warp_cg_reduce, h1, Option.map_some', hdiv]
  simp only [list_foldl_range]
  refine congrArg some ?_
  rw [← sum_congr rfl fun t ht => h2 t (mem_range.mp ht), ← sum_range_blocks threadVal 2 M]
  refine sum_congr rfl fun j hj => ?_
  have hj' : j < 2 := mem_range.mp hj
  have hlt : j * M < 2 * M := Nat.mul_lt_mul_of_pos_right hj' hM
  rw [if_pos hlt]
  simp only [cg_reduce_n, list_sum_range, Nat.mul_div_cancel j hM]
  refine sum_congr rfl fun r hr => ?_
  have hr' : r < M := mem_range.mp hr
  rw [if_pos]
  have : (j + 1) * M ≤ 2 * M := Nat.mul_le_mul_right M (by omega)
  rw [Nat.succ_mul] at this
  omega

/-! ### Sums over a grid -/

theorem block_load1 (g_idata : Mem) (n blockDim blockIdx : Nat) (smem : Mem)
    (hwrap : blockIdx * blockDim + blockDim ≤ 4294967296) :
    ∑ t in range blockDim, load1 g_idata n blockDim blockIdx smem t =
      ∑ t in range blockDim,
        if blockIdx * blockDim + t < n then g_idata (blockIdx * blockDim + t) else 0 := by
  refine sum_congr rfl fun t ht => ?_
  have ht' : t < blockDim := mem_range.mp ht
  simp only [load1, if_pos ht']
  rw [u32_of_lt (by omega)]

theorem sum_load1 (g_idata : Mem) (n gridDim blockDim : Nat) (smem : Nat → Mem)
    (hwrap : gridDim * blockDim ≤ 4294967296) :
    ∑ b in range gridDim, ∑ t in range blockDim, load1 g_idata n blockDim b (smem b) t =
      ∑ i in range (min n (gridDim * blockDim)), g_idata i := by
  rw [← sum_range_guard, ← sum_range_blocks]
  refine sum_congr rfl fun b hb => ?_
  have hb' : b < gridDim := mem_range.mp hb
  have : (b + 1) * blockDim ≤ gridDim * blockDim := Nat.mul_le_mul_right _ hb'
  rw [Nat.succ_mul] at this
  exact block_load1 g_idata n blockDim b (smem b) (by omega)

theorem block_load2 (g_idata : Mem) (n blockDim blockIdx : Nat)
    (hwrap : n = 0 ∨ blockIdx * (2 * blockDim) + 2 * blockDim ≤ 4294967296) :
    ∑ t in range blockDim, load2 g_idata n blockDim blockDim blockIdx t =
      ∑ t in range (2 * blockDim),
        if blockIdx * (2 * blockDim) + t < n then g_idata (blockIdx * (2 * blockDim) + t)
        else 0 := by
  rcases hwrap with hn | hwrap
  · subst hn; simp [load2]
  rw [sum_range_halves]
  refine sum_congr rfl fun t ht => ?_
  have ht' : t < blockDim := mem_range.mp ht
  rcases Nat.eq_zero_or_pos n with hn | hn
  · subst hn; simp [load2]
  have h1 : blockIdx * u32 (blockDim * 2) = blockIdx * (2 * blockDim) := by
    rcases Nat.eq_zero_or_pos blockIdx with h0 | h0
    · subst h0; simp
    · have : 2 * blockDim ≤ blockIdx * (2 * blockDim) := Nat.le_mul_of_pos_left _ h0
      rw [Nat.mul_comm blockDim 2, u32_of_lt (by omega)]
  have h2 : u32 (blockIdx * (2 * blockDim) + t) = blockIdx * (2 * blockDim) + t :=
    u32_of_lt (by omega)
  have h3 : u32 (blockIdx * (2 * blockDim) + t + blockDim) =
      blockIdx * (2 * blockDim) + (t + blockDim) := by
    rw [add_assoc]; exact u32_of_lt (by omega)
  simp only [load2, h1, h2, h3]
  split_ifs <;> simp

theorem sum_load2 (g_idata : Mem) (n gridDim blockDim : Nat)
    (hwrap : n = 0 ∨ 2 * gridDim * blockDim ≤ 4294967296) :
    ∑ b in range gridDim, ∑ t in range blockDim, load2 g_idata n blockDim blockDim b t =
      ∑ i in range (min n (2 * gridDim * blockDim)), g_idata i := by
  rw [← sum_range_guard, show 2 * gridDim * blockDim = gridDim * (2 * blockDim) by ring,
    ← sum_range_blocks]
  refine sum_congr rfl fun b hb => ?_
  have hb' : b < gridDim := mem_range.mp hb
  have : (b + 1) * (2 * blockDim) ≤ gridDim * (2 * blockDim) := Nat.mul_le_mul_right _ hb'
  rw [Nat.succ_mul] at this
  refine block_load2 g_idata n blockDim b ?_
  rcases hwrap with h | h
  · exact Or.inl h
  · right
    rw [show 2 * gridDim * blockDim = gridDim * (2 * blockDim) by ring] at h
    omega

/-! ### Launches -/

theorem Launch.exec_spec (l : Launch) (junk : Nat → Junk) (d_idata d_odata : Mem)
    (v : Nat → Int) (hB : 0 < l.dimBlock)
    (h : ∀ b, b < l.dimGrid →
      runKernel l.kernel d_idata l.size l.dimGrid l.dimBlock b (junk b) = some (v b)) :
    l.exec junk d_idata d_odata =
      some (fun j => if j < l.dimGrid then v j else d_odata j) := by
  rw [Launch.exec, if_pos (fun b hb => by rw [h b hb]; rfl)]
  refine congrArg some (funext fun j => ?_)
  by_cases hj : j < l.dimGrid
  · rw [if_pos ⟨hj, hB⟩, if_pos hj, h j hj]; rfl
  · rw [if_neg (fun hh => hj hh.1), if_neg hj]

theorem sum_exec_out (gridDim : Nat) (v : Nat → Int) (d_odata : Mem) :
    ∑ b in range gridDim, (fun j => if j < gridDim then v j else d_odata j) b =
      ∑ b in range gridDim, v b :=
  sum_congr rfl fun _ hb => if_pos (mem_range.mp hb)

/-! ### The launch statement reached by `reduce` -/

theorem reduce_launch0 (sizeofT size threads blocks : Nat) :
    ∃ smem, reduce sizeofT size threads blocks 0 =
      Dispatch.launch ⟨Kernel.reduce0, blocks, threads, smem, size⟩ := by
  exact ⟨_, by simp [reduce]; rfl⟩

theorem reduce_launch1 (sizeofT size threads blocks : Nat) :
    ∃ smem, reduce sizeofT size threads blocks 1 =
      Dispatch.launch ⟨Kernel.reduce1, blocks, threads, smem, size⟩ := by
  exact ⟨_, by simp [reduce]; rfl⟩

theorem reduce_launch2 (sizeofT size threads blocks : Nat) :
    ∃ smem, reduce sizeofT size threads blocks 2 =
      Dispatch.launch ⟨Kernel.reduce2, blocks, threads, smem, size⟩ := by
  exact ⟨_, by simp [reduce]; rfl⟩

theorem reduce_launch3 (sizeofT size threads blocks : Nat) :
    ∃ smem, reduce sizeofT size threads blocks 3 =
      Dispatch.launch ⟨Kernel.reduce3, blocks, threads, smem, size⟩ := by
  exact ⟨_, by simp [reduce]; rfl⟩

theorem reduce_launch4 (sizeofT size threads blocks : Nat) (h : threads ∈ threadCases) :
    ∃ smem, reduce sizeofT size threads blocks 4 =
      Dispatch.launch ⟨Kernel.reduce4 threads, blocks, threads, smem, size⟩ := by
  exact ⟨_, by simp [reduce, h]; rfl⟩

theorem reduce_launch5 (sizeofT size threads blocks : Nat) (h : threads ∈ threadCases) :
    ∃ smem, reduce sizeofT size threads blocks 5 =
      Dispatch.launch ⟨Kernel.reduce5 threads, blocks, threads, smem, size⟩ := by
  exact ⟨_, by simp [reduce, h]; rfl⟩

theorem reduce_launch6 (sizeofT size threads blocks : Nat) (h : threads ∈ threadCases) :
    ∃ smem, reduce sizeofT size threads blocks 6 =
      Dispatch.launch ⟨Kernel.reduce6 threads (isPow2 size), blocks, threads, smem, size⟩ := by
  cases hp : isPow2 size
  · exact ⟨_, by simp [reduce, h, hp]; rfl⟩
  · exact ⟨_, by simp [reduce, h, hp]; rfl⟩

theorem reduce_launch7 (sizeofT size blocks : Nat) :
    ∃ smem, reduce sizeofT size 1024 blocks 7 =
      Dispatch.launch ⟨Kernel.reduce7 1024 true, blocks, 1024, smem, size⟩ := by
  cases hp : isPow2 size
  · exact ⟨_, by simp [reduce, hp]; rfl⟩
  · exact ⟨_, by simp [reduce, hp]; rfl⟩

theorem reduce_launch8 (sizeofT size threads blocks : Nat) :
    ∃ smem, reduce sizeofT size threads blocks 8 =
      Dispatch.launch ⟨Kernel.cg_reduce, blocks, threads, smem, size⟩ := by
  exact ⟨_, by simp [reduce]; rfl⟩

theorem reduce_launch9 (sizeofT size threads blocks : Nat)
    (h : threads ∈ [1024, 512, 256, 128, 64]) :
    ∃ smem, reduce sizeofT size threads blocks 9 =
      Dispatch.launch
        ⟨Kernel.multi_warp_cg_reduce threads (threads / 2), blocks, threads, smem, size⟩ := by
  have h64 : ¬ threads < 64 := by
    simp only [List.mem_cons, List.mem_singleton, List.not_mem_nil, or_false] at h
    omega
  exact ⟨_, by simp [reduce, h, h64]; rfl⟩

/-! ### The outputs of a launch add up to the sum of the input -/

/-- A launch whose blocks each produce `v b` stores values that add up to `∑ v`. -/
theorem launch_total (d : Dispatch) (k : Kernel) (smem size threads blocks : Nat)
    (junk : Nat → Junk) (d_idata d_odata : Mem) (v : Nat → Int) (total : Int)
    (hd : d = Dispatch.launch ⟨k, blocks, threads, smem, size⟩) (hB : 0 < threads)
    (h : ∀ b, b < blocks → runKernel k d_idata size blocks threads b (junk b) = some (v b))
    (hsum : ∑ b in range blocks, v b = total) :
    ∃ out, d.exec junk d_idata d_odata = some out ∧ ∑ b in range blocks, out b = total ∧
      ∀ j, blocks ≤ j → out j = d_odata j := by
  subst hd
  refine ⟨_, Launch.exec_spec _ junk d_idata d_odata v hB h, ?_, ?_⟩
  · rw [← hsum]; exact sum_exec_out blocks v d_odata
  · intro j hj
    exact if_neg (by simpa using hj)

theorem total_one_per_thread (g_idata : Mem) (n k blocks : Nat) (junk : Nat → Junk)
    (hwrap : blocks * 2 ^ k ≤ 4294967296) :
    ∑ b in range blocks, reduce0 g_idata n (2 ^ k) b (junk b) =
      ∑ i in range (min n (blocks * 2 ^ k)), g_idata i := by
  rw [← sum_load1 g_idata n blocks (2 ^ k) (fun b => (junk b).smem) hwrap]
  exact sum_congr rfl fun b _ => reduce0_pow2 g_idata n k b (junk b)

theorem total_two_per_thread (g_idata : Mem) (n k blocks : Nat) (junk : Nat → Junk)
    (hwrap : n = 0 ∨ 2 * blocks * 2 ^ k ≤ 4294967296) :
    ∑ b in range blocks, reduce3 g_idata n (2 ^ k) b (junk b) =
      ∑ i in range (min n (2 * blocks * 2 ^ k)), g_idata i := by
  rw [← sum_load2 g_idata n blocks (2 ^ k) hwrap]
  exact sum_congr rfl fun b _ => reduce3_pow2 g_idata n k b (junk b)

theorem pow2_of_mem {threads : Nat} (h : threads ∈ [32, 64, 128, 256, 512]) :
    ∃ k, 5 ≤ k ∧ threads = 2 ^ k := by
  simp only [List.mem_cons, List.mem_singleton, List.not_mem_nil, or_false] at h
  rcases h with rfl | rfl | rfl | rfl | rfl
  exacts [⟨5, by norm_num⟩, ⟨6, by norm_num⟩, ⟨7, by norm_num⟩, ⟨8, by norm_num⟩,
    ⟨9, by norm_num⟩]

theorem mem_threadCases {threads : Nat} (h : threads ∈ [32, 64, 128, 256, 512]) :
    threads ∈ threadCases := by
  simp only [List.mem_cons, List.mem_singleton, List.not_mem_nil, or_false] at h
  rcases h with rfl | rfl | rfl | rfl | rfl <;> decide

/-- The thread counts and sizes for which the kernel of a strategy sums its input
without reading an unspecified value and without leaving an element out. -/
theorem exec_total (sizeofT n threads blocks : Nat) (whichKernel : Int) (junk : Nat → Junk)
    (d_idata d_odata : Mem)
    (hdom :
      ((whichKernel = 0 ∨ whichKernel = 1 ∨ whichKernel = 2) ∧ (∃ k, threads = 2 ^ k) ∧
          n ≤ blocks * threads) ∨
      (whichKernel = 3 ∧ (∃ k, threads = 2 ^ k) ∧ n ≤ 2 * blocks * threads) ∨
      ((whichKernel = 4 ∨ whichKernel = 5) ∧ threads ∈ [32, 64, 128, 256, 512] ∧
          n ≤ 2 * blocks * threads) ∨
      (whichKernel = 6 ∧ threads ∈ [32, 64, 128, 256, 512]) ∨
      (whichKernel = 7 ∧ threads = 1024) ∨
      (whichKernel = 8 ∧ ∃ k, 5 ≤ k ∧ threads = 2 ^ k) ∨
      (whichKernel = 9 ∧ threads ∈ [1024, 512, 256, 128, 64]))
    (hblocks : 1 ≤ blocks)
    (hwrap : n + 2 * blocks * threads ≤ 4294967296) :
    ∃ out, (reduce sizeofT n threads blocks whichKernel).exec junk d_idata d_odata = some out ∧
      ∑ b in range blocks, out b = ∑ i in range n, d_idata i ∧
      ∀ j, blocks ≤ j → out j = d_odata j := by
  have hw1 : blocks * threads ≤ 4294967296 := by
    have : blocks * threads ≤ 2 * blocks * threads := by
      rw [Nat.mul_assoc]; exact Nat.le_mul_of_pos_left _ (by norm_num)
    omega
  have hw2 : 2 * blocks * threads ≤ 4294967296 := by omega
  rcases hdom with ⟨hk, ⟨k, rfl⟩, hcov⟩ | ⟨rfl, ⟨k, rfl⟩, hcov⟩ | ⟨hk, hmem, hcov⟩ |
    ⟨rfl, hmem⟩ | ⟨rfl, rfl⟩ | ⟨rfl, k, hk, rfl⟩ | ⟨rfl, hmem⟩
  · -- one element per thread
    have hsum := total_one_per_thread d_idata n k blocks junk hw1
    rw [min_eq_left hcov] at hsum
    rcases hk with rfl | rfl | rfl
    · obtain ⟨smem, hd⟩ := reduce_launch0 sizeofT n (2 ^ k) blocks
      exact launch_total _ _ _ _ _ _ junk d_idata d_odata _ _ hd (by positivity)
        (fun b _ => rfl) hsum
    · obtain ⟨smem, hd⟩ := reduce_launch1 sizeofT n (2 ^ k) blocks
      exact launch_total _ _ _ _ _ _ junk d_idata d_odata _ _ hd (by positivity)
        (fun b _ => congrArg some (reduce1_eq_reduce0 d_idata n (2 ^ k) b (junk b))) hsum
    · obtain ⟨smem, hd⟩ := reduce_launch2 sizeofT n (2 ^ k) blocks
      exact launch_total _ _ _ _ _ _ junk d_idata d_odata _ _ hd (by positivity)
        (fun b _ => congrArg some
          ((reduce2_pow2 d_idata n k b (junk b)).trans
            (reduce0_pow2 d_idata n k b (junk b)).symm)) hsum
  · -- reduce3
    have hsum := total_two_per_thread d_idata n k blocks junk (Or.inr hw2)
    rw [min_eq_left hcov] at hsum
    obtain ⟨smem, hd⟩ := reduce_launch3 sizeofT n (2 ^ k) blocks
    exact launch_total _ _ _ _ _ _ junk d_idata d_odata _ _ hd (by positivity)
      (fun b _ => rfl) hsum
  · -- reduce4, reduce5
    obtain ⟨k, hk5, rfl⟩ := pow2_of_mem hmem
    have hsum := total_two_per_thread d_idata n k blocks junk (Or.inr hw2)
    rw [min_eq_left hcov] at hsum
    rcases hk with rfl | rfl
    · obtain ⟨smem, hd⟩ := reduce_launch4 sizeofT n (2 ^ k) blocks (mem_threadCases hmem)
      exact launch_total _ _ _ _ _ _ junk d_idata d_odata _ _ hd (by positivity)
        (fun b _ => congrArg some
          ((reduce4_block d_idata n k b (junk b) hk5).trans
            (reduce3_pow2 d_idata n k b (junk b)).symm)) hsum
    · obtain ⟨smem, hd⟩ := reduce_launch5 sizeofT n (2 ^ k) blocks (mem_threadCases hmem)
      exact launch_total _ _ _ _ _ _ junk d_idata d_odata _ _ hd (by positivity)
        (fun b _ => congrArg some
          ((reduce5_block d_idata n (2 ^ k) b (junk b) hmem).trans
            (reduce3_pow2 d_idata n k b (junk b)).symm)) hsum
  · -- reduce6
    have hpos : 0 < threads := by
      obtain ⟨k, _, rfl⟩ := pow2_of_mem hmem; positivity
    obtain ⟨smem, hd⟩ := reduce_launch6 sizeofT n threads blocks (mem_threadCases hmem)
    exact launch_total _ _ _ _ _ _ junk d_idata d_odata _ _ hd hpos
      (fun b hb => reduce6_block threads (isPow2 n) d_idata n blocks b (junk b) hmem hb hwrap)
      (sum_gridStrideSum (isPow2 n) d_idata n threads blocks hpos hblocks)
  · -- reduce7 with 1024 threads
    obtain ⟨smem, hd⟩ := reduce_launch7 sizeofT n blocks
    exact launch_total _ _ _ _ _ _ junk d_idata d_odata _ _ hd (by norm_num)
      (fun b hb => reduce7_block true d_idata n blocks b (junk b) hb hwrap)
      (sum_gridStrideSum true d_idata n 1024 blocks (by norm_num) hblocks)
  · -- cg_reduce
    obtain ⟨smem, hd⟩ := reduce_launch8 sizeofT n (2 ^ k) blocks
    exact launch_total _ _ _ _ _ _ junk d_idata d_odata _ _ hd (by positivity)
      (fun b hb => cg_reduce_block d_idata n blocks k b (junk b) hk hb hwrap)
      (sum_gridStrideSum false d_idata n (2 ^ k) blocks (by positivity) hblocks)
  · -- multi_warp_cg_reduce
    obtain ⟨smem, hd⟩ := reduce_launch9 sizeofT n threads blocks hmem
    have hM : 0 < threads / 2 ∧ threads = 2 * (threads / 2) := by
      simp only [List.mem_cons, List.mem_singleton, List.not_mem_nil, or_false] at hmem
      omega
    have hpos : 0 < threads := by omega
    refine launch_total _ _ _ _ _ _ junk d_idata d_odata _ _ hd hpos
      (fun b hb => ?_)
      (sum_gridStrideSum (isPow2 n) d_idata n threads blocks hpos hblocks)
    have := multi_warp_cg_reduce_block (threads / 2) d_idata n blocks b (junk b) hM.1 hb
      (by rw [← hM.2]; exact hwrap)
    rw [← hM.2] at this
    exact this

/-! ### The driver -/

/-- The block count is the quotient rounded half up. -/
theorem nblockOf_eq (ndata nthread : Nat) (h : 0 < nthread) :
    nblockOf ndata nthread = (2 * ndata + nthread) / (2 * nthread) := by
  have hT : (nthread : ℚ) ≠ 0 := by exact_mod_cast h.ne'
  have hq : (ndata : ℚ) / (nthread : ℚ) + 1 / 2 =
      ((2 * ndata + nthread : ℕ) : ℚ) / ((2 * nthread : ℕ) : ℚ) := by
    push_cast; field_simp; ring
  have hnn : (0 : ℚ) ≤ (ndata : ℚ) / (nthread : ℚ) + 1 / 2 := by positivity
  rw [nblockOf, toInt, Int.tdiv_eq_ediv (Rat.num_nonneg.mpr hnn) (by positivity),
    ← Rat.floor_def, hq, Rat.floor_natCast_div_natCast]
  exact Int.toNat_ofNat _

/-- A positive block count covers the array twice over. -/
theorem nblockOf_cover (ndata nthread : Nat) (h : 0 < nthread)
    (hnb : 1 ≤ nblockOf ndata nthread) : ndata ≤ 2 * nblockOf ndata nthread * nthread := by
  rw [nblockOf_eq _ _ h] at hnb ⊢
  have h1 := Nat.div_add_mod (2 * ndata + nthread) (2 * nthread)
  have h2 := Nat.mod_lt (2 * ndata + nthread) (show 0 < 2 * nthread by omega)
  have h3 : 2 * ((2 * ndata + nthread) / (2 * nthread)) * nthread =
      2 * nthread * ((2 * ndata + nthread) / (2 * nthread)) := by ring
  have h4 : 2 * nthread * 1 ≤ 2 * nthread * ((2 * ndata + nthread) / (2 * nthread)) :=
    Nat.mul_le_mul_left _ hnb
  omega

/-- The two launches of the driver yield the sum of the array when each launch does. -/
theorem twoPass_total (ndata nthread nblock : Nat) (method : Int) (junk1 junk2 : Nat → Junk)
    (d_in d_reduction : Mem)
    (hdom :
      ((method = 0 ∨ method = 1 ∨ method = 2) ∧ (∃ k, nthread = 2 ^ k) ∧
          ndata ≤ nblock * nthread ∧ nblock ≤ nthread) ∨
      (method = 3 ∧ (∃ k, nthread = 2 ^ k) ∧ ndata ≤ 2 * nblock * nthread ∧
          nblock ≤ 2 * nthread) ∨
      ((method = 4 ∨ method = 5) ∧ nthread ∈ [32, 64, 128, 256, 512] ∧
          ndata ≤ 2 * nblock * nthread ∧ nblock ≤ 2 * nthread) ∨
      (method = 6 ∧ nthread ∈ [32, 64, 128, 256, 512]) ∨
      (method = 7 ∧ nthread = 1024) ∨
      (method = 8 ∧ ∃ k, 5 ≤ k ∧ nthread = 2 ^ k) ∨
      (method = 9 ∧ nthread ∈ [1024, 512, 256, 128, 64]))
    (hnb : 1 ≤ nblock)
    (hwrap : ndata + 2 * nblock * nthread ≤ 4294967296) :
    ∃ d_after sums, twoPass ndata nthread nblock method junk1 junk2 d_in d_reduction =
      some (∑ i in range ndata, d_in i, d_after, sums) := by
  have hT : nblock * nthread ≤ 2 * nblock * nthread := by
    rw [Nat.mul_assoc]; exact Nat.le_mul_of_pos_left _ (by norm_num)
  have hT2 : 2 * 1 * nthread ≤ 2 * nblock * nthread :=
    Nat.mul_le_mul_right _ (Nat.mul_le_mul_left _ hnb)
  have hpos : 0 < nthread := by
    rcases hdom with ⟨_, ⟨k, rfl⟩, _⟩ | ⟨_, ⟨k, rfl⟩, _⟩ | ⟨_, hm, _⟩ | ⟨_, hm⟩ | ⟨_, rfl⟩ |
      ⟨_, k, _, rfl⟩ | ⟨_, hm⟩
    · positivity
    · positivity
    · simp only [List.mem_cons, List.mem_singleton, List.not_mem_nil, or_false] at hm; omega
    · simp only [List.mem_cons, List.mem_singleton, List.not_mem_nil, or_false] at hm; omega
    · norm_num
    · positivity
    · simp only [List.mem_cons, List.mem_singleton, List.not_mem_nil, or_false] at hm; omega
  have hnbT : nblock ≤ nblock * nthread := Nat.le_mul_of_pos_right _ hpos
  have hdom1 :
      ((method = 0 ∨ method = 1 ∨ method = 2) ∧ (∃ k, nthread = 2 ^ k) ∧
          ndata ≤ nblock * nthread) ∨
      (method = 3 ∧ (∃ k, nthread = 2 ^ k) ∧ ndata ≤ 2 * nblock * nthread) ∨
      ((method = 4 ∨ method = 5) ∧ nthread ∈ [32, 64, 128, 256, 512] ∧
          ndata ≤ 2 * nblock * nthread) ∨
      (method = 6 ∧ nthread ∈ [32, 64, 128, 256, 512]) ∨
      (method = 7 ∧ nthread = 1024) ∨
      (method = 8 ∧ ∃ k, 5 ≤ k ∧ nthread = 2 ^ k) ∨
      (method = 9 ∧ nthread ∈ [1024, 512, 256, 128, 64]) := by
    rcases hdom with ⟨a, b, c, _⟩ | ⟨a, b, c, _⟩ | ⟨a, b, c, _⟩ | h | h | h | h
    · exact Or.inl ⟨a, b, c⟩
    · exact Or.inr (Or.inl ⟨a, b, c⟩)
    · exact Or.inr (Or.inr (Or.inl ⟨a, b, c⟩))
    · exact Or.inr (Or.inr (Or.inr (Or.inl h)))
    · exact Or.inr (Or.inr (Or.inr (Or.inr (Or.inl h))))
    · exact Or.inr (Or.inr (Or.inr (Or.inr (Or.inr (Or.inl h)))))
    · exact Or.inr (Or.inr (Or.inr (Or.inr (Or.inr (Or.inr h)))))
  have hdom2 :
      ((method = 0 ∨ method = 1 ∨ method = 2) ∧ (∃ k, nthread = 2 ^ k) ∧
          nblock ≤ 1 * nthread) ∨
      (method = 3 ∧ (∃ k, nthread = 2 ^ k) ∧ nblock ≤ 2 * 1 * nthread) ∨
      ((method = 4 ∨ method = 5) ∧ nthread ∈ [32, 64, 128, 256, 512] ∧
          nblock ≤ 2 * 1 * nthread) ∨
      (method = 6 ∧ nthread ∈ [32, 64, 128, 256, 512]) ∨
      (method = 7 ∧ nthread = 1024) ∨
      (method = 8 ∧ ∃ k, 5 ≤ k ∧ nthread = 2 ^ k) ∨
      (method = 9 ∧ nthread ∈ [1024, 512, 256, 128, 64]) := by
    rcases hdom with ⟨a, b, _, c⟩ | ⟨a, b, _, c⟩ | ⟨a, b, _, c⟩ | h | h | h | h
    · exact Or.inl ⟨a, b, by omega⟩
    · exact Or.inr (Or.inl ⟨a, b, by omega⟩)
    · exact Or.inr (Or.inr (Or.inl ⟨a, b, by omega⟩))
    · exact Or.inr (Or.inr (Or.inr (Or.inl h)))
    · exact Or.inr (Or.inr (Or.inr (Or.inr (Or.inl h))))
    · exact Or.inr (Or.inr (Or.inr (Or.inr (Or.inr (Or.inl h)))))
    · exact Or.inr (Or.inr (Or.inr (Or.inr (Or.inr (Or.inr h)))))
  obtain ⟨out1, he1, hs1, _⟩ := exec_total 4 ndata nthread nblock method junk1 d_in d_reduction
    hdom1 hnb hwrap
  rw [twoPass, he1]
  by_cases h1 : 1 < nblock
  · have h2T : 2 * nthread ≤ nblock * nthread := Nat.mul_le_mul_right _ h1
    have h2nb : 2 * nblock * nthread = nblock * nthread + nblock * nthread := by ring
    obtain ⟨out2, he2, hs2, _⟩ := exec_total 4 nblock nthread 1 method junk2 out1 d_in
      hdom2 le_rfl (by omega)
    simp only [if_pos h1, he2]
    rw [sum_range_one] at hs2
    rw [hs2, hs1]
    exact ⟨out2, out1, rfl⟩
  · have h1' : nblock = 1 := by omega
    subst h1'
    simp only [if_neg h1]
    rw [sum_range_one] at hs1
    rw [hs1]
    exact ⟨d_in, out1, rfl⟩

/-! ### cudautil_pow -/

theorem cudautil_pow_stored (d_data : Mem) (gridDim blockDim ndata : Nat)
    (d_float d_float2 : Mem) (idx : Nat) (hi : idx < ndata) (hcov : idx < gridDim * blockDim)
    (hwrap : gridDim * blockDim ≤ 4294967296) :
    (cudautil_pow d_data gridDim blockDim ndata d_float d_float2).1 idx = d_data idx ∧
    (cudautil_pow d_data gridDim blockDim ndata d_float d_float2).2 idx =
      d_data idx * d_data idx := by
  have hB : 0 < blockDim := by
    rcases Nat.eq_zero_or_pos blockDim with h | h
    · subst h; simp at hcov
    · exact h
  have hst : (idx < ndata ∧ ∃ b, b < gridDim ∧ ∃ t, t < blockDim ∧
      u32 (blockDim * b + t) = idx) := by
    refine ⟨hi, idx / blockDim, ?_, idx % blockDim, Nat.mod_lt _ hB, ?_⟩
    · exact Nat.div_lt_of_lt_mul (by rw [Nat.mul_comm]; exact hcov)
    · rw [Nat.div_add_mod]; exact u32_of_lt (by omega)
  simp only [cudautil_pow, decide_eq_true hst, if_true, and_self]

/-! ### Closed forms of the launches of strategies 0 to 3 -/

/-- The launch of strategy 0, 1 or 2 with a power-of-two block size stores to `out[b]`
the sum of the values loaded by the threads of block `b`. -/
theorem exec_one_per_thread (sizeofT n threads blocks k : Nat) (whichKernel : Int)
    (hk : whichKernel = 0 ∨ whichKernel = 1 ∨ whichKernel = 2) (ht : threads = 2 ^ k)
    (junk : Nat → Junk) (d_idata d_odata : Mem) :
    (reduce sizeofT n threads blocks whichKernel).exec junk d_idata d_odata =
      some (fun j =>
        if j < blocks then ∑ t in range threads, load1 d_idata n threads j (junk j).smem t
        else d_odata j) := by
  subst ht
  rcases hk with rfl | rfl | rfl
  · obtain ⟨smem, hd⟩ := reduce_launch0 sizeofT n (2 ^ k) blocks
    rw [hd]
    exact Launch.exec_spec _ junk d_idata d_odata _ (by positivity)
      (fun b _ => congrArg some (reduce0_pow2 d_idata n k b (junk b)))
  · obtain ⟨smem, hd⟩ := reduce_launch1 sizeofT n (2 ^ k) blocks
    rw [hd]
    exact Launch.exec_spec _ junk d_idata d_odata _ (by positivity)
      (fun b _ => congrArg some
        ((reduce1_eq_reduce0 d_idata n (2 ^ k) b (junk b)).trans
          (reduce0_pow2 d_idata n k b (junk b))))
  · obtain ⟨smem, hd⟩ := reduce_launch2 sizeofT n (2 ^ k) blocks
    rw [hd]
    exact Launch.exec_spec _ junk d_idata d_odata _ (by positivity)
      (fun b _ => congrArg some (reduce2_pow2 d_idata n k b (junk b)))

/-- The launch of strategy 3 with a power-of-two block size stores to `out[b]` the sum
of the values loaded by the threads of block `b`, two elements each. -/
theorem exec_two_per_thread (sizeofT n threads blocks k : Nat) (ht : threads = 2 ^ k)
    (junk : Nat → Junk) (d_idata d_odata : Mem) :
    (reduce sizeofT n threads blocks 3).exec junk d_idata d_odata =
      some (fun j =>
        if j < blocks then ∑ t in range threads, load2 d_idata n threads threads j t
        else d_odata j) := by
  subst ht
  obtain ⟨smem, hd⟩ := reduce_launch3 sizeofT n (2 ^ k) blocks
  rw [hd]
  exact Launch.exec_spec _ junk d_idata d_odata _ (by positivity)
    (fun b _ => congrArg some (reduce3_pow2 d_idata n k b (junk b)))

/-- A thread of `reduce3` loads what the same thread loads in blocks `2 b` and `2 b + 1`
of a one-element-per-thread kernel; the indices agree also when they wrap. -/
theorem load2_eq_load1 (g_idata : Mem) (n blockDim b t : Nat) (smem1 smem2 : Mem)
    (ht : t < blockDim) :
    load2 g_idata n blockDim blockDim b t =
      load1 g_idata n blockDim (2 * b) smem1 t + load1 g_idata n blockDim (2 * b + 1) smem2 t := by
  have e1 : u32 (b * u32 (blockDim * 2) + t) = u32 (2 * b * blockDim + t) := by
    have h : Nat.ModEq 4294967296 (b * (blockDim * 2 % 4294967296) + t) (b * (blockDim * 2) + t) :=
      (Nat.ModEq.mul_left b (Nat.mod_modEq _ _)).add_right t
    unfold u32
    rw [show 2 * b * blockDim = b * (blockDim * 2) by ring]
    exact h
  have e2 : u32 (u32 (2 * b * blockDim + t) + blockDim) = u32 ((2 * b + 1) * blockDim + t) := by
    have h : Nat.ModEq 4294967296 ((2 * b * blockDim + t) % 4294967296 + blockDim)
        (2 * b * blockDim + t + blockDim) := (Nat.mod_modEq _ _).add_right blockDim
    unfold u32
    rw [show (2 * b + 1) * blockDim + t = 2 * b * blockDim + t + blockDim by ring]
    exact h
  simp only [load2, load1, if_pos ht, e1, e2]
  split_ifs <;> simp

/-! ### The fuel of the loops suffices -/

/-- The doubling loop of `reduce0` leaves by its test: more fuel changes nothing. -/
theorem reduce0Loop_fuel (blockDim : Nat) :
    ∀ (fuel extra s : Nat) (sdata : Mem), 0 < s → blockDim ≤ s * 2 ^ fuel →
      reduce0Loop blockDim (fuel + extra) s sdata = reduce0Loop blockDim fuel s sdata := by
  intro fuel
  induction fuel with
  | zero =>
    intro extra s sdata _ h
    cases extra with
    | zero => rfl
    | succ extra => simp only [Nat.zero_add, reduce0Loop]; rw [if_neg (by simpa using h)]
  | succ fuel ih =>
    intro extra s sdata hs h
    rw [show fuel + 1 + extra = fuel + extra + 1 by ring, reduce0Loop, reduce0Loop]
    by_cases hlt : s < blockDim
    · rw [if_pos hlt, if_pos hlt, ih extra (s * 2) _ (by omega) (by rw [pow_succ] at h; linarith)]
    · rw [if_neg hlt, if_neg hlt]

/-- The halving loop of `reduce2` leaves by its test: more fuel changes nothing. -/
theorem reduce2Loop_fuel (blockDim : Nat) :
    ∀ (fuel extra s : Nat) (sdata : Mem), s < 2 ^ fuel →
      reduce2Loop blockDim (fuel + extra) s sdata = reduce2Loop blockDim fuel s sdata := by
  intro fuel
  induction fuel with
  | zero =>
    intro extra s sdata h
    have hs : s = 0 := by simpa using h
    subst hs
    cases extra with
    | zero => rfl
    | succ extra => simp [reduce2Loop]
  | succ fuel ih =>
    intro extra s sdata h
    rw [show fuel + 1 + extra = fuel + extra + 1 by ring, reduce2Loop, reduce2Loop]
    by_cases hlt : 0 < s
    · rw [if_pos hlt, if_pos hlt, ih extra (s / 2) _ (by rw [pow_succ] at h; omega)]
    · rw [if_neg hlt, if_neg hlt]

/-- The halving loop of `reduce3`, `reduce4` and `cg_reduce` leaves by its test. -/
theorem halveLoop_fuel (blockDim limit : Nat) :
    ∀ (fuel extra s : Nat) (st : Block), s < 2 ^ fuel →
      halveLoop blockDim limit (fuel + extra) s st = halveLoop blockDim limit fuel s st := by
  intro fuel
  induction fuel with
  | zero =>
    intro extra s st h
    have hs : s = 0 := by simpa using h
    subst hs
    cases extra with
    | zero => rfl
    | succ extra => simp [halveLoop]
  | succ fuel ih =>
    intro extra s st h
    rw [show fuel + 1 + extra = fuel + extra + 1 by ring, halveLoop, halveLoop]
    by_cases hlt : limit < s
    · rw [if_pos hlt, if_pos hlt, ih extra (s / 2) _ (by rw [pow_succ] at h; omega)]
    · rw [if_neg hlt, if_neg hlt]

/-- The shuffle loop leaves by its test. -/
theorem shflLoop_fuel (takesPart : Nat → Bool) (undef : Nat → Nat → Int) :
    ∀ (fuel extra offset : Nat) (mySum : Nat → Int), offset < 2 ^ fuel →
      shflLoop takesPart undef (fuel + extra) offset mySum =
        shflLoop takesPart undef fuel offset mySum := by
  intro fuel
  induction fuel with
  | zero =>
    intro extra offset mySum h
    have hs : offset = 0 := by simpa using h
    subst hs
    cases extra with
    | zero => rfl
    | succ extra => simp [shflLoop]
  | succ fuel ih =>
    intro extra offset mySum h
    rw [show fuel + 1 + extra = fuel + extra + 1 by ring, shflLoop, shflLoop]
    by_cases hlt : 0 < offset
    · rw [if_pos hlt, if_pos hlt, ih extra (offset / 2) _ (by rw [pow_succ] at h; omega)]
    · rw [if_neg hlt, if_neg hlt]

/-- With the fuel the kernels pass, every in-block loop leaves by its test. -/
theorem kernel_fuel (blockDim extra : Nat) (sdata : Mem) (st : Block) (limit : Nat)
    (takesPart : Nat → Bool) (undef : Nat → Nat → Int) (mySum : Nat → Int) :
    reduce0Loop blockDim (blockDim + extra) 1 sdata = reduce0Loop blockDim blockDim 1 sdata ∧
    reduce1Loop blockDim (blockDim + extra) 1 sdata = reduce1Loop blockDim blockDim 1 sdata ∧
    reduce2Loop blockDim (blockDim + extra) (blockDim / 2) sdata =
      reduce2Loop blockDim blockDim (blockDim / 2) sdata ∧
    halveLoop blockDim limit (blockDim + extra) (blockDim / 2) st =
      halveLoop blockDim limit blockDim (blockDim / 2) st ∧
    shflLoop takesPart undef (32 + extra) (32 / 2) mySum =
      shflLoop takesPart undef 32 (32 / 2) mySum := by
  have h1 : blockDim < 2 ^ blockDim := Nat.lt_two_pow blockDim
  have h2 : blockDim / 2 < 2 ^ blockDim := lt_of_le_of_lt (Nat.div_le_self _ _) h1
  refine ⟨reduce0Loop_fuel _ _ _ _ _ (by norm_num) (by omega), ?_,
    reduce2Loop_fuel _ _ _ _ _ h2, halveLoop_fuel _ _ _ _ _ _ h2,
    shflLoop_fuel _ _ _ _ _ _ (by norm_num)⟩
  rw [reduce1Loop_eq _ _ _ _ (by norm_num), reduce1Loop_eq _ _ _ _ (by norm_num)]
  exact reduce0Loop_fuel _ _ _ _ _ (by norm_num) (by omega)

/-! ### A grid-stride loop that ends at all ends within `n + 1` tests -/

theorem strideLoop_isSome (g_idata : Mem) (n S : Nat) :
    ∀ (fuel i : Nat) (acc : Int),
      (strideLoop g_idata n S fuel i acc).isSome = leaves n S fuel i := by
  intro fuel
  induction fuel with
  | zero => intros; rfl
  | succ fuel ih =>
    intro i acc
    rw [strideLoop, leaves]
    by_cases h : i < n
    · rw [if_pos h, if_pos h, ih]
    · rw [if_neg h, if_neg h]; rfl

theorem stride2Loop_isSome (g_idata : Mem) (n : Nat) (second : Nat → Nat) (read S : Nat) :
    ∀ (fuel i : Nat) (acc : Int),
      (stride2Loop g_idata n second read S fuel i acc).isSome = leaves n S fuel i := by
  intro fuel
  induction fuel with
  | zero => intros; rfl
  | succ fuel ih =>
    intro i acc
    rw [stride2Loop, leaves]
    by_cases h : i < n
    · rw [if_pos h, if_pos h, ih]
    · rw [if_neg h, if_neg h]; rfl

/-- The loop is left within `fuel` tests when one of the first `fuel` values of `i` is
not below `n`. -/
theorem leaves_iff (n S : Nat) :
    ∀ (fuel i : Nat), leaves n S fuel i = true ↔
      ∃ m, m < fuel ∧ ¬ (fun x => u32 (x + S))^[m] i < n := by
  intro fuel
  induction fuel with
  | zero => intro i; simp [leaves]
  | succ fuel ih =>
    intro i
    rw [leaves]
    by_cases h : i < n
    · rw [if_pos h, ih]
      constructor
      · rintro ⟨m, hm, hn⟩
        exact ⟨m + 1, by omega, by rwa [Function.iterate_succ_apply]⟩
      · rintro ⟨m, hm, hn⟩
        cases m with
        | zero => exact absurd h hn
        | succ m => exact ⟨m, by omega, by rwa [Function.iterate_succ_apply] at hn⟩
    · rw [if_neg h]
      simp only [true_iff]
      exact ⟨0, by omega, h⟩

/-- Values of `i` that stay below `n` for `n + 1` tests repeat, and stay below `n` for
ever. -/
theorem below_forever (n S i : Nat)
    (h : ∀ m, m < n + 1 → (fun x => u32 (x + S))^[m] i < n) :
    ∀ m, (fun x => u32 (x + S))^[m] i < n := by
  obtain ⟨j, hj, k, hk, hne, heq⟩ :=
    Finset.exists_ne_map_eq_of_card_lt_of_maps_to (s := range (n + 1)) (t := range n)
      (by simp) (f := fun m => (fun x => u32 (x + S))^[m] i)
      (fun m hm => mem_range.mpr (h m (mem_range.mp hm)))
  have hper : ∃ a b, a < b ∧ b < n + 1 ∧
      (fun x => u32 (x + S))^[a] i = (fun x => u32 (x + S))^[b] i := by
    rcases Nat.lt_or_gt_of_ne hne with hlt | hlt
    · exact ⟨j, k, hlt, mem_range.mp hk, heq⟩
    · exact ⟨k, j, hlt, mem_range.mp hj, heq.symm⟩
  obtain ⟨a, b, hab, hb, hrep⟩ := hper
  intro m
  induction m using Nat.strong_induction_on with
  | _ m ih =>
    by_cases hm : m < n + 1
    · exact h m hm
    · have e : m = (m - b) + b := by omega
      have : (fun x => u32 (x + S))^[m] i = (fun x => u32 (x + S))^[m - b + a] i := by
        conv_lhs => rw [e]
        rw [Function.iterate_add_apply, ← hrep, ← Function.iterate_add_apply]
      rw [this]
      exact ih _ (by omega)

/-- A loop that is left at all is left within `n + 1` tests. -/
theorem leaves_decides (n S fuel i : Nat) (h : leaves n S fuel i = true) :
    leaves n S (n + 1) i = true := by
  by_contra hc
  have hall : ∀ m, m < n + 1 → (fun x => u32 (x + S))^[m] i < n := by
    intro m hm
    by_contra hlt
    exact hc ((leaves_iff n S (n + 1) i).mpr ⟨m, hm, hlt⟩)
  obtain ⟨m, _, hm⟩ := (leaves_iff n S fuel i).mp h
  exact hm (below_forever n S i hall m)

theorem strideLoop_mono (g_idata : Mem) (n S : Nat) :
    ∀ (fuel extra i : Nat) (acc v : Int), strideLoop g_idata n S fuel i acc = some v →
      strideLoop g_idata n S (fuel + extra) i acc = some v := by
  intro fuel
  induction fuel with
  | zero => intro extra i acc v h; simp [strideLoop] at h
  | succ fuel ih =>
    intro extra i acc v h
    rw [show fuel + 1 + extra = fuel + extra + 1 by ring, strideLoop]
    rw [strideLoop] at h
    by_cases hi : i < n
    · rw [if_pos hi] at h ⊢; exact ih _ _ _ _ h
    · rw [if_neg hi] at h ⊢; exact h

theorem stride2Loop_mono (g_idata : Mem) (n : Nat) (second : Nat → Nat) (read S : Nat) :
    ∀ (fuel extra i : Nat) (acc v : Int),
      stride2Loop g_idata n second read S fuel i acc = some v →
      stride2Loop g_idata n second read S (fuel + extra) i acc = some v := by
  intro fuel
  induction fuel with
  | zero => intro extra i acc v h; simp [stride2Loop] at h
  | succ fuel ih =>
    intro extra i acc v h
    rw [show fuel + 1 + extra = fuel + extra + 1 by ring, stride2Loop]
    rw [stride2Loop] at h
    by_cases hi : i < n
    · rw [if_pos hi] at h ⊢; exact ih _ _ _ _ h
    · rw [if_neg hi] at h ⊢; exact h

/-- The fuel `n + 1` of `gridStride` decides the loops: a loop that ends with some fuel
ends with the fuel `n + 1`, with the same result. -/
theorem gridStride_fuel (g_idata : Mem) (n S fuel i : Nat) (acc v : Int)
    (second : Nat → Nat) (read : Nat) :
    (strideLoop g_idata n S fuel i acc = some v →
      strideLoop g_idata n S (n + 1) i acc = some v) ∧
    (stride2Loop g_idata n second read S fuel i acc = some v →
      stride2Loop g_idata n second read S (n + 1) i acc = some v) := by
  constructor
  · intro h
    have hs : (strideLoop g_idata n S (n + 1) i acc).isSome = true := by
      rw [strideLoop_isSome]
      refine leaves_decides n S fuel i ?_
      rw [← strideLoop_isSome g_idata n S fuel i acc, h]; rfl
    obtain ⟨w, hw⟩ := Option.isSome_iff_exists.mp hs
    have h1 := strideLoop_mono g_idata n S fuel (n + 1) i acc v h
    have h2 := strideLoop_mono g_idata n S (n + 1) fuel i acc w hw
    rw [show n + 1 + fuel = fuel + (n + 1) by ring, h1] at h2
    rw [hw, ← Option.some.inj h2]
  · intro h
    have hs : (stride2Loop g_idata n second read S (n + 1) i acc).isSome = true := by
      rw [stride2Loop_isSome]
      refine leaves_decides n S fuel i ?_
      rw [← stride2Loop_isSome g_idata n second read S fuel i acc, h]; rfl
    obtain ⟨w, hw⟩ := Option.isSome_iff_exists.mp hs
    have h1 := stride2Loop_mono g_idata n second read S fuel (n + 1) i acc v h
    have h2 := stride2Loop_mono g_idata n second read S (n + 1) fuel i acc w hw
    rw [show n + 1 + fuel = fuel + (n + 1) by ring, h1] at h2
    rw [hw, ← Option.some.inj h2]

/-! ### The launch configuration and the frame of a launch -/

/-- A launch made by the wrapper has the grid, the block and the size of the call, and
its kernel is instantiated with the thread count of the call. -/
theorem reduce_launch_cases (sizeofT size threads blocks : Nat) (whichKernel : Int)
    (l : Launch) (h : reduce sizeofT size threads blocks whichKernel = Dispatch.launch l) :
    l.dimGrid = blocks ∧ l.dimBlock = threads ∧ l.size = size ∧
    (l.kernel = Kernel.reduce0 ∨ l.kernel = Kernel.reduce1 ∨ l.kernel = Kernel.reduce2 ∨
      l.kernel = Kernel.reduce3 ∨ l.kernel = Kernel.reduce4 threads ∨
      l.kernel = Kernel.reduce5 threads ∨ (∃ p, l.kernel = Kernel.reduce6 threads p) ∨
      (∃ p, l.kernel = Kernel.reduce7 threads p) ∨ l.kernel = Kernel.cg_reduce ∨
      l.kernel = Kernel.multi_warp_cg_reduce threads (threads / 2)) := by
  unfold reduce at h
  dsimp only at h
  generalize (if threads < 64 ∧ whichKernel = 9 then (7 : ℤ) else whichKernel) = w at h
  generalize (if threads ≤ 32 then 2 * threads * sizeofT else threads * sizeofT) = sm at h
  by_cases h0 : w = 0
  · rw [if_pos h0] at h; cases h; exact ⟨rfl, rfl, rfl, by simp⟩
  rw [if_neg h0] at h
  by_cases h1 : w = 1
  · rw [if_pos h1] at h; cases h; exact ⟨rfl, rfl, rfl, by simp⟩
  rw [if_neg h1] at h
  by_cases h2 : w = 2
  · rw [if_pos h2] at h; cases h; exact ⟨rfl, rfl, rfl, by simp⟩
  rw [if_neg h2] at h
  by_cases h3 : w = 3
  · rw [if_pos h3] at h; cases h; exact ⟨rfl, rfl, rfl, by simp⟩
  rw [if_neg h3] at h
  by_cases h4 : w = 4
  · rw [if_pos h4] at h
    by_cases hm : threads ∈ threadCases
    · rw [if_pos hm] at h; cases h; exact ⟨rfl, rfl, rfl, by simp⟩
    · rw [if_neg hm] at h; cases h
  rw [if_neg h4] at h
  by_cases h5 : w = 5
  · rw [if_pos h5] at h
    by_cases hm : threads ∈ threadCases
    · rw [if_pos hm] at h; cases h; exact ⟨rfl, rfl, rfl, by simp⟩
    · rw [if_neg hm] at h; cases h
  rw [if_neg h5] at h
  by_cases h6 : w = 6
  · rw [if_pos h6] at h
    by_cases hm : threads ∈ threadCases
    · simp only [if_pos hm, ite_self] at h
      by_cases hp : isPow2 size = true
      · rw [if_pos hp] at h; cases h; exact ⟨rfl, rfl, rfl, by simp⟩
      · rw [if_neg hp] at h; cases h; exact ⟨rfl, rfl, rfl, by simp⟩
    · simp only [if_neg hm, ite_self] at h; cases h
  rw [if_neg h6] at h
  by_cases h7 : w = 7
  · rw [if_pos h7] at h
    by_cases hp : isPow2 size = true
    · rw [if_pos hp] at h
      by_cases hm : threads = 1024 ∨ threads ∈ threadCases
      · rw [if_pos hm] at h; cases h; exact ⟨rfl, rfl, rfl, by simp⟩
      · rw [if_neg hm] at h; cases h
    · rw [if_neg hp] at h
      by_cases ht : threads = 1024
      · rw [if_pos ht] at h; cases h; subst ht; exact ⟨rfl, rfl, rfl, by simp⟩
      · rw [if_neg ht] at h
        by_cases hm : threads ∈ threadCases
        · rw [if_pos hm] at h; cases h; exact ⟨rfl, rfl, rfl, by simp⟩
        · rw [if_neg hm] at h; cases h
  rw [if_neg h7] at h
  by_cases h8 : w = 8
  · rw [if_pos h8] at h; cases h; exact ⟨rfl, rfl, rfl, by simp⟩
  rw [if_neg h8] at h
  by_cases h9 : w = 9
  · rw [if_pos h9] at h
    by_cases hm : threads ∈ [1024, 512, 256, 128, 64]
    · rw [if_pos hm] at h; cases h; exact ⟨rfl, rfl, rfl, by simp⟩
    · rw [if_neg hm] at h; cases h
  rw [if_neg h9] at h
  cases h

/-- The entries of `d_odata` from `blocks` on are not stored to. -/
theorem exec_frame {T : Type} [Add T] [Zero T] (sizeofT size threads blocks : Nat)
    (whichKernel : Int) (junk : Nat → JunkOf T) (d_idata d_odata out : Nat → T)
    (h : (reduce sizeofT size threads blocks whichKernel).exec junk d_idata d_odata = some out) :
    ∀ j, blocks ≤ j → out j = d_odata j := by
  intro j hj
  cases hd : reduce sizeofT size threads blocks whichKernel with
  | launch l =>
    obtain ⟨h1, -, -, -⟩ := reduce_launch_cases _ _ _ _ _ l hd
    rw [hd, Dispatch.exec, Launch.exec] at h
    split_ifs at h
    cases h
    exact if_neg (fun hh => by omega)
  | message => rw [hd] at h; cases h; rfl
  | nothing => rw [hd] at h; cases h; rfl

/-- The entry of `d_odata` of a block is the value the block computes. -/
theorem exec_block {T : Type} [Add T] [Zero T] (sizeofT size threads blocks : Nat)
    (whichKernel : Int) (junk : Nat → JunkOf T) (d_idata d_odata out : Nat → T) (l : Launch)
    (hl : reduce sizeofT size threads blocks whichKernel = Dispatch.launch l)
    (h : (reduce sizeofT size threads blocks whichKernel).exec junk d_idata d_odata = some out)
    (hthreads : 1 ≤ threads) :
    ∀ b, b < blocks →
      runKernel l.kernel d_idata size blocks threads b (junk b) = some (out b) := by
  intro b hb
  obtain ⟨h1, h2, h3, -⟩ := reduce_launch_cases _ _ _ _ _ l hl
  rw [hl, Dispatch.exec, Launch.exec] at h
  split_ifs at h with hall
  cases h
  rw [h1, h2, h3] at hall
  have hs := hall b hb
  obtain ⟨v, hv⟩ := Option.isSome_iff_exists.mp hs
  have hc : b < blocks ∧ 0 < threads := ⟨hb, by omega⟩
  rw [h1, h2, h3]
  simp only [if_pos hc, hv, Option.getD_some]

/-! ### Every launch completes when no index wraps -/

theorem gridStride_isSome (nIsPow2 : Bool) (g_idata : Mem) (n blockSize : Nat)
    (second : Nat → Nat) (read gridDim blockIdx tid : Nat) (hbs : 0 < blockSize)
    (hb : blockIdx < gridDim) (ht : tid < blockSize)
    (hwrap : n + 2 * gridDim * blockSize ≤ 4294967296) :
    (gridStride nIsPow2 g_idata n blockSize second read gridDim blockIdx tid).isSome = true := by
  have h := gridStride_spec nIsPow2 g_idata n blockSize gridDim blockIdx tid
    (fun i => i + blockSize) hbs hb ht hwrap (fun _ _ => Iff.rfl)
  have e : (gridStride nIsPow2 g_idata n blockSize second read gridDim blockIdx tid).isSome =
      (gridStride nIsPow2 g_idata n blockSize (fun i => i + blockSize) blockSize gridDim
        blockIdx tid).isSome := by
    cases nIsPow2
    · rfl
    · simp only [gridStride, if_true]
      rw [stride2Loop_isSome, stride2Loop_isSome]
  rw [e, h]; rfl

theorem allThreads_isSome (blockDim : Nat) (f : Nat → Option Int)
    (h : ∀ tid, tid < blockDim → (f tid).isSome = true) :
    (allThreads blockDim f).isSome = true := by
  rw [allThreads, if_pos h]; rfl

/-- A block of a kernel instantiated with the thread count of its launch completes when
no index wraps. -/
theorem runKernel_isSome (k : Kernel) (g_idata : Mem) (n gridDim blockDim blockIdx : Nat)
    (junk : Junk) (hpos : 0 < blockDim) (hb : blockIdx < gridDim)
    (hwrap : n + 2 * gridDim * blockDim ≤ 4294967296)
    (hk : k = Kernel.reduce0 ∨ k = Kernel.reduce1 ∨ k = Kernel.reduce2 ∨
      k = Kernel.reduce3 ∨ k = Kernel.reduce4 blockDim ∨
      k = Kernel.reduce5 blockDim ∨ (∃ p, k = Kernel.reduce6 blockDim p) ∨
      (∃ p, k = Kernel.reduce7 blockDim p) ∨ k = Kernel.cg_reduce ∨
      k = Kernel.multi_warp_cg_reduce blockDim (blockDim / 2)) :
    (runKernel k g_idata n gridDim blockDim blockIdx junk).isSome = true := by
  rcases hk with rfl | rfl | rfl | rfl | rfl | rfl | ⟨p, rfl⟩ | ⟨p, rfl⟩ | rfl | rfl
  · rfl
  · rfl
  · rfl
  · rfl
  · rfl
  · rfl
  · rw [runKernel, reduce6, Option.isSome_map']
    exact allThreads_isSome _ _ fun tid ht =>
      gridStride_isSome _ _ _ _ _ _ _ _ _ hpos hb ht hwrap
  · rw [runKernel, reduce7, Option.isSome_map']
    exact allThreads_isSome _ _ fun tid ht =>
      gridStride_isSome _ _ _ _ _ _ _ _ _ hpos hb ht hwrap
  · rw [runKernel, cg_reduce, Option.isSome_map']
    refine allThreads_isSome _ _ fun tid ht => ?_
    have h := gridStride_isSome false g_idata n blockDim (fun i => i) 0 gridDim blockIdx tid
      hpos hb ht hwrap
    simp only [gridStride, Bool.false_eq_true, if_false] at h
    rw [Nat.mul_comm gridDim]; exact h
  · rw [runKernel, multi_warp_cg_reduce, Option.isSome_map']
    exact allThreads_isSome _ _ fun tid ht =>
      gridStride_isSome _ _ _ _ _ _ _ _ _ hpos hb ht hwrap

/-- Every call of the wrapper with at least one thread per block completes when no index
wraps. -/
theorem exec_isSome (sizeofT n threads blocks : Nat) (whichKernel : Int) (junk : Nat → Junk)
    (d_idata d_odata : Mem) (hthreads : 1 ≤ threads)
    (hwrap : n + 2 * blocks * threads ≤ 4294967296) :
    ((reduce sizeofT n threads blocks whichKernel).exec junk d_idata d_odata).isSome = true := by
  cases hd : reduce sizeofT n threads blocks whichKernel with
  | launch l =>
    obtain ⟨h1, h2, h3, hk⟩ := reduce_launch_cases _ _ _ _ _ l hd
    rw [Dispatch.exec, Launch.exec, if_pos]
    · rfl
    · intro b hb
      rw [h1, h2, h3] at *
      exact runKernel_isSome _ _ _ _ _ _ _ hthreads hb hwrap hk
  | message => rfl
  | nothing => rfl

/-! ### What the two launches of the driver leave in the reduced array -/

/-- The second launch stores to element 0 of the array the first launch read, and to
nothing else of it. -/
theorem twoPass_frame {T : Type} [Add T] [Zero T] (ndata nthread nblock : Nat) (method : Int)
    (junk1 junk2 : Nat → JunkOf T) (d_in d_reduction : Nat → T) (s : T)
    (d_after sums : Nat → T)
    (h : twoPass ndata nthread nblock method junk1 junk2 d_in d_reduction =
      some (s, d_after, sums)) :
    (∀ j, 1 ≤ j → d_after j = d_in j) ∧ (nblock ≤ 1 → d_after = d_in) ∧
    (1 < nblock → d_after 0 = s) := by
  rw [twoPass] at h
  cases h1 : (reduce 4 ndata nthread nblock method).exec junk1 d_in d_reduction with
  | none => rw [h1] at h; cases h
  | some red =>
    rw [h1] at h
    dsimp only at h
    by_cases hnb : 1 < nblock
    · rw [if_pos hnb] at h
      cases h2 : (reduce 4 nblock nthread 1 method).exec junk2 red d_in with
      | none => rw [h2] at h; cases h
      | some d_in2 =>
        rw [h2] at h
        cases h
        exact ⟨exec_frame _ _ _ _ _ _ _ _ _ h2, fun hle => absurd hnb (by omega),
          fun _ => rfl⟩
    · rw [if_neg hnb] at h
      cases h
      exact ⟨fun _ _ => rfl, fun _ => rfl, fun hlt => absurd hlt hnb⟩

/-- The two launches of the driver complete when no index wraps. -/
theorem twoPass_isSome (ndata nthread nblock : Nat) (method : Int) (junk1 junk2 : Nat → Junk)
    (d_in d_reduction : Mem) (hthreads : 1 ≤ nthread)
    (hwrap1 : ndata + 2 * nblock * nthread ≤ 4294967296)
    (hwrap2 : 1 < nblock → nblock + 2 * 1 * nthread ≤ 4294967296) :
    ∃ s d_after sums, twoPass ndata nthread nblock method junk1 junk2 d_in d_reduction =
      some (s, d_after, sums) := by
  obtain ⟨red, h1⟩ := Option.isSome_iff_exists.mp
    (exec_isSome 4 ndata nthread nblock method junk1 d_in d_reduction hthreads hwrap1)
  rw [twoPass, h1]
  dsimp only
  by_cases hnb : 1 < nblock
  · obtain ⟨d_in2, h2⟩ := Option.isSome_iff_exists.mp
      (exec_isSome 4 nblock nthread 1 method junk2 red d_in hthreads (hwrap2 hnb))
    rw [h2]
    exact ⟨_, _, _, by rw [if_pos hnb]⟩
  · exact ⟨_, _, _, by rw [if_neg hnb]⟩

/-- The block count of the driver is at most the number of elements. -/
theorem nblockOf_le (ndata nthread : Nat) (h : 1 ≤ nthread) : nblockOf ndata nthread ≤ ndata := by
  rw [nblockOf_eq _ _ h]
  apply Nat.le_of_lt_succ
  rw [Nat.div_lt_iff_lt_mul (by omega)]
  have h1 : ndata ≤ ndata * nthread := Nat.le_mul_of_pos_right _ h
  have h2 : ndata.succ * (2 * nthread) = 2 * (ndata * nthread) + 2 * nthread := by
    rw [Nat.succ_eq_add_one]; ring
  rw [h2]
  omega

/-! ### The block count against the remainder of the division -/

/-- The block count is the quotient when the remainder is less than half a block, and
the quotient plus one otherwise. -/
theorem nblockOf_cases (ndata nthread : Nat) (h : 0 < nthread) :
    nblockOf ndata nthread =
      if 2 * (ndata % nthread) < nthread then ndata / nthread else ndata / nthread + 1 := by
  rw [nblockOf_eq _ _ h]
  have hdm := Nat.div_add_mod ndata nthread
  have hr := Nat.mod_lt ndata h
  have e : 2 * ndata + nthread =
      2 * (ndata % nthread) + nthread + 2 * nthread * (ndata / nthread) := by
    have : 2 * ndata = 2 * (nthread * (ndata / nthread) + ndata % nthread) := by rw [hdm]
    rw [this]; ring
  rw [e, Nat.add_mul_div_left _ _ (by omega : 0 < 2 * nthread)]
  by_cases hlt : 2 * (ndata % nthread) < nthread
  · rw [if_pos hlt, Nat.div_eq_of_lt (by omega), zero_add]
  · rw [if_neg hlt]
    have : (2 * (ndata % nthread) + nthread) / (2 * nthread) = 1 := by
      apply Nat.div_eq_of_lt_le <;> omega
    rw [this, add_comm]

theorem ceil_div_aux (nthread c r : Nat) (h : 0 < nthread) (hr : r < nthread) :
    ⌈((nthread * c + r : Nat) : ℚ) / (nthread : ℚ)⌉ = ((if r = 0 then c else c + 1 : Nat) : ℤ) := by
  have hT : (0 : ℚ) < nthread := by exact_mod_cast h
  have hr' : (r : ℚ) < nthread := by exact_mod_cast hr
  rw [Int.ceil_eq_iff]
  by_cases h0 : r = 0
  · subst h0
    simp only [if_true, add_zero]
    push_cast
    rw [mul_div_cancel_left₀ _ hT.ne']
    constructor <;> linarith
  · have hpos : (0 : ℚ) < r := by exact_mod_cast Nat.pos_of_ne_zero h0
    simp only [if_neg h0]
    push_cast
    have e : ((nthread : ℚ) * c + r) / nthread = c + r / nthread := by
      field_simp; ring
    have h1 : (0 : ℚ) < r / nthread := div_pos hpos hT
    have h2 : (r : ℚ) / nthread < 1 := (div_lt_one hT).mpr hr'
    rw [e]
    constructor <;> linarith

/-- The ceiling of the quotient, as the claim writes it. -/
theorem ceil_div (ndata nthread : Nat) (h : 0 < nthread) :
    ⌈(ndata : ℚ) / (nthread : ℚ)⌉ =
      ((if ndata % nthread = 0 then ndata / nthread else ndata / nthread + 1 : Nat) : ℤ) := by
  have hdm := Nat.div_add_mod ndata nthread
  rw [← ceil_div_aux nthread (ndata / nthread) (ndata % nthread) h (Nat.mod_lt _ h), hdm]

/-! ### The window of elements a block loads -/

/-- A guarded sum over `len` consecutive indices from `lo` is the sum over the part of the
window `[lo, lo + len)` below `n`. -/
theorem sum_window (f : Nat → Int) (n lo len : Nat) :
    ∑ t in range len, (if lo + t < n then f (lo + t) else 0) =
      ∑ i in Ico lo (min n (lo + len)), f i := by
  rw [sum_Ico_eq_sum_range, show min n (lo + len) - lo = min (n - lo) len by omega,
    ← sum_range_guard (fun t => f (lo + t)) (n - lo) len]
  refine sum_congr rfl fun t _ => ?_
  by_cases h : lo + t < n
  · rw [if_pos h, if_pos (by omega)]
  · rw [if_neg h, if_neg (by omega)]

/-! ### The block-level part of `reduce6` and `reduce7` -/

/-- The value a block of `reduce6` stores is the sum of the registers its threads hold
after the grid-stride loop. -/
theorem reduce6_inblock (blockSize : Nat) (nIsPow2 : Bool) (g_idata : Mem)
    (n gridDim blockIdx : Nat) (junk : Junk) (mySum : Nat → Int)
    (hbs : blockSize ∈ [32, 64, 128, 256, 512])
    (h1 : allThreads blockSize
      (gridStride nIsPow2 g_idata n blockSize (fun i => u32 (i + blockSize)) blockSize gridDim
        blockIdx) = some mySum) :
    reduce6 blockSize nIsPow2 g_idata n gridDim blockSize blockIdx junk =
      some (∑ t in range blockSize, mySum t) := by
  rw [reduce6, h1, Option.map_some', unrolled_block _ _ _ (storeSum_coherent _ _ _) hbs,
    storeSum_sdata_sum]

/-- The value a block of `reduce7` of 1024 threads stores is the sum of the registers its
threads hold after the grid-stride loop. -/
theorem reduce7_inblock (nIsPow2 : Bool) (g_idata : Mem) (n gridDim blockIdx : Nat)
    (junk : Junk) (mySum : Nat → Int)
    (h1 : allThreads 1024
      (gridStride nIsPow2 g_idata n 1024 (fun i => u32 (i + 1024)) 1024 gridDim blockIdx) =
        some mySum) :
    reduce7 1024 nIsPow2 g_idata n gridDim 1024 blockIdx junk =
      some (∑ t in range 1024, mySum t) := by
  have hmask : reduce7Mask 1024 = 4294967295 := by decide
  have hballot : ballot 4294967295 1024 (fun tid => decide (tid < 1024 ∧ tid < 32)) 0 =
      4294967295 := by decide
  rw [reduce7, h1, Option.map_some']
  simp only [hmask]
  have hext : (if 0 < 1024 / 32 then 1024 / 32 else 1) = 32 := by norm_num
  simp only [hext]
  rw [warpReduceSum, show (32 / 2 : Nat) = 2 ^ 4 by norm_num]
  rw [shflLoop_spec _ junk.undef 0 (by norm_num) ?_ 4 32 _ (by norm_num) (by norm_num)]
  · simp only [zero_add]
    have hsum : ∑ t in range 1024, mySum t =
        ∑ w in range 32, ∑ l in range 32, mySum (w * 32 + l) := by
      rw [sum_range_blocks mySum 32 32]
    rw [hsum]
    refine congrArg some (sum_congr rfl fun w hw => ?_)
    have hw' : w < 32 := mem_range.mp hw
    rw [if_pos (by simp; omega), if_pos (by omega)]
    rw [warpReduceSum, show (32 / 2 : Nat) = 2 ^ 4 by norm_num]
    rw [shflLoop_spec _ junk.undef (32 * w) (by simp) ?_ 4 32 _ (by norm_num) (by norm_num)]
    · refine sum_congr rfl fun l _ => ?_
      rw [Nat.mul_comm]
    · intro l hl
      have h3 : (32 * w + l) % 32 = l := by omega
      simp only [h3, testBit_full l hl, Bool.and_true, decide_eq_true_eq]
      omega
  · intro l hl
    have h3 : (0 + l) / 32 = 0 := by omega
    have h4 : (0 + l) % 32 = l := by omega
    simp only [h3, h4, hballot, testBit_full l hl, Bool.and_true, decide_eq_true_eq]
    omega

/-! ### A grid so large that the index of its last block wraps -/

/-- With `2 * blockSize * W = 2^32` and `W + 1` blocks, the index
`blockIdx.x * blockSize * 2 + threadIdx.x` of block `W` wraps to `threadIdx.x`: on a
one-element array, thread 0 of block 0 and thread 0 of block `W` both read element 0. -/
theorem gridStride_wrap (g_idata : Mem) (blockSize W blockIdx tid : Nat) (second : Nat → Nat)
    (read : Nat) (hbs : 0 < blockSize) (hle : blockSize ≤ 1024)
    (hW : 2 * blockSize * W = 4294967296) (hb : blockIdx ≤ W) (ht : tid < blockSize)
    (hsecond : 1 ≤ second 0) :
    gridStride true g_idata 1 blockSize second read (W + 1) blockIdx tid =
      some (if (blockIdx = 0 ∨ blockIdx = W) ∧ tid = 0 then g_idata 0 else 0) := by
  have hgs : u32 (u32 (blockSize * (W + 1)) * 2) = 2 * blockSize := by
    have e : blockSize * (W + 1) = 2147483648 + blockSize := by
      have : 2 * (blockSize * W) = 4294967296 := by rw [← hW]; ring
      rw [Nat.mul_succ]; omega
    have h1 : u32 (2147483648 + blockSize) = 2147483648 + blockSize :=
      u32_of_lt (by omega)
    rw [e, h1]
    unfold u32; omega
  have hstart : u32 (blockIdx * blockSize * 2 + tid) =
      if blockIdx = W then tid else blockIdx * blockSize * 2 + tid := by
    have e : W * blockSize * 2 = 4294967296 := by rw [← hW]; ring
    by_cases h : blockIdx = W
    · rw [if_pos h, h, e]; unfold u32; omega
    · rw [if_neg h]
      have h1 : (blockIdx + 1) * blockSize * 2 ≤ W * blockSize * 2 :=
        Nat.mul_le_mul_right _ (Nat.mul_le_mul_right _ (by omega))
      have h2 : (blockIdx + 1) * blockSize * 2 = blockIdx * blockSize * 2 + blockSize * 2 := by
        ring
      exact u32_of_lt (by omega)
  have hzero : ((if blockIdx = W then tid else blockIdx * blockSize * 2 + tid) = 0) ↔
      ((blockIdx = 0 ∨ blockIdx = W) ∧ tid = 0) := by
    by_cases h : blockIdx = W
    · rw [if_pos h]; exact ⟨fun e => ⟨Or.inr h, e⟩, fun e => e.2⟩
    · rw [if_neg h]
      constructor
      · intro e
        have h1 : blockIdx * blockSize * 2 = 0 := by omega
        have h2 : blockIdx = 0 := by
          rcases Nat.eq_zero_or_pos blockIdx with h0 | h0
          · exact h0
          · have : 1 * blockSize * 2 ≤ blockIdx * blockSize * 2 :=
              Nat.mul_le_mul_right _ (Nat.mul_le_mul_right _ h0)
            omega
        exact ⟨Or.inl h2, by omega⟩
      · rintro ⟨h0 | h0, h1⟩
        · rw [h0, h1]; simp
        · exact absurd h0 h
  simp only [gridStride, if_true, hgs, hstart]
  by_cases hz : (blockIdx = 0 ∨ blockIdx = W) ∧ tid = 0
  · rw [hzero.mpr hz, if_pos hz]
    have h2 : u32 (0 + 2 * blockSize) = 2 * blockSize := by
      rw [zero_add]; exact u32_of_lt (by omega)
    simp only [stride2Loop, Nat.lt_one_iff, if_true, h2]
    rw [if_neg (by omega), if_neg (by omega)]
    simp
  · rw [if_neg hz]
    have hne : ¬ (if blockIdx = W then tid else blockIdx * blockSize * 2 + tid) = 0 :=
      fun e => hz (hzero.mp e)
    simp only [stride2Loop, Nat.lt_one_iff, if_neg hne]

/-- The registers of the threads of a block of such a grid add up to element 0 in blocks 0
and `W`, and to 0 in the blocks between. -/
theorem allThreads_wrap (g_idata : Mem) (blockSize W blockIdx : Nat) (second : Nat → Nat)
    (read : Nat) (hbs : 0 < blockSize) (hle : blockSize ≤ 1024)
    (hW : 2 * blockSize * W = 4294967296) (hb : blockIdx ≤ W) (hsecond : 1 ≤ second 0) :
    ∃ mySum, allThreads blockSize
        (gridStride true g_idata 1 blockSize second read (W + 1) blockIdx) = some mySum ∧
      ∑ t in range blockSize, mySum t = if blockIdx = 0 ∨ blockIdx = W then g_idata 0 else 0 := by
  obtain ⟨mySum, h1, h2⟩ := allThreads_spec blockSize
    (gridStride true g_idata 1 blockSize second read (W + 1) blockIdx)
    (fun tid => if (blockIdx = 0 ∨ blockIdx = W) ∧ tid = 0 then g_idata 0 else 0)
    (fun tid ht => gridStride_wrap g_idata blockSize W blockIdx tid second read hbs hle hW hb ht
      hsecond)
  refine ⟨mySum, h1, ?_⟩
  rw [sum_congr rfl fun t ht => h2 t (mem_range.mp ht)]
  by_cases hz : blockIdx = 0 ∨ blockIdx = W
  · simp only [hz, true_and, if_true]
    rw [sum_ite_eq' (range blockSize) 0 (fun _ => g_idata 0), if_pos (mem_range.mpr hbs)]
  · simp only [hz, false_and, if_false, sum_const_zero]

/-- The outputs of such a grid add up to twice element 0. -/
theorem wrap_total (out : Nat → Int) (W : Nat) (c : Int) (hW : 1 ≤ W)
    (h : ∀ b, b ≤ W → out b = if b = 0 ∨ b = W then c else 0) :
    ∑ b in range (W + 1), out b = 2 * c := by
  rw [sum_range_succ, h W le_rfl, if_pos (Or.inr rfl)]
  have h1 : ∀ b ∈ range W, out b = if b = 0 then c else 0 := by
    intro b hb
    have hb' : b < W := mem_range.mp hb
    rw [h b (by omega)]
    by_cases h0 : b = 0
    · rw [if_pos (Or.inl h0), if_pos h0]
    · rw [if_neg (by omega), if_neg h0]
  rw [sum_congr rfl h1, sum_ite_eq' (range W) 0 (fun _ => c), if_pos (mem_range.mpr hW)]
  ring

/-! ### The indices a grid-stride loop reads -/

theorem strideReads_lt (n S : Nat) :
    ∀ (fuel i j : Nat), j ∈ strideReads n S fuel i → j < n := by
  intro fuel
  induction fuel with
  | zero => intro i j h; simp [strideReads] at h
  | succ fuel ih =>
    intro i j h
    rw [strideReads] at h
    by_cases hi : i < n
    · rw [if_pos hi, List.mem_cons] at h
      rcases h with rfl | h
      · exact hi
      · exact ih _ _ h
    · rw [if_neg hi] at h; simp at h

theorem stride2Reads_lt (n read S : Nat) :
    ∀ (fuel i j : Nat), j ∈ stride2Reads n (fun i => u32 (i + read)) read S fuel i → j < n := by
  intro fuel
  induction fuel with
  | zero => intro i j h; simp [stride2Reads] at h
  | succ fuel ih =>
    intro i j h
    rw [stride2Reads] at h
    by_cases hi : i < n
    · rw [if_pos hi, List.mem_append] at h
      rcases h with h | h
      · by_cases h2 : u32 (i + read) < n
        · rw [if_pos h2] at h
          simp only [List.mem_cons, List.mem_singleton, List.not_mem_nil, or_false] at h
          rcases h with rfl | rfl
          · exact hi
          · exact h2
        · rw [if_neg h2, List.mem_singleton] at h
          rw [h]; exact hi
      · exact ih _ _ h
    · rw [if_neg hi] at h; simp at h

/-- The register after the loop is the sum of the elements read. -/
theorem strideLoop_reads (g_idata : Mem) (n S : Nat) :
    ∀ (fuel i : Nat) (acc v : Int), strideLoop g_idata n S fuel i acc = some v →
      v = acc + ((strideReads n S fuel i).map g_idata).sum ∧
      ∀ extra, strideReads n S (fuel + extra) i = strideReads n S fuel i := by
  intro fuel
  induction fuel with
  | zero => intro i acc v h; simp [strideLoop] at h
  | succ fuel ih =>
    intro i acc v h
    rw [strideLoop] at h
    by_cases hi : i < n
    · rw [if_pos hi] at h
      obtain ⟨h1, h2⟩ := ih _ _ _ h
      refine ⟨?_, fun extra => ?_⟩
      · rw [strideReads, if_pos hi, List.map_cons, List.sum_cons, h1]; ring
      · rw [show fuel + 1 + extra = fuel + extra + 1 by ring, strideReads, strideReads,
          if_pos hi, if_pos hi, h2]
    · rw [if_neg hi] at h
      cases h
      refine ⟨?_, fun extra => ?_⟩
      · rw [strideReads, if_neg hi]; simp
      · rw [show fuel + 1 + extra = fuel + extra + 1 by ring, strideReads, strideReads,
          if_neg hi, if_neg hi]

theorem stride2Loop_reads (g_idata : Mem) (n : Nat) (second : Nat → Nat) (read S : Nat) :
    ∀ (fuel i : Nat) (acc v : Int), stride2Loop g_idata n second read S fuel i acc = some v →
      v = acc + ((stride2Reads n second read S fuel i).map g_idata).sum ∧
      ∀ extra, stride2Reads n second read S (fuel + extra) i =
        stride2Reads n second read S fuel i := by
  intro fuel
  induction fuel with
  | zero => intro i acc v h; simp [stride2Loop] at h
  | succ fuel ih =>
    intro i acc v h
    rw [stride2Loop] at h
    by_cases hi : i < n
    · rw [if_pos hi] at h
      obtain ⟨h1, h2⟩ := ih _ _ _ h
      refine ⟨?_, fun extra => ?_⟩
      · rw [stride2Reads, if_pos hi, List.map_append, List.sum_append, h1]
        by_cases hs : second i < n
        · rw [if_pos hs, if_pos hs]; simp; ring
        · rw [if_neg hs, if_neg hs]; simp; ring
      · rw [show fuel + 1 + extra = fuel + extra + 1 by ring, stride2Reads, stride2Reads,
          if_pos hi, if_pos hi, h2]
    · rw [if_neg hi] at h
      cases h
      refine ⟨?_, fun extra => ?_⟩
      · rw [stride2Reads, if_neg hi]; simp
      · rw [show fuel + 1 + extra = fuel + extra + 1 by ring, stride2Reads, stride2Reads,
          if_neg hi, if_neg hi]

/-- The register of a thread after its grid-stride loop is the sum of the elements it
read, and more fuel does not add reads. -/
theorem gridStride_reads (nIsPow2 : Bool) (g_idata : Mem) (n blockSize : Nat)
    (second : Nat → Nat) (read gridDim blockIdx tid : Nat) (v : Int)
    (h : gridStride nIsPow2 g_idata n blockSize second read gridDim blockIdx tid = some v) :
    ∀ fuel, n + 1 ≤ fuel →
      v = ((gridStrideReads fuel nIsPow2 n blockSize second read gridDim blockIdx tid).map
        g_idata).sum := by
  intro fuel hf
  obtain ⟨extra, rfl⟩ : ∃ e, fuel = n + 1 + e := ⟨fuel - (n + 1), by omega⟩
  cases nIsPow2
  · simp only [gridStride, Bool.false_eq_true, if_false] at h
    obtain ⟨h1, h2⟩ := strideLoop_reads _ _ _ _ _ _ _ h
    simp only [gridStrideReads, Bool.false_eq_true, if_false]
    rw [h2, h1, zero_add]
  · simp only [gridStride, if_true] at h
    obtain ⟨h1, h2⟩ := stride2Loop_reads _ _ _ _ _ _ _ _ _ h
    simp only [gridStrideReads, if_true]
    rw [h2, h1, zero_add]

theorem gridStrideReads_lt (fuel : Nat) (nIsPow2 : Bool) (n blockSize gridDim blockIdx tid read : Nat) :
    ∀ j, j ∈ gridStrideReads fuel nIsPow2 n blockSize (fun i => u32 (i + read)) read gridDim
      blockIdx tid → j < n := by
  intro j h
  cases nIsPow2
  · simp only [gridStrideReads, Bool.false_eq_true, if_false] at h
    exact strideReads_lt _ _ _ _ _ h
  · simp only [gridStrideReads, if_true] at h
    exact stride2Reads_lt _ _ _ _ _ _ h

/-- Summing the indicator of `j` over a list counts the occurrences of `j`. -/
theorem sum_indicator_count (l : List Nat) (j : Nat) :
    (l.map (fun i => if i = j then (1 : Int) else 0)).sum = (l.count j : Int) := by
  induction l with
  | nil => simp
  | cons a l ih =>
    rw [List.map_cons, List.sum_cons, ih, List.count_cons]
    by_cases h : a = j
    · simp [h]; ring
    · simp [h]

/-- Without index wrapping, the threads of the grid read every index below `n` once in
all, and no other index. -/
theorem gridStride_count (nIsPow2 : Bool) (n blockSize gridDim : Nat) (hbs : 0 < blockSize)
    (hG : 0 < gridDim) (hwrap : n + 2 * gridDim * blockSize ≤ 4294967296) (fuel j : Nat)
    (hf : n + 1 ≤ fuel) :
    ∑ b in range gridDim, ∑ t in range blockSize,
      (gridStrideReads fuel nIsPow2 n blockSize (fun i => u32 (i + blockSize)) blockSize gridDim
        b t).count j = if j < n then 1 else 0 := by
  have hcount : ∀ b, b < gridDim → ∀ t, t < blockSize →
      (((gridStrideReads fuel nIsPow2 n blockSize (fun i => u32 (i + blockSize)) blockSize
        gridDim b t).count j : Nat) : Int) =
      gridStrideSum nIsPow2 (fun i => if i = j then 1 else 0) n blockSize gridDim b t := by
    intro b hb t ht
    have hs := gridStride_spec nIsPow2 (fun i => if i = j then 1 else 0) n blockSize gridDim b t
      (fun i => u32 (i + blockSize)) hbs hb ht hwrap
      (fun i hi => by
        have hbig : 2 * blockSize ≤ 2 * gridDim * blockSize := by
          rw [Nat.mul_assoc]
          exact Nat.mul_le_mul_left 2 (Nat.le_mul_of_pos_left blockSize hG)
        show u32 (i + blockSize) < n ↔ i + blockSize < n
        rw [u32_of_lt (by omega)])
    rw [gridStride_reads _ _ _ _ _ _ _ _ _ _ hs fuel hf, sum_indicator_count]
  have htotal := sum_gridStrideSum nIsPow2 (fun i => if i = j then (1 : Int) else 0) n blockSize
    gridDim hbs hG
  have hind : ∑ i in range n, (fun i => if i = j then (1 : Int) else 0) i =
      if j < n then 1 else 0 := by
    rw [sum_ite_eq' (range n) j (fun _ => (1 : Int))]
    simp only [mem_range]
  have hcast : ((∑ b in range gridDim, ∑ t in range blockSize,
      (gridStrideReads fuel nIsPow2 n blockSize (fun i => u32 (i + blockSize)) blockSize gridDim
        b t).count j : Nat) : Int) = ((if j < n then 1 else 0 : Nat) : Int) := by
    push_cast
    rw [← hind, ← htotal]
    exact sum_congr rfl fun b hb => sum_congr rfl fun t ht =>
      hcount b (mem_range.mp hb) t (mem_range.mp ht)
  exact_mod_cast hcast

/-! ### Shared-memory indices stay below the block size -/

theorem reduce0Idx_lt (k tid : Nat) (ht : tid < 2 ^ k) :
    ∀ (fuel j i : Nat), i ∈ reduce0Idx (2 ^ k) tid fuel (2 ^ j) → i < 2 ^ k := by
  intro fuel
  induction fuel with
  | zero => intro j i h; simp [reduce0Idx] at h
  | succ fuel ih =>
    intro j i h
    rw [reduce0Idx] at h
    by_cases hs : 2 ^ j < 2 ^ k
    · rw [if_pos hs, List.mem_append] at h
      rcases h with h | h
      · by_cases hm : tid % (2 * 2 ^ j) = 0
        · rw [if_pos hm] at h
          simp only [List.mem_cons, List.mem_singleton, List.not_mem_nil, or_false] at h
          have hjk : j < k := (Nat.pow_lt_pow_iff_right (by norm_num)).mp hs
          obtain ⟨c, hc⟩ : 2 * 2 ^ j ∣ 2 ^ k := by
            rw [← pow_succ']; exact pow_dvd_pow 2 hjk
          obtain ⟨a, ha⟩ := Nat.dvd_of_mod_eq_zero hm
          have hac : a < c := by
            rw [ha, hc] at ht
            exact lt_of_mul_lt_mul_left ht (Nat.zero_le _)
          have h1 : 2 * 2 ^ j * (a + 1) ≤ 2 * 2 ^ j * c := Nat.mul_le_mul_left _ hac
          have hpos : 0 < 2 ^ j := by positivity
          rw [Nat.mul_succ, ← ha, ← hc] at h1
          rcases h with rfl | rfl <;> omega
        · rw [if_neg hm] at h; simp at h
      · rw [← pow_succ] at h
        exact ih _ _ h
    · rw [if_neg hs] at h; simp at h

theorem reduce1Idx_lt (k tid : Nat) :
    ∀ (fuel j i : Nat), i ∈ reduce1Idx (2 ^ k) tid fuel (2 ^ j) → i < 2 ^ k := by
  intro fuel
  induction fuel with
  | zero => intro j i h; simp [reduce1Idx] at h
  | succ fuel ih =>
    intro j i h
    rw [reduce1Idx] at h
    by_cases hs : 2 ^ j < 2 ^ k
    · rw [if_pos hs, List.mem_append] at h
      rcases h with h | h
      · by_cases hm : 2 * 2 ^ j * tid < 2 ^ k
        · rw [if_pos hm] at h
          simp only [List.mem_cons, List.mem_singleton, List.not_mem_nil, or_false] at h
          have hjk : j < k := (Nat.pow_lt_pow_iff_right (by norm_num)).mp hs
          obtain ⟨c, hc⟩ : 2 * 2 ^ j ∣ 2 ^ k := by
            rw [← pow_succ']; exact pow_dvd_pow 2 hjk
          have hac : tid < c := by
            rw [hc] at hm
            exact lt_of_mul_lt_mul_left hm (Nat.zero_le _)
          have h1 : 2 * 2 ^ j * (tid + 1) ≤ 2 * 2 ^ j * c := Nat.mul_le_mul_left _ hac
          have hpos : 0 < 2 ^ j := by positivity
          rw [Nat.mul_succ, ← hc] at h1
          rcases h with rfl | rfl <;> omega
        · rw [if_neg hm] at h; simp at h
      · rw [← pow_succ] at h
        exact ih _ _ h
    · rw [if_neg hs] at h; simp at h

theorem halveIdx_lt (limit tid blockDim : Nat) :
    ∀ (fuel s i : Nat), 2 * s ≤ blockDim → i ∈ halveIdx limit tid fuel s → i < blockDim := by
  intro fuel
  induction fuel with
  | zero => intro s i _ h; simp [halveIdx] at h
  | succ fuel ih =>
    intro s i hs h
    rw [halveIdx] at h
    by_cases hl : limit < s
    · rw [if_pos hl, List.mem_append] at h
      rcases h with h | h
      · by_cases ht : tid < s
        · rw [if_pos ht] at h
          simp only [List.mem_cons, List.mem_singleton, List.not_mem_nil, or_false] at h
          rcases h with rfl | rfl <;> omega
        · rw [if_neg ht] at h; simp at h
      · exact ih _ _ (by omega) h
    · rw [if_neg hl] at h; simp at h

theorem unrollIdx_lt (blockSize tid s i : Nat) (h : i ∈ unrollIdx blockSize tid s) :
    i < blockSize := by
  rw [unrollIdx] at h
  by_cases hc : 2 * s ≤ blockSize ∧ tid < s
  · rw [if_pos hc] at h
    simp only [List.mem_cons, List.mem_singleton, List.not_mem_nil, or_false] at h
    rcases h with rfl | rfl <;> omega
  · rw [if_neg hc] at h; simp at h

theorem finalWarpIdx_lt (blockSize tid i : Nat) (h : i ∈ finalWarpIdx blockSize tid) :
    i < blockSize := by
  rw [finalWarpIdx] at h
  by_cases hc : tid < 32 ∧ 64 ≤ blockSize
  · rw [if_pos hc, List.mem_singleton] at h
    omega
  · rw [if_neg hc] at h; simp at h

/-- The kernel of a launch made by the wrapper together with the shared-memory size
passed to it. -/
theorem reduce_launch_smem (sizeofT size threads blocks : Nat) (whichKernel : Int)
    (l : Launch) (h : reduce sizeofT size threads blocks whichKernel = Dispatch.launch l) :
    (l.smemSize = (if threads ≤ 32 then 2 * threads * sizeofT else threads * sizeofT) ∧
      (l.kernel = Kernel.reduce0 ∨ l.kernel = Kernel.reduce1 ∨ l.kernel = Kernel.reduce2 ∨
        l.kernel = Kernel.reduce3 ∨ l.kernel = Kernel.reduce4 threads ∨
        l.kernel = Kernel.reduce5 threads ∨ (∃ p, l.kernel = Kernel.reduce6 threads p) ∨
        l.kernel = Kernel.cg_reduce)) ∨
    (l.smemSize = (threads / 32 + 1) * sizeofT ∧ ∃ p, l.kernel = Kernel.reduce7 threads p) ∨
    (l.smemSize = 2 * sizeofT ∧ threads ∈ [1024, 512, 256, 128, 64] ∧
      l.kernel = Kernel.multi_warp_cg_reduce threads (threads / 2)) := by
  unfold reduce at h
  dsimp only at h
  generalize (if threads < 64 ∧ whichKernel = 9 then (7 : ℤ) else whichKernel) = w at h
  generalize hsm : (if threads ≤ 32 then 2 * threads * sizeofT else threads * sizeofT) = sm at h
  by_cases h0 : w = 0
  · rw [if_pos h0] at h; cases h; exact Or.inl ⟨rfl, by simp⟩
  rw [if_neg h0] at h
  by_cases h1 : w = 1
  · rw [if_pos h1] at h; cases h; exact Or.inl ⟨rfl, by simp⟩
  rw [if_neg h1] at h
  by_cases h2 : w = 2
  · rw [if_pos h2] at h; cases h; exact Or.inl ⟨rfl, by simp⟩
  rw [if_neg h2] at h
  by_cases h3 : w = 3
  · rw [if_pos h3] at h; cases h; exact Or.inl ⟨rfl, by simp⟩
  rw [if_neg h3] at h
  by_cases h4 : w = 4
  · rw [if_pos h4] at h
    by_cases hm : threads ∈ threadCases
    · rw [if_pos hm] at h; cases h; exact Or.inl ⟨rfl, by simp⟩
    · rw [if_neg hm] at h; cases h
  rw [if_neg h4] at h
  by_cases h5 : w = 5
  · rw [if_pos h5] at h
    by_cases hm : threads ∈ threadCases
    · rw [if_pos hm] at h; cases h; exact Or.inl ⟨rfl, by simp⟩
    · rw [if_neg hm] at h; cases h
  rw [if_neg h5] at h
  by_cases h6 : w = 6
  · rw [if_pos h6] at h
    by_cases hm : threads ∈ threadCases
    · simp only [if_pos hm, ite_self] at h
      by_cases hp : isPow2 size = true
      · rw [if_pos hp] at h; cases h; exact Or.inl ⟨rfl, by simp⟩
      · rw [if_neg hp] at h; cases h; exact Or.inl ⟨rfl, by simp⟩
    · simp only [if_neg hm, ite_self] at h; cases h
  rw [if_neg h6] at h
  by_cases h7 : w = 7
  · rw [if_pos h7] at h
    by_cases hp : isPow2 size = true
    · rw [if_pos hp] at h
      by_cases hm : threads = 1024 ∨ threads ∈ threadCases
      · rw [if_pos hm] at h; cases h; exact Or.inr (Or.inl ⟨rfl, _, rfl⟩)
      · rw [if_neg hm] at h; cases h
    · rw [if_neg hp] at h
      by_cases ht : threads = 1024
      · rw [if_pos ht] at h; cases h; subst ht; exact Or.inr (Or.inl ⟨rfl, _, rfl⟩)
      · rw [if_neg ht] at h
        by_cases hm : threads ∈ threadCases
        · rw [if_pos hm] at h; cases h; exact Or.inr (Or.inl ⟨rfl, _, rfl⟩)
        · rw [if_neg hm] at h; cases h
  rw [if_neg h7] at h
  by_cases h8 : w = 8
  · rw [if_pos h8] at h; cases h; exact Or.inl ⟨rfl, by simp⟩
  rw [if_neg h8] at h
  by_cases h9 : w = 9
  · rw [if_pos h9] at h
    by_cases hm : threads ∈ [1024, 512, 256, 128, 64]
    · rw [if_pos hm] at h; cases h; exact Or.inr (Or.inr ⟨rfl, hm, rfl⟩)
    · rw [if_neg hm] at h; cases h
  rw [if_neg h9] at h
  cases h

/-! ### A grid of zero blocks -/

/-- A call with a grid of zero blocks stores nothing. -/
theorem exec_zero_blocks {T : Type} [Add T] [Zero T] (sizeofT size threads : Nat)
    (whichKernel : Int) (junk : Nat → JunkOf T) (d_idata d_odata : Nat → T) :
    (reduce sizeofT size threads 0 whichKernel).exec junk d_idata d_odata = some d_odata := by
  cases hd : reduce sizeofT size threads 0 whichKernel with
  | launch l =>
    obtain ⟨h1, -, -, -⟩ := reduce_launch_cases _ _ _ _ _ l hd
    rw [Dispatch.exec, Launch.exec, h1, if_pos (fun b hb => absurd hb (Nat.not_lt_zero b))]
    refine congrArg some (funext fun j => ?_)
    rw [if_neg (fun h => Nat.not_lt_zero j h.1)]
  | message => rfl
  | nothing => rfl

/-! ### The host test `isPow2` -/

theorem testBit_top (y k : Nat) (h1 : 2 ^ k ≤ y) (h2 : y < 2 ^ (k + 1)) :
    y.testBit k = true := by
  have hd : y / 2 ^ k = 1 := by
    apply Nat.div_eq_of_lt_le
    · simpa using h1
    · rw [pow_succ] at h2; omega
  rw [Nat.testBit_to_div_mod, hd]
  rfl

/-- On a non-zero 32-bit value the test `(x & (x - 1)) == 0` holds exactly for the powers
of two. -/
theorem isPow2_iff (x : Nat) (h0 : 0 < x) (hx : x < 4294967296) :
    isPow2 x = true ↔ ∃ k, k ≤ 31 ∧ x = 2 ^ k := by
  have hu : u32 (x + 4294967295) = x - 1 := by unfold u32; omega
  rw [isPow2, hu, beq_iff_eq]
  constructor
  · intro h
    have hk1 : 2 ^ x.log2 ≤ x := Nat.log2_self_le (by omega)
    have hk2 : x < 2 ^ (x.log2 + 1) := Nat.lt_log2_self
    have hk : x.log2 ≤ 31 := by
      have : 2 ^ x.log2 < 2 ^ 32 := lt_of_le_of_lt hk1 (by norm_num; exact hx)
      have := (Nat.pow_lt_pow_iff_right (by norm_num : 1 < 2)).mp this
      omega
    refine ⟨x.log2, hk, ?_⟩
    by_contra hne
    have h1 : (x &&& (x - 1)).testBit x.log2 = true := by
      rw [Nat.testBit_and, testBit_top x _ hk1 hk2, testBit_top (x - 1) _ (by omega) (by omega)]
      rfl
    rw [h, Nat.zero_testBit] at h1
    exact Bool.false_ne_true h1
  · rintro ⟨k, -, rfl⟩
    rw [Nat.and_pow_two_sub_one_eq_mod, Nat.mod_self]

/-! ### cg_reduce: the plain grid-stride loop and the elements of a block -/

/-- The loop of a thread of `cg_reduce` when no index wraps. -/
theorem strideLoop_grid (g_idata : Mem) (n gridDim blockDim blockIdx tid : Nat)
    (hB : 0 < blockDim) (hb : blockIdx < gridDim) (ht : tid < blockDim)
    (hwrap : n + gridDim * blockDim ≤ 4294967296) :
    strideLoop g_idata n (u32 (gridDim * blockDim)) (n + 1) (u32 (blockIdx * blockDim + tid)) 0 =
      some (strideSum g_idata n (blockDim * gridDim) (blockIdx * blockDim + tid)) := by
  rcases Nat.eq_zero_or_pos n with hn | hn
  · subst hn
    simp [strideLoop, strideSum]
  have hG : 0 < gridDim := by omega
  have hmul : (blockIdx + 1) * blockDim ≤ gridDim * blockDim := Nat.mul_le_mul_right _ hb
  rw [Nat.succ_mul] at hmul
  rw [u32_of_lt (by omega), u32_of_lt (by omega), Nat.mul_comm gridDim,
    strideLoop_spec g_idata n (blockDim * gridDim) (Nat.mul_pos hB hG)
      (by rw [Nat.mul_comm]; exact hwrap) _ _ _ (by omega) (by omega), zero_add]

/-- The value a block of `cg_reduce` stores is the sum of the registers its threads hold
after the grid-stride loop. -/
theorem cg_reduce_inblock (g_idata : Mem) (n gridDim k blockIdx : Nat) (junk : Junk)
    (threadVal : Nat → Int) (hk : 5 ≤ k)
    (h1 : allThreads (2 ^ k)
      (fun tid => strideLoop g_idata n (u32 (gridDim * 2 ^ k)) (n + 1)
        (u32 (blockIdx * 2 ^ k + tid)) 0) = some threadVal) :
    cg_reduce g_idata n gridDim (2 ^ k) blockIdx junk =
      some (∑ t in range (2 ^ k), threadVal t) := by
  obtain ⟨d, rfl⟩ : ∃ d, k = 5 + d := ⟨k - 5, by omega⟩
  have h32 : 32 ≤ 2 ^ (5 + d) := by
    calc 32 = 2 ^ 5 := by norm_num
      _ ≤ 2 ^ (5 + d) := Nat.pow_le_pow_right (by norm_num) (by omega)
  have h := halveLoop_spec (2 ^ (5 + d)) 31 5 (by norm_num) (by norm_num) d (2 ^ (5 + d))
    (storeSum (2 ^ (5 + d)) threadVal junk) le_rfl
    (by have := Nat.lt_two_pow (5 + d); omega) (storeSum_coherent _ _ _)
  rw [cg_reduce, h1, Option.map_some', cg_reduce_n, list_sum_range]
  refine congrArg some ?_
  have h3 : ∑ i in range 32, (if 0 + i < 2 ^ (5 + d) then
      (halveLoop (2 ^ (5 + d)) 31 (2 ^ (5 + d)) (2 ^ (5 + d) / 2)
        (storeSum (2 ^ (5 + d)) threadVal junk)).mySum (0 + i) else 0) =
      ∑ i in range (2 ^ 5),
        (halveLoop (2 ^ (5 + d)) 31 (2 ^ (5 + d)) (2 ^ (5 + d) / 2)
          (storeSum (2 ^ (5 + d)) threadVal junk)).sdata i := by
    refine sum_congr rfl fun i hi => ?_
    have hi' : i < 32 := mem_range.mp hi
    rw [zero_add, if_pos (by omega), h.1 i (by omega)]
  rw [h3, h.2, storeSum_sdata_sum]

/-- The threads of block `b` accumulate the elements `i < n` with `(i / B) % G = b`. -/
theorem sum_strideSum_block (g_idata : Mem) (n gridDim blockDim blockIdx : Nat)
    (hB : 0 < blockDim) (hb : blockIdx < gridDim) :
    ∑ t in range blockDim,
        strideSum g_idata n (blockDim * gridDim) (blockIdx * blockDim + t) =
      ∑ i in (range n).filter (fun i => i / blockDim % gridDim = blockIdx), g_idata i := by
  simp only [strideSum]
  rw [sum_comm, sum_filter]
  refine sum_congr rfl fun j _ => ?_
  have hdiv : j % (blockDim * gridDim) / blockDim = j / blockDim % gridDim :=
    Nat.mod_mul_right_div_self j blockDim gridDim
  have hmod : j % (blockDim * gridDim) % blockDim = j % blockDim :=
    Nat.mod_mul_right_mod j blockDim gridDim
  have hdm := Nat.div_add_mod (j % (blockDim * gridDim)) blockDim
  have hle : j % (blockDim * gridDim) ≤ j := Nat.mod_le _ _
  have hx : ∀ t, t < blockDim →
      (blockIdx * blockDim + t) % (blockDim * gridDim) = blockIdx * blockDim + t := by
    intro t ht
    apply Nat.mod_eq_of_lt
    have hmul : (blockIdx + 1) * blockDim ≤ gridDim * blockDim := Nat.mul_le_mul_right _ hb
    rw [Nat.succ_mul, Nat.mul_comm gridDim] at hmul
    omega
  have hcomm : blockDim * (j % (blockDim * gridDim) / blockDim) =
      (j % (blockDim * gridDim) / blockDim) * blockDim := Nat.mul_comm _ _
  by_cases hP : j / blockDim % gridDim = blockIdx
  · rw [if_pos hP, sum_eq_single (j % blockDim)]
    · rw [if_pos]
      rw [hx _ (Nat.mod_lt _ hB)]
      rw [hdiv, hP, hmod] at hdm
      rw [hdiv, hP] at hcomm
      constructor <;> omega
    · intro t ht hne
      have ht' : t < blockDim := mem_range.mp ht
      rw [if_neg]
      rintro ⟨-, h2⟩
      rw [hx t ht'] at h2
      apply hne
      have : (blockIdx * blockDim + t) % blockDim = t := by
        rw [Nat.mul_comm, Nat.mul_add_mod, Nat.mod_eq_of_lt ht']
      rw [← this, ← h2, hmod]
    · intro h
      exact absurd (mem_range.mpr (Nat.mod_lt j hB)) h
  · rw [if_neg hP]
    refine sum_eq_zero fun t ht => ?_
    have ht' : t < blockDim := mem_range.mp ht
    rw [if_neg]
    rintro ⟨-, h2⟩
    rw [hx t ht'] at h2
    apply hP
    rw [← hdiv, h2, Nat.mul_comm, Nat.mul_add_div hB, Nat.div_eq_of_lt ht', add_zero]

/-! ### The block-level part of `multi_warp_cg_reduce` -/

/-- The group reduction of a tile of `M` threads that all exist is the sum of their
values. -/
theorem cg_reduce_n_tile (blockDim : Nat) (val : Nat → Int) (start M : Nat)
    (h : start + M ≤ blockDim) :
    cg_reduce_n blockDim val start M = ∑ r in range M, val (start + r) := by
  rw [cg_reduce_n, list_sum_range]
  refine sum_congr rfl fun r hr => ?_
  have : r < M := mem_range.mp hr
  rw [if_pos (by omega)]

/-- With two tiles of `M` threads, thread 0 stores the sum of the two tile results, which
is the sum of the registers of all the threads of the block. -/
theorem multi_warp_inblock (M : Nat) (g_idata : Mem) (n gridDim blockIdx : Nat) (junk : Junk)
    (threadVal : Nat → Int) (hM : 0 < M)
    (h1 : allThreads (2 * M)
      (gridStride (isPow2 n) g_idata n (2 * M) (fun i => i + 2 * M) (2 * M) gridDim blockIdx) =
        some threadVal) :
    multi_warp_cg_reduce (2 * M) M g_idata n gridDim (2 * M) blockIdx junk =
      some (cg_reduce_n (2 * M) threadVal 0 M + cg_reduce_n (2 * M) threadVal M M) ∧
    cg_reduce_n (2 * M) threadVal 0 M + cg_reduce_n (2 * M) threadVal M M =
      ∑ t in range (2 * M), threadVal t := by
  have hdiv : 2 * M / M = 2 := Nat.mul_div_cancel 2 hM
  have h0 : (0 * M) / M * M = 0 := by simp
  have h1M : (1 * M) / M * M = M := by rw [Nat.mul_div_cancel 1 hM, one_mul]
  constructor
  · rw [multi_warp_cg_reduce, h1, Option.map_some', hdiv]
    refine congrArg some ?_
    simp only [List.range_succ, List.range_zero, List.nil_append, List.foldl_append,
      List.foldl_cons, List.foldl_nil, List.singleton_append, zero_add]
    rw [if_pos (by omega), if_pos (by omega), h0, h1M]
  · rw [cg_reduce_n_tile _ _ _ _ (by omega), cg_reduce_n_tile _ _ _ _ (by omega),
      sum_range_halves, sum_add_distrib]
    congr 1
    · exact sum_congr rfl fun r _ => by rw [zero_add]
    · exact sum_congr rfl fun r _ => by rw [Nat.add_comm]

/-! ### Strategy 6 under the exact no-wrap bound of each variant -/

/-- The launch of strategy 6 sums its input when no index of the variant it selects wraps:
`n + 2 * blocks * threads ≤ 2^32` for `nIsPow2 = true`, `n + blocks * threads ≤ 2^32` for
`nIsPow2 = false`. -/
theorem exec_total6 (sizeofT n threads blocks : Nat) (junk : Nat → Junk)
    (d_idata d_odata : Mem) (ht : threads ∈ [32, 64, 128, 256, 512]) (hblocks : 1 ≤ blocks)
    (hwrap : if isPow2 n = true then n + 2 * blocks * threads ≤ 4294967296
      else n + blocks * threads ≤ 4294967296) :
    ∃ out, (reduce sizeofT n threads blocks 6).exec junk d_idata d_odata = some out ∧
      ∑ b in range blocks, out b = ∑ i in range n, d_idata i := by
  by_cases hp : isPow2 n = true
  · rw [if_pos hp] at hwrap
    obtain ⟨out, h1, h2, -⟩ := exec_total sizeofT n threads blocks 6 junk d_idata d_odata
      (Or.inr (Or.inr (Or.inr (Or.inl ⟨rfl, ht⟩)))) hblocks hwrap
    exact ⟨out, h1, h2⟩
  · rw [if_neg hp] at hwrap
    have hpos : 0 < threads := by
      simp only [List.mem_cons, List.mem_singleton, List.not_mem_nil, or_false] at ht
      omega
    obtain ⟨smem, hd⟩ := reduce_launch6 sizeofT n threads blocks (mem_threadCases ht)
    rw [Bool.not_eq_true] at hp
    rw [hp] at hd
    have hblock : ∀ b, b < blocks →
        runKernel (Kernel.reduce6 threads false) d_idata n blocks threads b (junk b) =
          some (∑ t in range threads, gridStrideSum false d_idata n threads blocks b t) := by
      intro b hb
      obtain ⟨mySum, h1, h2⟩ := allThreads_spec threads
        (gridStride false d_idata n threads (fun i => u32 (i + threads)) threads blocks b)
        (gridStrideSum false d_idata n threads blocks b)
        (fun tid htid => by
          have h := strideLoop_grid d_idata n blocks threads b tid hpos hb htid hwrap
          simp only [gridStride, gridStrideSum, Bool.false_eq_true, if_false]
          rw [Nat.mul_comm threads blocks, h, Nat.mul_comm blocks threads])
      rw [runKernel, reduce6_inblock threads false d_idata n blocks b (junk b) mySum ht h1]
      exact congrArg some (sum_congr rfl fun t ht' => h2 t (mem_range.mp ht'))
    obtain ⟨out, h1, h2, -⟩ := launch_total _ (Kernel.reduce6 threads false) smem n threads blocks
      junk d_idata d_odata _ (∑ i in range n, d_idata i) hd hpos hblock
      (sum_gridStrideSum false d_idata n threads blocks hpos hblocks)
    exact ⟨out, h1, h2⟩

/-! ### Rounding to a binary floating-point format -/

theorem roundEven_intCast (j : Int) : roundEven (j : ℚ) = j := by
  simp [roundEven]

theorem le_roundEven (j : Int) (y : ℚ) (h : (j : ℚ) ≤ y) : j ≤ roundEven y := by
  have hf : j ≤ ⌊y⌋ := Int.le_floor.mpr h
  unfold roundEven
  dsimp only
  split_ifs <;> omega

theorem roundEven_le (j : Int) (y : ℚ) (h : y ≤ (j : ℚ)) : roundEven y ≤ j := by
  have hf : ⌊y⌋ ≤ j := Int.floor_le_floor h |>.trans (by simp)
  have hfl := Int.floor_le y
  unfold roundEven
  dsimp only
  by_cases hj : ⌊y⌋ = j
  · have : y - (⌊y⌋ : ℚ) < 1 / 2 := by
      rw [hj]; linarith
    rw [if_pos this]; omega
  · have : ⌊y⌋ + 1 ≤ j := by omega
    split_ifs <;> omega

theorem roundEven_sub_le (y : ℚ) : |(roundEven y : ℚ) - y| ≤ 1 / 2 := by
  have h1 := Int.floor_le y
  have h2 := Int.lt_floor_add_one y
  unfold roundEven
  dsimp only
  split_ifs with a b c
  · rw [abs_le]; constructor <;> linarith
  · push_cast; rw [abs_le]; constructor <;> linarith
  · rw [abs_le]; constructor <;> linarith
  · push_cast; rw [abs_le]; constructor <;> linarith

theorem zpow_two_pos (t : Int) : (0 : ℚ) < 2 ^ t := zpow_pos (by norm_num) t

/-- A rational of the form `m * 2 ^ t` with `t ≥ s` is an integer multiple of `2 ^ s`. -/
theorem div_zpow_int (m : Int) (s t : Int) (h : s ≤ t) :
    ∃ J : Int, (m : ℚ) * 2 ^ t / 2 ^ s = (J : ℚ) ∧ J = m * 2 ^ (t - s).toNat := by
  refine ⟨m * 2 ^ (t - s).toNat, ?_, rfl⟩
  have h2 : (2 : ℚ) ^ t = 2 ^ ((t - s).toNat : Int) * 2 ^ s := by
    rw [← zpow_add₀ (by norm_num : (2 : ℚ) ≠ 0)]
    congr 1
    rw [Int.toNat_of_nonneg (by omega)]; ring
  rw [h2, zpow_natCast]
  push_cast
  field_simp
  ring

/-- Values with a `p`-bit significand are not changed by rounding. -/
theorem roundTo_exact (p : Nat) (emin : Int) (m t : Int) (hm : |m| < 2 ^ p) (ht : emin ≤ t) :
    roundTo p emin ((m : ℚ) * 2 ^ t) = (m : ℚ) * 2 ^ t := by
  by_cases hm0 : m = 0
  · simp [roundTo, hm0]
  have hx : (m : ℚ) * 2 ^ t ≠ 0 := mul_ne_zero (by exact_mod_cast hm0) (zpow_two_pos t).ne'
  have habs : |(m : ℚ) * 2 ^ t| < 2 ^ ((p : Int) + t) := by
    rw [abs_mul, abs_of_pos (zpow_two_pos t), zpow_add₀ (by norm_num : (2 : ℚ) ≠ 0), zpow_natCast]
    refine mul_lt_mul_of_pos_right ?_ (zpow_two_pos t)
    exact_mod_cast hm
  have hlog : Int.log 2 |(m : ℚ) * 2 ^ t| < (p : Int) + t :=
    (Int.lt_zpow_iff_log_lt (by norm_num) (abs_pos.mpr hx)).mp (by exact_mod_cast habs)
  have hs : max (Int.log 2 |(m : ℚ) * 2 ^ t| - ((p : Int) - 1)) emin ≤ t :=
    max_le (by omega) ht
  obtain ⟨J, hJ, -⟩ := div_zpow_int m _ t hs
  rw [roundTo, if_neg hx]
  dsimp only
  rw [hJ, roundEven_intCast, ← hJ]
  field_simp

/-- Rounding does not go above a value with a `p`-bit significand that is not below the
argument. -/
theorem roundTo_le (p : Nat) (emin : Int) (x : ℚ) (m t : Int) (hp : 1 ≤ p) (hx : 0 < x)
    (hm : m ≤ 2 ^ p) (ht : emin ≤ t) (h : x ≤ (m : ℚ) * 2 ^ t) :
    roundTo p emin x ≤ (m : ℚ) * 2 ^ t := by
  have hle := Int.zpow_log_le_self (b := 2) (by norm_num) hx
  by_cases hs : max (Int.log 2 |x| - ((p : Int) - 1)) emin ≤ t
  · obtain ⟨J, hJ, -⟩ := div_zpow_int m _ t hs
    have hy : x / 2 ^ (max (Int.log 2 |x| - ((p : Int) - 1)) emin) ≤ (J : ℚ) := by
      rw [← hJ]; exact div_le_div_of_nonneg_right h (zpow_two_pos _).le
    have hr := roundEven_le J _ hy
    rw [roundTo, if_neg hx.ne']
    dsimp only
    have hr' : ((roundEven (x / 2 ^ (max (Int.log 2 |x| - ((p : Int) - 1)) emin)) : Int) : ℚ) ≤
        (J : ℚ) := by exact_mod_cast hr
    calc _ ≤ (J : ℚ) * 2 ^ (max (Int.log 2 |x| - ((p : Int) - 1)) emin) :=
          mul_le_mul_of_nonneg_right hr' (zpow_two_pos _).le
      _ = (m : ℚ) * 2 ^ t := by rw [← hJ]; field_simp
  · -- the bound lies in a lower binade: then `x` is the power of two between them
    have hs' : t < Int.log 2 |x| - ((p : Int) - 1) := by
      rcases le_total (Int.log 2 |x| - ((p : Int) - 1)) emin with h1 | h1
      · rw [max_eq_right h1] at hs; omega
      · rw [max_eq_left h1] at hs; omega
    rw [abs_of_pos hx] at hs'
    have hb : (m : ℚ) * 2 ^ t ≤ 2 ^ Int.log 2 x := by
      calc (m : ℚ) * 2 ^ t ≤ 2 ^ p * 2 ^ t :=
            mul_le_mul_of_nonneg_right (by exact_mod_cast hm) (zpow_two_pos t).le
        _ = 2 ^ ((p : Int) + t) := by
            rw [zpow_add₀ (by norm_num : (2 : ℚ) ≠ 0), zpow_natCast]
        _ ≤ 2 ^ Int.log 2 x := zpow_le_zpow_right₀ (by norm_num) (by omega)
    have hle' : (2 : ℚ) ^ Int.log 2 x ≤ x := by exact_mod_cast hle
    have hxe : x = ((2 ^ (p - 1) : Int) : ℚ) * 2 ^ (Int.log 2 x - ((p : Int) - 1)) := by
      have e1 : ((2 ^ (p - 1) : Int) : ℚ) * 2 ^ (Int.log 2 x - ((p : Int) - 1)) =
          2 ^ Int.log 2 x := by
        push_cast
        rw [← zpow_natCast, ← zpow_add₀ (by norm_num : (2 : ℚ) ≠ 0)]
        congr 1
        rw [Nat.cast_sub hp]; push_cast; ring
      rw [e1]; exact le_antisymm (le_trans h hb) hle'
    have hE := roundTo_exact p emin (2 ^ (p - 1)) (Int.log 2 x - ((p : Int) - 1))
      (by rw [abs_of_pos (by positivity)]; exact pow_lt_pow_right₀ (by norm_num) (by omega))
      (by omega)
    rw [← hxe] at hE
    rw [hE]; exact h

/-- Rounding does not go below a value with a `p`-bit significand that is not above the
argument. -/
theorem le_roundTo (p : Nat) (emin : Int) (x : ℚ) (m t : Int) (hp : 1 ≤ p) (hx : 0 < x)
    (hm : m ≤ 2 ^ p) (ht : emin ≤ t) (h : (m : ℚ) * 2 ^ t ≤ x) :
    (m : ℚ) * 2 ^ t ≤ roundTo p emin x := by
  have hle := Int.zpow_log_le_self (b := 2) (by norm_num) hx
  have hle' : (2 : ℚ) ^ Int.log 2 x ≤ x := by exact_mod_cast hle
  rw [roundTo, if_neg hx.ne']
  dsimp only
  by_cases hs : max (Int.log 2 |x| - ((p : Int) - 1)) emin ≤ t
  · obtain ⟨J, hJ, -⟩ := div_zpow_int m _ t hs
    have hy : (J : ℚ) ≤ x / 2 ^ (max (Int.log 2 |x| - ((p : Int) - 1)) emin) := by
      rw [← hJ]; exact div_le_div_of_nonneg_right h (zpow_two_pos _).le
    have hr := le_roundEven J _ hy
    have hr' : (J : ℚ) ≤
        ((roundEven (x / 2 ^ (max (Int.log 2 |x| - ((p : Int) - 1)) emin)) : Int) : ℚ) := by
      exact_mod_cast hr
    calc (m : ℚ) * 2 ^ t = (J : ℚ) * 2 ^ (max (Int.log 2 |x| - ((p : Int) - 1)) emin) := by
          rw [← hJ]; field_simp
      _ ≤ _ := mul_le_mul_of_nonneg_right hr' (zpow_two_pos _).le
  · have hs' : t < Int.log 2 |x| - ((p : Int) - 1) ∧
        max (Int.log 2 |x| - ((p : Int) - 1)) emin = Int.log 2 |x| - ((p : Int) - 1) := by
      rcases le_total (Int.log 2 |x| - ((p : Int) - 1)) emin with h1 | h1
      · rw [max_eq_right h1] at hs; omega
      · rw [max_eq_left h1] at hs ⊢; exact ⟨by omega, rfl⟩
    rw [hs'.2]
    have hs1 := hs'.1
    rw [abs_of_pos hx] at hs1 ⊢
    have hb : (m : ℚ) * 2 ^ t ≤ 2 ^ Int.log 2 x := by
      calc (m : ℚ) * 2 ^ t ≤ 2 ^ p * 2 ^ t :=
            mul_le_mul_of_nonneg_right (by exact_mod_cast hm) (zpow_two_pos t).le
        _ = 2 ^ ((p : Int) + t) := by
            rw [zpow_add₀ (by norm_num : (2 : ℚ) ≠ 0), zpow_natCast]
        _ ≤ 2 ^ Int.log 2 x := zpow_le_zpow_right₀ (by norm_num) (by omega)
    obtain ⟨J, hJ, hJ2⟩ := div_zpow_int 1 (Int.log 2 x - ((p : Int) - 1)) (Int.log 2 x)
      (by omega)
    rw [Int.cast_one, one_mul] at hJ
    have hy : (J : ℚ) ≤ x / 2 ^ (Int.log 2 x - ((p : Int) - 1)) := by
      rw [← hJ]; exact div_le_div_of_nonneg_right hle' (zpow_two_pos _).le
    have hr := le_roundEven J _ hy
    have hr' : (J : ℚ) ≤
        ((roundEven (x / 2 ^ (Int.log 2 x - ((p : Int) - 1))) : Int) : ℚ) := by
      exact_mod_cast hr
    calc (m : ℚ) * 2 ^ t ≤ 2 ^ Int.log 2 x := hb
      _ = (J : ℚ) * 2 ^ (Int.log 2 x - ((p : Int) - 1)) := by rw [← hJ]; field_simp
      _ ≤ _ := mul_le_mul_of_nonneg_right hr' (zpow_two_pos _).le

theorem toInt_of_nonneg (x : ℚ) (h : 0 ≤ x) : toInt x = ⌊x⌋ := by
  rw [toInt, Int.tdiv_eq_ediv (Rat.num_nonneg.mpr h) (by positivity), ← Rat.floor_def]

theorem roundTo_zero (p : Nat) (emin : Int) : roundTo p emin 0 = 0 := by simp [roundTo]

theorem roundTo_of_pos (p : Nat) (emin : Int) (x : ℚ) (hx : 0 < x) :
    roundTo p emin x =
      (roundEven (x / 2 ^ (max (Int.log 2 x - ((p : Int) - 1)) emin)) : ℚ) *
        2 ^ (max (Int.log 2 x - ((p : Int) - 1)) emin) := by
  rw [roundTo, if_neg hx.ne', abs_of_pos hx]

/-- Values with a significand of magnitude at most `2 ^ p` are not changed by rounding. -/
theorem roundTo_exact_le (p : Nat) (emin : Int) (m t : Int) (hp : 1 ≤ p) (hm : |m| ≤ 2 ^ p)
    (ht : emin ≤ t) : roundTo p emin ((m : ℚ) * 2 ^ t) = (m : ℚ) * 2 ^ t := by
  rcases lt_or_eq_of_le hm with h | h
  · exact roundTo_exact p emin m t h ht
  · have h2 : (2 : Int) ^ p = 2 * 2 ^ (p - 1) := by
      rw [← pow_succ']; congr 1; omega
    have hm2 : (m : ℚ) * 2 ^ t = ((m / 2 : Int) : ℚ) * 2 ^ (t + 1) := by
      have hdiv : m = 2 * (m / 2) := by
        rw [h2] at h
        rcases abs_cases m with ⟨e, _⟩ | ⟨e, _⟩ <;> omega
      rw [zpow_add₀ (by norm_num : (2 : ℚ) ≠ 0), zpow_one]
      conv_lhs => rw [hdiv]
      push_cast; ring
    rw [hm2]
    refine roundTo_exact p emin (m / 2) (t + 1) ?_ (by omega)
    rw [h2] at h
    have : (2 : Int) ^ p = 2 * 2 ^ (p - 1) := h2
    have hpos : (0 : Int) < 2 ^ (p - 1) := by positivity
    rw [this]
    rcases abs_cases m with ⟨e, _⟩ | ⟨e, _⟩ <;> rcases abs_cases (m / 2) with ⟨e', _⟩ | ⟨e', _⟩ <;>
      omega

theorem F32.round_exact (m t : Int) (hm : |m| ≤ 2 ^ 24) (ht : -149 ≤ t)
    (hfin : |(m : ℚ) * 2 ^ t| < 2 ^ 128) : F32.round ((m : ℚ) * 2 ^ t) = F32.fin ((m : ℚ) * 2 ^ t) := by
  rw [F32.round, roundTo_exact_le 24 (-149) m t (by norm_num) hm ht, if_pos hfin]

/-- Integers of magnitude at most `2 ^ 24` are `float` values. -/
theorem F32.round_int (z : Int) (h : |z| ≤ 16777216) : F32.round (z : ℚ) = F32.fin (z : ℚ) := by
  have := F32.round_exact z 0 (by norm_num; exact h) (by norm_num) (by
    rw [zpow_zero, mul_one]
    have : |(z : ℚ)| ≤ 16777216 := by exact_mod_cast h
    exact lt_of_le_of_lt this (by norm_num))
  simpa using this

theorem F32.ofInt_small (z : Int) (h : |z| ≤ 16777216) : F32.ofInt z = F32.fin (z : ℚ) :=
  F32.round_int z h

/-- The conversion to `float` of a positive `int`. -/
theorem F32.ofInt_nat (n : Nat) (h1 : 1 ≤ n) (h : n < 2147483648) :
    ∃ F : ℚ, F32.ofInt (n : Int) = F32.fin F ∧ 0 < F ∧ F ≤ 2147483648 ∧
      (n ≤ 16777216 → F = (n : ℚ)) ∧ (16777216 ≤ n → 16777216 ≤ F) := by
  by_cases hs : n ≤ 16777216
  · refine ⟨(n : ℚ), ?_, by exact_mod_cast h1, by exact_mod_cast h.le, fun _ => rfl, fun h2 => by
      exact_mod_cast h2⟩
    have := F32.ofInt_small (n : Int) (by rw [abs_of_nonneg (by positivity)]; exact_mod_cast hs)
    simpa using this
  · have hx : (0 : ℚ) < ((n : Int) : ℚ) := by exact_mod_cast h1
    have hlo := le_roundTo 24 (-149) ((n : Int) : ℚ) 16777216 0 (by norm_num) hx (by norm_num)
      (by norm_num) (by
        rw [zpow_zero, mul_one]
        have : (16777216 : ℚ) ≤ (n : ℚ) := by exact_mod_cast (by omega : 16777216 ≤ n)
        simpa using this)
    have hhi := roundTo_le 24 (-149) ((n : Int) : ℚ) 16777216 7 (by norm_num) hx (by norm_num)
      (by norm_num) (by
        have : ((n : Int) : ℚ) ≤ 2147483648 := by exact_mod_cast h.le
        refine le_trans this ?_
        norm_num)
    rw [zpow_zero, mul_one] at hlo
    have e7 : ((16777216 : Int) : ℚ) * 2 ^ (7 : Int) = 2147483648 := by norm_num
    rw [e7] at hhi
    have hlo' : (16777216 : ℚ) ≤ roundTo 24 (-149) ((n : Int) : ℚ) := by simpa using hlo
    refine ⟨roundTo 24 (-149) ((n : Int) : ℚ), ?_, by linarith, hhi, fun h2 => absurd h2 hs,
      fun _ => hlo'⟩
    rw [F32.ofInt, F32.round, if_pos]
    rw [abs_of_nonneg (by linarith)]
    exact lt_of_le_of_lt hhi (by norm_num)

theorem F32.fin_div (x y : ℚ) (hy : y ≠ 0) : F32.fin x / F32.fin y = F32.round (x / y) := by
  show (if y = 0 then F32.nonfinite else F32.round (x / y)) = _
  rw [if_neg hy]

/-- The `float` quotient of `N < 2^23` by `T ≤ 2^24` stays on the side of the half-integer
on which the exact quotient lies, and the sum with `0.5` is exact in `double`. -/
theorem round_quot_small (N T : Nat) (hN1 : 1 ≤ N) (hN : N < 8388608) (hT1 : 1 ≤ T)
    (hT : T ≤ 16777216) :
    ∃ q : ℚ, roundTo 24 (-149) ((N : ℚ) / (T : ℚ)) = q ∧ |q| < 2 ^ 128 ∧
      (((2 * N + T) / (2 * T) : Nat) : ℚ) ≤ q + 1 / 2 ∧
      q + 1 / 2 < (((2 * N + T) / (2 * T) : Nat) : ℚ) + 1 ∧
      roundTo 53 (-1074) (q + 1 / 2) = q + 1 / 2 := by
  have hTq : (0 : ℚ) < (T : ℚ) := by exact_mod_cast hT1
  have hNq : (1 : ℚ) ≤ (N : ℚ) := by exact_mod_cast hN1
  have hNq2 : (N : ℚ) < 8388608 := by exact_mod_cast hN
  have hTq2 : (T : ℚ) ≤ 16777216 := by exact_mod_cast hT
  have hx : (0 : ℚ) < (N : ℚ) / (T : ℚ) := by positivity
  set x : ℚ := (N : ℚ) / (T : ℚ) with hxdef
  have hxlo : ((2 : ℕ) : ℚ) ^ (-24 : Int) ≤ x := by
    rw [hxdef, le_div_iff₀ hTq]
    norm_num
    linarith
  have hxhi : x < ((2 : ℕ) : ℚ) ^ (23 : Int) := by
    rw [hxdef, div_lt_iff₀ hTq]
    norm_num
    have : (1 : ℚ) ≤ (T : ℚ) := by exact_mod_cast hT1
    nlinarith
  have he1 : -24 ≤ Int.log 2 x := (Int.zpow_le_iff_le_log (by norm_num) hx).mp hxlo
  have he2 : Int.log 2 x < 23 := (Int.lt_zpow_iff_log_lt (by norm_num) hx).mp hxhi
  have hs : max (Int.log 2 x - (((24 : Nat) : Int) - 1)) (-149) = Int.log 2 x - 23 := by
    rw [max_eq_left (by omega)]; norm_num
  have hpe := Int.zpow_log_le_self (b := 2) (by norm_num) hx
  have hpe2 := Int.lt_zpow_succ_log_self (b := 2) (by norm_num) x
  have hq : roundTo 24 (-149) x =
      (roundEven (x / 2 ^ (Int.log 2 x - 23)) : ℚ) * 2 ^ (Int.log 2 x - 23) := by
    rw [roundTo_of_pos _ _ _ hx, hs]
  generalize Int.log 2 x = e at he1 he2 hs hpe hpe2 hq
  have hpe' : (2 : ℚ) ^ e ≤ x := by exact_mod_cast hpe
  have hpe2' : x < (2 : ℚ) ^ (e + 1) := by exact_mod_cast hpe2
  have h2s : (2 : ℚ) ^ (e - 23) * 8388608 = 2 ^ e := by
    rw [show (8388608 : ℚ) = 2 ^ (23 : Int) by norm_num, ← zpow_add₀ (by norm_num : (2 : ℚ) ≠ 0)]
    congr 1; ring
  have hspos := zpow_two_pos (e - 23)
  -- the scaled quotient and its rounding
  have hy1 : ((8388608 : Int) : ℚ) ≤ x / 2 ^ (e - 23) := by
    rw [le_div_iff₀ hspos]; push_cast; linarith
  have hy2 : x / 2 ^ (e - 23) ≤ ((16777216 : Int) : ℚ) := by
    rw [div_le_iff₀ hspos]
    have : (2 : ℚ) ^ (e + 1) = 2 ^ (e - 23) * 16777216 := by
      rw [show (16777216 : ℚ) = 2 ^ (24 : Int) by norm_num,
        ← zpow_add₀ (by norm_num : (2 : ℚ) ≠ 0)]
      congr 1; ring
    push_cast; linarith
  have hr1 := le_roundEven _ _ hy1
  have hr2 := roundEven_le _ _ hy2
  have hrd := roundEven_sub_le (x / 2 ^ (e - 23))
  generalize roundEven (x / 2 ^ (e - 23)) = r at hr1 hr2 hrd hq
  have hr1' : (8388608 : ℚ) ≤ (r : ℚ) := by exact_mod_cast hr1
  have hr2' : (r : ℚ) ≤ 16777216 := by exact_mod_cast hr2
  -- the rounding error
  have herr : |(r : ℚ) * 2 ^ (e - 23) - x| ≤ 2 ^ (e - 23) / 2 := by
    have : (r : ℚ) * 2 ^ (e - 23) - x = ((r : ℚ) - x / 2 ^ (e - 23)) * 2 ^ (e - 23) := by
      field_simp
    rw [this, abs_mul, abs_of_pos hspos]
    calc |(r : ℚ) - x / 2 ^ (e - 23)| * 2 ^ (e - 23) ≤ 1 / 2 * 2 ^ (e - 23) :=
          mul_le_mul_of_nonneg_right hrd hspos.le
      _ = 2 ^ (e - 23) / 2 := by ring
  rw [abs_le] at herr
  -- the block count in exact arithmetic
  have hdm := Nat.div_add_mod (2 * N + T) (2 * T)
  have hml := Nat.mod_lt (2 * N + T) (show 0 < 2 * T by omega)
  have hk : (2 * N + T) / (2 * T) < N + 2 :=
    Nat.div_lt_of_lt_mul (by
      have : 2 * N ≤ 2 * T * N := Nat.mul_le_mul_right N (by omega)
      have e : 2 * T * (N + 2) = 2 * T * N + 4 * T := by ring
      omega)
  set k : Nat := (2 * N + T) / (2 * T) with hkdef
  have hp1 : 2 * (T : ℚ) * (k : ℚ) ≤ 2 * (N : ℚ) + (T : ℚ) := by
    have : 2 * T * k ≤ 2 * N + T := by omega
    exact_mod_cast this
  have hp2 : 2 * (N : ℚ) + 1 ≤ 2 * (T : ℚ) * (k : ℚ) + (T : ℚ) := by
    have : 2 * N + 1 ≤ 2 * T * k + T := by omega
    exact_mod_cast this
  have hxT : x * (T : ℚ) = (N : ℚ) := by rw [hxdef]; field_simp
  refine ⟨(r : ℚ) * 2 ^ (e - 23), hq, ?_, ?_, ?_, ?_⟩
  · rw [abs_of_nonneg (by positivity)]
    have : (r : ℚ) * 2 ^ (e - 23) ≤ x + 2 ^ (e - 23) / 2 := by linarith [herr.2]
    have h3 : (2 : ℚ) ^ (e - 23) ≤ x := by linarith
    have : x < 8388608 := by
      refine lt_of_lt_of_le hxhi ?_; norm_num
    norm_num
    linarith
  · -- lower side
    rcases Nat.eq_zero_or_pos k with h0 | h0
    · rw [h0]; push_cast
      have : (0 : ℚ) ≤ (r : ℚ) * 2 ^ (e - 23) := by positivity
      linarith
    · have hm : ((2 * (k : Int) - 1 : Int) : ℚ) * 2 ^ (-1 : Int) ≤ x := by
        rw [hxdef, le_div_iff₀ hTq]
        push_cast
        rw [show (2 : ℚ) ^ (-1 : Int) = 1 / 2 by norm_num,
          show (2 * (k : ℚ) - 1) * (1 / 2) * (T : ℚ) = (2 * (T : ℚ) * (k : ℚ) - (T : ℚ)) / 2 by
            ring]
        linarith
      have := le_roundTo 24 (-149) x (2 * (k : Int) - 1) (-1) (by norm_num) hx
        (by norm_num; omega) (by norm_num) hm
      rw [hq] at this
      push_cast at this
      rw [show (2 : ℚ) ^ (-1 : Int) = 1 / 2 by norm_num] at this
      linarith
  · -- upper side
    have h3 : (2 : ℚ) ^ (e - 23) * 8388608 ≤ x := by rw [h2s]; exact hpe'
    have h4 : (r : ℚ) * 2 ^ (e - 23) ≤ x + 2 ^ (e - 23) / 2 := by linarith [herr.2]
    have h5 : (x + 2 ^ (e - 23) / 2) * (T : ℚ) < ((k : ℚ) + 1 / 2) * (T : ℚ) := by
      have : 2 ^ (e - 23) / 2 * (T : ℚ) ≤ x * (T : ℚ) / 16777216 := by
        have : (2 : ℚ) ^ (e - 23) / 2 ≤ x / 16777216 := by linarith
        calc 2 ^ (e - 23) / 2 * (T : ℚ) ≤ x / 16777216 * (T : ℚ) :=
              mul_le_mul_of_nonneg_right this hTq.le
          _ = x * (T : ℚ) / 16777216 := by ring
      rw [hxT] at this
      rw [add_mul, hxT, show ((k : ℚ) + 1 / 2) * (T : ℚ) =
        (2 * (T : ℚ) * (k : ℚ) + (T : ℚ)) / 2 by ring]
      linarith
    have h6 := lt_of_mul_lt_mul_right h5 hTq.le
    linarith
  · -- the sum with 0.5 has a significand of at most 53 bits
    have hexp : (2 : ℚ) ^ (((-1 - (e - 23)).toNat : Nat) : Int) * 2 ^ (e - 23) = 1 / 2 := by
      rw [← zpow_add₀ (by norm_num : (2 : ℚ) ≠ 0), Int.toNat_of_nonneg (by omega)]
      rw [show -1 - (e - 23) + (e - 23) = -1 by ring]; norm_num
    have hv : (r : ℚ) * 2 ^ (e - 23) + 1 / 2 =
        ((r + 2 ^ (-1 - (e - 23)).toNat : Int) : ℚ) * 2 ^ (e - 23) := by
      push_cast
      rw [add_mul, ← zpow_natCast, hexp]
    rw [hv]
    refine roundTo_exact_le 53 (-1074) _ _ (by norm_num) ?_ (by omega)
    have hpow : (2 : Int) ^ (-1 - (e - 23)).toNat ≤ 2 ^ 46 :=
      pow_le_pow_right₀ (by norm_num) (by omega)
    have hpos : (0 : Int) < 2 ^ (-1 - (e - 23)).toNat := by positivity
    rw [abs_of_nonneg (by omega)]
    norm_num at hpow ⊢
    omega

theorem floor_eq_natCast (v : ℚ) (k : Nat) (h1 : (k : ℚ) ≤ v) (h2 : v < (k : ℚ) + 1) :
    (toInt v).toNat = k := by
  rw [toInt_of_nonneg v (le_trans (by positivity) h1)]
  have : ⌊v⌋ = (k : Int) := by
    rw [Int.floor_eq_iff]; exact ⟨by exact_mod_cast h1, by exact_mod_cast h2⟩
  rw [this]; rfl

/-- The block count from the `float` quotient `q`. -/
theorem nblock_of_quot (N T : Nat) (x y q d : ℚ) (k : Nat) (hN : F32.ofInt (N : Int) = F32.fin x)
    (hT : F32.ofInt (T : Int) = F32.fin y) (hy : y ≠ 0) (hq : F32.round (x / y) = F32.fin q)
    (hd : roundTo 53 (-1074) (q + 1 / 2) = d) (h1 : (k : ℚ) ≤ d) (h2 : d < (k : ℚ) + 1)
    (h3 : d < 2147483648) : nblock N T = some k := by
  unfold nblock
  rw [hN, hT, F32.fin_div _ _ hy, hq]
  simp only []
  rw [hd, if_pos h3]
  rw [floor_eq_natCast d k h1 h2]

/-- A quotient below one half: the `float` quotient and the `double` sum stay below. -/
theorem round_quot_tiny (x : ℚ) (hx : 0 < x) (hle : x ≤ 8388607 / 16777216) :
    |roundTo 24 (-149) x| < 2 ^ 128 ∧ 0 ≤ roundTo 53 (-1074) (roundTo 24 (-149) x + 1 / 2) ∧
      roundTo 53 (-1074) (roundTo 24 (-149) x + 1 / 2) < 1 := by
  have e1 : ((8388607 : Int) : ℚ) * 2 ^ (-24 : Int) = 8388607 / 16777216 := by norm_num
  have e2 : ((16777215 : Int) : ℚ) * 2 ^ (-24 : Int) = 16777215 / 16777216 := by norm_num
  have e0 : ((0 : Int) : ℚ) * 2 ^ (0 : Int) = 0 := by norm_num
  have hq2 := roundTo_le 24 (-149) x 8388607 (-24) (by norm_num) hx (by norm_num)
    (by norm_num) (by rw [e1]; exact hle)
  have hq1 := le_roundTo 24 (-149) x 0 0 (by norm_num) hx (by norm_num) (by norm_num)
    (by rw [e0]; exact hx.le)
  rw [e0] at hq1
  rw [e1] at hq2
  have hv : (0 : ℚ) < roundTo 24 (-149) x + 1 / 2 := by linarith
  have hd2 := roundTo_le 53 (-1074) _ 16777215 (-24) (by norm_num) hv (by norm_num)
    (by norm_num) (by rw [e2]; linarith)
  have hd1 := le_roundTo 53 (-1074) _ 0 0 (by norm_num) hv (by norm_num) (by norm_num)
    (by rw [e0]; exact hv.le)
  rw [e0] at hd1
  rw [e2] at hd2
  refine ⟨?_, hd1, by linarith⟩
  rw [abs_of_nonneg hq1]
  exact lt_of_le_of_lt hq2 (by norm_num)

/-- For `N < 2^23` the block count computed in `float` is the quotient rounded half up. -/
theorem nblock_eq (N T : Nat) (hN : N < 8388608) (hT1 : 1 ≤ T) (hT : T < 2147483648) :
    nblock N T = some ((2 * N + T) / (2 * T)) := by
  obtain ⟨F, hF, hFpos, hFle, hFs, hFl⟩ := F32.ofInt_nat T hT1 hT
  have hNf : F32.ofInt (N : Int) = F32.fin (N : ℚ) := by
    have := F32.ofInt_small (N : Int)
      (by rw [abs_of_nonneg (by positivity)]; exact_mod_cast (by omega : N ≤ 16777216))
    simpa using this
  have hkN : (2 * N + T) / (2 * T) < N + 2 :=
    Nat.div_lt_of_lt_mul (by
      have : 2 * N ≤ 2 * T * N := Nat.mul_le_mul_right N (by omega)
      have e : 2 * T * (N + 2) = 2 * T * N + 4 * T := by ring
      omega)
  have hbound : ∀ d : ℚ, d < (((2 * N + T) / (2 * T) : Nat) : ℚ) + 1 → d < 2147483648 := by
    intro d hd
    have : (((2 * N + T) / (2 * T) : Nat) : ℚ) + 1 ≤ (N : ℚ) + 2 := by
      have : (2 * N + T) / (2 * T) + 1 ≤ N + 2 := by omega
      exact_mod_cast this
    have h2 : (N : ℚ) < 8388608 := by exact_mod_cast hN
    linarith
  rcases Nat.eq_zero_or_pos N with h0 | h0
  · subst h0
    have hk0 : (2 * 0 + T) / (2 * T) = 0 := Nat.div_eq_of_lt (by omega)
    have hd : roundTo 53 (-1074) ((0 : ℚ) + 1 / 2) = 1 / 2 := by
      have := roundTo_exact_le 53 (-1074) 1 (-1) (by norm_num) (by norm_num) (by norm_num)
      norm_num at this ⊢
      exact this
    refine nblock_of_quot 0 T _ F 0 (1 / 2) _ hNf hF hFpos.ne' ?_ hd ?_ ?_ (by norm_num)
    · rw [Nat.cast_zero, zero_div, F32.round, roundTo_zero, if_pos (by norm_num)]
    · rw [hk0]; norm_num
    · rw [hk0]; norm_num
  · by_cases hs : T ≤ 16777216
    · obtain ⟨q, hq, hfin, h1, h2, h3⟩ := round_quot_small N T h0 hN hT1 hs
      refine nblock_of_quot N T _ F q (q + 1 / 2) _ hNf hF hFpos.ne' ?_ h3 h1 h2 (hbound _ h2)
      rw [hFs hs, F32.round, hq, if_pos hfin]
    · have hF24 : (16777216 : ℚ) ≤ F := hFl (by omega)
      have hx : (0 : ℚ) < (N : ℚ) / F := by
        have : (0 : ℚ) < (N : ℚ) := by exact_mod_cast h0
        positivity
      have hxle : (N : ℚ) / F ≤ 8388607 / 16777216 := by
        rw [div_le_iff₀ hFpos]
        have : (N : ℚ) ≤ 8388607 := by exact_mod_cast (by omega : N ≤ 8388607)
        linarith
      obtain ⟨hfin, hd1, hd2⟩ := round_quot_tiny _ hx hxle
      have hk0 : (2 * N + T) / (2 * T) = 0 := Nat.div_eq_of_lt (by omega)
      refine nblock_of_quot N T _ F (roundTo 24 (-149) ((N : ℚ) / F))
        (roundTo 53 (-1074) (roundTo 24 (-149) ((N : ℚ) / F) + 1 / 2)) _ hNf hF hFpos.ne'
        ?_ rfl ?_ ?_ ?_
      · rw [F32.round, if_pos hfin]
      · rw [hk0]; simpa using hd1
      · rw [hk0]; simpa using hd2
      · linarith


theorem roundEven_eval (y : ℚ) (r : Int) (h : |y - (r : ℚ)| < 1 / 2) : roundEven y = r := by
  have h1 := roundEven_sub_le y
  rw [abs_lt] at h
  rw [abs_le] at h1
  have h2 : ((roundEven y - r : Int) : ℚ) < 1 := by push_cast; linarith
  have h3 : (-1 : ℚ) < ((roundEven y - r : Int) : ℚ) := by push_cast; linarith
  have h2' : roundEven y - r < 1 := by exact_mod_cast h2
  have h3' : -1 < roundEven y - r := by exact_mod_cast h3
  omega

theorem roundEven_tie (f : Int) (y : ℚ) (hy : y = (f : ℚ) + 1 / 2) (hf : f % 2 = 0) :
    roundEven y = f := by
  have hfl : ⌊y⌋ = f := by
    rw [Int.floor_eq_iff, hy]; constructor <;> linarith
  unfold roundEven
  dsimp only
  rw [hfl, hy]
  norm_num
  omega

/-- Evaluation of a rounding from the binade of the argument. -/
theorem roundTo_eval (p : Nat) (emin : Int) (x : ℚ) (e s r : Int) (hx : 0 < x)
    (h1 : (2 : ℚ) ^ e ≤ x) (h2 : x < (2 : ℚ) ^ (e + 1)) (hs : s = max (e - ((p : Int) - 1)) emin)
    (hr : roundEven (x / 2 ^ s) = r) : roundTo p emin x = (r : ℚ) * 2 ^ s := by
  have he1 : e ≤ Int.log 2 x :=
    (Int.zpow_le_iff_le_log (by norm_num) hx).mp (by exact_mod_cast h1)
  have he2 : Int.log 2 x < e + 1 :=
    (Int.lt_zpow_iff_log_lt (by norm_num) hx).mp (by exact_mod_cast h2)
  have he : Int.log 2 x = e := by omega
  rw [roundTo_of_pos _ _ _ hx, he, ← hs, hr]

theorem nblock_example_a : nblock 16761343 1023 = some 16385 := by
  have hN : F32.ofInt ((16761343 : Nat) : Int) = F32.fin 16761343 := by
    have := F32.ofInt_small 16761343 (by norm_num)
    simpa using this
  have hT : F32.ofInt ((1023 : Nat) : Int) = F32.fin 1023 := by
    have := F32.ofInt_small 1023 (by norm_num)
    simpa using this
  have hq : roundTo 24 (-149) ((16761343 : ℚ) / 1023) = ((8388864 : Int) : ℚ) * 2 ^ (-9 : Int) :=
    roundTo_eval 24 (-149) _ 14 (-9) 8388864 (by norm_num) (by norm_num) (by norm_num)
      (by norm_num) (roundEven_eval _ _ (by norm_num [abs_lt]))
  have hd : roundTo 53 (-1074) (((8388864 : Int) : ℚ) * 2 ^ (-9 : Int) + 1 / 2) = 16385 := by
    have := roundTo_exact_le 53 (-1074) 16385 0 (by norm_num) (by norm_num) (by norm_num)
    norm_num at this ⊢
    exact this
  refine nblock_of_quot 16761343 1023 _ _ _ 16385 16385 hN hT (by norm_num) ?_ hd (by norm_num)
    (by norm_num) (by norm_num)
  rw [F32.round, hq, if_pos (by rw [abs_of_pos (by norm_num)]; norm_num)]

theorem nblock_example_b : nblock 8388608 16777217 = some 1 := by
  have hN : F32.ofInt ((8388608 : Nat) : Int) = F32.fin 8388608 := by
    have := F32.ofInt_small 8388608 (by norm_num)
    simpa using this
  have hT : F32.ofInt ((16777217 : Nat) : Int) = F32.fin 16777216 := by
    have h := roundTo_eval 24 (-149) (16777217 : ℚ) 24 1 8388608 (by norm_num) (by norm_num)
      (by norm_num) (by norm_num) (roundEven_tie 8388608 _ (by norm_num) (by norm_num))
    rw [F32.ofInt, F32.round]
    push_cast
    rw [h, if_pos (by norm_num)]
    norm_num
  have hq : F32.round ((8388608 : ℚ) / 16777216) = F32.fin (1 / 2) := by
    have := F32.round_exact 1 (-1) (by norm_num) (by norm_num)
      (by rw [abs_of_pos (by norm_num)]; norm_num)
    norm_num at this ⊢
    exact this
  have hd : roundTo 53 (-1074) ((1 / 2 : ℚ) + 1 / 2) = 1 := by
    have := roundTo_exact_le 53 (-1074) 1 0 (by norm_num) (by norm_num) (by norm_num)
    norm_num at this ⊢
    exact this
  exact nblock_of_quot 8388608 16777217 _ _ _ 1 1 hN hT (by norm_num) hq hd (by norm_num)
    (by norm_num) (by norm_num)

/-- The block count from the `float` quotient `q` and the `double` sum `d`. -/
theorem nblock_of_double (N T : Nat) (x y q d : ℚ) (hN : F32.ofInt (N : Int) = F32.fin x)
    (hT : F32.ofInt (T : Int) = F32.fin y) (hy : y ≠ 0) (hq : F32.round (x / y) = F32.fin q)
    (hd : roundTo 53 (-1074) (q + 1 / 2) = d) :
    nblock N T = if d < 2147483648 then some (toInt d).toNat else none := by
  unfold nblock
  rw [hN, hT, F32.fin_div _ _ hy, hq]
  simp only []
  rw [hd]

theorem F32.ofInt_pow2 (j : Nat) (hj : j ≤ 127) :
    F32.ofInt ((2 ^ j : Nat) : Int) = F32.fin ((2 ^ j : Nat) : ℚ) := by
  have h := F32.round_exact 1 (j : Int) (by norm_num) (by omega) (by
    rw [Int.cast_one, one_mul, abs_of_pos (zpow_two_pos _), zpow_natCast]
    exact pow_lt_pow_right₀ (by norm_num) (by omega))
  rw [Int.cast_one, one_mul, zpow_natCast] at h
  rw [F32.ofInt]
  push_cast
  exact h

/-- The conversion to `float` of a non-negative `int`: a natural number with a
significand of at most `2^24`. -/
theorem F32.ofInt_nat_repr (N : Nat) (h : N < 2147483648) :
    ∃ m s : Nat, m ≤ 16777216 ∧ s ≤ 7 ∧
      F32.ofInt (N : Int) = F32.fin ((m * 2 ^ s : Nat) : ℚ) ∧
      (N ≤ 16777216 → m * 2 ^ s = N) ∧ (16777216 ≤ N → 16777216 ≤ m * 2 ^ s) := by
  by_cases hs : N ≤ 16777216
  · refine ⟨N, 0, hs, by omega, ?_, fun _ => by simp, fun h2 => by simpa using h2⟩
    have := F32.ofInt_small (N : Int) (by rw [abs_of_nonneg (by positivity)]; exact_mod_cast hs)
    simpa using this
  · have hx : (0 : ℚ) < (N : ℚ) := by exact_mod_cast (by omega : 0 < N)
    have hxlo : ((2 : ℕ) : ℚ) ^ (24 : Int) ≤ (N : ℚ) := by
      norm_num; omega
    have hxhi : (N : ℚ) < ((2 : ℕ) : ℚ) ^ (31 : Int) := by
      norm_num; exact h
    have he1 : 24 ≤ Int.log 2 (N : ℚ) := (Int.zpow_le_iff_le_log (by norm_num) hx).mp hxlo
    have he2 : Int.log 2 (N : ℚ) < 31 := (Int.lt_zpow_iff_log_lt (by norm_num) hx).mp hxhi
    have hmax : max (Int.log 2 (N : ℚ) - (((24 : Nat) : Int) - 1)) (-149) =
        Int.log 2 (N : ℚ) - 23 := by
      rw [max_eq_left (by omega)]; norm_num
    have hpe := Int.zpow_log_le_self (b := 2) (by norm_num) hx
    have hpe2 := Int.lt_zpow_succ_log_self (b := 2) (by norm_num) (N : ℚ)
    have hq : roundTo 24 (-149) (N : ℚ) =
        (roundEven ((N : ℚ) / 2 ^ (Int.log 2 (N : ℚ) - 23)) : ℚ) *
          2 ^ (Int.log 2 (N : ℚ) - 23) := by
      rw [roundTo_of_pos _ _ _ hx, hmax]
    generalize Int.log 2 (N : ℚ) = e at he1 he2 hmax hpe hpe2 hq
    have hpe' : (2 : ℚ) ^ e ≤ (N : ℚ) := by exact_mod_cast hpe
    have hpe2' : (N : ℚ) < (2 : ℚ) ^ (e + 1) := by exact_mod_cast hpe2
    have h2s : (2 : ℚ) ^ (e - 23) * 8388608 = 2 ^ e := by
      rw [show (8388608 : ℚ) = 2 ^ (23 : Int) by norm_num,
        ← zpow_add₀ (by norm_num : (2 : ℚ) ≠ 0)]
      congr 1; ring
    have hspos := zpow_two_pos (e - 23)
    have hy1 : ((8388608 : Int) : ℚ) ≤ (N : ℚ) / 2 ^ (e - 23) := by
      rw [le_div_iff₀ hspos]; push_cast; linarith
    have hy2 : (N : ℚ) / 2 ^ (e - 23) ≤ ((16777216 : Int) : ℚ) := by
      rw [div_le_iff₀ hspos]
      have : (2 : ℚ) ^ (e + 1) = 2 ^ (e - 23) * 16777216 := by
        rw [show (16777216 : ℚ) = 2 ^ (24 : Int) by norm_num,
          ← zpow_add₀ (by norm_num : (2 : ℚ) ≠ 0)]
        congr 1; ring
      push_cast; linarith
    have hr1 := le_roundEven _ _ hy1
    have hr2 := roundEven_le _ _ hy2
    generalize roundEven ((N : ℚ) / 2 ^ (e - 23)) = r at hr1 hr2 hq
    have hcast : (r : ℚ) * 2 ^ (e - 23) = ((r.toNat * 2 ^ (e - 23).toNat : Nat) : ℚ) := by
      push_cast
      rw [← zpow_natCast, Int.toNat_of_nonneg (by omega : 0 ≤ e - 23)]
      congr 1
      have : ((r.toNat : Int) : ℚ) = (r : ℚ) := by rw [Int.toNat_of_nonneg (by omega)]
      rw [← this]; norm_cast
    have hpow : 2 ≤ 2 ^ (e - 23).toNat := by
      calc 2 = 2 ^ 1 := rfl
        _ ≤ 2 ^ (e - 23).toNat := Nat.pow_le_pow_right (by norm_num) (by omega)
    have hpow2 : 2 ^ (e - 23).toNat ≤ 2 ^ 7 := Nat.pow_le_pow_right (by norm_num) (by omega)
    refine ⟨r.toNat, (e - 23).toNat, by omega, by omega, ?_, fun h2 => absurd h2 hs, fun _ => ?_⟩
    · rw [F32.ofInt, F32.round, Int.cast_natCast, hq, hcast, if_pos]
      rw [abs_of_nonneg (by positivity)]
      have : r.toNat * 2 ^ (e - 23).toNat ≤ 16777216 * 2 ^ 7 :=
        Nat.mul_le_mul (by omega) hpow2
      have h3 : ((r.toNat * 2 ^ (e - 23).toNat : Nat) : ℚ) ≤ ((16777216 * 2 ^ 7 : Nat) : ℚ) := by
        exact_mod_cast this
      exact lt_of_le_of_lt h3 (by norm_num)
    · calc 16777216 = 8388608 * 2 := by norm_num
        _ ≤ r.toNat * 2 ^ (e - 23).toNat := Nat.mul_le_mul (by omega) hpow

/-- With a power-of-two thread count the division is exact: the block count is the
`float` nearest to `N`, divided by the thread count and rounded half up. -/
theorem nblock_pow2 (N k m s : Nat) (hk : k ≤ 30) (hm : m ≤ 16777216) (hs : s ≤ 7)
    (hF : F32.ofInt (N : Int) = F32.fin ((m * 2 ^ s : Nat) : ℚ)) :
    nblock N (2 ^ k) =
      if (2 * (m * 2 ^ s) + 2 ^ k) / (2 * 2 ^ k) < 2147483648 then
        some ((2 * (m * 2 ^ s) + 2 ^ k) / (2 * 2 ^ k))
      else none := by
  have hT := F32.ofInt_pow2 k (by omega)
  have hkpos : (0 : ℚ) < ((2 ^ k : Nat) : ℚ) := by positivity
  have h2k : ((2 ^ k : Nat) : ℚ) = (2 : ℚ) ^ (k : Int) := by push_cast; rw [zpow_natCast]
  have h2s : ((2 ^ s : Nat) : ℚ) = (2 : ℚ) ^ (s : Int) := by push_cast; rw [zpow_natCast]
  have hquot : ((m * 2 ^ s : Nat) : ℚ) / ((2 ^ k : Nat) : ℚ) =
      ((m : Int) : ℚ) * 2 ^ ((s : Int) - (k : Int)) := by
    rw [Nat.cast_mul, h2k, h2s, zpow_sub₀ (by norm_num : (2 : ℚ) ≠ 0)]
    push_cast; ring
  have hmle : (m : ℚ) ≤ 16777216 := by exact_mod_cast hm
  have hpow7 : (2 : ℚ) ^ ((s : Int) - (k : Int)) ≤ 2 ^ (7 : Int) :=
    zpow_le_zpow_right₀ (by norm_num) (by omega)
  have hq : F32.round (((m * 2 ^ s : Nat) : ℚ) / ((2 ^ k : Nat) : ℚ)) =
      F32.fin (((m * 2 ^ s : Nat) : ℚ) / ((2 ^ k : Nat) : ℚ)) := by
    rw [hquot]
    refine F32.round_exact m _ (by rw [abs_of_nonneg (by positivity)]; exact_mod_cast hm)
      (by omega) ?_
    rw [abs_of_nonneg (by positivity)]
    calc ((m : Int) : ℚ) * 2 ^ ((s : Int) - (k : Int)) ≤ 16777216 * 2 ^ (7 : Int) :=
          mul_le_mul (by exact_mod_cast hm) hpow7 (zpow_two_pos _).le (by norm_num)
      _ < 2 ^ 128 := by norm_num
  have hsum : ((m * 2 ^ s : Nat) : ℚ) / ((2 ^ k : Nat) : ℚ) + 1 / 2 =
      ((2 * (m * 2 ^ s) + 2 ^ k : Nat) : ℚ) / ((2 * 2 ^ k : Nat) : ℚ) := by
    push_cast; field_simp; ring
  have hsum2 : ((2 * (m * 2 ^ s) + 2 ^ k : Nat) : ℚ) / ((2 * 2 ^ k : Nat) : ℚ) =
      (((2 * (m * 2 ^ s) + 2 ^ k : Nat) : Int) : ℚ) * 2 ^ (-((k : Int) + 1)) := by
    rw [zpow_neg, zpow_add₀ (by norm_num : (2 : ℚ) ≠ 0), zpow_one, zpow_natCast]
    push_cast
    rw [div_eq_mul_inv, mul_comm (2 : ℚ) (2 ^ k)]
  have hd : roundTo 53 (-1074)
      (((m * 2 ^ s : Nat) : ℚ) / ((2 ^ k : Nat) : ℚ) + 1 / 2) =
      ((2 * (m * 2 ^ s) + 2 ^ k : Nat) : ℚ) / ((2 * 2 ^ k : Nat) : ℚ) := by
    rw [hsum, hsum2]
    refine roundTo_exact_le 53 (-1074) _ _ (by norm_num) ?_ (by omega)
    rw [abs_of_nonneg (by positivity)]
    have h1 : m * 2 ^ s ≤ 16777216 * 2 ^ 7 :=
      Nat.mul_le_mul hm (Nat.pow_le_pow_right (by norm_num) hs)
    have h2 : 2 ^ k ≤ 2 ^ 30 := Nat.pow_le_pow_right (by norm_num) hk
    have h3 : 2 * (m * 2 ^ s) + 2 ^ k ≤ 2 ^ 53 := by norm_num at h1 h2 ⊢; omega
    exact_mod_cast h3
  rw [nblock_of_double N (2 ^ k) _ _ _ _ hF hT hkpos.ne' hq hd]
  have hfloor : toInt (((2 * (m * 2 ^ s) + 2 ^ k : Nat) : ℚ) / ((2 * 2 ^ k : Nat) : ℚ)) =
      (((2 * (m * 2 ^ s) + 2 ^ k) / (2 * 2 ^ k) : Nat) : Int) := by
    rw [toInt_of_nonneg _ (by positivity), Rat.floor_natCast_div_natCast]
    exact (Int.natCast_div _ _).symm
  have hlt : ((2 * (m * 2 ^ s) + 2 ^ k : Nat) : ℚ) / ((2 * 2 ^ k : Nat) : ℚ) < 2147483648 ↔
      (2 * (m * 2 ^ s) + 2 ^ k) / (2 * 2 ^ k) < 2147483648 := by
    have := @Int.floor_lt ℚ _ _ (2147483648 : Int)
      (((2 * (m * 2 ^ s) + 2 ^ k : Nat) : ℚ) / ((2 * 2 ^ k : Nat) : ℚ))
    rw [Rat.floor_natCast_div_natCast, ← Int.natCast_div] at this
    constructor
    · intro h
      have := this.mpr (by exact_mod_cast h)
      exact_mod_cast this
    · intro h
      have := this.mp (by exact_mod_cast h)
      exact_mod_cast this
  rw [hfloor, Int.toNat_ofNat]
  by_cases h : (2 * (m * 2 ^ s) + 2 ^ k) / (2 * 2 ^ k) < 2147483648
  · rw [if_pos h, if_pos (hlt.mpr h)]
  · rw [if_neg h, if_neg (fun h' => h (hlt.mp h'))]

/-! ### Related inputs give related results -/

section Parametricity

variable {T U : Type} [Add T] [Zero T] [Add U] [Zero U] {R : T → U → Prop}

theorem load1_rel (h0 : R 0 0) {g : Nat → T} {g' : Nat → U} (hg : MemRel R g g')
    (n blockDim blockIdx : Nat) {smem : Nat → T} {smem' : Nat → U} (hs : MemRel R smem smem') :
    MemRel R (load1 g n blockDim blockIdx smem) (load1 g' n blockDim blockIdx smem') := by
  intro tid
  unfold load1
  dsimp only
  split_ifs
  · exact hg _
  · exact h0
  · exact hs _

theorem reduce0Step_rel (hadd : ∀ a b c d, R a c → R b d → R (a + b) (c + d))
    (blockDim s : Nat) {m : Nat → T} {m' : Nat → U} (hm : MemRel R m m') :
    MemRel R (reduce0Step blockDim s m) (reduce0Step blockDim s m') := by
  intro tid
  unfold reduce0Step
  split_ifs
  · exact hadd _ _ _ _ (hm _) (hm _)
  · exact hm _

theorem reduce0Loop_rel (hadd : ∀ a b c d, R a c → R b d → R (a + b) (c + d))
    (blockDim : Nat) : ∀ (fuel s : Nat) {m : Nat → T} {m' : Nat → U}, MemRel R m m' →
    MemRel R (reduce0Loop blockDim fuel s m) (reduce0Loop blockDim fuel s m') := by
  intro fuel
  induction fuel with
  | zero => intro s m m' hm; exact hm
  | succ fuel ih =>
    intro s m m' hm
    unfold reduce0Loop
    split_ifs
    · exact ih _ (reduce0Step_rel hadd blockDim s hm)
    · exact hm

theorem reduce1Step_rel (hadd : ∀ a b c d, R a c → R b d → R (a + b) (c + d))
    (blockDim s : Nat) {m : Nat → T} {m' : Nat → U} (hm : MemRel R m m') :
    MemRel R (reduce1Step blockDim s m) (reduce1Step blockDim s m') := by
  unfold reduce1Step
  have key : ∀ (l : List Nat) (acc : Nat → T) (acc' : Nat → U), MemRel R acc acc' →
      MemRel R
        (l.foldl (fun acc tid =>
          let index := 2 * s * tid
          if index < blockDim then Function.update acc index (m index + m (index + s))
          else acc) acc)
        (l.foldl (fun acc tid =>
          let index := 2 * s * tid
          if index < blockDim then Function.update acc index (m' index + m' (index + s))
          else acc) acc') := by
    intro l
    induction l with
    | nil => intro acc acc' h; exact h
    | cons a l ih =>
      intro acc acc' h
      rw [List.foldl_cons, List.foldl_cons]
      refine ih _ _ ?_
      dsimp only
      split_ifs
      · intro i
        by_cases hi : i = 2 * s * a
        · subst hi
          rw [Function.update_same, Function.update_same]
          exact hadd _ _ _ _ (hm _) (hm _)
        · rw [Function.update_noteq hi, Function.update_noteq hi]; exact h i
      · exact h
  exact key _ _ _ hm

theorem reduce1Loop_rel (hadd : ∀ a b c d, R a c → R b d → R (a + b) (c + d))
    (blockDim : Nat) : ∀ (fuel s : Nat) {m : Nat → T} {m' : Nat → U}, MemRel R m m' →
    MemRel R (reduce1Loop blockDim fuel s m) (reduce1Loop blockDim fuel s m') := by
  intro fuel
  induction fuel with
  | zero => intro s m m' hm; exact hm
  | succ fuel ih =>
    intro s m m' hm
    unfold reduce1Loop
    split_ifs
    · exact ih _ (reduce1Step_rel hadd blockDim s hm)
    · exact hm

theorem reduce2Step_rel (hadd : ∀ a b c d, R a c → R b d → R (a + b) (c + d))
    (blockDim s : Nat) {m : Nat → T} {m' : Nat → U} (hm : MemRel R m m') :
    MemRel R (reduce2Step blockDim s m) (reduce2Step blockDim s m') := by
  intro tid
  unfold reduce2Step
  split_ifs
  · exact hadd _ _ _ _ (hm _) (hm _)
  · exact hm _

theorem reduce2Loop_rel (hadd : ∀ a b c d, R a c → R b d → R (a + b) (c + d))
    (blockDim : Nat) : ∀ (fuel s : Nat) {m : Nat → T} {m' : Nat → U}, MemRel R m m' →
    MemRel R (reduce2Loop blockDim fuel s m) (reduce2Loop blockDim fuel s m') := by
  intro fuel
  induction fuel with
  | zero => intro s m m' hm; exact hm
  | succ fuel ih =>
    intro s m m' hm
    unfold reduce2Loop
    split_ifs
    · exact ih _ (reduce2Step_rel hadd blockDim s hm)
    · exact hm

theorem load2_rel (h0 : R 0 0) (hadd : ∀ a b c d, R a c → R b d → R (a + b) (c + d))
    {g : Nat → T} {g' : Nat → U} (hg : MemRel R g g') (n width stride blockIdx tid : Nat) :
    R (load2 g n width stride blockIdx tid) (load2 g' n width stride blockIdx tid) := by
  unfold load2
  dsimp only
  split_ifs
  · exact hadd _ _ _ _ (hg _) (hg _)
  · exact hadd _ _ _ _ h0 (hg _)
  · exact hg _
  · exact h0

theorem storeSum_rel (blockDim : Nat) {v : Nat → T} {v' : Nat → U} (hv : MemRel R v v')
    {j : JunkOf T} {j' : JunkOf U} (hj : JunkRel R j j') :
    BlockRel R (storeSum blockDim v j) (storeSum blockDim v' j') := by
  refine ⟨hv, fun i => ?_⟩
  unfold storeSum
  dsimp only
  split_ifs
  · exact hv _
  · exact hj.1 _

theorem halveStep_rel (hadd : ∀ a b c d, R a c → R b d → R (a + b) (c + d))
    (blockDim s : Nat) {st : BlockOf T} {st' : BlockOf U} (h : BlockRel R st st') :
    BlockRel R (halveStep blockDim s st) (halveStep blockDim s st') := by
  constructor
  · intro tid
    unfold halveStep
    dsimp only
    split_ifs
    · exact hadd _ _ _ _ (h.1 _) (h.2 _)
    · exact h.1 _
  · intro tid
    unfold halveStep
    dsimp only
    split_ifs
    · exact hadd _ _ _ _ (h.1 _) (h.2 _)
    · exact h.2 _

theorem halveLoop_rel (hadd : ∀ a b c d, R a c → R b d → R (a + b) (c + d))
    (blockDim limit : Nat) : ∀ (fuel s : Nat) {st : BlockOf T} {st' : BlockOf U},
    BlockRel R st st' →
    BlockRel R (halveLoop blockDim limit fuel s st) (halveLoop blockDim limit fuel s st') := by
  intro fuel
  induction fuel with
  | zero => intro s st st' h; exact h
  | succ fuel ih =>
    intro s st st' h
    unfold halveLoop
    split_ifs
    · exact ih _ (halveStep_rel hadd blockDim s h)
    · exact h

theorem shflDown_rel (takesPart : Nat → Bool) {u : Nat → Nat → T} {u' : Nat → Nat → U}
    (hu : ∀ o l, R (u o l) (u' o l)) {v : Nat → T} {v' : Nat → U} (hv : MemRel R v v')
    (offset tid : Nat) :
    R (shflDown takesPart u v offset tid) (shflDown takesPart u' v' offset tid) := by
  unfold shflDown
  split_ifs
  · exact hv _
  · exact hu _ _
  · exact hv _

theorem shflStep_rel (hadd : ∀ a b c d, R a c → R b d → R (a + b) (c + d))
    (takesPart : Nat → Bool) {u : Nat → Nat → T} {u' : Nat → Nat → U}
    (hu : ∀ o l, R (u o l) (u' o l)) (offset : Nat) {v : Nat → T} {v' : Nat → U}
    (hv : MemRel R v v') :
    MemRel R (shflStep takesPart u offset v) (shflStep takesPart u' offset v') := by
  intro tid
  unfold shflStep
  split_ifs
  · exact hadd _ _ _ _ (hv _) (shflDown_rel takesPart hu hv offset tid)
  · exact hv _

theorem shflLoop_rel (hadd : ∀ a b c d, R a c → R b d → R (a + b) (c + d))
    (takesPart : Nat → Bool) {u : Nat → Nat → T} {u' : Nat → Nat → U}
    (hu : ∀ o l, R (u o l) (u' o l)) : ∀ (fuel offset : Nat) {v : Nat → T} {v' : Nat → U},
    MemRel R v v' →
    MemRel R (shflLoop takesPart u fuel offset v) (shflLoop takesPart u' fuel offset v') := by
  intro fuel
  induction fuel with
  | zero => intro o v v' h; exact h
  | succ fuel ih =>
    intro o v v' h
    unfold shflLoop
    split_ifs
    · exact ih _ (shflStep_rel hadd takesPart hu o h)
    · exact h

theorem warpReduceSum_rel (hadd : ∀ a b c d, R a c → R b d → R (a + b) (c + d))
    (runs : Nat → Bool) (mask : Nat → Nat) {u : Nat → Nat → T} {u' : Nat → Nat → U}
    (hu : ∀ o l, R (u o l) (u' o l)) {v : Nat → T} {v' : Nat → U} (hv : MemRel R v v') :
    MemRel R (warpReduceSum runs mask u v) (warpReduceSum runs mask u' v') :=
  shflLoop_rel hadd _ hu _ _ hv

theorem finalWarp_rel (hadd : ∀ a b c d, R a c → R b d → R (a + b) (c + d))
    (blockSize blockDim : Nat) {j : JunkOf T} {j' : JunkOf U} (hj : JunkRel R j j')
    {st : BlockOf T} {st' : BlockOf U} (h : BlockRel R st st') :
    R (finalWarp blockSize blockDim j st) (finalWarp blockSize blockDim j' st') := by
  unfold finalWarp
  dsimp only
  refine shflLoop_rel hadd _ hj.2 _ _ (fun tid => ?_) 0
  dsimp only
  split_ifs
  · exact hadd _ _ _ _ (h.1 _) (h.2 _)
  · exact h.1 _

theorem unrollStep_rel (hadd : ∀ a b c d, R a c → R b d → R (a + b) (c + d))
    (blockSize blockDim s : Nat) {st : BlockOf T} {st' : BlockOf U} (h : BlockRel R st st') :
    BlockRel R (unrollStep blockSize blockDim s st) (unrollStep blockSize blockDim s st') := by
  unfold unrollStep
  split_ifs
  · exact halveStep_rel hadd blockDim s h
  · exact h

theorem unrolled_rel (hadd : ∀ a b c d, R a c → R b d → R (a + b) (c + d))
    (blockSize blockDim : Nat) {j : JunkOf T} {j' : JunkOf U} (hj : JunkRel R j j')
    {st : BlockOf T} {st' : BlockOf U} (h : BlockRel R st st') :
    R (unrolled blockSize blockDim j st) (unrolled blockSize blockDim j' st') :=
  finalWarp_rel hadd _ _ hj
    (unrollStep_rel hadd _ _ _ (unrollStep_rel hadd _ _ _ (unrollStep_rel hadd _ _ _ h)))

theorem OptRel_map {T U T2 U2 : Type} {R : T → U → Prop} {R2 : T2 → U2 → Prop}
    {f : T → T2} {g : U → U2} (hfg : ∀ a b, R a b → R2 (f a) (g b)) :
    ∀ {x : Option T} {y : Option U}, OptRel R x y → OptRel R2 (x.map f) (y.map g)
  | some _, some _, h => hfg _ _ h
  | none, none, _ => trivial
  | some _, none, h => h.elim
  | none, some _, h => h.elim

theorem OptRel_isSome {T U : Type} {R : T → U → Prop} :
    ∀ {x : Option T} {y : Option U}, OptRel R x y → x.isSome = y.isSome
  | some _, some _, _ => rfl
  | none, none, _ => rfl
  | some _, none, h => h.elim
  | none, some _, h => h.elim

theorem OptRel_getD {T U : Type} {R : T → U → Prop} {a : T} {b : U} (hab : R a b) :
    ∀ {x : Option T} {y : Option U}, OptRel R x y → R (x.getD a) (y.getD b)
  | some _, some _, h => h
  | none, none, _ => hab
  | some _, none, h => h.elim
  | none, some _, h => h.elim

theorem strideLoop_rel (hadd : ∀ a b c d, R a c → R b d → R (a + b) (c + d))
    {g : Nat → T} {g' : Nat → U} (hg : MemRel R g g') (n gridSize : Nat) :
    ∀ (fuel i : Nat) {a : T} {b : U}, R a b →
      OptRel R (strideLoop g n gridSize fuel i a) (strideLoop g' n gridSize fuel i b) := by
  intro fuel
  induction fuel with
  | zero => intro i a b _; exact trivial
  | succ fuel ih =>
    intro i a b hab
    unfold strideLoop
    split_ifs
    · exact ih _ (hadd _ _ _ _ hab (hg _))
    · exact hab

theorem stride2Loop_rel (hadd : ∀ a b c d, R a c → R b d → R (a + b) (c + d))
    {g : Nat → T} {g' : Nat → U} (hg : MemRel R g g') (n : Nat) (second : Nat → Nat)
    (read gridSize : Nat) :
    ∀ (fuel i : Nat) {a : T} {b : U}, R a b →
      OptRel R (stride2Loop g n second read gridSize fuel i a)
        (stride2Loop g' n second read gridSize fuel i b) := by
  intro fuel
  induction fuel with
  | zero => intro i a b _; exact trivial
  | succ fuel ih =>
    intro i a b hab
    unfold stride2Loop
    split_ifs
    · exact ih _ (hadd _ _ _ _ (hadd _ _ _ _ hab (hg _)) (hg _))
    · exact ih _ (hadd _ _ _ _ hab (hg _))
    · exact hab

theorem gridStride_rel (h0 : R 0 0) (hadd : ∀ a b c d, R a c → R b d → R (a + b) (c + d))
    (nIsPow2 : Bool) {g : Nat → T} {g' : Nat → U} (hg : MemRel R g g') (n blockSize : Nat)
    (second : Nat → Nat) (read gridDim blockIdx tid : Nat) :
    OptRel R (gridStride nIsPow2 g n blockSize second read gridDim blockIdx tid)
      (gridStride nIsPow2 g' n blockSize second read gridDim blockIdx tid) := by
  unfold gridStride
  dsimp only
  split_ifs
  · exact stride2Loop_rel hadd hg _ _ _ _ _ _ h0
  · exact strideLoop_rel hadd hg _ _ _ _ h0

theorem allThreads_rel (h0 : R 0 0) (blockDim : Nat) {f : Nat → Option T} {f' : Nat → Option U}
    (hf : ∀ tid, OptRel R (f tid) (f' tid)) :
    OptRel (MemRel R) (allThreads blockDim f) (allThreads blockDim f') := by
  unfold allThreads
  have hiff : (∀ tid, tid < blockDim → (f tid).isSome = true) ↔
      (∀ tid, tid < blockDim → (f' tid).isSome = true) := by
    constructor
    · intro h tid ht; rw [← OptRel_isSome (hf tid)]; exact h tid ht
    · intro h tid ht; rw [OptRel_isSome (hf tid)]; exact h tid ht
  by_cases h : ∀ tid, tid < blockDim → (f tid).isSome = true
  · rw [if_pos h, if_pos (hiff.mp h)]
    exact fun tid => OptRel_getD h0 (hf tid)
  · rw [if_neg h, if_neg (fun h' => h (hiff.mpr h'))]
    exact trivial

theorem reduce0_rel (h0 : R 0 0) (hadd : ∀ a b c d, R a c → R b d → R (a + b) (c + d))
    {g : Nat → T} {g' : Nat → U} (hg : MemRel R g g') (n blockDim blockIdx : Nat)
    {j : JunkOf T} {j' : JunkOf U} (hj : JunkRel R j j') :
    R (reduce0 g n blockDim blockIdx j) (reduce0 g' n blockDim blockIdx j') :=
  reduce0Loop_rel hadd _ _ _ (load1_rel h0 hg _ _ _ hj.1) 0

theorem reduce1_rel (h0 : R 0 0) (hadd : ∀ a b c d, R a c → R b d → R (a + b) (c + d))
    {g : Nat → T} {g' : Nat → U} (hg : MemRel R g g') (n blockDim blockIdx : Nat)
    {j : JunkOf T} {j' : JunkOf U} (hj : JunkRel R j j') :
    R (reduce1 g n blockDim blockIdx j) (reduce1 g' n blockDim blockIdx j') :=
  reduce1Loop_rel hadd _ _ _ (load1_rel h0 hg _ _ _ hj.1) 0

theorem reduce2_rel (h0 : R 0 0) (hadd : ∀ a b c d, R a c → R b d → R (a + b) (c + d))
    {g : Nat → T} {g' : Nat → U} (hg : MemRel R g g') (n blockDim blockIdx : Nat)
    {j : JunkOf T} {j' : JunkOf U} (hj : JunkRel R j j') :
    R (reduce2 g n blockDim blockIdx j) (reduce2 g' n blockDim blockIdx j') :=
  reduce2Loop_rel hadd _ _ _ (load1_rel h0 hg _ _ _ hj.1) 0

theorem reduce3_rel (h0 : R 0 0) (hadd : ∀ a b c d, R a c → R b d → R (a + b) (c + d))
    {g : Nat → T} {g' : Nat → U} (hg : MemRel R g g') (n blockDim blockIdx : Nat)
    {j : JunkOf T} {j' : JunkOf U} (hj : JunkRel R j j') :
    R (reduce3 g n blockDim blockIdx j) (reduce3 g' n blockDim blockIdx j') :=
  (halveLoop_rel hadd _ _ _ _
    (storeSum_rel blockDim (fun tid => load2_rel h0 hadd hg n _ _ _ tid) hj)).1 0

theorem reduce4_rel (h0 : R 0 0) (hadd : ∀ a b c d, R a c → R b d → R (a + b) (c + d))
    (blockSize : Nat) {g : Nat → T} {g' : Nat → U} (hg : MemRel R g g')
    (n blockDim blockIdx : Nat) {j : JunkOf T} {j' : JunkOf U} (hj : JunkRel R j j') :
    R (reduce4 blockSize g n blockDim blockIdx j) (reduce4 blockSize g' n blockDim blockIdx j') :=
  finalWarp_rel hadd _ _ hj (halveLoop_rel hadd _ _ _ _
    (storeSum_rel blockDim (fun tid => load2_rel h0 hadd hg n _ _ _ tid) hj))

theorem reduce5_rel (h0 : R 0 0) (hadd : ∀ a b c d, R a c → R b d → R (a + b) (c + d))
    (blockSize : Nat) {g : Nat → T} {g' : Nat → U} (hg : MemRel R g g')
    (n blockDim blockIdx : Nat) {j : JunkOf T} {j' : JunkOf U} (hj : JunkRel R j j') :
    R (reduce5 blockSize g n blockDim blockIdx j) (reduce5 blockSize g' n blockDim blockIdx j') :=
  unrolled_rel hadd _ _ hj
    (storeSum_rel blockDim (fun tid => load2_rel h0 hadd hg n _ _ _ tid) hj)

theorem reduce6_rel (h0 : R 0 0) (hadd : ∀ a b c d, R a c → R b d → R (a + b) (c + d))
    (blockSize : Nat) (nIsPow2 : Bool) {g : Nat → T} {g' : Nat → U} (hg : MemRel R g g')
    (n gridDim blockDim blockIdx : Nat) {j : JunkOf T} {j' : JunkOf U} (hj : JunkRel R j j') :
    OptRel R (reduce6 blockSize nIsPow2 g n gridDim blockDim blockIdx j)
      (reduce6 blockSize nIsPow2 g' n gridDim blockDim blockIdx j') := by
  unfold reduce6
  refine OptRel_map (fun v v' hv => ?_)
    (allThreads_rel h0 blockDim (fun tid => gridStride_rel h0 hadd nIsPow2 hg _ _ _ _ _ _ tid))
  exact unrolled_rel hadd _ _ hj (storeSum_rel blockDim hv hj)

theorem reduce7_rel (h0 : R 0 0) (hadd : ∀ a b c d, R a c → R b d → R (a + b) (c + d))
    (blockSize : Nat) (nIsPow2 : Bool) {g : Nat → T} {g' : Nat → U} (hg : MemRel R g g')
    (n gridDim blockDim blockIdx : Nat) {j : JunkOf T} {j' : JunkOf U} (hj : JunkRel R j j') :
    OptRel R (reduce7 blockSize nIsPow2 g n gridDim blockDim blockIdx j)
      (reduce7 blockSize nIsPow2 g' n gridDim blockDim blockIdx j') := by
  unfold reduce7
  dsimp only
  refine OptRel_map (fun v v' hv => ?_)
    (allThreads_rel h0 blockDim (fun tid => gridStride_rel h0 hadd nIsPow2 hg _ _ _ _ _ _ tid))
  have h1 := warpReduceSum_rel hadd (fun tid => decide (tid < blockDim))
    (fun _ => reduce7Mask blockSize) hj.2 hv
  refine warpReduceSum_rel hadd _ _ hj.2 (fun tid => ?_) 0
  dsimp only
  split_ifs <;> first | exact h1 _ | exact hj.1 _

theorem list_sum_rel (h0 : R 0 0) (hadd : ∀ a b c d, R a c → R b d → R (a + b) (c + d))
    {f : Nat → T} {f' : Nat → U} (hf : ∀ i, R (f i) (f' i)) :
    ∀ l : List Nat, R ((l.map f).sum) ((l.map f').sum)
  | [] => h0
  | a :: l => by
    rw [List.map_cons, List.map_cons, List.sum_cons, List.sum_cons]
    exact hadd _ _ _ _ (hf a) (list_sum_rel h0 hadd hf l)

theorem cg_reduce_n_rel (h0 : R 0 0) (hadd : ∀ a b c d, R a c → R b d → R (a + b) (c + d))
    (blockDim : Nat) {v : Nat → T} {v' : Nat → U} (hv : MemRel R v v') (start size : Nat) :
    R (cg_reduce_n blockDim v start size) (cg_reduce_n blockDim v' start size) := by
  unfold cg_reduce_n
  refine list_sum_rel h0 hadd (fun r => ?_) _
  dsimp only
  split_ifs
  · exact hv _
  · exact h0

theorem cg_reduce_rel (h0 : R 0 0) (hadd : ∀ a b c d, R a c → R b d → R (a + b) (c + d))
    {g : Nat → T} {g' : Nat → U} (hg : MemRel R g g')
    (n gridDim blockDim blockIdx : Nat) {j : JunkOf T} {j' : JunkOf U} (hj : JunkRel R j j') :
    OptRel R (cg_reduce g n gridDim blockDim blockIdx j)
      (cg_reduce g' n gridDim blockDim blockIdx j') := by
  unfold cg_reduce
  refine OptRel_map (fun v v' hv => ?_)
    (allThreads_rel h0 blockDim (fun tid => strideLoop_rel hadd hg _ _ _ _ h0))
  exact cg_reduce_n_rel h0 hadd _ (halveLoop_rel hadd _ _ _ _ (storeSum_rel blockDim hv hj)).1 _ _

theorem list_foldl_rel (hadd : ∀ a b c d, R a c → R b d → R (a + b) (c + d))
    {f : Nat → T} {f' : Nat → U} (hf : ∀ i, R (f i) (f' i)) :
    ∀ (l : List Nat) {a : T} {b : U}, R a b →
      R (l.foldl (fun acc i => acc + f i) a) (l.foldl (fun acc i => acc + f' i) b)
  | [], _, _, h => h
  | i :: l, _, _, h => by
    rw [List.foldl_cons, List.foldl_cons]
    exact list_foldl_rel hadd hf l (hadd _ _ _ _ h (hf i))

theorem multi_warp_cg_reduce_rel (h0 : R 0 0)
    (hadd : ∀ a b c d, R a c → R b d → R (a + b) (c + d)) (BlockSize MultiWarpGroupSize : Nat)
    {g : Nat → T} {g' : Nat → U} (hg : MemRel R g g')
    (n gridDim blockDim blockIdx : Nat) {j : JunkOf T} {j' : JunkOf U} (hj : JunkRel R j j') :
    OptRel R (multi_warp_cg_reduce BlockSize MultiWarpGroupSize g n gridDim blockDim blockIdx j)
      (multi_warp_cg_reduce BlockSize MultiWarpGroupSize g' n gridDim blockDim blockIdx j') := by
  unfold multi_warp_cg_reduce
  dsimp only
  refine OptRel_map (fun v v' hv => ?_)
    (allThreads_rel h0 blockDim (fun tid => gridStride_rel h0 hadd _ hg _ _ _ _ _ _ tid))
  refine list_foldl_rel hadd (fun i => ?_) _ h0
  dsimp only
  split_ifs
  · exact cg_reduce_n_rel h0 hadd _ hv _ _
  · exact hj.1 _

theorem runKernel_rel (h0 : R 0 0) (hadd : ∀ a b c d, R a c → R b d → R (a + b) (c + d))
    (k : Kernel) {g : Nat → T} {g' : Nat → U} (hg : MemRel R g g')
    (n gridDim blockDim blockIdx : Nat) {j : JunkOf T} {j' : JunkOf U} (hj : JunkRel R j j') :
    OptRel R (runKernel k g n gridDim blockDim blockIdx j)
      (runKernel k g' n gridDim blockDim blockIdx j') := by
  cases k with
  | reduce0 => exact reduce0_rel h0 hadd hg _ _ _ hj
  | reduce1 => exact reduce1_rel h0 hadd hg _ _ _ hj
  | reduce2 => exact reduce2_rel h0 hadd hg _ _ _ hj
  | reduce3 => exact reduce3_rel h0 hadd hg _ _ _ hj
  | reduce4 bs => exact reduce4_rel h0 hadd bs hg _ _ _ hj
  | reduce5 bs => exact reduce5_rel h0 hadd bs hg _ _ _ hj
  | reduce6 bs p => exact reduce6_rel h0 hadd bs p hg _ _ _ _ hj
  | reduce7 bs p => exact reduce7_rel h0 hadd bs p hg _ _ _ _ hj
  | cg_reduce => exact cg_reduce_rel h0 hadd hg _ _ _ _ hj
  | multi_warp_cg_reduce bs m => exact multi_warp_cg_reduce_rel h0 hadd bs m hg _ _ _ _ hj

theorem launch_exec_rel (h0 : R 0 0) (hadd : ∀ a b c d, R a c → R b d → R (a + b) (c + d))
    (l : Launch) {j : Nat → JunkOf T} {j' : Nat → JunkOf U} (hj : ∀ b, JunkRel R (j b) (j' b))
    {g : Nat → T} {g' : Nat → U} (hg : MemRel R g g') {o : Nat → T} {o' : Nat → U}
    (ho : MemRel R o o') :
    OptRel (MemRel R) (l.exec j g o) (l.exec j' g' o') := by
  unfold Launch.exec
  have hk := fun b => runKernel_rel h0 hadd l.kernel hg l.size l.dimGrid l.dimBlock b (hj b)
  have hiff : (∀ b, b < l.dimGrid →
      (runKernel l.kernel g l.size l.dimGrid l.dimBlock b (j b)).isSome = true) ↔
      (∀ b, b < l.dimGrid →
        (runKernel l.kernel g' l.size l.dimGrid l.dimBlock b (j' b)).isSome = true) := by
    constructor
    · intro h b hb; rw [← OptRel_isSome (hk b)]; exact h b hb
    · intro h b hb; rw [OptRel_isSome (hk b)]; exact h b hb
  by_cases h : ∀ b, b < l.dimGrid →
      (runKernel l.kernel g l.size l.dimGrid l.dimBlock b (j b)).isSome = true
  · rw [if_pos h, if_pos (hiff.mp h)]
    intro i
    dsimp only
    split_ifs
    · exact OptRel_getD h0 (hk i)
    · exact ho i
  · rw [if_neg h, if_neg (fun h' => h (hiff.mpr h'))]
    exact trivial

theorem dispatch_exec_rel (h0 : R 0 0) (hadd : ∀ a b c d, R a c → R b d → R (a + b) (c + d))
    (d : Dispatch) {j : Nat → JunkOf T} {j' : Nat → JunkOf U}
    (hj : ∀ b, JunkRel R (j b) (j' b)) {g : Nat → T} {g' : Nat → U} (hg : MemRel R g g')
    {o : Nat → T} {o' : Nat → U} (ho : MemRel R o o') :
    OptRel (MemRel R) (d.exec j g o) (d.exec j' g' o') := by
  cases d with
  | launch l => exact launch_exec_rel h0 hadd l hj hg ho
  | message => exact ho
  | nothing => exact ho

/-- The relation between two runs of the driver: the scalars and the two arrays are
related. -/
theorem twoPass_rel (h0 : R 0 0) (hadd : ∀ a b c d, R a c → R b d → R (a + b) (c + d))
    (ndata nthread nblock : Nat) (method : Int) {j1 j2 : Nat → JunkOf T}
    {j1' j2' : Nat → JunkOf U} (hj1 : ∀ b, JunkRel R (j1 b) (j1' b))
    (hj2 : ∀ b, JunkRel R (j2 b) (j2' b)) {g : Nat → T} {g' : Nat → U} (hg : MemRel R g g')
    {o : Nat → T} {o' : Nat → U} (ho : MemRel R o o') :
    OptRel (fun x y => R x.1 y.1 ∧ MemRel R x.2.1 y.2.1 ∧ MemRel R x.2.2 y.2.2)
      (twoPass ndata nthread nblock method j1 j2 g o)
      (twoPass ndata nthread nblock method j1' j2' g' o') := by
  unfold twoPass
  have h1 := dispatch_exec_rel h0 hadd (reduce 4 ndata nthread nblock method) hj1 hg ho
  cases e1 : (reduce 4 ndata nthread nblock method).exec j1 g o with
  | none =>
    cases e1' : (reduce 4 ndata nthread nblock method).exec j1' g' o' with
    | none => exact trivial
    | some r' => rw [e1, e1'] at h1; exact h1.elim
  | some r =>
    cases e1' : (reduce 4 ndata nthread nblock method).exec j1' g' o' with
    | none => rw [e1, e1'] at h1; exact h1.elim
    | some r' =>
      rw [e1, e1'] at h1
      have hr : MemRel R r r' := h1
      dsimp only
      by_cases hnb : 1 < nblock
      · rw [if_pos hnb, if_pos hnb]
        have h2 := dispatch_exec_rel h0 hadd (reduce 4 nblock nthread 1 method) hj2 hr hg
        cases e2 : (reduce 4 nblock nthread 1 method).exec j2 r g with
        | none =>
          cases e2' : (reduce 4 nblock nthread 1 method).exec j2' r' g' with
          | none => exact trivial
          | some s' => rw [e2, e2'] at h2; exact h2.elim
        | some s =>
          cases e2' : (reduce 4 nblock nthread 1 method).exec j2' r' g' with
          | none => rw [e2, e2'] at h2; exact h2.elim
          | some s' =>
            rw [e2, e2'] at h2
            have hs : MemRel R s s' := h2
            exact ⟨hs 0, hs, hr⟩
      · rw [if_neg hnb, if_neg hnb]
        exact ⟨hr 0, hg, hr⟩

end Parametricity

/-! ### The driver on `float` arrays and the thread counts below a warp -/

theorem cudautil_pow_zero_blocks {T : Type} [Mul T] (d_data : Nat → T) (blockDim ndata : Nat)
    (d_float d_float2 : Nat → T) :
    cudautil_pow d_data 0 blockDim ndata d_float d_float2 = (d_float, d_float2) := by
  unfold cudautil_pow
  simp

/-- With a block count of zero the two launches of the driver reduce to nothing. -/
theorem twoPass_zero_blocks {T : Type} [Add T] [Zero T] (ndata nthread : Nat) (method : Int)
    (junk1 junk2 : Nat → JunkOf T) (d_in d_reduction : Nat → T) :
    twoPass ndata nthread 0 method junk1 junk2 d_in d_reduction =
      some (d_reduction 0, d_in, d_reduction) := by
  rw [twoPass, exec_zero_blocks]
  simp

theorem Exact_zero (e : Int) : Exact e 0 0 := by
  refine ⟨by simp, fun _ => ?_⟩
  show F32.fin 0 = F32.fin ((((0 : Int × Int).1 : Int) : ℚ) * 2 ^ e)
  simp

theorem F32.fin_add (x y : ℚ) : F32.fin x + F32.fin y = F32.round (x + y) := rfl

theorem Exact_add (e : Int) (he1 : -149 ≤ e) (he2 : e ≤ 103) (x y : F32) (p q : Int × Int)
    (hx : Exact e x p) (hy : Exact e y q) : Exact e (x + y) (p + q) := by
  obtain ⟨hp1, hp2⟩ := hx
  obtain ⟨hq1, hq2⟩ := hy
  have hp0 : 0 ≤ p.2 := le_trans (abs_nonneg _) hp1
  have hq0 : 0 ≤ q.2 := le_trans (abs_nonneg _) hq1
  refine ⟨?_, fun hle => ?_⟩
  · rw [Prod.fst_add, Prod.snd_add]
    exact le_trans (abs_add _ _) (add_le_add hp1 hq1)
  · rw [Prod.snd_add] at hle
    rw [hp2 (by omega), hq2 (by omega), F32.fin_add, Prod.fst_add, ← add_mul]
    have hm : |p.1 + q.1| ≤ 16777216 := le_trans (abs_add _ _) (by omega)
    have := F32.round_exact (p.1 + q.1) e (by norm_num; exact hm) he1 (by
      rw [abs_mul, abs_of_pos (zpow_two_pos e)]
      have h1 : |((p.1 + q.1 : Int) : ℚ)| ≤ 16777216 := by exact_mod_cast hm
      have h2 : (2 : ℚ) ^ e ≤ 2 ^ (103 : Int) := zpow_le_zpow_right₀ (by norm_num) he2
      calc |((p.1 + q.1 : Int) : ℚ)| * 2 ^ e ≤ 16777216 * 2 ^ (103 : Int) :=
            mul_le_mul h1 h2 (zpow_two_pos e).le (by norm_num)
        _ < 2 ^ 128 := by norm_num)
    push_cast at this ⊢
    exact this

theorem Exact_any (e : Int) (x : F32) : Exact e x (0, 16777217) :=
  ⟨by norm_num, fun h => absurd h (by norm_num)⟩

theorem pairJunk_exact (e : Int) (j : JunkOf F32) : JunkRel (Exact e) j (pairJunk j) := by
  refine ⟨fun i => Exact_any e _, fun o l => ?_⟩
  unfold pairJunk
  dsimp only
  split_ifs with h
  · rw [h]; exact Exact_zero e
  · exact Exact_any e _

theorem pairJunk_fst (j : JunkOf F32) :
    JunkRel (fun (p : Int × Int) (a : Int) => p.1 = a) (pairJunk j) (constJunk 0) := by
  refine ⟨fun i => rfl, fun o l => ?_⟩
  unfold pairJunk
  dsimp only
  split_ifs <;> rfl

theorem pairJunk_snd (j : JunkOf F32) :
    JunkRel (fun (p : Int × Int) (a : Int) => p.2 = a) (pairJunk j) (boundJunk j) := by
  refine ⟨fun i => rfl, fun o l => ?_⟩
  unfold pairJunk boundJunk
  dsimp only
  split_ifs <;> rfl

/-- A run of the driver on `float` values that are integer multiples of `2^e` computes
what the run on the integers computes, as long as the run on their magnitudes stays within
`2^24`. -/
theorem twoPass_exact (e : Int) (he1 : -149 ≤ e) (he2 : e ≤ 103)
    (ndata nthread nblock : Nat) (method : Int)
    (junk1 junk2 : Nat → JunkOf F32) (A : Nat → Int) (d_reduction : Nat → F32)
    (a s : Int) (A1 A2 S1 S2 : Mem)
    (ha : twoPass ndata nthread nblock method (fun _ => constJunk 0) (fun _ => constJunk 0) A
      (fun _ => 0) = some (a, A1, A2))
    (hs : twoPass ndata nthread nblock method (fun b => boundJunk (junk1 b))
      (fun b => boundJunk (junk2 b)) (fun i => |A i|) (fun _ => 16777217) = some (s, S1, S2))
    (hle : s ≤ 16777216) :
    ∃ d_after sums, twoPass ndata nthread nblock method junk1 junk2
        (fun i => F32.fin ((A i : ℚ) * 2 ^ e)) d_reduction =
          some (F32.fin ((a : ℚ) * 2 ^ e), d_after, sums) ∧
      (∀ i, S1 i ≤ 16777216 → d_after i = F32.fin ((A1 i : ℚ) * 2 ^ e)) ∧
      (∀ i, S2 i ≤ 16777216 → sums i = F32.fin ((A2 i : ℚ) * 2 ^ e)) := by
  have hP := @twoPass_rel F32 (Int × Int) _ _ _ _ (Exact e) (Exact_zero e)
    (Exact_add e he1 he2) ndata nthread nblock method junk1 junk2
    (fun b => pairJunk (junk1 b)) (fun b => pairJunk (junk2 b))
    (fun b => pairJunk_exact e (junk1 b)) (fun b => pairJunk_exact e (junk2 b))
    (fun i => F32.fin ((A i : ℚ) * 2 ^ e)) (fun i => (A i, |A i|))
    (fun i => ⟨le_refl _, fun _ => rfl⟩)
    d_reduction (fun _ => (0, 16777217)) (fun i => Exact_any e _)
  have h1 := @twoPass_rel (Int × Int) Int _ _ _ _ (fun (p : Int × Int) (a : Int) => p.1 = a)
    rfl (fun a b c d h1 h2 => by dsimp only at h1 h2 ⊢; rw [Prod.fst_add, h1, h2])
    ndata nthread nblock method (fun b => pairJunk (junk1 b)) (fun b => pairJunk (junk2 b))
    (fun _ => constJunk 0) (fun _ => constJunk 0)
    (fun b => pairJunk_fst (junk1 b)) (fun b => pairJunk_fst (junk2 b))
    (fun i => (A i, |A i|)) A (fun i => rfl)
    (fun _ => (0, 16777217)) (fun _ => 0) (fun i => rfl)
  have h2 := @twoPass_rel (Int × Int) Int _ _ _ _ (fun (p : Int × Int) (a : Int) => p.2 = a)
    rfl (fun a b c d h1 h2 => by dsimp only at h1 h2 ⊢; rw [Prod.snd_add, h1, h2])
    ndata nthread nblock method (fun b => pairJunk (junk1 b)) (fun b => pairJunk (junk2 b))
    (fun b => boundJunk (junk1 b)) (fun b => boundJunk (junk2 b))
    (fun b => pairJunk_snd (junk1 b)) (fun b => pairJunk_snd (junk2 b))
    (fun i => (A i, |A i|)) (fun i => |A i|) (fun i => rfl)
    (fun _ => (0, 16777217)) (fun _ => 16777217) (fun i => rfl)
  rw [ha] at h1
  rw [hs] at h2
  cases hp : twoPass ndata nthread nblock method (fun b => pairJunk (junk1 b))
      (fun b => pairJunk (junk2 b)) (fun i => (A i, |A i|)) (fun _ => (0, 16777217)) with
  | none => rw [hp] at h1; exact h1.elim
  | some P =>
    rw [hp] at h1 h2 hP
    cases hf : twoPass ndata nthread nblock method junk1 junk2
        (fun i => F32.fin ((A i : ℚ) * 2 ^ e)) d_reduction with
    | none => rw [hf] at hP; exact hP.elim
    | some F =>
      rw [hf] at hP
      obtain ⟨x, DF, RF⟩ := F
      obtain ⟨hx, hD, hR⟩ := hP
      obtain ⟨ha1, hA1, hA2⟩ := h1
      obtain ⟨hs1, hS1, hS2⟩ := h2
      dsimp only at hx hD hR ha1 hA1 hA2 hs1 hS1 hS2
      refine ⟨DF, RF, ?_, fun i hi => ?_, fun i hi => ?_⟩
      · rw [hx.2 (by rw [hs1]; exact hle), ha1]
      · rw [(hD i).2 (by rw [hS1 i]; exact hi), hA1 i]
      · rw [(hR i).2 (by rw [hS2 i]; exact hi), hA2 i]

/-- The conversion to `float` of a non-negative `int` is at most 127 above it. -/
theorem F32.ofInt_nat_le (N : Nat) (F : ℚ) (h : N < 2147483648)
    (hF : F32.ofInt (N : Int) = F32.fin F) : F ≤ (N : ℚ) + 127 := by
  rcases Nat.eq_zero_or_pos N with h0 | h0
  · subst h0
    have := F32.ofInt_small 0 (by norm_num)
    rw [Nat.cast_zero] at hF
    rw [this] at hF
    rw [← F32.fin.inj hF]; norm_num
  · have hx : (0 : ℚ) < ((N : Int) : ℚ) := by exact_mod_cast h0
    obtain ⟨m, hm1, hm2, hm3⟩ : ∃ m : Nat, N ≤ m * 128 ∧ m * 128 ≤ N + 127 ∧ m ≤ 16777216 :=
      ⟨(N + 127) / 128, by omega, by omega, by omega⟩
    have hle : ((N : Int) : ℚ) ≤ ((m : Int) : ℚ) * 2 ^ (7 : Int) := by
      have h2 : (N : ℚ) ≤ ((m * 128 : Nat) : ℚ) := by exact_mod_cast hm1
      rw [Nat.cast_mul, Nat.cast_ofNat] at h2
      rw [Int.cast_natCast, Int.cast_natCast]
      norm_num
      linarith
    have hm : (m : Int) ≤ 2 ^ 24 := by
      exact_mod_cast hm3
    have hb := roundTo_le 24 (-149) _ _ 7 (by norm_num) hx hm (by norm_num) hle
    have hfin : F = roundTo 24 (-149) ((N : Int) : ℚ) := by
      rw [F32.ofInt, F32.round] at hF
      split_ifs at hF
      exact (F32.fin.inj hF).symm
    rw [hfin]
    refine le_trans hb ?_
    have h2 : ((m * 128 : Nat) : ℚ) ≤ ((N + 127 : Nat) : ℚ) := by
      exact_mod_cast hm2
    rw [Nat.cast_mul, Nat.cast_add, Nat.cast_ofNat, Nat.cast_ofNat] at h2
    rw [Int.cast_natCast]
    norm_num
    linarith

/-- The conversion to `float` of a non-negative `int` is at most 127 below it. -/
theorem F32.ofInt_nat_ge (N : Nat) (F : ℚ) (h : N < 2147483648)
    (hF : F32.ofInt (N : Int) = F32.fin F) : (N : ℚ) ≤ F + 127 := by
  rcases Nat.eq_zero_or_pos N with h0 | h0
  · subst h0
    have := F32.ofInt_small 0 (by norm_num)
    rw [Nat.cast_zero] at hF
    rw [this] at hF
    rw [← F32.fin.inj hF]; norm_num
  · have hx : (0 : ℚ) < ((N : Int) : ℚ) := by exact_mod_cast h0
    obtain ⟨m, hm1, hm2, hm3⟩ : ∃ m : Nat, m * 128 ≤ N ∧ N ≤ m * 128 + 127 ∧ m ≤ 16777216 :=
      ⟨N / 128, by omega, by omega, by omega⟩
    have hle : ((m : Int) : ℚ) * 2 ^ (7 : Int) ≤ ((N : Int) : ℚ) := by
      have h2 : ((m * 128 : Nat) : ℚ) ≤ (N : ℚ) := by exact_mod_cast hm1
      rw [Nat.cast_mul, Nat.cast_ofNat] at h2
      rw [Int.cast_natCast, Int.cast_natCast]
      norm_num
      linarith
    have hm : (m : Int) ≤ 2 ^ 24 := by
      exact_mod_cast hm3
    have hb := le_roundTo 24 (-149) _ _ 7 (by norm_num) hx hm (by norm_num) hle
    have hfin : F = roundTo 24 (-149) ((N : Int) : ℚ) := by
      rw [F32.ofInt, F32.round] at hF
      split_ifs at hF
      exact (F32.fin.inj hF).symm
    rw [hfin]
    have h2 : ((N : Nat) : ℚ) ≤ ((m * 128 + 127 : Nat) : ℚ) := by
      exact_mod_cast hm2
    rw [Nat.cast_add, Nat.cast_mul, Nat.cast_ofNat, Nat.cast_ofNat] at h2
    simp only [Int.cast_natCast] at hb ⊢
    norm_num at hb
    linarith

/-- The scalar the driver takes: `d_reduction[0]` after a single pass, `d_in[0]` after two. -/
theorem twoPass_scalar {T : Type} [Add T] [Zero T] (ndata nthread nblock : Nat) (method : Int)
    (junk1 junk2 : Nat → JunkOf T) (d_in d_reduction : Nat → T) (s : T)
    (d_after sums : Nat → T)
    (h : twoPass ndata nthread nblock method junk1 junk2 d_in d_reduction =
      some (s, d_after, sums)) :
    (nblock ≤ 1 → s = sums 0) ∧ (1 < nblock → s = d_after 0) := by
  rw [twoPass] at h
  cases h1 : (reduce 4 ndata nthread nblock method).exec junk1 d_in d_reduction with
  | none => rw [h1] at h; cases h
  | some red =>
    rw [h1] at h
    dsimp only at h
    by_cases hnb : 1 < nblock
    · rw [if_pos hnb] at h
      cases h2 : (reduce 4 nblock nthread 1 method).exec junk2 red d_in with
      | none => rw [h2] at h; cases h
      | some d_in2 =>
        rw [h2] at h
        cases h
        exact ⟨fun hle => absurd hnb (by omega), fun _ => rfl⟩
    · rw [if_neg hnb] at h
      cases h
      exact ⟨fun _ => rfl, fun hlt => absurd hlt hnb⟩

/-- The two passes of the driver with strategy 6 on exact elements yield the sum of the
array when no index of the variant that pass 1 selects wraps. -/
theorem twoPass_total6 (ndata nthread nblock : Nat) (junk1 junk2 : Nat → Junk)
    (d_in d_reduction : Mem) (ht5 : nthread ∈ [32, 64, 128, 256, 512]) (hnb : 1 ≤ nblock)
    (hwrap1 : if isPow2 ndata = true then ndata + 2 * nblock * nthread ≤ 4294967296
      else ndata + nblock * nthread ≤ 4294967296)
    (hwrap2 : nblock + 2 * 1 * nthread ≤ 4294967296) :
    ∃ d_after sums, twoPass ndata nthread nblock 6 junk1 junk2 d_in d_reduction =
      some (∑ i in range ndata, d_in i, d_after, sums) := by
  obtain ⟨out1, he1, hs1⟩ := exec_total6 4 ndata nthread nblock junk1 d_in d_reduction ht5 hnb
    hwrap1
  rw [twoPass, he1]
  by_cases h1 : 1 < nblock
  · obtain ⟨out2, he2, hs2, -⟩ := exec_total 4 nblock nthread 1 6 junk2 out1
      d_in (Or.inr (Or.inr (Or.inr (Or.inl ⟨rfl, ht5⟩)))) le_rfl hwrap2
    simp only [if_pos h1, he2]
    rw [sum_range_one] at hs2
    rw [hs2, hs1]
    exact ⟨out2, out1, rfl⟩
  · have h1' : nblock = 1 := by omega
    rw [h1'] at hs1
    simp only [if_neg h1]
    rw [sum_range_one] at hs1
    rw [hs1]
    exact ⟨d_in, out1, rfl⟩

/-- The block count for a power-of-two thread count between 2 and `2^30`: at least 1 when
`2 * N ≥ threads`, and `nblock * threads ≤ 2^31`; it is the quotient rounded half up when
`N` is a `float`. -/
theorem nblock_pow2_facts (N k : Nat) (hN : N < 2147483648) (hk1 : 1 ≤ k) (hk : k ≤ 30) :
    ∃ nb F, nblock N (2 ^ k) = some nb ∧ nb = (2 * F + 2 ^ k) / (2 * 2 ^ k) ∧
      F ≤ 2147483648 ∧ (N ≤ 16777216 → F = N) ∧ (16777216 ≤ N → 16777216 ≤ F) ∧
      (∀ j, N = 2 ^ j → F = N) ∧ nb * 2 ^ k ≤ 2147483648 ∧ F ≤ N + 127 ∧
      N ≤ F + 127 := by
  obtain ⟨m, s, hm, hs, hF, hF1, hF2⟩ := F32.ofInt_nat_repr N hN
  have hFle : m * 2 ^ s ≤ 2147483648 :=
    calc m * 2 ^ s ≤ 16777216 * 2 ^ 7 :=
          Nat.mul_le_mul hm (Nat.pow_le_pow_right (by norm_num) hs)
      _ = 2147483648 := by norm_num
  have hpos : 0 < 2 ^ k := by positivity
  have h2k : 2 ≤ 2 ^ k := by
    calc 2 = 2 ^ 1 := rfl
      _ ≤ 2 ^ k := Nat.pow_le_pow_right (by norm_num) hk1
  -- `nb * 2^k ≤ 2^31`: a multiple of `2^k` below `2^31 + 2^k`
  have hdvd : 2147483648 = 2 ^ (31 - k) * 2 ^ k := by
    rw [← pow_add, Nat.sub_add_cancel (by omega)]; norm_num
  have hmul : (2 * (m * 2 ^ s) + 2 ^ k) / (2 * 2 ^ k) * 2 ^ k ≤ 2147483648 := by
    have h1 := Nat.div_mul_le_self (2 * (m * 2 ^ s) + 2 ^ k) (2 * 2 ^ k)
    have h2 : (2 * (m * 2 ^ s) + 2 ^ k) / (2 * 2 ^ k) * (2 * 2 ^ k) =
        2 * ((2 * (m * 2 ^ s) + 2 ^ k) / (2 * 2 ^ k) * 2 ^ k) := by ring
    rw [h2] at h1
    have h3 : (2 * (m * 2 ^ s) + 2 ^ k) / (2 * 2 ^ k) * 2 ^ k < (2 ^ (31 - k) + 1) * 2 ^ k := by
      rw [Nat.add_mul, one_mul, ← hdvd]; omega
    have h4 := Nat.lt_of_mul_lt_mul_right h3
    calc (2 * (m * 2 ^ s) + 2 ^ k) / (2 * 2 ^ k) * 2 ^ k ≤ 2 ^ (31 - k) * 2 ^ k :=
          Nat.mul_le_mul_right _ (by omega)
      _ = 2147483648 := hdvd.symm
  have hlt : (2 * (m * 2 ^ s) + 2 ^ k) / (2 * 2 ^ k) < 2147483648 := by
    have : (2 * (m * 2 ^ s) + 2 ^ k) / (2 * 2 ^ k) * 2 ≤
        (2 * (m * 2 ^ s) + 2 ^ k) / (2 * 2 ^ k) * 2 ^ k := Nat.mul_le_mul_left _ h2k
    omega
  have h127 : m * 2 ^ s ≤ N + 127 := by
    have := F32.ofInt_nat_le N _ hN hF
    exact_mod_cast this
  have h127' : N ≤ m * 2 ^ s + 127 := by
    have := F32.ofInt_nat_ge N _ hN hF
    exact_mod_cast this
  refine ⟨_, m * 2 ^ s, ?_, rfl, hFle, hF1, hF2, fun j hj => ?_, hmul, h127, h127'⟩
  · rw [nblock_pow2 N k m s hk hm hs hF, if_pos hlt]
  · have hj127 : j ≤ 127 := by
      by_contra hc
      have : 2 ^ 31 ≤ 2 ^ j := Nat.pow_le_pow_right (by norm_num) (by omega)
      omega
    have h2 := F32.ofInt_pow2 j hj127
    rw [← hj, hF] at h2
    have h3 : ((m * 2 ^ s : Nat) : ℚ) = ((N : Nat) : ℚ) := by
      have := F32.fin.inj h2
      rw [this, hj]
    exact_mod_cast h3

theorem F32.round_tie : F32.round (16777217 : ℚ) = F32.fin 16777216 := by
  have h := roundTo_eval 24 (-149) (16777217 : ℚ) 24 1 8388608 (by norm_num) (by norm_num)
    (by norm_num) (by norm_num) (roundEven_tie 8388608 _ (by norm_num) (by norm_num))
  rw [F32.round, h, if_pos (by rw [abs_of_pos (by norm_num)]; norm_num)]
  norm_num

theorem Rounds_zero : Rounds 0 0 :=
  ⟨le_refl _, fun _ => by simp; rfl, fun h => absurd h (by norm_num)⟩

theorem Rounds_add (x y : F32) (a b : Int) (hx : Rounds x a) (hy : Rounds y b) :
    Rounds (x + y) (a + b) := by
  obtain ⟨ha0, ha1, ha2⟩ := hx
  obtain ⟨hb0, hb1, hb2⟩ := hy
  refine ⟨by omega, fun h => ?_, fun h => ?_⟩
  · rw [ha1 (by omega), hb1 (by omega), F32.fin_add]
    have := F32.round_int (a + b) (by rw [abs_of_nonneg (by omega)]; exact h)
    push_cast at this ⊢
    exact this
  · by_cases hA : a = 16777217
    · have hB : b = 0 := by omega
      rw [ha2 hA, hb1 (by omega), hB, F32.fin_add]
      have := F32.round_int 16777216 (by norm_num)
      norm_num at this ⊢
      exact this
    · by_cases hB : b = 16777217
      · have hA0 : a = 0 := by omega
        rw [hb2 hB, ha1 (by omega), hA0, F32.fin_add]
        have := F32.round_int 16777216 (by norm_num)
        norm_num at this ⊢
        exact this
      · rw [ha1 (by omega), hb1 (by omega), F32.fin_add]
        have e : (a : ℚ) + (b : ℚ) = 16777217 := by exact_mod_cast h
        rw [e, F32.round_tie]

/-- On non-negative integers that add up to `2^24 + 1` the driver in `float` yields
`2^24`. -/
theorem twoPass_rounds (ndata nthread nblock : Nat) (method : Int)
    (junk1 junk2 : Nat → JunkOf F32) (A : Nat → Int) (d_reduction : Nat → F32)
    (hA : ∀ i, 0 ≤ A i ∧ A i ≤ 16777216) (A1 A2 : Mem)
    (ha : twoPass ndata nthread nblock method (fun _ => constJunk 16777218)
      (fun _ => constJunk 16777218) A (fun _ => 16777218) = some (16777217, A1, A2)) :
    (twoPass ndata nthread nblock method junk1 junk2 (fun i => F32.fin (A i : ℚ))
      d_reduction).map Prod.fst = some (F32.fin 16777216) := by
  have hany : ∀ x, Rounds x 16777218 := fun x =>
    ⟨by norm_num, fun h => absurd h (by norm_num), fun h => absurd h (by norm_num)⟩
  have hP := @twoPass_rel F32 Int _ _ _ _ Rounds Rounds_zero Rounds_add ndata nthread nblock
    method junk1 junk2 (fun _ => constJunk 16777218) (fun _ => constJunk 16777218)
    (fun b => ⟨fun i => hany _, fun o l => hany _⟩)
    (fun b => ⟨fun i => hany _, fun o l => hany _⟩)
    (fun i => F32.fin (A i : ℚ)) A
    (fun i => ⟨(hA i).1, fun _ => rfl, fun h => absurd (hA i).2 (by omega)⟩)
    d_reduction (fun _ => 16777218) (fun i => hany _)
  rw [ha] at hP
  cases hf : twoPass ndata nthread nblock method junk1 junk2 (fun i => F32.fin (A i : ℚ))
      d_reduction with
  | none => rw [hf] at hP; exact hP.elim
  | some F =>
    rw [hf] at hP
    rw [Option.map_some', hP.1.2.2 rfl]

theorem sum_scaled (A : Nat → Int) (e : Int) (n : Nat) :
    ((∑ i in range n, A i : Int) : ℚ) * 2 ^ e = ∑ i in range n, (A i : ℚ) * 2 ^ e := by
  rw [Int.cast_sum, Finset.sum_mul]

theorem sum_abs_oneToEight_le (n : Nat) : ∑ i in range n, |oneToEight i| ≤ 16777216 := by
  have h : ∀ i, |oneToEight i| ≤ if i < 8 then 8 else 0 := by
    intro i
    unfold oneToEight
    rcases i with _ | _ | _ | _ | _ | _ | _ | _ | i <;> simp
    split_ifs <;> norm_num
  calc ∑ i in range n, |oneToEight i| ≤ ∑ i in range n, (if i < 8 then (8 : Int) else 0) :=
        Finset.sum_le_sum fun i _ => h i
    _ = ∑ i in range (min 8 n), (8 : Int) := sum_range_guard _ _ _
    _ ≤ 16777216 := by
        rw [Finset.sum_const, Finset.card_range, nsmul_eq_mul]
        have : ((min 8 n : Nat) : Int) ≤ 8 := by exact_mod_cast min_le_left 8 n
        linarith

/-- The block count for a power-of-two thread count, when it is defined: it is the
quotient of the converted element count `F`, rounded half up. -/
theorem nblock_pow2_some (N k nb : Nat) (hN : N < 2147483648) (hk : k ≤ 30)
    (h : nblock N (2 ^ k) = some nb) :
    ∃ F, nb = (2 * F + 2 ^ k) / (2 * 2 ^ k) ∧ F ≤ 2147483648 ∧ (N ≤ 16777216 → F = N) ∧
      (16777216 ≤ N → 16777216 ≤ F) ∧ nb * 2 ^ k ≤ 2147483648 ∧ F ≤ N + 127 ∧
      N ≤ F + 127 ∧ (∀ j, N = 2 ^ j → F = N) := by
  rcases Nat.eq_zero_or_pos k with h0 | h0
  · subst h0
    obtain ⟨m, s, hm, hs, hF, hF1, hF2⟩ := F32.ofInt_nat_repr N hN
    have hFle : m * 2 ^ s ≤ 2147483648 :=
      calc m * 2 ^ s ≤ 16777216 * 2 ^ 7 :=
            Nat.mul_le_mul hm (Nat.pow_le_pow_right (by norm_num) hs)
        _ = 2147483648 := by norm_num
    rw [nblock_pow2 N 0 m s (by omega) hm hs hF] at h
    split_ifs at h with hc
    have hnb : (2 * (m * 2 ^ s) + 2 ^ 0) / (2 * 2 ^ 0) = nb := Option.some_inj.mp h
    have h127 : m * 2 ^ s ≤ N + 127 := by
      have := F32.ofInt_nat_le N _ hN hF
      exact_mod_cast this
    have h127' : N ≤ m * 2 ^ s + 127 := by
      have := F32.ofInt_nat_ge N _ hN hF
      exact_mod_cast this
    refine ⟨m * 2 ^ s, hnb.symm, hFle, hF1, hF2, by rw [← hnb]; omega, h127, h127',
      fun j hj => ?_⟩
    have hj127 : j ≤ 127 := by
      by_contra hc
      have : 2 ^ 31 ≤ 2 ^ j := Nat.pow_le_pow_right (by norm_num) (by omega)
      omega
    have h2 := F32.ofInt_pow2 j hj127
    rw [← hj, hF] at h2
    have h3 : ((m * 2 ^ s : Nat) : ℚ) = ((N : Nat) : ℚ) := by
      have := F32.fin.inj h2
      rw [this, hj]
    exact_mod_cast h3
  · obtain ⟨nb', F, h1, h2, h3, h4, h5, h6, h7, h8, h9⟩ := nblock_pow2_facts N k hN h0 hk
    rw [h] at h1
    have : nb = nb' := Option.some_inj.mp h1
    subst this
    exact ⟨F, h2, h3, h4, h5, h7, h8, h9, h6⟩

theorem map_fst_some {α β : Type} (o : Option (α × β)) (a : α)
    (h : o.map Prod.fst = some a) : ∃ b, o = some (a, b) := by
  cases o with
  | none => cases h
  | some r =>
    obtain ⟨x, y⟩ := r
    rw [Option.map_some', Option.some_inj] at h
    dsimp only at h
    exact ⟨y, by rw [h]⟩

/-- The scalar of the driver with a one-element-per-thread strategy on exact elements. -/
theorem twoPass_one_per_thread (ndata nthread nb k : Nat) (method : Int)
    (junk1 junk2 : Nat → Junk) (d_in d_reduction : Mem)
    (hk : method = 0 ∨ method = 1 ∨ method = 2) (ht : nthread = 2 ^ k) (hnb : 1 ≤ nb)
    (hwrap : nb * nthread ≤ 4294967296) :
    (twoPass ndata nthread nb method junk1 junk2 d_in d_reduction).map Prod.fst =
      some (∑ i in range (min ndata (min nb nthread * nthread)), d_in i) := by
  have hpos : 1 ≤ nthread := by rw [ht]; exact Nat.one_le_two_pow
  have hmin : min nb nthread * nthread ≤ nb * nthread :=
    Nat.mul_le_mul_right _ (min_le_left _ _)
  have hT : nthread ≤ nb * nthread := Nat.le_mul_of_pos_left _ hnb
  have he1 := exec_one_per_thread 4 ndata nthread nb k method hk ht junk1 d_in d_reduction
  have hscalar : ∀ out1 : Mem,
      (∀ b, b < nb →
        out1 b = ∑ t in range nthread, load1 d_in ndata nthread b (junk1 b).smem t) →
      ∑ b in range (min nb nthread), out1 b =
        ∑ i in range (min ndata (min nb nthread * nthread)), d_in i := by
    intro out1 hout
    rw [← sum_load1 d_in ndata (min nb nthread) nthread (fun b => (junk1 b).smem) (by omega)]
    refine sum_congr rfl fun b hb => hout b ?_
    have := mem_range.mp hb
    omega
  rw [twoPass, he1]
  by_cases h1 : 1 < nb
  · have he2 := exec_one_per_thread 4 nb nthread 1 k method hk ht junk2
      (fun j => if j < nb then ∑ t in range nthread, load1 d_in ndata nthread j (junk1 j).smem t
        else d_reduction j) d_in
    simp only [if_pos h1, he2, Option.map_some']
    refine congrArg some ?_
    rw [if_pos (by norm_num), block_load1 _ _ _ _ _ (by omega)]
    simp only [zero_mul, zero_add]
    rw [sum_range_guard, ← hscalar _ (fun b hb => if_pos hb), Nat.min_comm]
  · have h1' : nb = 1 := by omega
    simp only [if_neg h1, Option.map_some']
    refine congrArg some ?_
    rw [← hscalar (fun j => if j < nb then
          ∑ t in range nthread, load1 d_in ndata nthread j (junk1 j).smem t
        else d_reduction j) (fun b hb => if_pos hb)]
    rw [h1', min_eq_left hpos, sum_range_one]

/-- The driver completes on every element type when no index wraps. -/
theorem twoPass_completes {T : Type} [Add T] [Zero T] (ndata nthread nblock : Nat)
    (method : Int) (junk1 junk2 : Nat → JunkOf T) (d_in d_reduction : Nat → T)
    (hthreads : 1 ≤ nthread) (hwrap : ndata + 2 * nblock * nthread ≤ 4294967296) :
    ∃ s d_after sums, twoPass ndata nthread nblock method junk1 junk2 d_in d_reduction =
      some (s, d_after, sums) := by
  have hwrap2 : 1 < nblock → nblock + 2 * 1 * nthread ≤ 4294967296 := by
    intro hnb
    have h1 : nblock * 1 ≤ nblock * nthread := Nat.mul_le_mul_left _ hthreads
    have h2 : 2 * nthread ≤ nblock * nthread := Nat.mul_le_mul_right _ hnb
    have h3 : 2 * nblock * nthread = nblock * nthread + nblock * nthread := by ring
    omega
  obtain ⟨a, A1, A2, ha⟩ := twoPass_isSome ndata nthread nblock method (fun _ => constJunk 0)
    (fun _ => constJunk 0) (fun _ => 0) (fun _ => 0) hthreads hwrap hwrap2
  have hrel := @twoPass_rel T Int _ _ _ _ (fun _ _ => True) trivial
    (fun _ _ _ _ _ _ => trivial) ndata nthread nblock method junk1 junk2
    (fun _ => constJunk 0) (fun _ => constJunk 0) (fun _ => ⟨fun _ => trivial, fun _ _ => trivial⟩)
    (fun _ => ⟨fun _ => trivial, fun _ _ => trivial⟩) d_in (fun _ => 0) (fun _ => trivial)
    d_reduction (fun _ => 0) (fun _ => trivial)
  have hsome := OptRel_isSome hrel
  rw [ha] at hsome
  obtain ⟨⟨s, d_after, sums⟩, h⟩ := Option.isSome_iff_exists.mp hsome
  exact ⟨s, d_after, sums, h⟩

/-- What the second pass of the driver does to the array it reduced. -/
theorem twoPass_second {T : Type} [Add T] [Zero T] (ndata nthread nblock : Nat) (method : Int)
    (junk1 junk2 : Nat → JunkOf T) (d_in d_reduction : Nat → T) (s : T)
    (d_after sums : Nat → T) (hthreads : 1 ≤ nthread)
    (h : twoPass ndata nthread nblock method junk1 junk2 d_in d_reduction =
      some (s, d_after, sums)) (hnb : 1 < nblock) :
    s = d_after 0 ∧
    (∀ l, reduce 4 nblock nthread 1 method = Dispatch.launch l →
      runKernel l.kernel sums nblock 1 nthread 0 (junk2 0) = some (d_after 0)) ∧
    ((∀ l, reduce 4 nblock nthread 1 method ≠ Dispatch.launch l) → d_after = d_in) := by
  rw [twoPass] at h
  cases h1 : (reduce 4 ndata nthread nblock method).exec junk1 d_in d_reduction with
  | none => rw [h1] at h; cases h
  | some red =>
    rw [h1] at h
    dsimp only at h
    rw [if_pos hnb] at h
    cases h2 : (reduce 4 nblock nthread 1 method).exec junk2 red d_in with
    | none => rw [h2] at h; cases h
    | some d2 =>
      rw [h2] at h
      dsimp only at h
      obtain ⟨rfl, rfl, rfl⟩ : d2 0 = s ∧ d2 = d_after ∧ red = sums := by
        have := Option.some.inj h
        exact ⟨congrArg Prod.fst this, congrArg (fun p => p.2.1) this,
          congrArg (fun p => p.2.2) this⟩
      refine ⟨rfl, fun l hl => ?_, fun hno => ?_⟩
      · exact exec_block 4 nblock nthread 1 method junk2 red d_in d2 l hl h2 hthreads 0
          (by norm_num)
      · cases hd : reduce 4 nblock nthread 1 method with
        | launch l => exact absurd hd (hno l)
        | message => rw [hd] at h2; exact (Option.some.inj h2).symm
        | nothing => rw [hd] at h2; exact (Option.some.inj h2).symm

/-- C3: on `A = [1,2,3,4,5,6,7,8]` with `threads = 4` and `blocks = 2`, each of the
strategies 0, 1 and 2 stores the partial sums `[10, 26]`, and a second launch of the same
strategy over these two values with `n = 2`, `threads = 4`, `blocks = 1` stores `36`. -/
theorem scenario_two_pass (sizeofT : Nat) (whichKernel : Int)
    (hk : whichKernel = 0 ∨ whichKernel = 1 ∨ whichKernel = 2) (junk1 junk2 : Nat → Junk)
    (d_odata d_final : Mem) :
    ∃ sums, (reduce sizeofT 8 4 2 whichKernel).exec junk1 oneToEight d_odata = some sums ∧
      sums 0 = 10 ∧ sums 1 = 26 ∧
      ∃ final, (reduce sizeofT 2 4 1 whichKernel).exec junk2 sums d_final = some final ∧
        final 0 = 36 := by
  obtain ⟨sums, hs, h0, h1⟩ : ∃ sums,
      (reduce sizeofT 8 4 2 whichKernel).exec junk1 oneToEight d_odata = some sums ∧
      sums 0 = 10 ∧ sums 1 = 26 := by
    refine ⟨_, exec_one_per_thread sizeofT 8 4 2 2 whichKernel hk rfl junk1 oneToEight d_odata,
      ?_, ?_⟩
    · rw [if_pos (by norm_num), block_load1 _ _ _ _ _ (by norm_num)]
      decide
    · rw [if_pos (by norm_num), block_load1 _ _ _ _ _ (by norm_num)]
      decide
  refine ⟨sums, hs, h0, h1, _,
    exec_one_per_thread sizeofT 2 4 1 2 whichKernel hk rfl junk2 sums d_final, ?_⟩
  rw [if_pos (by norm_num), block_load1 _ _ _ _ _ (by norm_num)]
  simp [sum_range_succ, h0, h1]

/-- C3, witness: strategy 1. -/
theorem scenario_two_pass_witness :
    ∃ sums, (reduce 4 8 4 2 1).exec (fun _ => constJunk 5) oneToEight (constMem 0) = some sums ∧
      sums 0 = 10 ∧ sums 1 = 26 ∧
      ∃ final, (reduce 4 2 4 1 1).exec (fun _ => constJunk 7) sums (constMem 0) = some final ∧
        final 0 = 36 :=
  scenario_two_pass 4 1 (Or.inr (Or.inl rfl)) (fun _ => constJunk 5) (fun _ => constJunk 7)
    (constMem 0) (constMem 0)

/-! ## C4 -/

/-- C4: on `A = [2,4,4,4,5,5,7,9]` with `nthread = 4` or `nthread = 8` and strategy 0, 1,
2 or 3, the two reductions of the calculator yield `40` and `232`, so that `mean = 5`,
`mean2 = 29`, `mean2 - mean*mean = 4` and `stddev = sqrt 4 = 2`. -/
theorem calculator_scenario (nthread : Nat) (method : Int) (hT : nthread = 4 ∨ nthread = 8)
    (hm : method = 0 ∨ method = 1 ∨ method = 2 ∨ method = 3) (junk : Nat → Nat → Junk)
    (d_float d_float2 d_reduction : Mem) :
    (∀ d_red, (twoPass 8 nthread (nblockOf 8 nthread) method (junk 0) (junk 1)
      (cudautil_pow sample8 (nblockOf 8 nthread) nthread 8 d_float d_float2).1 d_red).map
        Prod.fst = some 40) ∧
    (∀ d_red, (twoPass 8 nthread (nblockOf 8 nthread) method (junk 2) (junk 3)
      (cudautil_pow sample8 (nblockOf 8 nthread) nthread 8 d_float d_float2).2 d_red).map
        Prod.fst = some 232) ∧
    ∃ r, RealMeanStddevCalculator sample8 8 nthread method junk d_float d_float2 d_reduction =
        some r ∧ r.mean = 5 ∧ r.mean2 = 29 ∧ r.radicand = 4 ∧ Real.sqrt (r.radicand : ℝ) = 2 := by
  have hnb : nblockOf 8 nthread * nthread = 8 ∧ 1 ≤ nblockOf 8 nthread ∧
      nblockOf 8 nthread ≤ nthread ∧ ∃ k, nthread = 2 ^ k := by
    rcases hT with rfl | rfl
    · rw [nblockOf_eq _ _ (by norm_num)]; exact ⟨by decide, by decide, by decide, 2, rfl⟩
    · rw [nblockOf_eq _ _ (by norm_num)]; exact ⟨by decide, by decide, by decide, 3, rfl⟩
  obtain ⟨h8, h1, hle, hpow⟩ := hnb
  have hT32 : nthread ≤ 8 := by rcases hT with rfl | rfl <;> norm_num
  have hdom : ((method = 0 ∨ method = 1 ∨ method = 2) ∧ (∃ k, nthread = 2 ^ k) ∧
          8 ≤ nblockOf 8 nthread * nthread ∧ nblockOf 8 nthread ≤ nthread) ∨
      (method = 3 ∧ (∃ k, nthread = 2 ^ k) ∧ 8 ≤ 2 * nblockOf 8 nthread * nthread ∧
          nblockOf 8 nthread ≤ 2 * nthread) ∨
      ((method = 4 ∨ method = 5) ∧ nthread ∈ [32, 64, 128, 256, 512] ∧
          8 ≤ 2 * nblockOf 8 nthread * nthread ∧ nblockOf 8 nthread ≤ 2 * nthread) ∨
      (method = 6 ∧ nthread ∈ [32, 64, 128, 256, 512]) ∨
      (method = 7 ∧ nthread = 1024) ∨
      (method = 8 ∧ ∃ k, 5 ≤ k ∧ nthread = 2 ^ k) ∨
      (method = 9 ∧ nthread ∈ [1024, 512, 256, 128, 64]) := by
    rcases hm with h | h | h | h
    · exact Or.inl ⟨Or.inl h, hpow, by omega, hle⟩
    · exact Or.inl ⟨Or.inr (Or.inl h), hpow, by omega, hle⟩
    · exact Or.inl ⟨Or.inr (Or.inr h), hpow, by omega, hle⟩
    · exact Or.inr (Or.inl ⟨h, hpow, by rw [Nat.mul_assoc]; omega, by omega⟩)
  have hwrap : 8 + 2 * nblockOf 8 nthread * nthread ≤ 4294967296 := by
    rw [Nat.mul_assoc]; omega
  have hst := fun idx (hi : idx < 8) =>
    cudautil_pow_stored sample8 (nblockOf 8 nthread) nthread 8 d_float d_float2 idx hi
      (by omega) (by omega)
  have hs1 : ∑ i in range 8,
      (cudautil_pow sample8 (nblockOf 8 nthread) nthread 8 d_float d_float2).1 i = 40 := by
    rw [sum_congr rfl fun i hi => (hst i (mem_range.mp hi)).1]; decide
  have hs2 : ∑ i in range 8,
      (cudautil_pow sample8 (nblockOf 8 nthread) nthread 8 d_float d_float2).2 i = 232 := by
    rw [sum_congr rfl fun i hi => (hst i (mem_range.mp hi)).2]; decide
  have hp1 := fun d_red => twoPass_total 8 nthread (nblockOf 8 nthread) method (junk 0) (junk 1)
    (cudautil_pow sample8 (nblockOf 8 nthread) nthread 8 d_float d_float2).1 d_red
    hdom h1 hwrap
  have hp2 := fun d_red => twoPass_total 8 nthread (nblockOf 8 nthread) method (junk 2) (junk 3)
    (cudautil_pow sample8 (nblockOf 8 nthread) nthread 8 d_float d_float2).2 d_red
    hdom h1 hwrap
  rw [hs1] at hp1
  rw [hs2] at hp2
  refine ⟨fun d_red => ?_, fun d_red => ?_, ⟨40 / 8, 232 / 8⟩, ?_, by norm_num, by norm_num,
    ?_, ?_⟩
  · obtain ⟨_, sums, h⟩ := hp1 d_red
    rw [h]; rfl
  · obtain ⟨_, sums, h⟩ := hp2 d_red
    rw [h]; rfl
  · obtain ⟨_, sums1, e1⟩ := hp1 d_reduction
    obtain ⟨_, sums2, e2⟩ := hp2 sums1
    simp only [RealMeanStddevCalculator, e1, e2]
    norm_num
  · norm_num [MeanStddev.radicand]
  · have : ((MeanStddev.radicand ⟨40 / 8, 232 / 8⟩ : ℚ) : ℝ) = 2 ^ 2 := by
      norm_num [MeanStddev.radicand]
    rw [this]
    exact Real.sqrt_sq (by norm_num)

/-- C4, witness: 4 threads per block and strategy 3. -/
theorem calculator_scenario_witness :
    ∃ r, RealMeanStddevCalculator sample8 8 4 3 (fun _ _ => constJunk 1) (constMem 0)
        (constMem 0) (constMem 0) = some r ∧
      r.mean = 5 ∧ r.mean2 = 29 ∧ r.radicand = 4 ∧ Real.sqrt (r.radicand : ℝ) = 2 :=
  (calculator_scenario 4 3 (Or.inl rfl) (Or.inr (Or.inr (Or.inr rfl)))
    (fun _ _ => constJunk 1) (constMem 0) (constMem 0) (constMem 0)).2.2

/-! ## C5 -/

/-- C5, counterexample: strategy 0 with 64 threads on `67108865 = 2^26 + 1` blocks and a
one-element array `[1]` (`blocks * threads ≥ n`).  In block `2^26` the index
`blockIdx.x * blockDim.x + threadIdx.x = 2^32 + tid` wraps to `tid`, so that thread 0 of
this block loads `A[0]` again: the outputs add up to `2`, the sum of the array is `1`. -/
theorem strategies_total_counterexample :
    (1 : Nat) ≤ 67108865 * 64 ∧
    (∃ out, (reduce 4 1 64 67108865 0).exec (fun _ => constJunk 0) (constMem 1) (constMem 0) =
        some out ∧ out 0 = 1 ∧ out 67108864 = 1 ∧ ∑ b in range 67108865, out b = 2) ∧
    ∑ i in range 1, constMem 1 i = 1 := by
  have hblock : ∀ b, b ≤ 67108864 →
      ∑ t in range 64, load1 (constMem 1) 1 64 b (constJunk 0).smem t =
        if b = 0 ∨ b = 67108864 then 1 else 0 := by
    intro b hb
    rw [sum_eq_single 0]
    · rcases Nat.eq_or_lt_of_le hb with h | h
      · subst h; decide
      · have h2 : u32 (b * 64 + 0) = b * 64 := u32_of_lt (by omega)
        have h3 : load1 (constMem 1) 1 64 b (constJunk 0).smem 0 =
            if b * 64 < 1 then 1 else 0 := by
          simp only [load1, h2, constMem]; rfl
        rw [h3]
        by_cases h0 : b = 0
        · subst h0; rfl
        · rw [if_neg (by omega), if_neg (by omega)]
    · intro t ht ht0
      have ht' : t < 64 := mem_range.mp ht
      simp only [load1, if_pos ht']
      rw [if_neg]
      rcases Nat.eq_or_lt_of_le hb with h | h
      · subst h
        have : u32 (67108864 * 64 + t) = t := by unfold u32; omega
        omega
      · rw [u32_of_lt (by omega)]; omega
    · intro h; exact absurd (mem_range.mpr (by norm_num)) h
  refine ⟨by norm_num, ⟨_, exec_one_per_thread 4 1 64 67108865 6 0 (Or.inl rfl) rfl _ _ _,
    ?_, ?_, ?_⟩, by decide⟩
  · rw [if_pos (by norm_num), hblock 0 (by norm_num)]; rfl
  · rw [if_pos (by norm_num), hblock 67108864 le_rfl]; rfl
  · rw [show (67108865 : Nat) = 67108864 + 1 by norm_num, sum_range_succ]
    have h1 : ∀ b ∈ range 67108864,
        (fun j => if j < 67108864 + 1 then
          ∑ t in range 64, load1 (constMem 1) 1 64 j (constJunk 0).smem t
          else constMem 0 j) b = if b = 0 then 1 else 0 := by
      intro b hb
      have hb' : b < 67108864 := mem_range.mp hb
      show (if b < 67108864 + 1 then
          ∑ t in range 64, load1 (constMem 1) 1 64 b (constJunk 0).smem t
          else constMem 0 b) = if b = 0 then 1 else 0
      rw [if_pos (by omega), hblock b (by omega)]
      by_cases h0 : b = 0
      · rw [if_pos (Or.inl h0), if_pos h0]
      · rw [if_neg (by omega), if_neg h0]
    rw [sum_congr rfl h1, sum_ite_eq' (range 67108864) 0 (fun _ => (1 : Int)),
      if_pos (mem_range.mpr (by norm_num))]
    show (1 : Int) + (if 67108864 < 67108864 + 1 then
          ∑ t in range 64, load1 (constMem 1) 1 64 67108864 (constJunk 0).smem t
          else constMem 0 67108864) = 2
    rw [if_pos (by norm_num), hblock 67108864 le_rfl, if_pos (Or.inr rfl)]
    rfl

/-- C5, amended: for every `threads ∈ {64, 128, 256, 512}`, every `blocks ≥ 1` and `n`
with `blocks * threads ≥ n` such that no 32-bit index wraps
(`n + 2 * blocks * threads ≤ 2^32`), the launches of any two strategies `s1`, `s2` among
0..6 complete, and the totals of the values they store are the same and equal the sum of
the `n` input elements. -/
theorem strategies_total (sizeofT n threads blocks : Nat) (s1 s2 : Int)
    (junk1 junk2 : Nat → Junk) (d_idata d_odata1 d_odata2 : Mem)
    (h1 : 0 ≤ s1 ∧ s1 ≤ 6) (h2 : 0 ≤ s2 ∧ s2 ≤ 6)
    (ht : threads ∈ [64, 128, 256, 512]) (hblocks : 1 ≤ blocks) (hcov : n ≤ blocks * threads)
    (hwrap : n + 2 * blocks * threads ≤ 4294967296) :
    ∃ out1 out2,
      (reduce sizeofT n threads blocks s1).exec junk1 d_idata d_odata1 = some out1 ∧
      (reduce sizeofT n threads blocks s2).exec junk2 d_idata d_odata2 = some out2 ∧
      ∑ b in range blocks, out1 b = ∑ b in range blocks, out2 b ∧
      ∑ b in range blocks, out1 b = ∑ i in range n, d_idata i := by
  have hmem : threads ∈ [32, 64, 128, 256, 512] := List.mem_cons_of_mem _ ht
  obtain ⟨k, _, hk⟩ := pow2_of_mem hmem
  have hcov2 : n ≤ 2 * blocks * threads := by
    rw [Nat.mul_assoc]; omega
  have hdom : ∀ s : Int, 0 ≤ s ∧ s ≤ 6 →
      ((s = 0 ∨ s = 1 ∨ s = 2) ∧ (∃ k, threads = 2 ^ k) ∧ n ≤ blocks * threads) ∨
      (s = 3 ∧ (∃ k, threads = 2 ^ k) ∧ n ≤ 2 * blocks * threads) ∨
      ((s = 4 ∨ s = 5) ∧ threads ∈ [32, 64, 128, 256, 512] ∧ n ≤ 2 * blocks * threads) ∨
      (s = 6 ∧ threads ∈ [32, 64, 128, 256, 512]) ∨
      (s = 7 ∧ threads = 1024) ∨
      (s = 8 ∧ ∃ k, 5 ≤ k ∧ threads = 2 ^ k) ∨
      (s = 9 ∧ threads ∈ [1024, 512, 256, 128, 64]) := by
    intro s hs
    have : s = 0 ∨ s = 1 ∨ s = 2 ∨ s = 3 ∨ s = 4 ∨ s = 5 ∨ s = 6 := by omega
    rcases this with h | h | h | h | h | h | h
    · exact Or.inl ⟨Or.inl h, ⟨k, hk⟩, hcov⟩
    · exact Or.inl ⟨Or.inr (Or.inl h), ⟨k, hk⟩, hcov⟩
    · exact Or.inl ⟨Or.inr (Or.inr h), ⟨k, hk⟩, hcov⟩
    · exact Or.inr (Or.inl ⟨h, ⟨k, hk⟩, hcov2⟩)
    · exact Or.inr (Or.inr (Or.inl ⟨Or.inl h, hmem, hcov2⟩))
    · exact Or.inr (Or.inr (Or.inl ⟨Or.inr h, hmem, hcov2⟩))
    · exact Or.inr (Or.inr (Or.inr (Or.inl ⟨h, hmem⟩)))
  obtain ⟨out1, e1, t1, _⟩ :=
    exec_total sizeofT n threads blocks s1 junk1 d_idata d_odata1 (hdom s1 h1) hblocks hwrap
  obtain ⟨out2, e2, t2, _⟩ :=
    exec_total sizeofT n threads blocks s2 junk2 d_idata d_odata2 (hdom s2 h2) hblocks hwrap
  exact ⟨out1, out2, e1, e2, t1.trans t2.symm, t1⟩

/-- C5, witness: strategies 2 and 6 with 64 threads and 2 blocks on one hundred
elements equal to 3. -/
theorem strategies_total_witness :
    100 ≤ 2 * 64 ∧ 100 + 2 * 2 * 64 ≤ 4294967296 ∧
    ∃ out1 out2,
      (reduce 4 100 64 2 2).exec (fun _ => constJunk 0) (constMem 3) (constMem 0) = some out1 ∧
      (reduce 4 100 64 2 6).exec (fun _ => constJunk 0) (constMem 3) (constMem 0) = some out2 ∧
      ∑ b in range 2, out1 b = ∑ b in range 2, out2 b ∧
      ∑ b in range 2, out1 b = ∑ i in range 100, constMem 3 i :=
  ⟨by decide, by decide,
    strategies_total 4 100 64 2 2 6 (fun _ => constJunk 0) (fun _ => constJunk 0) (constMem 3)
      (constMem 0) (constMem 0) (by decide) (by decide) (by decide) (by decide) (by decide)
      (by decide)⟩

/-! ## C6 -/

/-- C6, counterexample: on `A = [1, 2, ...]` with `n = 2`, one thread per block and one
block, strategy 2 stores `out[0] = 1` and strategy 3 stores `out[0] = 3`: a block of
`reduce3` sums two elements per thread. -/
theorem per_block_agreement_counterexample :
    (∃ out, (reduce 4 2 1 1 2).exec (fun _ => constJunk 0) oneToEight (constMem 0) = some out ∧
      out 0 = 1) ∧
    (∃ out, (reduce 4 2 1 1 3).exec (fun _ => constJunk 0) oneToEight (constMem 0) = some out ∧
      out 0 = 3) := by
  refine ⟨⟨_, exec_one_per_thread 4 2 1 1 0 2 (Or.inr (Or.inr rfl)) rfl _ _ _, by decide⟩,
    ⟨_, exec_two_per_thread 4 2 1 1 0 rfl _ _ _, by decide⟩⟩

/-- C6, amended: for every `n`, every power-of-two thread count, every `blocks` and
every input, the strategies 0, 1 and 2 store the same value to `out[b]` for every block
`b < blocks`; strategy 3 stores to `out[b]` the sum of the two values that strategy 2,
launched on `2 * blocks` blocks, stores to `out[2 b]` and `out[2 b + 1]`. -/
theorem per_block_agreement (sizeofT n threads blocks k : Nat) (ht : threads = 2 ^ k)
    (junk0 junk1 junk2 junk3 junk : Nat → Junk) (d_idata d_odata : Mem) :
    ∃ out0 out1 out2 out3 wide,
      (reduce sizeofT n threads blocks 0).exec junk0 d_idata d_odata = some out0 ∧
      (reduce sizeofT n threads blocks 1).exec junk1 d_idata d_odata = some out1 ∧
      (reduce sizeofT n threads blocks 2).exec junk2 d_idata d_odata = some out2 ∧
      (reduce sizeofT n threads blocks 3).exec junk3 d_idata d_odata = some out3 ∧
      (reduce sizeofT n threads (2 * blocks) 2).exec junk d_idata d_odata = some wide ∧
      ∀ b, b < blocks →
        out0 b = out1 b ∧ out1 b = out2 b ∧ out3 b = wide (2 * b) + wide (2 * b + 1) := by
  refine ⟨_, _, _, _, _,
    exec_one_per_thread sizeofT n threads blocks k 0 (Or.inl rfl) ht junk0 d_idata d_odata,
    exec_one_per_thread sizeofT n threads blocks k 1 (Or.inr (Or.inl rfl)) ht junk1 d_idata
      d_odata,
    exec_one_per_thread sizeofT n threads blocks k 2 (Or.inr (Or.inr rfl)) ht junk2 d_idata
      d_odata,
    exec_two_per_thread sizeofT n threads blocks k ht junk3 d_idata d_odata,
    exec_one_per_thread sizeofT n threads (2 * blocks) k 2 (Or.inr (Or.inr rfl)) ht junk
      d_idata d_odata, ?_⟩
  intro b hb
  have hload : ∀ (s1 s2 : Mem), ∑ t in range threads, load1 d_idata n threads b s1 t =
      ∑ t in range threads, load1 d_idata n threads b s2 t := by
    intro s1 s2
    refine sum_congr rfl fun t ht' => ?_
    simp only [load1, if_pos (mem_range.mp ht')]
  simp only [if_pos hb, if_pos (show 2 * b < 2 * blocks by omega),
    if_pos (show 2 * b + 1 < 2 * blocks by omega)]
  refine ⟨hload _ _, hload _ _, ?_⟩
  rw [← sum_add_distrib]
  exact sum_congr rfl fun t ht' => load2_eq_load1 d_idata n threads b t _ _ (mem_range.mp ht')

/-- C6, witness: four threads per block and two blocks on `[1..8]`. -/
theorem per_block_agreement_witness :
    ∃ out0 out1 out2 out3 wide,
      (reduce 4 8 4 2 0).exec (fun _ => constJunk 0) oneToEight (constMem 0) = some out0 ∧
      (reduce 4 8 4 2 1).exec (fun _ => constJunk 1) oneToEight (constMem 0) = some out1 ∧
      (reduce 4 8 4 2 2).exec (fun _ => constJunk 2) oneToEight (constMem 0) = some out2 ∧
      (reduce 4 8 4 2 3).exec (fun _ => constJunk 3) oneToEight (constMem 0) = some out3 ∧
      (reduce 4 8 4 (2 * 2) 2).exec (fun _ => constJunk 4) oneToEight (constMem 0) = some wide ∧
      ∀ b, b < 2 →
        out0 b = out1 b ∧ out1 b = out2 b ∧ out3 b = wide (2 * b) + wide (2 * b + 1) :=
  per_block_agreement 4 8 4 2 2 rfl (fun _ => constJunk 0) (fun _ => constJunk 1)
    (fun _ => constJunk 2) (fun _ => constJunk 3) (fun _ => constJunk 4) oneToEight (constMem 0)

/-! ## C7 -/

/-- C7: for `threads < 64`, `reduce` called with strategy 9 reaches the same statement as
`reduce` called with strategy 7 (the same kernel instance, grid, block and shared-memory
size, or no launch at all), and so leaves the same output. -/
theorem remap_nine_to_seven (sizeofT size threads blocks : Nat) (h : threads < 64) :
    reduce sizeofT size threads blocks 9 = reduce sizeofT size threads blocks 7 ∧
    ∀ (junk : Nat → Junk) (d_idata d_odata : Mem),
      (reduce sizeofT size threads blocks 9).exec junk d_idata d_odata =
        (reduce sizeofT size threads blocks 7).exec junk d_idata d_odata := by
  have e : reduce sizeofT size threads blocks 9 = reduce sizeofT size threads blocks 7 := by
    simp [reduce, h]
  exact ⟨e, fun junk d_idata d_odata => by rw [e]⟩

/-- C7, witness: 32 threads per block; both calls launch `reduce7<T, 32, true>`. -/
theorem remap_nine_to_seven_witness :
    32 < 64 ∧
    reduce 4 8 32 1 7 = Dispatch.launch ⟨Kernel.reduce7 32 true, 1, 32, 8, 8⟩ ∧
    reduce 4 8 32 1 9 = reduce 4 8 32 1 7 :=
  ⟨by decide, by decide, (remap_nine_to_seven 4 8 32 1 (by decide)).1⟩

/-! ## C8 -/

/-- C8: the shared-memory size of the launch `reduce` makes is
`2 * threads * sizeof(T)` when `threads ≤ 32` and `threads * sizeof(T)` otherwise for
strategies 0..6 and 8; `(threads / 32 + 1) * sizeof(T)` for strategy 7 and for strategy
9 with `threads < 64`; `2 * sizeof(T)` for strategy 9 with `threads ≥ 64`. -/
theorem smemSize_spec (sizeofT size threads blocks : Nat) (whichKernel : Int) (l : Launch)
    (hl : reduce sizeofT size threads blocks whichKernel = Dispatch.launch l) :
    ((0 ≤ whichKernel ∧ whichKernel ≤ 6 ∨ whichKernel = 8) →
      l.smemSize = if threads ≤ 32 then 2 * threads * sizeofT else threads * sizeofT) ∧
    ((whichKernel = 7 ∨ whichKernel = 9 ∧ threads < 64) →
      l.smemSize = (threads / 32 + 1) * sizeofT) ∧
    ((whichKernel = 9 ∧ 64 ≤ threads) → l.smemSize = 2 * sizeofT) := by
  refine ⟨fun h => ?_, fun h => ?_, fun h => ?_⟩
  · have hw : whichKernel = 0 ∨ whichKernel = 1 ∨ whichKernel = 2 ∨ whichKernel = 3 ∨
        whichKernel = 4 ∨ whichKernel = 5 ∨ whichKernel = 6 ∨ whichKernel = 8 := by omega
    rcases hw with rfl | rfl | rfl | rfl | rfl | rfl | rfl | rfl <;>
      simp only [reduce, and_false, if_false, Int.reduceEq, if_true] at hl <;>
      split_ifs at hl <;>
      cases hl <;>
      first
        | rfl
        | exact (if_pos ‹_›).symm
        | exact (if_neg ‹_›).symm
  · have hw : (if threads < 64 ∧ whichKernel = 9 then (7 : Int) else whichKernel) = 7 := by
      rcases h with rfl | ⟨rfl, h64⟩
      · simp
      · simp [h64]
    simp only [reduce, hw, Int.reduceEq, if_false, if_true] at hl
    split_ifs at hl <;> cases hl <;> rfl
  · obtain ⟨rfl, h64⟩ := h
    have hlt : ¬ threads < 64 := by omega
    simp only [reduce, hlt, false_and, if_false, Int.reduceEq, if_true] at hl
    split_ifs at hl
    cases hl
    rfl

/-- C8, witness: strategy 7 with 256 threads and `sizeof(T) = 4` launches with
`(256 / 32 + 1) * 4 = 36` bytes. -/
theorem smemSize_spec_witness :
    reduce 4 1000 256 4 7 = Dispatch.launch ⟨Kernel.reduce7 256 false, 4, 256, 36, 1000⟩ ∧
    (((0 : Int) ≤ 7 ∧ (7 : Int) ≤ 6 ∨ (7 : Int) = 8) →
      (36 : Nat) = if 256 ≤ 32 then 2 * 256 * 4 else 256 * 4) ∧
    (((7 : Int) = 7 ∨ (7 : Int) = 9 ∧ 256 < 64) → (36 : Nat) = (256 / 32 + 1) * 4) ∧
    (((7 : Int) = 9 ∧ 64 ≤ 256) → (36 : Nat) = 2 * 4) :=
  ⟨by decide, smemSize_spec 4 1000 256 4 7 ⟨Kernel.reduce7 256 false, 4, 256, 36, 1000⟩
    (by decide)⟩

/-! ## C9 -/

/-- C9, counterexample: strategy 4 with 1024 threads has no compiled instance; the
wrapper reaches no launch and no message, and returns with the output untouched. -/
theorem unsupported_pair_counterexample :
    reduce 4 4096 1024 4 4 = Dispatch.nothing ∧
    (reduce 4 4096 1024 4 4).exec (fun _ => constJunk 0) oneToEight (constMem 0) =
      some (constMem 0) := by
  constructor
  · decide
  · rw [show reduce 4 4096 1024 4 4 = Dispatch.nothing by decide]; rfl

/-- C9, amended: the wrapper returns `void` and reports nothing to its caller.  With a
thread count that has no compiled instance, strategies 4, 5 and 6 (counts outside
`1, 2, 4, ..., 512`) and strategy 7, or 9 remapped to 7 (counts outside
`1, 2, 4, ..., 1024`), return without a launch and without a message; strategy 9 with
`threads ≥ 64` outside `64, 128, 256, 512, 1024` prints a message and returns without a
launch.  In all these cases the output array is left as it was. -/
theorem unsupported_pair (sizeofT size threads blocks : Nat) (whichKernel : Int) :
    ((whichKernel = 4 ∨ whichKernel = 5 ∨ whichKernel = 6) → threads ∉ threadCases →
      reduce sizeofT size threads blocks whichKernel = Dispatch.nothing) ∧
    ((whichKernel = 7 ∨ whichKernel = 9 ∧ threads < 64) → threads ≠ 1024 →
      threads ∉ threadCases →
      reduce sizeofT size threads blocks whichKernel = Dispatch.nothing) ∧
    (whichKernel = 9 → 64 ≤ threads → threads ∉ [1024, 512, 256, 128, 64] →
      reduce sizeofT size threads blocks whichKernel = Dispatch.message) ∧
    ∀ (junk : Nat → Junk) (d_idata d_odata : Mem),
      Dispatch.nothing.exec junk d_idata d_odata = some d_odata ∧
      Dispatch.message.exec junk d_idata d_odata = some d_odata := by
  refine ⟨fun hw ht => ?_, fun hw h1 ht => ?_, fun hw h64 ht => ?_, fun _ _ _ => ⟨rfl, rfl⟩⟩
  · rcases hw with rfl | rfl | rfl <;> simp [reduce, ht]
  · have hw7 : (if threads < 64 ∧ whichKernel = 9 then (7 : Int) else whichKernel) = 7 := by
      rcases hw with rfl | ⟨rfl, h64⟩
      · simp
      · simp [h64]
    simp [reduce, hw7, h1, ht]
  · subst hw
    have hlt : ¬ threads < 64 := by omega
    simp only [reduce, hlt, false_and, if_false, Int.reduceEq, if_true]
    rw [if_neg ht]

/-- C9, witness: strategy 4 with 1024 threads. -/
theorem unsupported_pair_witness :
    1024 ∉ threadCases ∧ reduce 4 4096 1024 4 4 = Dispatch.nothing :=
  ⟨by decide, (unsupported_pair 4 4096 1024 4 4).1 (Or.inl rfl) (by decide)⟩

/-! ## C10 -/

/-- C10, counterexample: strategy 0 is launched with 6 threads per block, which is not
a power of two, and strategy 4 is not launched with 1024 threads, which is one. -/
theorem thread_validation_counterexample :
    reduce 4 6 6 1 0 = Dispatch.launch ⟨Kernel.reduce0, 1, 6, 48, 6⟩ ∧
    reduce 4 4096 1024 4 4 = Dispatch.nothing := by
  constructor <;> decide

/-- C10, amended: for strategies 0, 1, 2, 3 and 8 the wrapper launches the kernel with
every thread count, power of two or not; for strategies 4, 5 and 6 it launches a kernel
exactly when the thread count is one of `1, 2, 4, ..., 512`, and otherwise returns with
no launch. -/
theorem thread_validation (sizeofT size threads blocks : Nat) (whichKernel : Int) :
    ((whichKernel = 0 ∨ whichKernel = 1 ∨ whichKernel = 2 ∨ whichKernel = 3 ∨
        whichKernel = 8) →
      ∃ l, reduce sizeofT size threads blocks whichKernel = Dispatch.launch l ∧
        l.dimBlock = threads ∧ l.dimGrid = blocks) ∧
    ((whichKernel = 4 ∨ whichKernel = 5 ∨ whichKernel = 6) →
      ((∃ l, reduce sizeofT size threads blocks whichKernel = Dispatch.launch l) ↔
          threads ∈ [1, 2, 4, 8, 16, 32, 64, 128, 256, 512]) ∧
      (threads ∉ [1, 2, 4, 8, 16, 32, 64, 128, 256, 512] →
        reduce sizeofT size threads blocks whichKernel = Dispatch.nothing)) := by
  have hmem : threads ∈ [1, 2, 4, 8, 16, 32, 64, 128, 256, 512] ↔ threads ∈ threadCases := by
    simp only [threadCases, List.mem_cons, List.mem_singleton, List.not_mem_nil, or_false]
    omega
  refine ⟨fun hw => ?_, fun hw => ?_⟩
  · rcases hw with rfl | rfl | rfl | rfl | rfl
    · obtain ⟨s, h⟩ := reduce_launch0 sizeofT size threads blocks; exact ⟨_, h, rfl, rfl⟩
    · obtain ⟨s, h⟩ := reduce_launch1 sizeofT size threads blocks; exact ⟨_, h, rfl, rfl⟩
    · obtain ⟨s, h⟩ := reduce_launch2 sizeofT size threads blocks; exact ⟨_, h, rfl, rfl⟩
    · obtain ⟨s, h⟩ := reduce_launch3 sizeofT size threads blocks; exact ⟨_, h, rfl, rfl⟩
    · obtain ⟨s, h⟩ := reduce_launch8 sizeofT size threads blocks; exact ⟨_, h, rfl, rfl⟩
  · rw [hmem]
    have hno : threads ∉ threadCases →
        reduce sizeofT size threads blocks whichKernel = Dispatch.nothing := by
      intro ht
      rcases hw with rfl | rfl | rfl <;> simp [reduce, ht]
    refine ⟨⟨fun ⟨l, hl⟩ => ?_, fun ht => ?_⟩, hno⟩
    · by_contra ht
      rw [hno ht] at hl
      cases hl
    · rcases hw with rfl | rfl | rfl
      · obtain ⟨s, h⟩ := reduce_launch4 sizeofT size threads blocks ht; exact ⟨_, h⟩
      · obtain ⟨s, h⟩ := reduce_launch5 sizeofT size threads blocks ht; exact ⟨_, h⟩
      · obtain ⟨s, h⟩ := reduce_launch6 sizeofT size threads blocks ht; exact ⟨_, h⟩

/-- C10, witness: strategy 0 with 6 threads per block is launched. -/
theorem thread_validation_witness :
    ∃ l, reduce 4 6 6 1 0 = Dispatch.launch l ∧ l.dimBlock = 6 ∧ l.dimGrid = 1 :=
  (thread_validation 4 6 6 1 0).1 (Or.inl rfl)

/-! ## C11 -/

/-- C11, counterexample: strategy 7 with 48 threads per block, a count between 1 and
1024 that is not a power of two, reaches no launch, whether the size is a power of two
or not. -/
theorem strategy7_threads_counterexample :
    reduce 4 1000 48 4 7 = Dispatch.nothing ∧ reduce 4 1024 48 4 7 = Dispatch.nothing := by
  constructor <;> decide

/-- C11, amended: for strategy 7 the wrapper launches a `reduce7` kernel instance exactly
when the thread count is one of the powers of two `1, 2, 4, ..., 1024`; the instance is
`reduce7<T, threads, nIsPow2>` with `nIsPow2 = isPow2(size)`, except that 1024 threads
always get `reduce7<T, 1024, true>`.  With any other thread count it returns without a
launch. -/
theorem strategy7_threads (sizeofT size threads blocks : Nat) :
    (threads ∈ [1, 2, 4, 8, 16, 32, 64, 128, 256, 512, 1024] →
      reduce sizeofT size threads blocks 7 =
        Dispatch.launch ⟨Kernel.reduce7 threads (isPow2 size || decide (threads = 1024)),
          blocks, threads, (threads / 32 + 1) * sizeofT, size⟩) ∧
    (threads ∉ [1, 2, 4, 8, 16, 32, 64, 128, 256, 512, 1024] →
      reduce sizeofT size threads blocks 7 = Dispatch.nothing) := by
  constructor
  · intro h
    simp only [List.mem_cons, List.mem_singleton, List.not_mem_nil, or_false] at h
    cases hp : isPow2 size <;>
      rcases h with rfl | rfl | rfl | rfl | rfl | rfl | rfl | rfl | rfl | rfl | rfl <;>
      simp [reduce, hp, threadCases]
  · intro h
    have h1 : threads ≠ 1024 := by
      intro e; apply h; rw [e]; decide
    have h2 : threads ∉ threadCases := by
      intro e; apply h
      simp only [threadCases, List.mem_cons, List.mem_singleton, List.not_mem_nil,
        or_false] at e ⊢
      omega
    cases hp : isPow2 size <;> simp [reduce, hp, h1, h2]

/-- C11, witness: 256 threads are launched, 48 threads are not. -/
theorem strategy7_threads_witness :
    reduce 4 1000 256 4 7 =
      Dispatch.launch ⟨Kernel.reduce7 256 (isPow2 1000 || decide (256 = 1024)), 4, 256,
        (256 / 32 + 1) * 4, 1000⟩ ∧
    reduce 4 1000 48 4 7 = Dispatch.nothing :=
  ⟨(strategy7_threads 4 1000 256 4).1 (by decide), (strategy7_threads 4 1000 48 4).2 (by decide)⟩

/-! ## C12 -/

/-- C12, counterexample: for `N = 9` and 8 threads per block the driver computes 1
block, and `ceil(9 / 8) = 2`.  And the count is not the quotient rounded half up for
every `N`: for `N = 16761343` and 1023 threads per block the `float` quotient is
`16384.5`, so the driver computes 16385 blocks, while the remainder
`16761343 mod 1023 = 511` is less than half a block and the exact quotient rounded half up
is 16384; and for `N = 2^23` and `2^24 + 1` threads per block the thread count is
converted to `2^24`, the `float` quotient is `0.5` and the driver computes 1 block, while
the exact quotient rounded half up is 0. -/
theorem block_count_ceil_counterexample :
    nblock 9 8 = some 1 ∧ ⌈((9 : Nat) : ℚ) / ((8 : Nat) : ℚ)⌉ = 2 ∧
    nblock 16761343 1023 = some 16385 ∧ (2 * 16761343 + 1023) / (2 * 1023) = 16384 ∧
    16761343 % 1023 = 511 ∧
    nblock 8388608 16777217 = some 1 ∧ (2 * 8388608 + 16777217) / (2 * 16777217) = 0 := by
  refine ⟨?_, ?_, nblock_example_a, by norm_num, by norm_num, nblock_example_b, by norm_num⟩
  · rw [nblock_eq 9 8 (by norm_num) (by norm_num) (by norm_num)]
  · rw [ceil_div 9 8 (by norm_num)]; rfl

/-- C12, amended: for every thread count `threads ≥ 1` (an `int`) and every `N` with
`0 ≤ N < 2^23` the block count of the driver is `N / threads` rounded half up; it equals
`ceil(N / threads)` exactly when `N` is a multiple of `threads` or the remainder is at
least half a block (`2 * (N mod threads) ≥ threads`), and is `ceil(N / threads) - 1`
otherwise. -/
theorem block_count_ceil (ndata nthread : Nat) (h : 1 ≤ nthread) (hint : nthread < 2147483648)
    (hN : ndata < 8388608) :
    ∃ nb, nblock ndata nthread = some nb ∧
      nb = (2 * ndata + nthread) / (2 * nthread) ∧
      (((nb : Nat) : ℤ) = ⌈(ndata : ℚ) / (nthread : ℚ)⌉ ↔
        ndata % nthread = 0 ∨ nthread ≤ 2 * (ndata % nthread)) ∧
      (¬ (ndata % nthread = 0 ∨ nthread ≤ 2 * (ndata % nthread)) →
        ((nb : Nat) : ℤ) = ⌈(ndata : ℚ) / (nthread : ℚ)⌉ - 1) := by
  refine ⟨_, nblock_eq ndata nthread hN h hint, rfl, ?_⟩
  rw [← nblockOf_eq ndata nthread h, nblockOf_cases _ _ h, ceil_div _ _ h]
  by_cases h0 : ndata % nthread = 0
  · have hlt : 2 * (ndata % nthread) < nthread := by omega
    simp only [if_pos hlt, if_pos h0]
    exact ⟨⟨fun _ => Or.inl h0, fun _ => trivial⟩, fun e => absurd (Or.inl h0) e⟩
  · by_cases hlt : 2 * (ndata % nthread) < nthread
    · simp only [if_pos hlt, if_neg h0]
      push_cast
      constructor
      · constructor
        · intro e; omega
        · rintro (e | e) <;> omega
      · intro _; omega
    · simp only [if_neg hlt, if_neg h0]
      constructor
      · constructor
        · intro _; right; omega
        · intro _; trivial
      · intro e; exact absurd (Or.inr (by omega)) e

/-- C12, witness: `N = 9`, 8 threads per block: one block, one less than the ceiling. -/
theorem block_count_ceil_witness :
    ∃ nb, nblock 9 8 = some nb ∧ nb = (2 * 9 + 8) / (2 * 8) ∧
      (((nb : Nat) : ℤ) = ⌈((9 : Nat) : ℚ) / ((8 : Nat) : ℚ)⌉ ↔
        9 % 8 = 0 ∨ 8 ≤ 2 * (9 % 8)) ∧
      (¬ (9 % 8 = 0 ∨ 8 ≤ 2 * (9 % 8)) →
        ((nb : Nat) : ℤ) = ⌈((9 : Nat) : ℚ) / ((8 : Nat) : ℚ)⌉ - 1) :=
  block_count_ceil 9 8 (by decide) (by decide) (by decide)

/-! ## C13 -/

/-- C13: for every `N ≥ 0` and `threads ≥ 1`, the quotient being exact, the block count
`(int)(N/(float)threads + 0.5)` is `N / threads` rounded half up: it is the floor of
`N / threads + 1/2`, that is `floor((2 * N + threads) / (2 * threads))`. -/
theorem block_count_round (ndata nthread : Nat) (h : 1 ≤ nthread) :
    ((nblockOf ndata nthread : Nat) : ℤ) = ⌊(ndata : ℚ) / (nthread : ℚ) + 1 / 2⌋ ∧
    nblockOf ndata nthread = (2 * ndata + nthread) / (2 * nthread) ∧
    ((nblockOf ndata nthread : Nat) : ℤ) =
      ⌊((2 * ndata + nthread : Nat) : ℚ) / ((2 * nthread : Nat) : ℚ)⌋ := by
  have hT : (nthread : ℚ) ≠ 0 := by exact_mod_cast (Nat.pos_of_ne_zero (by omega)).ne'
  have hq : (ndata : ℚ) / (nthread : ℚ) + 1 / 2 =
      ((2 * ndata + nthread : Nat) : ℚ) / ((2 * nthread : Nat) : ℚ) := by
    push_cast; field_simp; ring
  have e := nblockOf_eq ndata nthread h
  refine ⟨?_, e, ?_⟩
  · rw [hq, Rat.floor_natCast_div_natCast, e]; rfl
  · rw [Rat.floor_natCast_div_natCast, e]; rfl

/-- C13, witness: `N = 9` and `N = 12` with 8 threads per block give 1 and 2 blocks. -/
theorem block_count_round_witness :
    nblockOf 9 8 = (2 * 9 + 8) / (2 * 8) ∧ nblockOf 12 8 = (2 * 12 + 8) / (2 * 8) ∧
    (2 * 9 + 8) / (2 * 8) = 1 ∧ (2 * 12 + 8) / (2 * 8) = 2 :=
  ⟨(block_count_round 9 8 (by decide)).2.1, (block_count_round 12 8 (by decide)).2.1,
    by decide, by decide⟩

/-! ## C14 -/

/-- C14, counterexample: for `N = 16761343` and 1023 threads per block the remainder
`N mod 1023 = 511` satisfies `0 < 2 * 511 < 1023`, yet the `float` quotient rounds to
`16384.5` and the driver computes 16385 blocks, which cover the array:
`16385 * 1023 ≥ N`.  Likewise for `N = 2^23` and `2^24 + 1` threads per block: the
remainder is `N`, with `0 < 2 * N < 2^24 + 1`, yet the driver computes 1 block, which
covers the array. -/
theorem block_count_under_counterexample :
    nblock 16761343 1023 = some 16385 ∧
    (0 < 2 * (16761343 % 1023) ∧ 2 * (16761343 % 1023) < 1023) ∧
    ¬ (16385 * 1023 < 16761343) ∧
    nblock 8388608 16777217 = some 1 ∧
    (0 < 2 * (8388608 % 16777217) ∧ 2 * (8388608 % 16777217) < 16777217) ∧
    ¬ (1 * 16777217 < 8388608) :=
  ⟨nblock_example_a, by norm_num, by norm_num, nblock_example_b, by norm_num, by norm_num⟩

/-- C14, amended: for every thread count `threads ≥ 1` (an `int`) and every `N` with
`0 ≤ N < 2^23` the block count under-allocates, `nblock * threads < N`, if and only if
`0 < 2 * (N mod threads) < threads`, and `nblock * threads ≥ N` in every other case; for
`N = 9` and 8 threads the single block leaves an element out. -/
theorem block_count_under (ndata nthread : Nat) (h : 1 ≤ nthread)
    (hint : nthread < 2147483648) (hN : ndata < 8388608) :
    (∃ nb, nblock ndata nthread = some nb ∧
      (nb * nthread < ndata ↔
        0 < 2 * (ndata % nthread) ∧ 2 * (ndata % nthread) < nthread) ∧
      (¬ (0 < 2 * (ndata % nthread) ∧ 2 * (ndata % nthread) < nthread) →
        ndata ≤ nb * nthread)) ∧
    nblock 9 8 = some 1 ∧ 1 * 8 < 9 := by
  have hdm := Nat.div_add_mod ndata nthread
  have hr := Nat.mod_lt ndata (show 0 < nthread by omega)
  have key : nblockOf ndata nthread * nthread < ndata ↔
      0 < 2 * (ndata % nthread) ∧ 2 * (ndata % nthread) < nthread := by
    rw [nblockOf_cases _ _ h]
    by_cases hlt : 2 * (ndata % nthread) < nthread
    · rw [if_pos hlt, Nat.mul_comm]
      constructor
      · intro hh; exact ⟨by omega, hlt⟩
      · intro hh; omega
    · rw [if_neg hlt, Nat.add_mul, Nat.mul_comm]
      constructor
      · intro hh; omega
      · intro hh; omega
  rw [nblockOf_eq _ _ h] at key
  refine ⟨⟨_, nblock_eq ndata nthread hN h hint, key, fun hn => ?_⟩, ?_, by decide⟩
  · by_contra hc
    exact hn (key.mp (by omega))
  · rw [nblock_eq 9 8 (by norm_num) (by norm_num) (by norm_num)]

/-- C14, witness: `N = 9`, 8 threads per block: `0 < 2 * 1 < 8` and `1 * 8 < 9`. -/
theorem block_count_under_witness :
    (∃ nb, nblock 9 8 = some nb ∧
      (nb * 8 < 9 ↔ 0 < 2 * (9 % 8) ∧ 2 * (9 % 8) < 8) ∧
      (¬ (0 < 2 * (9 % 8) ∧ 2 * (9 % 8) < 8) → 9 ≤ nb * 8)) ∧
    nblock 9 8 = some 1 ∧ 1 * 8 < 9 :=
  block_count_under 9 8 (by decide) (by decide) (by decide)

/-! ## C15 -/

/-- C15: when `N` equals the thread count `threads ≥ 1`, the driver computes
`nblock = 1` and makes a single pass: the scalar it takes is the entry `out[0]` that pass 1
stored, the reduced array is as it was, and nothing of a second launch enters the result;
with at most 1024 threads per block pass 1 completes, so the scalar is produced. -/
theorem single_block_driver (nthread : Nat) (method : Int) (junk1 junk2 : Nat → Junk)
    (d_in d_reduction : Mem) (h : 1 ≤ nthread) :
    nblockOf nthread nthread = 1 ∧
    twoPass nthread nthread (nblockOf nthread nthread) method junk1 junk2 d_in d_reduction =
      ((reduce 4 nthread nthread 1 method).exec junk1 d_in d_reduction).map
        (fun out => (out 0, d_in, out)) ∧
    (nthread ≤ 1024 →
      ∃ out, (reduce 4 nthread nthread 1 method).exec junk1 d_in d_reduction = some out ∧
        twoPass nthread nthread (nblockOf nthread nthread) method junk1 junk2 d_in
          d_reduction = some (out 0, d_in, out)) := by
  have hnb : nblockOf nthread nthread = 1 := by
    rw [nblockOf_cases _ _ h, Nat.mod_self, if_pos (by omega), Nat.div_self h]
  have hmap : twoPass nthread nthread 1 method junk1 junk2 d_in d_reduction =
      ((reduce 4 nthread nthread 1 method).exec junk1 d_in d_reduction).map
        (fun out => (out 0, d_in, out)) := by
    rw [twoPass]
    cases (reduce 4 nthread nthread 1 method).exec junk1 d_in d_reduction with
    | none => rfl
    | some out => simp
  refine ⟨hnb, by rw [hnb, hmap], fun hle => ?_⟩
  have hs := exec_isSome 4 nthread nthread 1 method junk1 d_in d_reduction h (by omega)
  obtain ⟨out, hout⟩ := Option.isSome_iff_exists.mp hs
  exact ⟨out, hout, by rw [hnb, hmap, hout]; rfl⟩

/-- C15, witness: eight elements and 8 threads per block, strategy 0: one block, and the
scalar is `out[0] = 36`. -/
theorem single_block_driver_witness :
    nblockOf 8 8 = 1 ∧
    ∃ out, (reduce 4 8 8 1 0).exec (fun _ => constJunk 0) oneToEight (constMem 0) = some out ∧
      twoPass 8 8 (nblockOf 8 8) 0 (fun _ => constJunk 0) (fun _ => constJunk 7) oneToEight
        (constMem 0) = some (out 0, oneToEight, out) :=
  ⟨(single_block_driver 8 0 (fun _ => constJunk 0) (fun _ => constJunk 7) oneToEight
      (constMem 0) (by decide)).1,
    (single_block_driver 8 0 (fun _ => constJunk 0) (fun _ => constJunk 7) oneToEight
      (constMem 0) (by decide)).2.2 (by decide)⟩

/-! ## C16 -/

/-- C16: for `n = 1` and a single block the launch completes and stores `out[0] = A[0]`,
for each of the strategies 0 to 6, 8 and 9 with 64, 128, 256 or 512 threads per block, and
for strategy 7 with 1024 threads per block. -/
theorem single_element (sizeofT threads : Nat) (whichKernel : Int) (junk : Nat → Junk)
    (A d_odata : Mem)
    (h : (((0 ≤ whichKernel ∧ whichKernel ≤ 6) ∨ whichKernel = 8 ∨ whichKernel = 9) ∧
        threads ∈ [64, 128, 256, 512]) ∨
      (whichKernel = 7 ∧ threads = 1024)) :
    ∃ out, (reduce sizeofT 1 threads 1 whichKernel).exec junk A d_odata = some out ∧
      out 0 = A 0 := by
  have hdom :
      ((whichKernel = 0 ∨ whichKernel = 1 ∨ whichKernel = 2) ∧ (∃ k, threads = 2 ^ k) ∧
          1 ≤ 1 * threads) ∨
      (whichKernel = 3 ∧ (∃ k, threads = 2 ^ k) ∧ 1 ≤ 2 * 1 * threads) ∨
      ((whichKernel = 4 ∨ whichKernel = 5) ∧ threads ∈ [32, 64, 128, 256, 512] ∧
          1 ≤ 2 * 1 * threads) ∨
      (whichKernel = 6 ∧ threads ∈ [32, 64, 128, 256, 512]) ∨
      (whichKernel = 7 ∧ threads = 1024) ∨
      (whichKernel = 8 ∧ ∃ k, 5 ≤ k ∧ threads = 2 ^ k) ∨
      (whichKernel = 9 ∧ threads ∈ [1024, 512, 256, 128, 64]) := by
    rcases h with ⟨hk, hm⟩ | h7
    · have hpow : ∃ k, 5 ≤ k ∧ threads = 2 ^ k := by
        simp only [List.mem_cons, List.mem_singleton, List.not_mem_nil, or_false] at hm
        rcases hm with rfl | rfl | rfl | rfl
        exacts [⟨6, by norm_num⟩, ⟨7, by norm_num⟩, ⟨8, by norm_num⟩, ⟨9, by norm_num⟩]
      have hpow2 : ∃ k, threads = 2 ^ k := by
        obtain ⟨k, -, e⟩ := hpow; exact ⟨k, e⟩
      have hm5 : threads ∈ [32, 64, 128, 256, 512] := List.mem_cons_of_mem _ hm
      have hm9 : threads ∈ [1024, 512, 256, 128, 64] := by
        simp only [List.mem_cons, List.mem_singleton, List.not_mem_nil, or_false] at hm ⊢
        omega
      have hpos : 1 ≤ threads := by
        simp only [List.mem_cons, List.mem_singleton, List.not_mem_nil, or_false] at hm
        omega
      have hs : whichKernel = 0 ∨ whichKernel = 1 ∨ whichKernel = 2 ∨ whichKernel = 3 ∨
          whichKernel = 4 ∨ whichKernel = 5 ∨ whichKernel = 6 ∨ whichKernel = 8 ∨
          whichKernel = 9 := by omega
      rcases hs with e | e | e | e | e | e | e | e | e
      · exact Or.inl ⟨Or.inl e, hpow2, by omega⟩
      · exact Or.inl ⟨Or.inr (Or.inl e), hpow2, by omega⟩
      · exact Or.inl ⟨Or.inr (Or.inr e), hpow2, by omega⟩
      · exact Or.inr (Or.inl ⟨e, hpow2, by omega⟩)
      · exact Or.inr (Or.inr (Or.inl ⟨Or.inl e, hm5, by omega⟩))
      · exact Or.inr (Or.inr (Or.inl ⟨Or.inr e, hm5, by omega⟩))
      · exact Or.inr (Or.inr (Or.inr (Or.inl ⟨e, hm5⟩)))
      · exact Or.inr (Or.inr (Or.inr (Or.inr (Or.inr (Or.inl ⟨e, hpow⟩)))))
      · exact Or.inr (Or.inr (Or.inr (Or.inr (Or.inr (Or.inr ⟨e, hm9⟩)))))
    · exact Or.inr (Or.inr (Or.inr (Or.inr (Or.inl h7))))
  have hle : threads ≤ 1024 := by
    rcases h with ⟨-, hm⟩ | ⟨-, rfl⟩
    · simp only [List.mem_cons, List.mem_singleton, List.not_mem_nil, or_false] at hm
      omega
    · exact le_rfl
  obtain ⟨out, h1, h2, -⟩ :=
    exec_total sizeofT 1 threads 1 whichKernel junk A d_odata hdom le_rfl (by omega)
  exact ⟨out, h1, by simpa using h2⟩

/-- C16, witness: strategy 7 with 1024 threads, and strategy 9 with 64 threads. -/
theorem single_element_witness :
    (∃ out, (reduce 4 1 1024 1 7).exec (fun _ => constJunk 5) (constMem 3) (constMem 0) =
        some out ∧ out 0 = constMem 3 0) ∧
    (∃ out, (reduce 4 1 64 1 9).exec (fun _ => constJunk 5) (constMem 3) (constMem 0) =
        some out ∧ out 0 = constMem 3 0) :=
  ⟨single_element 4 1024 7 (fun _ => constJunk 5) (constMem 3) (constMem 0)
      (Or.inr ⟨rfl, rfl⟩),
    single_element 4 64 9 (fun _ => constJunk 5) (constMem 3) (constMem 0)
      (Or.inl ⟨Or.inr (Or.inr rfl), by decide⟩)⟩

/-! ## C17 -/

/-- C17, counterexample: with a full mask and the lane values `v0 = 1`,
`v1 = ... = v31 = 0`, whose sum is 1, `warpReduceSum` returns 1 on lane 0 and 0 on
lane 1. -/
theorem warp_all_reduce_counterexample :
    ∑ l in range 32, (fun l : Nat => if l = 0 then (1 : Int) else 0) l = 1 ∧
    warpReduceSum (fun _ => true) (fun _ => 4294967295) (fun _ _ => 0)
      (fun l => if l = 0 then 1 else 0) 0 = 1 ∧
    warpReduceSum (fun _ => true) (fun _ => 4294967295) (fun _ _ => 0)
      (fun l => if l = 0 then 1 else 0) 1 = 0 := by
  refine ⟨by decide, by decide, by decide⟩

/-- C17, amended: for a full active-member mask (all 32 lanes) and any per-lane values
`v0 .. v31`, the generic `warpReduceSum` returns the sum `v0 + ... + v31` on lane 0 of the
group; what it returns on the other lanes is left open. -/
theorem warp_sum_lane0 (runs : Nat → Bool) (mask : Nat → Nat) (undef : Nat → Nat → Int)
    (mySum : Nat → Int) (warp : Nat)
    (hruns : ∀ l, l < 32 → runs (32 * warp + l) = true)
    (hmask : mask warp = 4294967295) :
    warpReduceSum runs mask undef mySum (32 * warp) =
      ∑ l in range 32, mySum (32 * warp + l) := by
  rw [warpReduceSum, show (32 / 2 : Nat) = 2 ^ 4 by norm_num]
  rw [shflLoop_spec _ undef (32 * warp) (by simp) ?_ 4 32 _ (by norm_num) (by norm_num)]
  · rfl
  · intro l hl
    have h1 : (32 * warp + l) / 32 = warp := by omega
    have h2 : (32 * warp + l) % 32 = l := by omega
    simp only [h1, h2, hmask, testBit_full l hl, hruns l hl, Bool.and_true]

/-- C17, witness: the warp of the counterexample; lane 0 holds the sum. -/
theorem warp_sum_lane0_witness :
    warpReduceSum (fun _ => true) (fun _ => 4294967295) (fun _ _ => 0)
      (fun l => if l = 0 then 1 else 0) (32 * 0) =
      ∑ l in range 32, (fun l : Nat => if l = 0 then (1 : Int) else 0) (32 * 0 + l) :=
  warp_sum_lane0 (fun _ => true) (fun _ => 4294967295) (fun _ _ => 0)
    (fun l => if l = 0 then 1 else 0) 0 (fun _ _ => rfl) rfl

/-! ## C18 -/

/-- C19, counterexample: on the `float` array `[1,2,3,4,5,6,7,8]` with 4 threads per block
and strategy 0 the driver makes two blocks and two passes, and afterwards element 0 of the
reduced array holds `36`, not `1`. -/
theorem driver_input_frame_counterexample :
    nblock 8 4 = some 2 ∧ oneToEight 0 = 1 ∧
    ∃ s d_after sums, twoPass 8 4 2 0 (fun _ => (⟨fun _ => 0, fun _ _ => 0⟩ : JunkOf F32))
      (fun _ => ⟨fun _ => 0, fun _ _ => 0⟩)
      (fun i => F32.fin ((oneToEight i : ℚ) * 2 ^ (0 : Int))) (fun _ => 0) =
        some (s, d_after, sums) ∧
      d_after 0 = F32.fin 36 := by
  have hdom : ((0 : Int) = 0 ∨ (0 : Int) = 1 ∨ (0 : Int) = 2) ∧ (∃ k, 4 = 2 ^ k) ∧
      8 ≤ 2 * 4 ∧ 2 ≤ 4 := ⟨Or.inl rfl, ⟨2, rfl⟩, by decide, by decide⟩
  obtain ⟨A1, A2, ha⟩ := twoPass_total 8 4 2 0 (fun _ => constJunk 0)
    (fun _ => constJunk 0) oneToEight (fun _ => 0) (Or.inl hdom) (by decide) (by decide)
  obtain ⟨S1, S2, hs⟩ := twoPass_total 8 4 2 0
    (fun _ => boundJunk (⟨fun _ => 0, fun _ _ => 0⟩ : JunkOf F32))
    (fun _ => boundJunk (⟨fun _ => 0, fun _ _ => 0⟩ : JunkOf F32)) (fun i => |oneToEight i|)
    (fun _ => 16777217) (Or.inl hdom) (by decide) (by decide)
  have hsum : ∑ i in range 8, |oneToEight i| = 36 := by decide
  have hsum2 : ∑ i in range 8, oneToEight i = 36 := by decide
  rw [hsum] at hs
  rw [hsum2] at ha
  obtain ⟨d_after, sums, hf, h1, -⟩ := twoPass_exact 0 (by norm_num) (by norm_num) 8 4 2 0
    (fun _ => (⟨fun _ => 0, fun _ _ => 0⟩ : JunkOf F32)) (fun _ => ⟨fun _ => 0, fun _ _ => 0⟩)
    oneToEight (fun _ => 0) _ _ A1 A2 S1 S2 ha hs (by norm_num)
  refine ⟨by rw [nblock_eq 8 4 (by norm_num) (by norm_num) (by norm_num)], by decide, _,
    d_after, sums, hf, ?_⟩
  rw [(twoPass_frame _ _ _ _ _ _ _ _ _ _ _ hf).2.2 (by decide)]
  norm_num

/-- C19, amended: for every `N`, every `threads ≥ 1` and every block count `n_blocks`
(so for the one the driver computes), after pass 1 and (when `n_blocks > 1`) pass 2 have
run, every element of the `float` array that was the input of pass 1 other than element 0
still holds its original value.  When `n_blocks ≤ 1` element 0 is unchanged as well, and the scalar is
read from element 0 of the partial sums.  When `n_blocks > 1` the scalar is read from
element 0 of that array, to which the kernel that pass 2 launches has stored the value its
one block computes from the `n_blocks` partial sums; and when the wrapper launches no
kernel in pass 2, the array is unchanged (the scalar is then its original element 0).
The two passes complete when no index wraps. -/
theorem driver_input_frame (ndata nthread nb : Nat) (method : Int)
    (junk1 junk2 : Nat → JunkOf F32) (d_in d_reduction : Nat → F32) (hthreads : 1 ≤ nthread) :
    (∀ s d_after sums,
      twoPass ndata nthread nb method junk1 junk2 d_in d_reduction = some (s, d_after, sums) →
      (∀ j, 1 ≤ j → d_after j = d_in j) ∧
      (nb ≤ 1 → d_after = d_in ∧ s = sums 0) ∧
      (1 < nb → s = d_after 0 ∧
        (∀ l, reduce 4 nb nthread 1 method = Dispatch.launch l →
          runKernel l.kernel sums nb 1 nthread 0 (junk2 0) = some (d_after 0)) ∧
        ((∀ l, reduce 4 nb nthread 1 method ≠ Dispatch.launch l) → d_after = d_in))) ∧
    (ndata + 2 * nb * nthread ≤ 4294967296 →
      ∃ s d_after sums,
        twoPass ndata nthread nb method junk1 junk2 d_in d_reduction =
          some (s, d_after, sums)) := by
  refine ⟨fun s d_after sums h => ⟨(twoPass_frame _ _ _ _ _ _ _ _ _ _ _ h).1, fun h1 => ?_,
    fun h1 => twoPass_second _ _ _ _ _ _ _ _ _ _ _ hthreads h h1⟩,
    fun hwrap => twoPass_completes _ _ _ _ _ _ _ _ hthreads hwrap⟩
  exact ⟨(twoPass_frame _ _ _ _ _ _ _ _ _ _ _ h).2.1 h1,
    (twoPass_scalar _ _ _ _ _ _ _ _ _ _ _ h).1 h1⟩

/-- C19, witness: on the `float` array `[1,2,3,4,5,6,7,8]` with 4 threads per block and
strategy 0 the two passes complete; and with `N = 4096`, 1024 threads per block and
strategy 4 (four blocks, and no `case 1024` in the wrapper: pass 2 launches nothing) the
run leaves the whole array unchanged and takes its element 0 as the scalar. -/
theorem driver_input_frame_witness :
    (∃ s d_after sums, twoPass 8 4 2 0 (fun _ => (⟨fun _ => 0, fun _ _ => 0⟩ : JunkOf F32))
      (fun _ => ⟨fun _ => 0, fun _ _ => 0⟩)
      (fun i => F32.fin ((oneToEight i : ℚ) * 2 ^ (0 : Int))) (fun _ => 0) =
        some (s, d_after, sums)) ∧
    nblock 4096 1024 = some 4 ∧ reduce 4 4 1024 1 4 = Dispatch.nothing ∧
    ∃ s d_after sums, twoPass 4096 1024 4 4
      (fun _ => (⟨fun _ => 0, fun _ _ => 0⟩ : JunkOf F32)) (fun _ => ⟨fun _ => 0, fun _ _ => 0⟩)
      (fun i => F32.fin ((oneToEight i : ℚ) * 2 ^ (0 : Int))) (fun _ => 0) =
        some (s, d_after, sums) ∧
      d_after = (fun i => F32.fin ((oneToEight i : ℚ) * 2 ^ (0 : Int))) ∧ s = d_after 0 :=
  have hd := driver_input_frame 4096 1024 4 4
    (fun _ => (⟨fun _ => 0, fun _ _ => 0⟩ : JunkOf F32)) (fun _ => ⟨fun _ => 0, fun _ _ => 0⟩)
    (fun i => F32.fin ((oneToEight i : ℚ) * 2 ^ (0 : Int))) (fun _ => 0) (by decide)
  have hno : ∀ l, reduce 4 4 1024 1 4 ≠ Dispatch.launch l := fun l hl => by
    have h2 : reduce 4 4 1024 1 4 = Dispatch.nothing := by decide
    rw [h2] at hl
    cases hl
  ⟨(driver_input_frame 8 4 2 0 _ _ _ _ (by decide)).2 (by decide),
    nblock_eq 4096 1024 (by norm_num) (by norm_num) (by norm_num), by decide,
    (hd.2 (by decide)).elim fun s h => h.elim fun d_after h => h.elim fun sums h =>
      ⟨s, d_after, sums, h, ((hd.1 s d_after sums h).2.2 (by decide)).2.2 hno,
        ((hd.1 s d_after sums h).2.2 (by decide)).1⟩⟩

/-! ## C20 -/

/-- C20, the wrapper against the requirement of the kernels it launches: for strategies
4, 5 and 6 with 16 threads per block and `sizeof(T) = 4` the wrapper passes
`2 * 16 * 4 = 128` bytes of shared memory to the kernel, fewer than the
`64 * sizeof(T) = 256` bytes the kernels ask for; with 32 threads it passes exactly
`256`. -/
theorem smem_below_two_warps :
    reduce 4 16 16 1 4 = Dispatch.launch ⟨Kernel.reduce4 16, 1, 16, 128, 16⟩ ∧
    reduce 4 16 16 1 5 = Dispatch.launch ⟨Kernel.reduce5 16, 1, 16, 128, 16⟩ ∧
    reduce 4 16 16 1 6 = Dispatch.launch ⟨Kernel.reduce6 16 true, 1, 16, 128, 16⟩ ∧
    128 < 64 * 4 ∧
    reduce 4 16 32 1 4 = Dispatch.launch ⟨Kernel.reduce4 32, 1, 32, 64 * 4, 16⟩ := by
  refine ⟨by decide, by decide, by decide, by decide, by decide⟩

/-! ## C21 -/

/-- C21: for every strategy and every power-of-two thread count for which the wrapper
makes a launch, `sizeof(T)` being at least 1, every index of the shared array `sdata` that
a thread of the launched kernel reads or writes, however many iterations its loops run, is
below the number `smemSize / sizeof(T)` of elements the wrapper allocated. -/
theorem smem_in_bounds (sizeofT size blocks k : Nat) (whichKernel : Int) (l : Launch)
    (hT : 1 ≤ sizeofT)
    (hl : reduce sizeofT size (2 ^ k) blocks whichKernel = Dispatch.launch l) :
    ∀ fuel tid i, tid < 2 ^ k → i ∈ sdataIdx l.kernel fuel (2 ^ k) tid →
      i < l.smemSize / sizeofT := by
  intro fuel tid i ht hi
  have hdiv : ∀ c, c * sizeofT / sizeofT = c := fun c => Nat.mul_div_cancel c hT
  have hhalf : 2 * (2 ^ k / 2) ≤ 2 ^ k := Nat.mul_div_le _ _
  rcases reduce_launch_smem _ _ _ _ _ l hl with ⟨hs, hk⟩ | ⟨hs, p, hk⟩ | ⟨hs, hm, hk⟩
  · have hE : 2 ^ k ≤ l.smemSize / sizeofT := by
      rw [hs]
      by_cases h32 : 2 ^ k ≤ 32
      · rw [if_pos h32, hdiv]; omega
      · rw [if_neg h32, hdiv]
    refine lt_of_lt_of_le ?_ hE
    rcases hk with hk | hk | hk | hk | hk | hk | ⟨p, hk⟩ | hk <;> rw [hk] at hi <;>
      simp only [sdataIdx, List.mem_cons, List.mem_append] at hi
    · rcases hi with rfl | hi
      · exact ht
      · exact reduce0Idx_lt k tid ht fuel 0 i (by simpa using hi)
    · rcases hi with rfl | hi
      · exact ht
      · exact reduce1Idx_lt k tid fuel 0 i (by simpa using hi)
    · rcases hi with rfl | hi
      · exact ht
      · exact halveIdx_lt _ _ _ _ _ _ hhalf hi
    · rcases hi with rfl | hi
      · exact ht
      · exact halveIdx_lt _ _ _ _ _ _ hhalf hi
    · rcases hi with rfl | hi | hi
      · exact ht
      · exact halveIdx_lt _ _ _ _ _ _ hhalf hi
      · exact finalWarpIdx_lt _ _ _ hi
    · rcases hi with rfl | ((hi | hi) | hi) | hi
      · exact ht
      · exact unrollIdx_lt _ _ _ _ hi
      · exact unrollIdx_lt _ _ _ _ hi
      · exact unrollIdx_lt _ _ _ _ hi
      · exact finalWarpIdx_lt _ _ _ hi
    · rcases hi with rfl | ((hi | hi) | hi) | hi
      · exact ht
      · exact unrollIdx_lt _ _ _ _ hi
      · exact unrollIdx_lt _ _ _ _ hi
      · exact unrollIdx_lt _ _ _ _ hi
      · exact finalWarpIdx_lt _ _ _ hi
    · rcases hi with rfl | hi
      · exact ht
      · exact halveIdx_lt _ _ _ _ _ _ hhalf hi
  · rw [hs, hdiv]
    rw [hk] at hi
    simp only [sdataIdx, List.mem_append] at hi
    rcases hi with hi | hi
    · by_cases h0 : tid % 32 = 0
      · rw [if_pos h0, List.mem_singleton] at hi
        rw [hi]
        have : tid / 32 ≤ 2 ^ k / 32 := Nat.div_le_div_right (le_of_lt ht)
        omega
      · rw [if_neg h0] at hi; simp at hi
    · by_cases hx : tid < (if 0 < 2 ^ k / 32 then 2 ^ k / 32 else 1)
      · rw [if_pos hx, List.mem_singleton] at hi
        rw [hi]
        by_cases hp : 0 < 2 ^ k / 32
        · rw [if_pos hp] at hx; omega
        · rw [if_neg hp] at hx; omega
      · rw [if_neg hx] at hi; simp at hi
  · rw [hs, hdiv]
    rw [hk] at hi
    simp only [sdataIdx, List.mem_append] at hi
    have hM : 32 ≤ 2 ^ k / 2 ∧ 2 * (2 ^ k / 2) = 2 ^ k := by
      simp only [List.mem_cons, List.mem_singleton, List.not_mem_nil, or_false] at hm
      omega
    rcases hi with hi | hi
    · by_cases h0 : tid % (2 ^ k / 2) = 0
      · rw [if_pos h0, List.mem_singleton] at hi
        rw [hi, Nat.div_lt_iff_lt_mul (by omega)]
        omega
      · rw [if_neg h0] at hi; simp at hi
    · by_cases h0 : tid = 0
      · rw [if_pos h0, List.mem_range] at hi
        have : 2 ^ k / (2 ^ k / 2) = 2 := by
          apply Nat.div_eq_of_lt_le <;> omega
        omega
      · rw [if_neg h0] at hi; simp at hi

/-- C21, witness: strategy 4 with 64 threads per block and `sizeof(T) = 4`: thread 5
reads `sdata[37]`, below the `64 * 4 / 4 = 64` elements allocated. -/
theorem smem_in_bounds_witness :
    37 ∈ sdataIdx (Kernel.reduce4 64) 64 (2 ^ 6) 5 ∧ 37 < (64 * 4) / 4 :=
  ⟨by decide,
    smem_in_bounds 4 1000 2 6 4 ⟨Kernel.reduce4 64, 2, 64, 64 * 4, 1000⟩ (by decide)
      (by decide) 64 5 37 (by decide) (by decide)⟩

/-! ## C22 -/

/-- C22: in exact arithmetic, with `mean = (Σ x) / N` and `mean2 = (Σ x*x) / N` formed as
the calculator forms them from the two reduction sums (`N ≥ 1`), the argument
`mean2 - mean*mean` of the square root equals the population variance
`(1/N) * Σ (x_i - mean)^2`, is never negative, and its square root is the population
standard deviation: the non-negative number whose square is that variance. -/
theorem radicand_variance (x : Nat → Int) (ndata : Nat) (h : 1 ≤ ndata) :
    let r : MeanStddev :=
      ⟨((∑ i in range ndata, x i : Int) : ℚ) / (ndata : ℚ),
        ((∑ i in range ndata, x i * x i : Int) : ℚ) / (ndata : ℚ)⟩
    r.radicand = 1 / (ndata : ℚ) * ∑ i in range ndata, ((x i : ℚ) - r.mean) ^ 2 ∧
    0 ≤ r.radicand ∧
    0 ≤ Real.sqrt ((r.radicand : ℚ) : ℝ) ∧
    Real.sqrt ((r.radicand : ℚ) : ℝ) ^ 2 =
      ((1 / (ndata : ℚ) * ∑ i in range ndata, ((x i : ℚ) - r.mean) ^ 2 : ℚ) : ℝ) := by
  intro r
  have hN : (ndata : ℚ) ≠ 0 := by exact_mod_cast (Nat.pos_of_ne_zero (by omega)).ne'
  have hvar : r.radicand = 1 / (ndata : ℚ) * ∑ i in range ndata, ((x i : ℚ) - r.mean) ^ 2 := by
    have hexp : ∑ i in range ndata, ((x i : ℚ) - r.mean) ^ 2 =
        ∑ i in range ndata, ((x i : ℚ) * x i) - 2 * r.mean * ∑ i in range ndata, (x i : ℚ) +
          ndata * (r.mean * r.mean) := by
      have : ∀ i ∈ range ndata, ((x i : ℚ) - r.mean) ^ 2 =
          (x i : ℚ) * x i - 2 * r.mean * x i + r.mean * r.mean := fun i _ => by ring
      rw [sum_congr rfl this, sum_add_distrib, sum_sub_distrib, ← mul_sum, sum_const,
        card_range, nsmul_eq_mul]
    have hm : r.mean = (∑ i in range ndata, (x i : ℚ)) / ndata := by
      show ((∑ i in range ndata, x i : Int) : ℚ) / (ndata : ℚ) = _
      push_cast; rfl
    have hm2 : r.mean2 = (∑ i in range ndata, ((x i : ℚ) * x i)) / ndata := by
      show ((∑ i in range ndata, x i * x i : Int) : ℚ) / (ndata : ℚ) = _
      push_cast; rfl
    have hs : ∑ i in range ndata, (x i : ℚ) = ndata * r.mean := by
      rw [hm]; field_simp
    rw [hexp, hs, MeanStddev.radicand, hm2]
    field_simp
    ring
  have hnonneg : 0 ≤ r.radicand := by
    rw [hvar]
    exact mul_nonneg (by positivity) (sum_nonneg fun i _ => sq_nonneg _)
  refine ⟨hvar, hnonneg, Real.sqrt_nonneg _, ?_⟩
  rw [Real.sq_sqrt (by exact_mod_cast hnonneg), hvar]

/-- C22, witness: the eight values `[2,4,4,4,5,5,7,9]`. -/
theorem radicand_variance_witness :
    let r : MeanStddev :=
      ⟨((∑ i in range 8, sample8 i : Int) : ℚ) / ((8 : Nat) : ℚ),
        ((∑ i in range 8, sample8 i * sample8 i : Int) : ℚ) / ((8 : Nat) : ℚ)⟩
    r.radicand = 1 / ((8 : Nat) : ℚ) * ∑ i in range 8, ((sample8 i : ℚ) - r.mean) ^ 2 ∧
    0 ≤ r.radicand :=
  ⟨(radicand_variance sample8 8 (by decide)).1, (radicand_variance sample8 8 (by decide)).2.1⟩

/-! ## C23 -/

/-- C23, counterexample: `reduce0` with 4 threads per block, `n = 1`, the array `[1]` and
the block of index `2^30`: the index `blockIdx.x * blockDim.x + threadIdx.x = 2^32 + tid`
wraps to `tid`, thread 0 loads `A[0]`, and the block stores `1`, while no index
`i ≥ 2^30 * 4` is below `min(n, (2^30 + 1) * 4) = 1`, an empty sum. -/
theorem reduce0_window_counterexample :
    reduce0 (constMem 1) 1 (2 ^ 2) 1073741824 (constJunk 0) = 1 ∧
    ∑ i in Ico (1073741824 * 2 ^ 2) (min 1 ((1073741824 + 1) * 2 ^ 2)), constMem 1 i = 0 := by
  constructor
  · rw [reduce0_pow2]; decide
  · rw [Finset.Ico_eq_empty (by norm_num), sum_empty]

/-- C23, amended: for every power-of-two `blockDim = B ≥ 1`, every `n`, every input `A` of
exact elements and every block index `b` whose indices do not overflow 32 bits
(`(b + 1) * B ≤ 2^32`), the value `reduce0` writes to `out[b]` is the sum of `A[i]` over
`b * B ≤ i < min(n, (b + 1) * B)`; indices at or beyond `n` contribute zero. -/
theorem reduce0_window (g_idata : Mem) (n k blockIdx : Nat) (junk : Junk)
    (hwrap : (blockIdx + 1) * 2 ^ k ≤ 4294967296) :
    reduce0 g_idata n (2 ^ k) blockIdx junk =
      ∑ i in Ico (blockIdx * 2 ^ k) (min n ((blockIdx + 1) * 2 ^ k)), g_idata i := by
  rw [Nat.succ_mul] at hwrap
  rw [reduce0_pow2, block_load1 _ _ _ _ _ hwrap, sum_window, Nat.succ_mul]

/-- C23, witness: the second block of 4 threads on `[1..8]` with `n = 7`. -/
theorem reduce0_window_witness :
    reduce0 oneToEight 7 (2 ^ 2) 1 (constJunk 0) =
      ∑ i in Ico (1 * 2 ^ 2) (min 7 ((1 + 1) * 2 ^ 2)), oneToEight i :=
  reduce0_window oneToEight 7 2 1 (constJunk 0) (by norm_num)

/-! ## C24 -/

/-- C24: for every power-of-two `blockDim`, every `n`, every input of exact elements and
every block index `b`, the kernels `reduce1` and `reduce2` write to `out[b]` the value
`reduce0` writes, whatever the initial contents of shared memory: the sum of the values
the threads of the block load. -/
theorem halving_kernels_agree (g_idata : Mem) (n k blockIdx : Nat) (junk0 junk1 junk2 : Junk) :
    reduce1 g_idata n (2 ^ k) blockIdx junk1 = reduce0 g_idata n (2 ^ k) blockIdx junk0 ∧
    reduce2 g_idata n (2 ^ k) blockIdx junk2 = reduce0 g_idata n (2 ^ k) blockIdx junk0 ∧
    reduce0 g_idata n (2 ^ k) blockIdx junk0 =
      ∑ t in range (2 ^ k),
        if u32 (blockIdx * 2 ^ k + t) < n then g_idata (u32 (blockIdx * 2 ^ k + t)) else 0 := by
  have hload : ∀ junk : Junk,
      ∑ t in range (2 ^ k), load1 g_idata n (2 ^ k) blockIdx junk.smem t =
      ∑ t in range (2 ^ k),
        if u32 (blockIdx * 2 ^ k + t) < n then g_idata (u32 (blockIdx * 2 ^ k + t)) else 0 := by
    intro junk
    refine sum_congr rfl fun t ht => ?_
    simp only [load1, if_pos (mem_range.mp ht)]
  refine ⟨?_, ?_, ?_⟩
  · rw [reduce1_eq_reduce0, reduce0_pow2, reduce0_pow2, hload, hload]
  · rw [reduce2_pow2, reduce0_pow2, hload, hload]
  · rw [reduce0_pow2, hload]

/-! ## C25 -/

/-- C25: for every power-of-two `blockDim = B ≥ 1`, every `n`, every input `A` of exact
elements and every block index `b`, the index arithmetic not overflowing 32 bits
(`2 * (b + 1) * B ≤ 2^32`), the value `reduce3` writes to `out[b]` is the sum of `A[i]`
over `2 * b * B ≤ i < min(n, 2 * (b + 1) * B)`: a window of `2 * B` elements. -/
theorem reduce3_window (g_idata : Mem) (n k blockIdx : Nat) (junk : Junk)
    (hwrap : 2 * (blockIdx + 1) * 2 ^ k ≤ 4294967296) :
    reduce3 g_idata n (2 ^ k) blockIdx junk =
      ∑ i in Ico (2 * blockIdx * 2 ^ k) (min n (2 * (blockIdx + 1) * 2 ^ k)), g_idata i := by
  have e1 : 2 * (blockIdx + 1) * 2 ^ k = blockIdx * (2 * 2 ^ k) + 2 * 2 ^ k := by ring
  have e2 : 2 * blockIdx * 2 ^ k = blockIdx * (2 * 2 ^ k) := by ring
  rw [e1] at hwrap
  rw [reduce3_pow2, block_load2 _ _ _ _ (Or.inr hwrap), sum_window, e1, e2]

/-- C25, witness: the second block of 2 threads on `[1..8]` with `n = 7`: the window is
`[4, 7)`. -/
theorem reduce3_window_witness :
    reduce3 oneToEight 7 (2 ^ 1) 1 (constJunk 0) =
      ∑ i in Ico (2 * 1 * 2 ^ 1) (min 7 (2 * (1 + 1) * 2 ^ 1)), oneToEight i :=
  reduce3_window oneToEight 7 1 1 (constJunk 0) (by norm_num)

/-! ## C26 -/

/-- C26: for every `blockSize ∈ {64, 128, 256, 512}` launched with `blockDim = blockSize`,
every `n`, every input of exact elements and every block index `b`, the kernels `reduce4`
and `reduce5` write to `out[b]` the value `reduce3` writes, whatever the unspecified values
each kernel may observe. -/
theorem warp_kernels_agree (blockSize : Nat) (g_idata : Mem) (n blockIdx : Nat)
    (junk3 junk4 junk5 : Junk) (hbs : blockSize ∈ [64, 128, 256, 512]) :
    reduce4 blockSize g_idata n blockSize blockIdx junk4 =
      reduce3 g_idata n blockSize blockIdx junk3 ∧
    reduce5 blockSize g_idata n blockSize blockIdx junk5 =
      reduce3 g_idata n blockSize blockIdx junk3 := by
  have h5 : blockSize ∈ [32, 64, 128, 256, 512] := List.mem_cons_of_mem _ hbs
  obtain ⟨k, hk, rfl⟩ := pow2_of_mem h5
  exact ⟨by rw [reduce4_block _ _ _ _ _ hk, reduce3_pow2],
    by rw [reduce5_block _ _ _ _ _ h5, reduce3_pow2]⟩

/-- C26, witness: 64 threads per block, block 1, `n = 200`. -/
theorem warp_kernels_agree_witness :
    reduce4 64 (constMem 3) 200 64 1 (constJunk 4) =
      reduce3 (constMem 3) 200 64 1 (constJunk 3) ∧
    reduce5 64 (constMem 3) 200 64 1 (constJunk 5) =
      reduce3 (constMem 3) 200 64 1 (constJunk 3) :=
  warp_kernels_agree 64 (constMem 3) 200 1 (constJunk 3) (constJunk 4) (constJunk 5)
    (by decide)

/-! ## C27 -/

/-- C27, counterexample: strategy 6 with 64 threads per block on `33554433 = 2^25 + 1`
blocks and the one-element array `[1]` (the `nIsPow2 = true` variant).  In block `2^25` the
index `blockIdx.x * blockSize * 2 + threadIdx.x = 2^32 + tid` wraps to `tid`: index 0 is
read by thread 0 of block 0 and by thread 0 of block `2^25`, and the outputs add up to
`2`, while the sum of the array is `1`. -/
theorem grid_stride_cover_counterexample :
    gridStrideReads 2 true 1 64 (fun i => u32 (i + 64)) 64 33554433 0 0 = [0] ∧
    gridStrideReads 2 true 1 64 (fun i => u32 (i + 64)) 64 33554433 33554432 0 = [0] ∧
    (∃ out, (reduce 4 1 64 33554433 6).exec (fun _ => constJunk 0) (constMem 1) (constMem 0) =
        some out ∧ out 0 = 1 ∧ out 33554432 = 1 ∧ ∑ b in range 33554433, out b = 2) ∧
    ∑ i in range 1, constMem 1 i = 1 := by
  have hblock : ∀ b, b ≤ 33554432 →
      runKernel (Kernel.reduce6 64 true) (constMem 1) 1 33554433 64 b (constJunk 0) =
        some (if b = 0 ∨ b = 33554432 then 1 else 0) := by
    intro b hb
    obtain ⟨mySum, h1, h2⟩ := allThreads_wrap (constMem 1) 64 33554432 b
      (fun i => u32 (i + 64)) 64 (by norm_num) (by norm_num) (by norm_num) hb (by decide)
    rw [runKernel, reduce6_inblock 64 true (constMem 1) 1 33554433 b (constJunk 0) mySum
      (by decide) h1, h2]
    rfl
  obtain ⟨smem, hd⟩ := reduce_launch6 4 1 64 33554433 (by decide)
  rw [show isPow2 1 = true by decide] at hd
  have hex := Launch.exec_spec ⟨Kernel.reduce6 64 true, 33554433, 64, smem, 1⟩
    (fun _ => constJunk 0) (constMem 1) (constMem 0)
    (fun b => if b = 0 ∨ b = 33554432 then 1 else 0) (by norm_num)
    (fun b hb => hblock b (Nat.le_of_lt_succ hb))
  refine ⟨by decide, by decide, ⟨_, by rw [hd]; exact hex, ?_, ?_, ?_⟩, by decide⟩
  · show (if (0 : Nat) < 33554433 then
        (if (0 : Nat) = 0 ∨ (0 : Nat) = 33554432 then (1 : Int) else 0)
      else constMem 0 0) = 1
    rw [if_pos (by norm_num), if_pos (Or.inl rfl)]
  · show (if (33554432 : Nat) < 33554433 then
        (if (33554432 : Nat) = 0 ∨ (33554432 : Nat) = 33554432 then (1 : Int) else 0)
      else constMem 0 33554432) = 1
    rw [if_pos (by norm_num), if_pos (Or.inr rfl)]
  exact wrap_total _ 33554432 1 (by norm_num) fun b hb => by
    show (if b < 33554433 then (if b = 0 ∨ b = 33554432 then (1 : Int) else 0)
      else constMem 0 b) = _
    rw [if_pos (by omega)]

/-- C27, amended: the grid-stride load of `reduce6` and `reduce7`, for every `n` (power of
two or not), every grid size `G ≥ 1` and every `blockSize ≥ 1` such that no 32-bit index
wraps (`n + 2 * G * blockSize ≤ 2^32`), in both the `nIsPow2 = true` and the
`nIsPow2 = false` variant: no index `≥ n` is read (this without the bound too), and every
index `i < n` is read once in all by the threads of the grid, so by exactly one
(block, thread) pair exactly once; hence for `blockSize ∈ {64, 128, 256, 512}` the outputs
of `reduce6` over all `G` blocks add up to the sum of `A`, whichever variant runs on
whichever `n`. -/
theorem grid_stride_cover (nIsPow2 : Bool) (g_idata : Mem) (n blockSize gridDim : Nat)
    (junk : Nat → Junk) (hbs : 1 ≤ blockSize) (hG : 1 ≤ gridDim)
    (hwrap : n + 2 * gridDim * blockSize ≤ 4294967296) :
    (∀ fuel b t j,
      j ∈ gridStrideReads fuel nIsPow2 n blockSize (fun i => u32 (i + blockSize)) blockSize
        gridDim b t → j < n) ∧
    (∀ fuel i, n + 1 ≤ fuel → i < n →
      ∑ b in range gridDim, ∑ t in range blockSize,
        (gridStrideReads fuel nIsPow2 n blockSize (fun i => u32 (i + blockSize)) blockSize
          gridDim b t).count i = 1) ∧
    (blockSize ∈ [64, 128, 256, 512] →
      ∃ out : Nat → Int,
        (∀ b, b < gridDim →
          reduce6 blockSize nIsPow2 g_idata n gridDim blockSize b (junk b) = some (out b)) ∧
        ∑ b in range gridDim, out b = ∑ i in range n, g_idata i) := by
  refine ⟨fun fuel b t j h => gridStrideReads_lt fuel nIsPow2 n blockSize gridDim b t blockSize
    j h, fun fuel i hf hi => ?_, fun hmem => ?_⟩
  · rw [gridStride_count nIsPow2 n blockSize gridDim hbs hG hwrap fuel i hf, if_pos hi]
  · exact ⟨fun b => ∑ t in range blockSize, gridStrideSum nIsPow2 g_idata n blockSize gridDim b t,
      fun b hb => reduce6_block blockSize nIsPow2 g_idata n gridDim b (junk b)
        (List.mem_cons_of_mem _ hmem) hb hwrap,
      sum_gridStrideSum nIsPow2 g_idata n blockSize gridDim hbs hG⟩

/-- C27, witness: the `nIsPow2 = true` variant with 64 threads per block on 2 blocks and
`n = 300`, not a power of two. -/
theorem grid_stride_cover_witness :
    ∃ out : Nat → Int,
      (∀ b, b < 2 →
        reduce6 64 true oneToEight 300 2 64 b (constJunk 0) = some (out b)) ∧
      ∑ b in range 2, out b = ∑ i in range 300, oneToEight i :=
  (grid_stride_cover true oneToEight 300 64 2 (fun _ => constJunk 0) (by decide) (by decide)
    (by decide)).2.2 (by decide)

/-! ## C28 -/

/-- C28: for a full mask and any per-lane values `v0 .. v31`, the shuffle loop of
`warpReduceSum` (offsets 16, 8, 4, 2, 1) leaves the sum `v0 + ... + v31` on lane 0; the
specialisation for `int` returns that sum reduced modulo `2^32` to an `int`, so the two
values are congruent modulo `2^32`, and equal when the sum is in the range of `int`. -/
theorem shuffle_loop_sum (runs : Nat → Bool) (mask : Nat → Nat) (undef : Nat → Nat → Int)
    (mySum : Nat → Int) (warp : Nat)
    (hruns : ∀ l, l < 32 → runs (32 * warp + l) = true)
    (hmask : mask warp = 4294967295) :
    warpReduceSum runs mask undef mySum (32 * warp) =
      ∑ l in range 32, mySum (32 * warp + l) ∧
    warpReduceSumInt mask mySum (32 * warp) = i32 (∑ l in range 32, mySum (32 * warp + l)) ∧
    warpReduceSumInt mask mySum (32 * warp) % 4294967296 =
      warpReduceSum runs mask undef mySum (32 * warp) % 4294967296 ∧
    (-2147483648 ≤ ∑ l in range 32, mySum (32 * warp + l) →
      ∑ l in range 32, mySum (32 * warp + l) < 2147483648 →
      warpReduceSumInt mask mySum (32 * warp) =
        warpReduceSum runs mask undef mySum (32 * warp)) := by
  have h1 : warpReduceSum runs mask undef mySum (32 * warp) =
      ∑ l in range 32, mySum (32 * warp + l) := by
    rw [warpReduceSum, show (32 / 2 : Nat) = 2 ^ 4 by norm_num]
    rw [shflLoop_spec _ undef (32 * warp) (by simp) ?_ 4 32 _ (by norm_num) (by norm_num)]
    · rfl
    · intro l hl
      have h1 : (32 * warp + l) / 32 = warp := by omega
      have h2 : (32 * warp + l) % 32 = l := by omega
      simp only [h1, h2, hmask, testBit_full l hl, hruns l hl, Bool.and_true]
  have h2 : warpReduceSumInt mask mySum (32 * warp) =
      i32 (∑ l in range 32, mySum (32 * warp + l)) := by
    have hw : 32 * warp / 32 = warp := by omega
    have hf : (List.range 32).filter (fun lane => (4294967295 : Nat).testBit lane) =
        List.range 32 := by decide
    rw [warpReduceSumInt, reduce_add_sync, hw, hmask, hf, list_sum_range]
  refine ⟨h1, h2, ?_, fun hlo hhi => ?_⟩
  · rw [h2, h1, i32]; omega
  · rw [h2, h1, i32]; omega

/-- C28, witness: the values `v0 = 1`, `v1 = ... = v31 = 0`. -/
theorem shuffle_loop_sum_witness :
    warpReduceSum (fun _ => true) (fun _ => 4294967295) (fun _ _ => 0)
      (fun l => if l = 0 then 1 else 0) (32 * 0) =
      ∑ l in range 32, (fun l : Nat => if l = 0 then (1 : Int) else 0) (32 * 0 + l) ∧
    warpReduceSumInt (fun _ => 4294967295) (fun l => if l = 0 then 1 else 0) (32 * 0) =
      i32 (∑ l in range 32, (fun l : Nat => if l = 0 then (1 : Int) else 0) (32 * 0 + l)) :=
  ⟨(shuffle_loop_sum (fun _ => true) (fun _ => 4294967295) (fun _ _ => 0)
      (fun l => if l = 0 then 1 else 0) 0 (fun _ _ => rfl) rfl).1,
    (shuffle_loop_sum (fun _ => true) (fun _ => 4294967295) (fun _ _ => 0)
      (fun l => if l = 0 then 1 else 0) 0 (fun _ _ => rfl) rfl).2.1⟩

/-! ## C29 -/

/-- C29: for every `blockSize`, the mask `reduce7` computes is `2^(blockSize mod 32) - 1`,
the number with exactly the low `blockSize mod 32` bits set, when `blockSize mod 32` is
not 0, and `0xffffffff`, all 32 bits set, when `blockSize` is a multiple of 32. -/
theorem reduce7_mask (blockSize : Nat) :
    (blockSize % 32 ≠ 0 →
      reduce7Mask blockSize = 2 ^ (blockSize % 32) - 1 ∧
      ∀ l, (reduce7Mask blockSize).testBit l = decide (l < blockSize % 32)) ∧
    (blockSize % 32 = 0 →
      reduce7Mask blockSize = 4294967295 ∧
      ∀ l, (reduce7Mask blockSize).testBit l = decide (l < 32)) := by
  have hr : blockSize % 32 < 32 := Nat.mod_lt _ (by norm_num)
  have key : ∀ r, r < 32 → r ≠ 0 → 4294967295 >>> (32 - r) = 2 ^ r - 1 := by decide
  constructor
  · intro h
    have e : reduce7Mask blockSize = 2 ^ (blockSize % 32) - 1 := by
      simp only [reduce7Mask, if_pos (Nat.pos_of_ne_zero h)]
      exact key _ hr h
    exact ⟨e, fun l => by rw [e, Nat.testBit_two_pow_sub_one]⟩
  · intro h
    have e : reduce7Mask blockSize = 4294967295 := by
      simp only [reduce7Mask, h, lt_irrefl, if_false]
      rfl
    exact ⟨e, fun l => by
      rw [e, show (4294967295 : Nat) = 2 ^ 32 - 1 by norm_num, Nat.testBit_two_pow_sub_one]⟩

/-- C29, witness: 48 threads give the mask `0xffff`, 64 threads the mask `0xffffffff`. -/
theorem reduce7_mask_witness :
    reduce7Mask 48 = 2 ^ (48 % 32) - 1 ∧ reduce7Mask 64 = 4294967295 :=
  ⟨((reduce7_mask 48).1 (by decide)).1, ((reduce7_mask 64).2 (by decide)).1⟩

/-! ## C30 -/

/-- C30, counterexample: strategy 7 with 1024 threads per block on `2097153 = 2^21 + 1`
blocks and the one-element array `[1]`.  In block `2^21` the index
`blockIdx.x * blockSize * 2 + threadIdx.x = 2^32 + tid` wraps to `tid`, so thread 0 of this
block reads `A[0]` as thread 0 of block 0 does: the outputs add up to `2`, the sum of the
array is `1`. -/
theorem reduce7_total_counterexample :
    (∃ out, (reduce 4 1 1024 2097153 7).exec (fun _ => constJunk 0) (constMem 1) (constMem 0) =
        some out ∧ out 0 = 1 ∧ out 2097152 = 1 ∧ ∑ b in range 2097153, out b = 2) ∧
    ∑ i in range 1, constMem 1 i = 1 := by
  have hblock : ∀ b, b ≤ 2097152 →
      runKernel (Kernel.reduce7 1024 true) (constMem 1) 1 2097153 1024 b (constJunk 0) =
        some (if b = 0 ∨ b = 2097152 then 1 else 0) := by
    intro b hb
    obtain ⟨mySum, h1, h2⟩ := allThreads_wrap (constMem 1) 1024 2097152 b
      (fun i => u32 (i + 1024)) 1024 (by norm_num) (by norm_num) (by norm_num) hb (by decide)
    rw [runKernel, reduce7_inblock true (constMem 1) 1 2097153 b (constJunk 0) mySum h1, h2]
    rfl
  obtain ⟨smem, hd⟩ := reduce_launch7 4 1 2097153
  have hex := Launch.exec_spec ⟨Kernel.reduce7 1024 true, 2097153, 1024, smem, 1⟩
    (fun _ => constJunk 0) (constMem 1) (constMem 0)
    (fun b => if b = 0 ∨ b = 2097152 then 1 else 0) (by norm_num)
    (fun b hb => hblock b (Nat.le_of_lt_succ hb))
  refine ⟨⟨_, by rw [hd]; exact hex, ?_, ?_, ?_⟩, by decide⟩
  · show (if (0 : Nat) < 2097153 then
        (if (0 : Nat) = 0 ∨ (0 : Nat) = 2097152 then (1 : Int) else 0)
      else constMem 0 0) = 1
    rw [if_pos (by norm_num), if_pos (Or.inl rfl)]
  · show (if (2097152 : Nat) < 2097153 then
        (if (2097152 : Nat) = 0 ∨ (2097152 : Nat) = 2097152 then (1 : Int) else 0)
      else constMem 0 2097152) = 1
    rw [if_pos (by norm_num), if_pos (Or.inr rfl)]
  exact wrap_total _ 2097152 1 (by norm_num) fun b hb => by
    show (if b < 2097153 then (if b = 0 ∨ b = 2097152 then (1 : Int) else 0)
      else constMem 0 b) = _
    rw [if_pos (by omega)]

/-- C30, amended: `reduce7` with `blockSize = 1024`, in either variant, on a grid of
`G ≥ 1` blocks with no 32-bit index wrapping (`n + 2 * G * 1024 ≤ 2^32`): for every input
`A` of exact elements the grid-stride loops of the 1024 threads of every block `b < G`
end, `out[b]` is the sum of the partial sums they hold, and the outputs of all `G` blocks
add up to the sum of `A`. -/
theorem reduce7_total (nIsPow2 : Bool) (g_idata : Mem) (n gridDim : Nat) (junk : Nat → Junk)
    (hG : 1 ≤ gridDim) (hwrap : n + 2 * gridDim * 1024 ≤ 4294967296) :
    ∃ out : Nat → Int,
      (∀ b, b < gridDim → ∃ mySum,
        allThreads 1024
          (gridStride nIsPow2 g_idata n 1024 (fun i => u32 (i + 1024)) 1024 gridDim b) =
            some mySum ∧
        out b = ∑ t in range 1024, mySum t ∧
        reduce7 1024 nIsPow2 g_idata n gridDim 1024 b (junk b) = some (out b)) ∧
      ∑ b in range gridDim, out b = ∑ i in range n, g_idata i := by
  refine ⟨fun b => ∑ t in range 1024, gridStrideSum nIsPow2 g_idata n 1024 gridDim b t,
    fun b hb => ?_, sum_gridStrideSum nIsPow2 g_idata n 1024 gridDim (by norm_num) hG⟩
  obtain ⟨mySum, h1, h2⟩ := allThreads_spec 1024
    (gridStride nIsPow2 g_idata n 1024 (fun i => u32 (i + 1024)) 1024 gridDim b)
    (gridStrideSum nIsPow2 g_idata n 1024 gridDim b)
    (fun tid ht => gridStride_spec nIsPow2 g_idata n 1024 gridDim b tid _ (by norm_num)
      hb ht hwrap (fun i hi => by rw [u32_of_lt (by omega)]))
  have hs : ∑ t in range 1024, gridStrideSum nIsPow2 g_idata n 1024 gridDim b t =
      ∑ t in range 1024, mySum t :=
    (sum_congr rfl fun t ht => h2 t (mem_range.mp ht)).symm
  exact ⟨mySum, h1, hs,
    (reduce7_inblock nIsPow2 g_idata n gridDim b (junk b) mySum h1).trans
      (congrArg some hs.symm)⟩

/-- C30, witness: two blocks of 1024 threads on the first 3000 elements of a constant
array. -/
theorem reduce7_total_witness :
    ∃ out : Nat → Int,
      (∀ b, b < 2 → ∃ mySum,
        allThreads 1024
          (gridStride true (constMem 1) 3000 1024 (fun i => u32 (i + 1024)) 1024 2 b) =
            some mySum ∧
        out b = ∑ t in range 1024, mySum t ∧
        reduce7 1024 true (constMem 1) 3000 2 1024 b (constJunk 0) = some (out b)) ∧
      ∑ b in range 2, out b = ∑ i in range 3000, constMem 1 i :=
  reduce7_total true (constMem 1) 3000 2 (fun _ => constJunk 0) (by decide) (by decide)

/-! ## C31 -/

/-- C31, counterexample: `cg_reduce` with 32 threads per block on `134217729 = 2^27 + 1`
blocks and the one-element array `[1]`.  In block `2^27` the index
`blockIdx.x * ctaSize + threadRank = 2^32 + threadRank` wraps to `threadRank`, so thread 0
reads `A[0]` and the block stores `1`, while no `i < 1` has `(i div 32) mod G = 2^27`. -/
theorem cg_reduce_blocks_counterexample :
    cg_reduce (constMem 1) 1 134217729 (2 ^ 5) 134217728 (constJunk 0) = some 1 ∧
    ∑ i in (range 1).filter (fun i => i / 2 ^ 5 % 134217729 = 134217728), constMem 1 i = 0 := by
  constructor
  · have hthread : ∀ tid, tid < 2 ^ 5 →
        strideLoop (constMem 1) 1 (u32 (134217729 * 2 ^ 5)) (1 + 1)
          (u32 (134217728 * 2 ^ 5 + tid)) 0 = some (if tid = 0 then 1 else 0) := by decide
    obtain ⟨threadVal, h1, h2⟩ := allThreads_spec (2 ^ 5)
      (fun tid => strideLoop (constMem 1) 1 (u32 (134217729 * 2 ^ 5)) (1 + 1)
        (u32 (134217728 * 2 ^ 5 + tid)) 0)
      (fun tid => if tid = 0 then 1 else 0) hthread
    rw [cg_reduce_inblock (constMem 1) 1 134217729 5 134217728 (constJunk 0) threadVal le_rfl h1,
      sum_congr rfl fun t ht => h2 t (mem_range.mp ht)]
    rfl
  · decide

/-- C31, amended: `cg_reduce` (strategy 8), for every power-of-two block size `B ≥ 32`,
every grid size `G ≥ 1` and every `n` such that no 32-bit index wraps
(`n + G * B ≤ 2^32`), and every input `A` of exact elements: every block completes,
`out[b]` is the sum of `A[i]` over all `i < n` with `(i div B) mod G = b`, and the outputs
of all blocks add up to the sum of `A`, the total strategy 7 yields with 1024 threads per
block on a grid without index wrapping. -/
theorem cg_reduce_blocks (g_idata : Mem) (n gridDim k : Nat) (junk : Nat → Junk) (hk : 5 ≤ k)
    (hG : 1 ≤ gridDim) (hwrap : n + gridDim * 2 ^ k ≤ 4294967296) :
    ∃ out : Nat → Int,
      (∀ b, b < gridDim →
        cg_reduce g_idata n gridDim (2 ^ k) b (junk b) = some (out b) ∧
        out b = ∑ i in (range n).filter (fun i => i / 2 ^ k % gridDim = b), g_idata i) ∧
      ∑ b in range gridDim, out b = ∑ i in range n, g_idata i ∧
      ∀ (sizeofT blocks7 : Nat) (junk7 : Nat → Junk) (d_odata : Mem), 1 ≤ blocks7 →
        n + 2 * blocks7 * 1024 ≤ 4294967296 →
        ∃ out7, (reduce sizeofT n 1024 blocks7 7).exec junk7 g_idata d_odata = some out7 ∧
          ∑ b in range blocks7, out7 b = ∑ b in range gridDim, out b := by
  have hB : 0 < 2 ^ k := by positivity
  have htotal : ∑ b in range gridDim, ∑ t in range (2 ^ k),
      strideSum g_idata n (2 ^ k * gridDim) (b * 2 ^ k + t) = ∑ i in range n, g_idata i := by
    have h := sum_gridStrideSum false g_idata n (2 ^ k) gridDim hB hG
    simpa only [gridStrideSum, Bool.false_eq_true, if_false] using h
  refine ⟨fun b => ∑ t in range (2 ^ k), strideSum g_idata n (2 ^ k * gridDim) (b * 2 ^ k + t),
    fun b hb => ⟨?_, sum_strideSum_block g_idata n gridDim (2 ^ k) b hB hb⟩, htotal, ?_⟩
  · obtain ⟨threadVal, h1, h2⟩ := allThreads_spec (2 ^ k)
      (fun tid => strideLoop g_idata n (u32 (gridDim * 2 ^ k)) (n + 1)
        (u32 (b * 2 ^ k + tid)) 0)
      (fun tid => strideSum g_idata n (2 ^ k * gridDim) (b * 2 ^ k + tid))
      (fun tid ht => strideLoop_grid g_idata n gridDim (2 ^ k) b tid hB hb ht hwrap)
    rw [cg_reduce_inblock g_idata n gridDim k b (junk b) threadVal hk h1]
    exact congrArg some (sum_congr rfl fun t ht => h2 t (mem_range.mp ht))
  · intro sizeofT blocks7 junk7 d_odata h7 hw7
    obtain ⟨out7, he, hs, -⟩ := exec_total sizeofT n 1024 blocks7 7 junk7 g_idata d_odata
      (Or.inr (Or.inr (Or.inr (Or.inr (Or.inl ⟨rfl, rfl⟩))))) h7 hw7
    exact ⟨out7, he, by rw [hs, htotal]⟩

/-- C31, witness: 64 threads per block on 2 blocks and `n = 300`. -/
theorem cg_reduce_blocks_witness :
    ∃ out : Nat → Int,
      (∀ b, b < 2 →
        cg_reduce oneToEight 300 2 (2 ^ 6) b (constJunk 0) = some (out b) ∧
        out b = ∑ i in (range 300).filter (fun i => i / 2 ^ 6 % 2 = b), oneToEight i) ∧
      ∑ b in range 2, out b = ∑ i in range 300, oneToEight i :=
  (cg_reduce_blocks oneToEight 300 2 6 (fun _ => constJunk 0) (by decide) (by decide)
    (by decide)).imp fun _ h => ⟨h.1, h.2.1⟩

/-! ## C32 -/

/-- C32, counterexample: strategy 9 with 64 threads per block on `33554433 = 2^25 + 1`
blocks and the one-element array `[1]` (`n = 1` passes the kernel's power-of-two test).
In block `2^25` the index `blockIdx.x * BlockSize * 2 + threadIdx.x = 2^32 + tid` wraps to
`tid`, so thread 0 of this block reads `A[0]` as thread 0 of block 0 does: the outputs add
up to `2`, the sum of the array is `1`. -/
theorem multi_warp_total_counterexample :
    (∃ out, (reduce 4 1 64 33554433 9).exec (fun _ => constJunk 0) (constMem 1) (constMem 0) =
        some out ∧ out 0 = 1 ∧ out 33554432 = 1 ∧ ∑ b in range 33554433, out b = 2) ∧
    ∑ i in range 1, constMem 1 i = 1 := by
  have hblock : ∀ b, b ≤ 33554432 →
      runKernel (Kernel.multi_warp_cg_reduce 64 (64 / 2)) (constMem 1) 1 33554433 64 b
        (constJunk 0) = some (if b = 0 ∨ b = 33554432 then 1 else 0) := by
    intro b hb
    obtain ⟨threadVal, h1, h2⟩ := allThreads_wrap (constMem 1) (2 * 32) 33554432 b
      (fun i => i + 2 * 32) (2 * 32) (by norm_num) (by norm_num) (by norm_num) hb (by decide)
    rw [← show isPow2 1 = true by decide] at h1
    obtain ⟨h3, h4⟩ := multi_warp_inblock 32 (constMem 1) 1 33554433 b (constJunk 0) threadVal
      (by norm_num) h1
    rw [h4, h2] at h3
    exact h3
  obtain ⟨smem, hd⟩ := reduce_launch9 4 1 64 33554433 (by decide)
  have hex := Launch.exec_spec ⟨Kernel.multi_warp_cg_reduce 64 (64 / 2), 33554433, 64, smem, 1⟩
    (fun _ => constJunk 0) (constMem 1) (constMem 0)
    (fun b => if b = 0 ∨ b = 33554432 then 1 else 0) (by norm_num)
    (fun b hb => hblock b (Nat.le_of_lt_succ hb))
  refine ⟨⟨_, by rw [hd]; exact hex, ?_, ?_, ?_⟩, by decide⟩
  · show (if (0 : Nat) < 33554433 then
        (if (0 : Nat) = 0 ∨ (0 : Nat) = 33554432 then (1 : Int) else 0)
      else constMem 0 0) = 1
    rw [if_pos (by norm_num), if_pos (Or.inl rfl)]
  · show (if (33554432 : Nat) < 33554433 then
        (if (33554432 : Nat) = 0 ∨ (33554432 : Nat) = 33554432 then (1 : Int) else 0)
      else constMem 0 33554432) = 1
    rw [if_pos (by norm_num), if_pos (Or.inr rfl)]
  · exact wrap_total _ 33554432 1 (by norm_num) fun b hb => by
      show (if b < 33554433 then (if b = 0 ∨ b = 33554432 then (1 : Int) else 0)
        else constMem 0 b) = _
      rw [if_pos (by omega)]

/-- C32, amended: `multi_warp_cg_reduce` (strategy 9), for every `BlockSize` in
`{64, 128, 256, 512, 1024}` with two tiles of `BlockSize / 2` threads, every grid size
`G ≥ 1` and every `n` such that no 32-bit index wraps (`n + 2 * G * BlockSize ≤ 2^32`),
and every input `A` of exact elements: in every block the grid-stride loops end, the
group reduction of each tile yields the sum of the partial sums of its threads, thread 0
writes to `out[b]` the sum of the two tile results, and the outputs of all blocks add up
to the sum of `A`. -/
theorem multi_warp_total (BlockSize : Nat) (g_idata : Mem) (n gridDim : Nat) (junk : Nat → Junk)
    (hbs : BlockSize ∈ [64, 128, 256, 512, 1024]) (hG : 1 ≤ gridDim)
    (hwrap : n + 2 * gridDim * BlockSize ≤ 4294967296) :
    ∃ out : Nat → Int,
      (∀ b, b < gridDim → ∃ threadVal,
        allThreads BlockSize
          (gridStride (isPow2 n) g_idata n BlockSize (fun i => i + BlockSize) BlockSize gridDim
            b) = some threadVal ∧
        cg_reduce_n BlockSize threadVal 0 (BlockSize / 2) =
          ∑ r in range (BlockSize / 2), threadVal r ∧
        cg_reduce_n BlockSize threadVal (BlockSize / 2) (BlockSize / 2) =
          ∑ r in range (BlockSize / 2), threadVal (BlockSize / 2 + r) ∧
        out b = cg_reduce_n BlockSize threadVal 0 (BlockSize / 2) +
          cg_reduce_n BlockSize threadVal (BlockSize / 2) (BlockSize / 2) ∧
        multi_warp_cg_reduce BlockSize (BlockSize / 2) g_idata n gridDim BlockSize b (junk b) =
          some (out b)) ∧
      ∑ b in range gridDim, out b = ∑ i in range n, g_idata i := by
  obtain ⟨M, hM, rfl⟩ : ∃ M, 0 < M ∧ BlockSize = 2 * M := by
    simp only [List.mem_cons, List.mem_singleton, List.not_mem_nil, or_false] at hbs
    exact ⟨BlockSize / 2, by omega, by omega⟩
  have hdiv : 2 * M / 2 = M := by omega
  rw [hdiv]
  refine ⟨fun b => ∑ t in range (2 * M), gridStrideSum (isPow2 n) g_idata n (2 * M) gridDim b t,
    fun b hb => ?_, sum_gridStrideSum (isPow2 n) g_idata n (2 * M) gridDim (by omega) hG⟩
  obtain ⟨threadVal, h1, h2⟩ := allThreads_spec (2 * M)
    (gridStride (isPow2 n) g_idata n (2 * M) (fun i => i + 2 * M) (2 * M) gridDim b)
    (gridStrideSum (isPow2 n) g_idata n (2 * M) gridDim b)
    (fun tid ht => gridStride_spec (isPow2 n) g_idata n (2 * M) gridDim b tid _
      (by omega) hb ht hwrap (fun _ _ => Iff.rfl))
  obtain ⟨h3, h4⟩ := multi_warp_inblock M g_idata n gridDim b (junk b) threadVal hM h1
  have hs : ∑ t in range (2 * M), gridStrideSum (isPow2 n) g_idata n (2 * M) gridDim b t =
      ∑ t in range (2 * M), threadVal t :=
    (sum_congr rfl fun t ht => h2 t (mem_range.mp ht)).symm
  refine ⟨threadVal, h1, ?_, cg_reduce_n_tile _ _ _ _ (by omega), ?_, ?_⟩
  · rw [cg_reduce_n_tile _ _ _ _ (by omega)]
    exact sum_congr rfl fun r _ => by rw [zero_add]
  · show ∑ t in range (2 * M), gridStrideSum (isPow2 n) g_idata n (2 * M) gridDim b t = _
    rw [hs, h4]
  · rw [h3, h4]
    exact congrArg some hs.symm

/-- C32, witness: 64 threads per block on 2 blocks and `n = 300`. -/
theorem multi_warp_total_witness :
    ∃ out : Nat → Int,
      (∀ b, b < 2 →
        multi_warp_cg_reduce 64 (64 / 2) oneToEight 300 2 64 b (constJunk 0) = some (out b)) ∧
      ∑ b in range 2, out b = ∑ i in range 300, oneToEight i :=
  (multi_warp_total 64 oneToEight 300 2 (fun _ => constJunk 0) (by decide) (by decide)
    (by decide)).imp fun _ h => ⟨fun b hb => by
      obtain ⟨_, _, _, _, _, h5⟩ := h.1 b hb
      exact h5, h.2⟩

/-! ## C33 -/

/-- C33, counterexample: the array `[2^24, 1, 0, ..., 0]` of 64 `float` elements, 64
threads per block, strategy 6: the driver computes one block and yields `2^24`, while the
sum of the array is `2^24 + 1`: the `float` sum of `2^24` and `1` is `2^24`. -/
theorem pass_count_invariance_counterexample :
    nblock 64 64 = some 1 ∧
    (twoPass 64 64 1 6 (fun _ => (⟨fun _ => 0, fun _ _ => 0⟩ : JunkOf F32))
      (fun _ => ⟨fun _ => 0, fun _ _ => 0⟩) (fun i => F32.fin (bigAndOne i : ℚ))
      (fun _ => 0)).map Prod.fst = some (F32.fin 16777216) ∧
    ∑ i in range 64, bigAndOne i = 16777217 := by
  have hsum : ∑ i in range 64, bigAndOne i = 16777217 := by decide
  refine ⟨by rw [nblock_eq 64 64 (by norm_num) (by norm_num) (by norm_num)], ?_, hsum⟩
  obtain ⟨A1, A2, h⟩ := twoPass_total6 64 64 1 (fun _ => constJunk 16777218)
    (fun _ => constJunk 16777218) bigAndOne (fun _ => 16777218) (by decide) (by decide)
    (by rw [if_pos (by decide)]; decide) (by decide)
  rw [hsum] at h
  refine twoPass_rounds 64 64 1 6 _ _ bigAndOne _ (fun i => ?_) A1 A2 h
  unfold bigAndOne
  rcases i with _ | _ | i
  · decide
  · decide
  · simp

/-- C33, amended: for strategy 6, every `threads ∈ {64, 128, 256, 512}`, every `N` (an
`int`, so `N < 2^31`) with `2 * N ≥ threads` and every `N`-element array of `float`
elements that are integer multiples `A i * 2^e` of one power of two (`-149 ≤ e ≤ 103`),
the absolute values of the multipliers adding up to at most `2^24` (so that no `float`
addition rounds), the block count is at least 1 and the two-pass driver completes and
yields the sum of the array, whether the block count is 1 or greater than 1. -/
theorem pass_count_invariance (ndata nthread : Nat) (e : Int) (junk1 junk2 : Nat → JunkOf F32)
    (A : Nat → Int) (d_reduction : Nat → F32) (ht : nthread ∈ [64, 128, 256, 512])
    (hN : nthread ≤ 2 * ndata) (hint : ndata < 2147483648) (he1 : -149 ≤ e) (he2 : e ≤ 103)
    (hexact : ∑ i in range ndata, |A i| ≤ 16777216) :
    ∃ nb, nblock ndata nthread = some nb ∧ 1 ≤ nb ∧
      ∃ d_after sums,
        twoPass ndata nthread nb 6 junk1 junk2 (fun i => F32.fin ((A i : ℚ) * 2 ^ e))
            d_reduction =
          some (F32.fin (∑ i in range ndata, (A i : ℚ) * 2 ^ e), d_after, sums) ∧
        (nb = 1 → d_after = (fun i => F32.fin ((A i : ℚ) * 2 ^ e)) ∧
          sums 0 = F32.fin (∑ i in range ndata, (A i : ℚ) * 2 ^ e)) ∧
        (1 < nb → d_after 0 = F32.fin (∑ i in range ndata, (A i : ℚ) * 2 ^ e)) := by
  have ht5 : nthread ∈ [32, 64, 128, 256, 512] := List.mem_cons_of_mem _ ht
  have hT : ∃ k, 6 ≤ k ∧ k ≤ 9 ∧ nthread = 2 ^ k := by
    simp only [List.mem_cons, List.mem_singleton, List.not_mem_nil, or_false] at ht
    rcases ht with rfl | rfl | rfl | rfl
    · exact ⟨6, by norm_num, by norm_num, rfl⟩
    · exact ⟨7, by norm_num, by norm_num, rfl⟩
    · exact ⟨8, by norm_num, by norm_num, rfl⟩
    · exact ⟨9, by norm_num, by norm_num, rfl⟩
  obtain ⟨k, hk6, hk9, hTk⟩ := hT
  obtain ⟨nb, F, hnb, hnbF, hFle, hF1, hF2, hFp, hmul, -, -⟩ :=
    nblock_pow2_facts ndata k hint (by omega) (by omega)
  rw [← hTk] at hnb hnbF hmul
  have hT64 : 64 ≤ nthread ∧ nthread ≤ 512 := by
    simp only [List.mem_cons, List.mem_singleton, List.not_mem_nil, or_false] at ht
    omega
  -- the block count is at least 1
  have h2F : nthread ≤ 2 * F := by
    by_cases hs : ndata ≤ 16777216
    · rw [hF1 hs]; exact hN
    · have := hF2 (by omega); omega
  have hnb1 : 1 ≤ nb := by
    rw [hnbF]
    exact (Nat.le_div_iff_mul_le (by omega)).mpr (by omega)
  -- no index wraps
  have h2nb : 2 * nb * nthread ≤ 2 * F + nthread := by
    have h := Nat.div_mul_le_self (2 * F + nthread) (2 * nthread)
    rw [← hnbF] at h
    calc 2 * nb * nthread = nb * (2 * nthread) := by ring
      _ ≤ 2 * F + nthread := h
  have hnble : nb ≤ 2147483648 := by
    calc nb = nb * 1 := (Nat.mul_one nb).symm
      _ ≤ nb * nthread := Nat.mul_le_mul_left nb (by omega)
      _ ≤ 2147483648 := hmul
  have hwrap1 : if isPow2 ndata = true then ndata + 2 * nb * nthread ≤ 4294967296
      else ndata + nb * nthread ≤ 4294967296 := by
    by_cases hp : isPow2 ndata = true
    · rw [if_pos hp]
      obtain ⟨j, hj, hj2⟩ := (isPow2_iff ndata (by omega) (by omega)).mp hp
      have hj30 : j ≤ 30 := by
        have h1 : 2 ^ j < 2 ^ 31 := by rw [← hj2]; norm_num; exact hint
        have := (Nat.pow_lt_pow_iff_right (by norm_num : 1 < 2)).mp h1
        omega
      have hle : ndata ≤ 1073741824 := by
        rw [hj2]
        calc 2 ^ j ≤ 2 ^ 30 := Nat.pow_le_pow_right (by norm_num) hj30
          _ = 1073741824 := by norm_num
      rw [hFp j hj2] at h2nb
      omega
    · rw [if_neg hp]; omega
  have hwrap2 : nb + 2 * 1 * nthread ≤ 4294967296 := by omega
  -- the runs on the multipliers and on their magnitudes
  obtain ⟨A1, A2, ha⟩ := twoPass_total6 ndata nthread nb (fun _ => constJunk 0)
    (fun _ => constJunk 0) A (fun _ => 0) ht5 hnb1 hwrap1 hwrap2
  obtain ⟨S1, S2, hs⟩ := twoPass_total6 ndata nthread nb (fun b => boundJunk (junk1 b))
    (fun b => boundJunk (junk2 b)) (fun i => |A i|) (fun _ => 16777217) ht5 hnb1 hwrap1 hwrap2
  obtain ⟨d_after, sums, hf, -, -⟩ := twoPass_exact e he1 he2 ndata nthread nb 6 junk1 junk2 A
    d_reduction _ _ A1 A2 S1 S2 ha hs hexact
  rw [sum_scaled] at hf
  refine ⟨nb, hnb, hnb1, d_after, sums, hf, fun h1 => ?_, fun h1 => ?_⟩
  · exact ⟨(twoPass_frame _ _ _ _ _ _ _ _ _ _ _ hf).2.1 (by omega),
      ((twoPass_scalar _ _ _ _ _ _ _ _ _ _ _ hf).1 (by omega)).symm⟩
  · exact ((twoPass_scalar _ _ _ _ _ _ _ _ _ _ _ hf).2 h1).symm

/-- C33, witness: the array `[1..8]` followed by zeros, 64 threads per block, with
`N = 40` (one block, one pass) and with `N = 300` (five blocks, two passes). -/
theorem pass_count_invariance_witness :
    (∃ nb, nblock 40 64 = some nb ∧ 1 ≤ nb ∧
      ∃ d_after sums,
        twoPass 40 64 nb 6 (fun _ => (⟨fun _ => 0, fun _ _ => 0⟩ : JunkOf F32))
            (fun _ => ⟨fun _ => 0, fun _ _ => 0⟩)
            (fun i => F32.fin ((oneToEight i : ℚ) * 2 ^ (0 : Int))) (fun _ => 0) =
          some (F32.fin (∑ i in range 40, (oneToEight i : ℚ) * 2 ^ (0 : Int)), d_after,
            sums) ∧
        (nb = 1 → d_after = (fun i => F32.fin ((oneToEight i : ℚ) * 2 ^ (0 : Int))) ∧
          sums 0 = F32.fin (∑ i in range 40, (oneToEight i : ℚ) * 2 ^ (0 : Int))) ∧
        (1 < nb →
          d_after 0 = F32.fin (∑ i in range 40, (oneToEight i : ℚ) * 2 ^ (0 : Int)))) ∧
    (∃ nb, nblock 300 64 = some nb ∧ 1 ≤ nb ∧
      ∃ d_after sums,
        twoPass 300 64 nb 6 (fun _ => (⟨fun _ => 0, fun _ _ => 0⟩ : JunkOf F32))
            (fun _ => ⟨fun _ => 0, fun _ _ => 0⟩)
            (fun i => F32.fin ((oneToEight i : ℚ) * 2 ^ (0 : Int))) (fun _ => 0) =
          some (F32.fin (∑ i in range 300, (oneToEight i : ℚ) * 2 ^ (0 : Int)), d_after,
            sums) ∧
        (nb = 1 → d_after = (fun i => F32.fin ((oneToEight i : ℚ) * 2 ^ (0 : Int))) ∧
          sums 0 = F32.fin (∑ i in range 300, (oneToEight i : ℚ) * 2 ^ (0 : Int))) ∧
        (1 < nb →
          d_after 0 = F32.fin (∑ i in range 300, (oneToEight i : ℚ) * 2 ^ (0 : Int)))) :=
  ⟨pass_count_invariance 40 64 0 _ _ oneToEight _ (by decide) (by decide) (by decide)
      (by decide) (by decide) (sum_abs_oneToEight_le 40),
    pass_count_invariance 300 64 0 _ _ oneToEight _ (by decide) (by decide) (by decide)
      (by decide) (by decide) (sum_abs_oneToEight_le 300)⟩

/-! ## C34 -/

/-- C34, counterexample: the array `[2^24, 1, 0, 0]` of 4 `float` elements, 4 threads per
block, strategy 0: the driver computes one block that covers the array, and yields `2^24`,
while the sum of the first `min(4, min(1, 4) * 4) = 4` elements is `2^24 + 1`. -/
theorem one_per_thread_truncation_counterexample :
    nblock 4 4 = some 1 ∧ min 4 (min 1 4 * 4) = 4 ∧
    (twoPass 4 4 1 0 (fun _ => (⟨fun _ => 0, fun _ _ => 0⟩ : JunkOf F32))
      (fun _ => ⟨fun _ => 0, fun _ _ => 0⟩) (fun i => F32.fin (bigAndOne i : ℚ))
      (fun _ => 0)).map Prod.fst = some (F32.fin 16777216) ∧
    ∑ i in range 4, bigAndOne i = 16777217 := by
  have hsum : ∑ i in range (min 4 (min 1 4 * 4)), bigAndOne i = 16777217 := by decide
  refine ⟨by rw [nblock_eq 4 4 (by norm_num) (by norm_num) (by norm_num)], by decide, ?_,
    by decide⟩
  obtain ⟨⟨A1, A2⟩, h⟩ := map_fst_some _ _ (twoPass_one_per_thread 4 4 1 2 0
    (fun _ => constJunk 16777218) (fun _ => constJunk 16777218) bigAndOne (fun _ => 16777218)
    (Or.inl rfl) rfl (by decide) (by decide))
  rw [hsum] at h
  refine twoPass_rounds 4 4 1 0 _ _ bigAndOne _ (fun i => ?_) A1 A2 h
  unfold bigAndOne
  rcases i with _ | _ | i
  · decide
  · decide
  · simp

/-- C34, amended: for strategy 0, 1 or 2, every power-of-two `threads = T` and every `N`
(both `int`, so below `2^31`) with a block count `n_blocks ≥ 1`, and every array of `float`
elements that are integer multiples `A i * 2^e` of one power of two (`-149 ≤ e ≤ 103`),
the absolute values of the first `m = min(N, min(n_blocks, T) * T)` multipliers adding up
to at most `2^24` (so that no `float` addition rounds), the two-pass driver completes and
its final scalar is the sum of the first `m` elements of the array; so whenever
`n_blocks > T` or `n_blocks * T < N` fewer than `N` elements enter the result: trailing
elements are left out. -/
theorem one_per_thread_truncation (ndata nthread k nb : Nat) (method : Int) (e : Int)
    (junk1 junk2 : Nat → JunkOf F32) (A : Nat → Int) (d_reduction : Nat → F32)
    (hk : method = 0 ∨ method = 1 ∨ method = 2) (ht : nthread = 2 ^ k)
    (hnb : nblock ndata nthread = some nb) (hnb1 : 1 ≤ nb)
    (hintN : ndata < 2147483648) (hintT : nthread < 2147483648)
    (he1 : -149 ≤ e) (he2 : e ≤ 103)
    (hexact : ∑ i in range (min ndata (min nb nthread * nthread)), |A i| ≤ 16777216) :
    (twoPass ndata nthread nb method junk1 junk2 (fun i => F32.fin ((A i : ℚ) * 2 ^ e))
        d_reduction).map Prod.fst =
      some (F32.fin
        (∑ i in range (min ndata (min nb nthread * nthread)), (A i : ℚ) * 2 ^ e)) ∧
    (nthread < nb ∨ nb * nthread < ndata → min ndata (min nb nthread * nthread) < ndata) := by
  have hk30 : k ≤ 30 := by
    by_contra hc
    have : 2 ^ 31 ≤ 2 ^ k := Nat.pow_le_pow_right (by norm_num) (by omega)
    omega
  rw [ht] at hnb
  obtain ⟨F, hF, -, hF1, -, hmul, hF127, -, -⟩ := nblock_pow2_some ndata k nb hintN hk30 hnb
  rw [← ht] at hmul hF
  have hmin : min nb nthread * nthread ≤ nb * nthread :=
    Nat.mul_le_mul_right _ (min_le_left _ _)
  constructor
  · obtain ⟨⟨A1, A2⟩, ha⟩ := map_fst_some _ _ (twoPass_one_per_thread ndata nthread nb k method
      (fun _ => constJunk 0) (fun _ => constJunk 0) A (fun _ => 0) hk ht hnb1 (by omega))
    obtain ⟨⟨S1, S2⟩, hs⟩ := map_fst_some _ _ (twoPass_one_per_thread ndata nthread nb k method
      (fun b => boundJunk (junk1 b)) (fun b => boundJunk (junk2 b)) (fun i => |A i|)
      (fun _ => 16777217) hk ht hnb1 (by omega))
    obtain ⟨d_after, sums, hf, -, -⟩ := twoPass_exact e he1 he2 ndata nthread nb method junk1
      junk2 A d_reduction _ _ A1 A2 S1 S2 ha hs hexact
    rw [hf, Option.map_some', sum_scaled]
  · rintro (h | h)
    · have h1 : (nthread + 1) * nthread ≤ nb * nthread := Nat.mul_le_mul_right _ h
      have h2 : (nthread + 1) * nthread = nthread * nthread + nthread := by ring
      have h3 : min nb nthread = nthread := min_eq_right (le_of_lt h)
      rw [h3]
      have h4 : nthread * nthread < ndata := by
        have h5 := Nat.div_mul_le_self (2 * F + nthread) (2 * nthread)
        rw [← hF] at h5
        have h6 : nb * (2 * nthread) = 2 * (nb * nthread) := by ring
        have hpos : 1 ≤ nthread := by rw [ht]; exact Nat.one_le_two_pow
        by_cases hN : ndata ≤ 16777216
        · have := hF1 hN
          omega
        · by_cases hT : nthread ≤ 254
          · have : nthread * nthread ≤ 254 * 254 := Nat.mul_le_mul hT hT
            omega
          · omega
      exact lt_of_le_of_lt (min_le_right _ _) h4
    · exact lt_of_le_of_lt (min_le_right _ _) (lt_of_le_of_lt hmin h)

/-- C34, witness: the array `[1..8]` followed by zeros, strategy 0, 8 threads per block:
with `N = 9` one block is launched and 8 elements enter the result; with `N = 300` the
38 blocks exceed the 8 threads of the second pass and 64 elements enter the result. -/
theorem one_per_thread_truncation_witness :
    ((twoPass 9 8 1 0 (fun _ => (⟨fun _ => 0, fun _ _ => 0⟩ : JunkOf F32))
          (fun _ => ⟨fun _ => 0, fun _ _ => 0⟩)
          (fun i => F32.fin ((oneToEight i : ℚ) * 2 ^ (0 : Int))) (fun _ => 0)).map Prod.fst =
        some (F32.fin (∑ i in range (min 9 (min 1 8 * 8)),
          (oneToEight i : ℚ) * 2 ^ (0 : Int))) ∧
      (8 < 1 ∨ 1 * 8 < 9 → min 9 (min 1 8 * 8) < 9)) ∧
    ((twoPass 300 8 38 0 (fun _ => (⟨fun _ => 0, fun _ _ => 0⟩ : JunkOf F32))
          (fun _ => ⟨fun _ => 0, fun _ _ => 0⟩)
          (fun i => F32.fin ((oneToEight i : ℚ) * 2 ^ (0 : Int))) (fun _ => 0)).map Prod.fst =
        some (F32.fin (∑ i in range (min 300 (min 38 8 * 8)),
          (oneToEight i : ℚ) * 2 ^ (0 : Int))) ∧
      (8 < 38 ∨ 38 * 8 < 300 → min 300 (min 38 8 * 8) < 300)) :=
  ⟨one_per_thread_truncation 9 8 3 1 0 0 _ _ oneToEight _ (Or.inl rfl) rfl
      (nblock_eq 9 8 (by norm_num) (by norm_num) (by norm_num)) (by decide) (by decide)
      (by decide) (by decide) (by decide) (sum_abs_oneToEight_le _),
    one_per_thread_truncation 300 8 3 38 0 0 _ _ oneToEight _ (Or.inl rfl) rfl
      (nblock_eq 300 8 (by norm_num) (by norm_num) (by norm_num)) (by decide) (by decide)
      (by decide) (by decide) (by decide) (sum_abs_oneToEight_le _)⟩

/-! ## C35 -/

/-- C35, counterexample: for `N = 2^23` and `2^24 + 1` threads per block `2 * N` is less
than the thread count, but the conversion of the thread count to `float` gives `2^24`, the
quotient is `0.5` and the block count is 1, not 0.  And with `N = 1` and 8 threads per
block, on a runtime that refuses an allocation of zero bytes and a launch on an empty
grid, a check ends the program before the first call of `reduce`: pass 1 is not
requested. -/
theorem block_count_zero_counterexample :
    nblock 8388608 16777217 = some 1 ∧ 2 * 8388608 < 16777217 ∧
    nblock 1 8 = some 0 ∧
    RealMeanStddevCalculator.mean rejectsEmpty (fun _ => 0) 1 8 0
      (fun _ => ⟨fun _ => 0, fun _ _ => 0⟩)
      (fun _ => ⟨fun _ => 0, fun _ _ => 0⟩) (fun _ => 0) (fun _ => 0) (fun _ => 0) =
        Progress.exits := by
  have h18 : nblock 1 8 = some 0 := by
    rw [nblock_eq 1 8 (by norm_num) (by norm_num) (by norm_num)]
  refine ⟨nblock_example_b, by norm_num, h18, ?_⟩
  unfold RealMeanStddevCalculator.mean
  rw [h18]
  simp [rejectsEmpty]

/-- C35, amended: for every thread count `threads ≥ 1` (an `int`) and every `N` with
`0 ≤ N < 2^23` the block count `(int)(N/(float)threads + 0.5)` is 0 if and only if
`2 * N < threads`; `N = 1` with any `threads ≥ 3` gives 0.  With a block count of 0 the
constructor asks for a managed allocation of zero bytes and launches `cudautil_pow` on a
grid of zero blocks, each under a check that ends the program when the runtime reports an
error; when the runtime reports none, the first call of `reduce` has a grid of zero blocks
and stores no partial sum, the second call is not made, and the scalar is read from
`d_reduction[0]` as the allocation left it. -/
theorem block_count_zero (rt : Runtime) (ndata nthread : Nat) (method : Int)
    (junk1 junk2 : Nat → JunkOf F32) (data d_float d_float2 d_reduction : Nat → F32)
    (h : 1 ≤ nthread) (hint : nthread < 2147483648) (hN : ndata < 8388608) :
    (nblock ndata nthread = some 0 ↔ 2 * ndata < nthread) ∧
    (3 ≤ nthread → nblock 1 nthread = some 0) ∧
    (2 * ndata < nthread →
      RealMeanStddevCalculator.mean rt data ndata nthread method junk1 junk2 d_float d_float2
          d_reduction =
        (if rt.mallocManaged (ndata * 4) && rt.mallocManaged (ndata * 4) &&
            rt.mallocManaged (0 * 4) && rt.launch 0 nthread then
          Progress.reaches (d_reduction 0 / F32.ofInt ndata, 0, d_float, d_float2, d_reduction)
        else Progress.exits) ∧
      (∀ l, reduce 4 ndata nthread 0 method = Dispatch.launch l → l.dimGrid = 0) ∧
      (reduce 4 ndata nthread 0 method).exec junk1 d_float d_reduction = some d_reduction ∧
      twoPass ndata nthread 0 method junk1 junk2 d_float d_reduction =
        some (d_reduction 0, d_float, d_reduction)) := by
  have key : ∀ N, N < 8388608 → (nblock N nthread = some 0 ↔ 2 * N < nthread) := by
    intro N hN'
    rw [nblock_eq N nthread hN' h hint, Option.some_inj, Nat.div_eq_zero_iff (by omega)]
    omega
  refine ⟨key ndata hN, fun h3 => (key 1 (by norm_num)).mpr (by omega), fun hlt => ?_⟩
  have h0 := (key ndata hN).mpr hlt
  refine ⟨?_, fun l hl => (reduce_launch_cases _ _ _ _ _ l hl).1, exec_zero_blocks _ _ _ _ _ _ _,
    twoPass_zero_blocks _ _ _ _ _ _ _⟩
  unfold RealMeanStddevCalculator.mean
  rw [h0]
  simp only [cudautil_pow_zero_blocks, twoPass_zero_blocks]

/-- C35, witness: one element and 8 threads per block, on a runtime that reports no
error. -/
theorem block_count_zero_witness :
    nblock 1 8 = some 0 ∧
    RealMeanStddevCalculator.mean ⟨fun _ => true, fun _ _ => true⟩ (fun _ => 0) 1 8 0
        (fun _ => ⟨fun _ => 0, fun _ _ => 0⟩) (fun _ => ⟨fun _ => 0, fun _ _ => 0⟩)
        (fun _ => F32.fin 5) (fun _ => F32.fin 6) (fun _ => F32.fin 7) =
      Progress.reaches (F32.fin 7 / F32.ofInt 1, 0, fun _ => F32.fin 5, fun _ => F32.fin 6,
        fun _ => F32.fin 7) ∧
    twoPass 1 8 0 0 (fun _ => (⟨fun _ => 0, fun _ _ => 0⟩ : JunkOf F32))
        (fun _ => ⟨fun _ => 0, fun _ _ => 0⟩) (fun _ => F32.fin 5) (fun _ => F32.fin 7) =
      some (F32.fin 7, fun _ => F32.fin 5, fun _ => F32.fin 7) := by
  have h := block_count_zero ⟨fun _ => true, fun _ _ => true⟩ 1 8 0
    (fun _ => ⟨fun _ => 0, fun _ _ => 0⟩) (fun _ => ⟨fun _ => 0, fun _ _ => 0⟩) (fun _ => 0)
    (fun _ => F32.fin 5) (fun _ => F32.fin 6) (fun _ => F32.fin 7) (by decide) (by decide)
    (by decide)
  exact ⟨h.2.1 (by decide), (h.2.2 (by decide)).1, (h.2.2 (by decide)).2.2.2⟩

/-! ## C36 -/

/-- C36: the wrapper makes a launch if and only if the strategy is 0, 1, 2, 3 or 8 (any
thread count); or the strategy is 4, 5 or 6 and the thread count is one of
`1, 2, 4, ..., 512`; or the strategy is 7, or 9 with fewer than 64 threads, and the thread
count is one of `1, 2, 4, ..., 1024`; or the strategy is 9 and the thread count is one of
`64, 128, 256, 512, 1024`.  It prints a message, without a launch, if and only if the
strategy is 9 with at least 64 threads outside that last set.  In every other case, a
strategy outside `0..9` included, it returns with neither a launch nor a message. -/
theorem launch_table (sizeofT size threads blocks : Nat) (whichKernel : Int) :
    ((∃ l, reduce sizeofT size threads blocks whichKernel = Dispatch.launch l) ↔
      ((whichKernel = 0 ∨ whichKernel = 1 ∨ whichKernel = 2 ∨ whichKernel = 3 ∨
          whichKernel = 8) ∨
        ((whichKernel = 4 ∨ whichKernel = 5 ∨ whichKernel = 6) ∧
          threads ∈ [1, 2, 4, 8, 16, 32, 64, 128, 256, 512]) ∨
        ((whichKernel = 7 ∨ (whichKernel = 9 ∧ threads < 64)) ∧
          threads ∈ [1, 2, 4, 8, 16, 32, 64, 128, 256, 512, 1024]) ∨
        (whichKernel = 9 ∧ threads ∈ [64, 128, 256, 512, 1024]))) ∧
    (reduce sizeofT size threads blocks whichKernel = Dispatch.message ↔
      (whichKernel = 9 ∧ 64 ≤ threads ∧ threads ∉ [64, 128, 256, 512, 1024])) ∧
    (reduce sizeofT size threads blocks whichKernel = Dispatch.nothing ↔
      ¬ ((whichKernel = 0 ∨ whichKernel = 1 ∨ whichKernel = 2 ∨ whichKernel = 3 ∨
          whichKernel = 8) ∨
        ((whichKernel = 4 ∨ whichKernel = 5 ∨ whichKernel = 6) ∧
          threads ∈ [1, 2, 4, 8, 16, 32, 64, 128, 256, 512]) ∨
        ((whichKernel = 7 ∨ (whichKernel = 9 ∧ threads < 64)) ∧
          threads ∈ [1, 2, 4, 8, 16, 32, 64, 128, 256, 512, 1024]) ∨
        (whichKernel = 9 ∧ threads ∈ [64, 128, 256, 512, 1024])) ∧
      ¬ (whichKernel = 9 ∧ 64 ≤ threads ∧ threads ∉ [64, 128, 256, 512, 1024])) := by
  have hcases : threads ∈ [1, 2, 4, 8, 16, 32, 64, 128, 256, 512] ↔ threads ∈ threadCases := by
    simp only [threadCases, List.mem_cons, List.mem_singleton, List.not_mem_nil, or_false]
    omega
  have hcases7 : threads ∈ [1, 2, 4, 8, 16, 32, 64, 128, 256, 512, 1024] ↔
      (threads = 1024 ∨ threads ∈ threadCases) := by
    simp only [threadCases, List.mem_cons, List.mem_singleton, List.not_mem_nil, or_false]
    omega
  have hcases9 : threads ∈ [64, 128, 256, 512, 1024] ↔ threads ∈ [1024, 512, 256, 128, 64] := by
    simp only [List.mem_cons, List.mem_singleton, List.not_mem_nil, or_false]
    omega
  have h9lt : threads ∈ [64, 128, 256, 512, 1024] → ¬ threads < 64 := by
    simp only [List.mem_cons, List.mem_singleton, List.not_mem_nil, or_false]
    omega
  rw [hcases, hcases7, hcases9]
  -- the statement reached, strategy by strategy
  have hA : ((whichKernel = 0 ∨ whichKernel = 1 ∨ whichKernel = 2 ∨ whichKernel = 3 ∨
          whichKernel = 8) ∨
        ((whichKernel = 4 ∨ whichKernel = 5 ∨ whichKernel = 6) ∧ threads ∈ threadCases) ∨
        ((whichKernel = 7 ∨ (whichKernel = 9 ∧ threads < 64)) ∧
          (threads = 1024 ∨ threads ∈ threadCases)) ∨
        (whichKernel = 9 ∧ threads ∈ [1024, 512, 256, 128, 64])) →
      ∃ l, reduce sizeofT size threads blocks whichKernel = Dispatch.launch l := by
    rintro (h | ⟨h, ht⟩ | ⟨h, ht⟩ | ⟨rfl, ht⟩)
    · rcases h with rfl | rfl | rfl | rfl | rfl
      · obtain ⟨s, e⟩ := reduce_launch0 sizeofT size threads blocks; exact ⟨_, e⟩
      · obtain ⟨s, e⟩ := reduce_launch1 sizeofT size threads blocks; exact ⟨_, e⟩
      · obtain ⟨s, e⟩ := reduce_launch2 sizeofT size threads blocks; exact ⟨_, e⟩
      · obtain ⟨s, e⟩ := reduce_launch3 sizeofT size threads blocks; exact ⟨_, e⟩
      · obtain ⟨s, e⟩ := reduce_launch8 sizeofT size threads blocks; exact ⟨_, e⟩
    · rcases h with rfl | rfl | rfl
      · obtain ⟨s, e⟩ := reduce_launch4 sizeofT size threads blocks ht; exact ⟨_, e⟩
      · obtain ⟨s, e⟩ := reduce_launch5 sizeofT size threads blocks ht; exact ⟨_, e⟩
      · obtain ⟨s, e⟩ := reduce_launch6 sizeofT size threads blocks ht; exact ⟨_, e⟩
    · have hw7 : (if threads < 64 ∧ whichKernel = 9 then (7 : Int) else whichKernel) = 7 := by
        rcases h with rfl | ⟨rfl, h64⟩
        · simp
        · simp [h64]
      cases hp : isPow2 size
      · by_cases h1024 : threads = 1024
        · exact ⟨_, by simp only [reduce, hw7]; simp [hp, h1024]; rfl⟩
        · have ht' : threads ∈ threadCases := ht.resolve_left h1024
          exact ⟨_, by simp only [reduce, hw7]; simp [hp, h1024, ht']; rfl⟩
      · exact ⟨_, by simp only [reduce, hw7]; simp [hp, ht]; rfl⟩
    · obtain ⟨s, e⟩ := reduce_launch9 sizeofT size threads blocks ht; exact ⟨_, e⟩
  have hB : (whichKernel = 9 ∧ 64 ≤ threads ∧ threads ∉ [1024, 512, 256, 128, 64]) →
      reduce sizeofT size threads blocks whichKernel = Dispatch.message := by
    rintro ⟨rfl, h64, ht⟩
    have hlt : ¬ threads < 64 := by omega
    simp only [reduce, hlt, false_and, if_false, Int.reduceEq, if_true]
    rw [if_neg ht]
  have hC : ¬ ((whichKernel = 0 ∨ whichKernel = 1 ∨ whichKernel = 2 ∨ whichKernel = 3 ∨
          whichKernel = 8) ∨
        ((whichKernel = 4 ∨ whichKernel = 5 ∨ whichKernel = 6) ∧ threads ∈ threadCases) ∨
        ((whichKernel = 7 ∨ (whichKernel = 9 ∧ threads < 64)) ∧
          (threads = 1024 ∨ threads ∈ threadCases)) ∨
        (whichKernel = 9 ∧ threads ∈ [1024, 512, 256, 128, 64])) →
      ¬ (whichKernel = 9 ∧ 64 ≤ threads ∧ threads ∉ [1024, 512, 256, 128, 64]) →
      reduce sizeofT size threads blocks whichKernel = Dispatch.nothing := by
    intro hL hM
    have h0 : whichKernel ≠ 0 := fun e => hL (Or.inl (Or.inl e))
    have h1 : whichKernel ≠ 1 := fun e => hL (Or.inl (Or.inr (Or.inl e)))
    have h2 : whichKernel ≠ 2 := fun e => hL (Or.inl (Or.inr (Or.inr (Or.inl e))))
    have h3 : whichKernel ≠ 3 := fun e => hL (Or.inl (Or.inr (Or.inr (Or.inr (Or.inl e)))))
    have h8 : whichKernel ≠ 8 := fun e => hL (Or.inl (Or.inr (Or.inr (Or.inr (Or.inr e)))))
    by_cases h9 : whichKernel = 9
    · subst h9
      by_cases h64 : threads < 64
      · have ht : ¬ (threads = 1024 ∨ threads ∈ threadCases) :=
          fun e => hL (Or.inr (Or.inr (Or.inl ⟨Or.inr ⟨rfl, h64⟩, e⟩)))
        have ht1 : threads ≠ 1024 := fun e => ht (Or.inl e)
        have ht2 : threads ∉ threadCases := fun e => ht (Or.inr e)
        cases hp : isPow2 size <;> simp [reduce, h64, hp, ht1, ht2]
      · exfalso
        apply hM
        refine ⟨rfl, by omega, fun e => hL (Or.inr (Or.inr (Or.inr ⟨rfl, e⟩)))⟩
    · have hw : (if threads < 64 ∧ whichKernel = 9 then (7 : Int) else whichKernel) =
          whichKernel := by simp [h9]
      by_cases h7 : whichKernel = 7
      · subst h7
        have ht : ¬ (threads = 1024 ∨ threads ∈ threadCases) :=
          fun e => hL (Or.inr (Or.inr (Or.inl ⟨Or.inl rfl, e⟩)))
        have ht1 : threads ≠ 1024 := fun e => ht (Or.inl e)
        have ht2 : threads ∉ threadCases := fun e => ht (Or.inr e)
        cases hp : isPow2 size <;> simp [reduce, hp, ht1, ht2]
      · by_cases h456 : whichKernel = 4 ∨ whichKernel = 5 ∨ whichKernel = 6
        · have ht : threads ∉ threadCases := fun e => hL (Or.inr (Or.inl ⟨h456, e⟩))
          rcases h456 with rfl | rfl | rfl <;> simp [reduce, ht]
        · have h4 : whichKernel ≠ 4 := fun e => h456 (Or.inl e)
          have h5 : whichKernel ≠ 5 := fun e => h456 (Or.inr (Or.inl e))
          have h6 : whichKernel ≠ 6 := fun e => h456 (Or.inr (Or.inr e))
          simp only [reduce, hw]
          simp [h0, h1, h2, h3, h4, h5, h6, h7, h8, h9]
  refine ⟨⟨fun ⟨l, hl⟩ => ?_, hA⟩, ⟨fun hm => ?_, hB⟩, ⟨fun hn => ⟨fun hL => ?_, fun hM => ?_⟩,
    fun ⟨hL, hM⟩ => hC hL hM⟩⟩
  · by_contra hL
    by_cases hM : whichKernel = 9 ∧ 64 ≤ threads ∧ threads ∉ [1024, 512, 256, 128, 64]
    · rw [hB hM] at hl; cases hl
    · rw [hC hL hM] at hl; cases hl
  · by_contra hM
    by_cases hL : ((whichKernel = 0 ∨ whichKernel = 1 ∨ whichKernel = 2 ∨ whichKernel = 3 ∨
          whichKernel = 8) ∨
        ((whichKernel = 4 ∨ whichKernel = 5 ∨ whichKernel = 6) ∧ threads ∈ threadCases) ∨
        ((whichKernel = 7 ∨ (whichKernel = 9 ∧ threads < 64)) ∧
          (threads = 1024 ∨ threads ∈ threadCases)) ∨
        (whichKernel = 9 ∧ threads ∈ [1024, 512, 256, 128, 64]))
    · obtain ⟨l, hl⟩ := hA hL
      rw [hl] at hm; cases hm
    · rw [hC hL hM] at hm; cases hm
  · obtain ⟨l, hl⟩ := hA hL
    rw [hl] at hn; cases hn
  · rw [hB hM] at hn; cases hn

/-! ## C37 -/

/-- C37: the wrapper launches `reduce2` with 6 threads per block, not a power of two, and
with `n = 6` and one block the kernel stores `out[0] = A[0] + A[1] + A[3] + A[4]`: the
elements `A[2]` and `A[5]` are left out, so on `[1, 2, 3, 4, 5, 6]` it stores 12 where the
sum is 21. -/
theorem reduce2_six_threads (sizeofT : Nat) (g_idata d_odata : Mem) (junk : Nat → Junk) :
    reduce sizeofT 6 6 1 2 = Dispatch.launch ⟨Kernel.reduce2, 1, 6, 2 * 6 * sizeofT, 6⟩ ∧
    reduce2 g_idata 6 6 0 (junk 0) = g_idata 0 + g_idata 1 + g_idata 3 + g_idata 4 ∧
    (∃ out, (reduce sizeofT 6 6 1 2).exec junk g_idata d_odata = some out ∧
      out 0 = g_idata 0 + g_idata 1 + g_idata 3 + g_idata 4) ∧
    reduce2 oneToEight 6 6 0 (junk 0) = 12 ∧ ∑ i in range 6, oneToEight i = 21 := by
  have hl : reduce sizeofT 6 6 1 2 =
      Dispatch.launch ⟨Kernel.reduce2, 1, 6, 2 * 6 * sizeofT, 6⟩ := by
    simp [reduce]
  have hk : ∀ g : Mem, reduce2 g 6 6 0 (junk 0) = g 0 + g 1 + g 3 + g 4 := by
    intro g
    simp [reduce2, reduce2Loop, reduce2Step, load1, u32]
    ring
  refine ⟨hl, hk g_idata, ?_, ?_, by decide⟩
  · rw [hl]
    refine ⟨_, Launch.exec_spec _ junk g_idata d_odata
      (fun _ => g_idata 0 + g_idata 1 + g_idata 3 + g_idata 4) (by norm_num) ?_, ?_⟩
    · intro b hb
      have hb0 : b = 0 := by
        have : b < 1 := hb
        omega
      subst hb0
      exact congrArg some (hk g_idata)
    · exact if_pos (by norm_num)
  · rw [hk]; decide

/-! ## C38 -/

/-- C38: for strategy 0 with 48 threads per block the wrapper launches `reduce0` with
`48 * sizeof(T)` bytes of shared memory, 48 elements; in the iteration with stride
`s = 16` thread 32 passes the test `tid % (2 * s) == 0` and touches `sdata[32]` and
`sdata[32 + 16] = sdata[48]`, an index that is not below the 48 elements allocated. -/
theorem reduce0_out_of_bounds (sizeofT size blocks : Nat) (h : 1 ≤ sizeofT) :
    reduce sizeofT size 48 blocks 0 =
      Dispatch.launch ⟨Kernel.reduce0, blocks, 48, 48 * sizeofT, size⟩ ∧
    48 * sizeofT / sizeofT = 48 ∧
    (16 < 48 ∧ 32 % (2 * 16) = 0) ∧
    reduce0Idx 48 32 1 16 = [32, 32 + 16] ∧
    (∀ fuel, 5 ≤ fuel → 48 ∈ sdataIdx Kernel.reduce0 fuel 48 32) ∧
    ¬ 48 < 48 * sizeofT / sizeofT := by
  have hdiv : 48 * sizeofT / sizeofT = 48 := Nat.mul_div_cancel 48 h
  refine ⟨by simp [reduce], hdiv, by decide, by decide, fun fuel hf => ?_, by rw [hdiv]; omega⟩
  obtain ⟨e, rfl⟩ : ∃ e, fuel = e + 5 := ⟨fuel - 5, by omega⟩
  simp [sdataIdx, reduce0Idx]

/-- C38, witness: `sizeof(T) = 4`. -/
theorem reduce0_out_of_bounds_witness :
    reduce 4 48 48 1 0 = Dispatch.launch ⟨Kernel.reduce0, 1, 48, 48 * 4, 48⟩ ∧
    48 ∈ sdataIdx Kernel.reduce0 48 48 32 ∧ ¬ 48 < 48 * 4 / 4 :=
  ⟨(reduce0_out_of_bounds 4 48 1 (by decide)).1,
    (reduce0_out_of_bounds 4 48 1 (by decide)).2.2.2.2.1 48 (by decide),
    (reduce0_out_of_bounds 4 48 1 (by decide)).2.2.2.2.2⟩

/-! ## C39 -/

/-- C39: for `n = 0`, every power-of-two thread count and every number of blocks, each of
the strategies 0, 1, 2 and 3 completes and stores 0 to `out[b]` for every block `b`, and
no thread reads an element of the input. -/
theorem empty_input (sizeofT threads blocks k : Nat) (whichKernel : Int) (junk : Nat → Junk)
    (d_idata d_odata : Mem) (ht : threads = 2 ^ k)
    (hk : whichKernel = 0 ∨ whichKernel = 1 ∨ whichKernel = 2 ∨ whichKernel = 3) :
    (∃ out, (reduce sizeofT 0 threads blocks whichKernel).exec junk d_idata d_odata = some out ∧
      ∀ b, b < blocks → out b = 0) ∧
    (∀ b tid, load1Reads 0 threads b tid = [] ∧ load2Reads 0 threads threads b tid = []) := by
  refine ⟨?_, fun b tid => ⟨by simp [load1Reads], by simp [load2Reads]⟩⟩
  have h012 : ∀ s : Int, s = 0 ∨ s = 1 ∨ s = 2 →
      ∃ out, (reduce sizeofT 0 threads blocks s).exec junk d_idata d_odata = some out ∧
        ∀ b, b < blocks → out b = 0 := by
    intro s hs
    refine ⟨_, exec_one_per_thread sizeofT 0 threads blocks k s hs ht junk d_idata d_odata,
      fun b hb => ?_⟩
    rw [if_pos hb]
    refine sum_eq_zero fun t ht' => ?_
    simp [load1, mem_range.mp ht']
  rcases hk with rfl | rfl | rfl | rfl
  · exact h012 0 (Or.inl rfl)
  · exact h012 1 (Or.inr (Or.inl rfl))
  · exact h012 2 (Or.inr (Or.inr rfl))
  · refine ⟨_, exec_two_per_thread sizeofT 0 threads blocks k ht junk d_idata d_odata,
      fun b hb => ?_⟩
    rw [if_pos hb]
    refine sum_eq_zero fun t _ => ?_
    simp [load2]

/-- C39, witness: strategy 3 with 4 threads per block and 2 blocks. -/
theorem empty_input_witness :
    ∃ out, (reduce 4 0 4 2 3).exec (fun _ => constJunk 5) oneToEight (constMem 7) = some out ∧
      ∀ b, b < 2 → out b = 0 :=
  (empty_input 4 4 2 2 3 (fun _ => constJunk 5) oneToEight (constMem 7) rfl
    (Or.inr (Or.inr (Or.inr rfl)))).1

/-! ## C40 -/

/-- C40: for every 32-bit `x > 0`, `isPow2(x)` is true if and only if `x = 2^k` for some
`k` in `0..31`; `isPow2(0)` is true too, so with a size of 0 the wrapper chooses the
`nIsPow2 = true` instances `reduce6<T, threads, true>` and `reduce7<T, threads, true>` for
strategies 6 and 7. -/
theorem isPow2_spec (x sizeofT threads blocks : Nat) :
    (0 < x → x < 4294967296 → (isPow2 x = true ↔ ∃ k, k ≤ 31 ∧ x = 2 ^ k)) ∧
    isPow2 0 = true ∧
    (threads ∈ [1, 2, 4, 8, 16, 32, 64, 128, 256, 512] →
      reduce sizeofT 0 threads blocks 6 =
        Dispatch.launch ⟨Kernel.reduce6 threads true, blocks, threads,
          if threads ≤ 32 then 2 * threads * sizeofT else threads * sizeofT, 0⟩) ∧
    (threads ∈ [1, 2, 4, 8, 16, 32, 64, 128, 256, 512, 1024] →
      reduce sizeofT 0 threads blocks 7 =
        Dispatch.launch ⟨Kernel.reduce7 threads true, blocks, threads,
          (threads / 32 + 1) * sizeofT, 0⟩) := by
  have hz : isPow2 0 = true := by decide
  refine ⟨isPow2_iff x, hz, fun ht => ?_, fun ht => ?_⟩
  · have ht' : threads ∈ threadCases := by
      simp only [threadCases, List.mem_cons, List.mem_singleton, List.not_mem_nil,
        or_false] at ht ⊢
      omega
    simp [reduce, hz, ht']
  · have ht' : threads = 1024 ∨ threads ∈ threadCases := by
      simp only [threadCases, List.mem_cons, List.mem_singleton, List.not_mem_nil,
        or_false] at ht ⊢
      omega
    simp [reduce, hz, ht']

/-- C40, witness: 4096 is a power of two, 48 is not, and a size of 0 with 256 threads
selects `reduce6<T, 256, true>`. -/
theorem isPow2_spec_witness :
    (isPow2 4096 = true ↔ ∃ k, k ≤ 31 ∧ 4096 = 2 ^ k) ∧
    (isPow2 48 = true ↔ ∃ k, k ≤ 31 ∧ 48 = 2 ^ k) ∧
    isPow2 4096 = true ∧ isPow2 48 = false ∧
    reduce 4 0 256 2 6 =
      Dispatch.launch ⟨Kernel.reduce6 256 true, 2, 256,
        if 256 ≤ 32 then 2 * 256 * 4 else 256 * 4, 0⟩ :=
  ⟨(isPow2_spec 4096 4 256 2).1 (by decide) (by decide),
    (isPow2_spec 48 4 256 2).1 (by decide) (by decide), by decide, by decide,
    (isPow2_spec 0 4 256 2).2.2.1 (by decide)⟩

end CudaUtil
